import Mathlib

/-!
# Guitar effects engine: shallow embedding and verified properties

The C++ sources (`controller.cpp`, `effects/*.cpp`) are embedded as Lean functions.

Modelling conventions
* `float` samples are elements of an arbitrary linearly ordered field `α` (exact
  arithmetic); decimal literals such as `0.6f` denote the rational they spell.
* `int` fields are `Int`; `size_t` / `unsigned long` values are `Nat`.
* A `std::vector<float>` is a `List α`.
* A function returns an `Option` when the C++ code can leave the modelled behaviour: an
  access outside a vector, a vector length that throws, a shift that is not an `int`, a
  division whose divisor is zero (the float result is infinite or NaN, no element of `α`).
  `none` is that outcome; it is not an error report of the program, which has none.
* The libm functions `sinf`, `expf`, `tanhf` and the macro `M_PI` are parameters.
* `Vibrato::process` casts a `float` to an array index, so there the rounding of a value to
  `float` is a parameter `fl`: round to nearest binary32 in the program, `id` in exact
  arithmetic.
-/

namespace GuitarFx

variable {α : Type}

/-! ## Buffer access -/

/-- Read `buf[i]` for an `int` index; `none` when the index is outside the vector. -/
def readAt (buf : List α) (i : Int) : Option α :=
  if 0 ≤ i ∧ i < (buf.length : Int) then buf[i.toNat]? else none

/-- Write `buf[i] = v` for an `int` index; `none` when the index is outside the vector. -/
def writeAt (buf : List α) (i : Int) (v : α) : Option (List α) :=
  if 0 ≤ i ∧ i < (buf.length : Int) then some (buf.set i.toNat v) else none

/-! ## Reverb::Delay (reverb.h, reverb.cpp) -/

namespace Reverb

/-- The `struct Delay` of `reverb.h`. -/
structure Delay (α : Type) where
  buf : List α
  idx : Int
  feedback : α
deriving DecidableEq, Repr

namespace Delay

/-- A default-constructed delay: the member initialisers `idx = 0`, `feedback = 0.7f`. -/
def new [LinearOrderedField α] : Delay α :=
  { buf := [], idx := 0, feedback := 7 / 10 }

/-- The body of `Reverb::Delay::init`: `buf.assign(samples, 0.0f)` gets a `size_t`, so a
negative `samples` asks for a vector beyond `max_size` and throws (`none`). -/
def init [LinearOrderedField α] (samples : Int) (fb : α) : Option (Delay α) :=
  if samples < 0 then none
  else some { buf := List.replicate samples.toNat 0, idx := 0, feedback := fb }

/-- The body of `Reverb::Delay::process`. -/
def process [LinearOrderedField α] (d : Delay α) (x : α) : Option (α × Delay α) :=
  if d.buf.isEmpty then some (x, d)
  else
    match readAt d.buf d.idx with
    | none => none
    | some out =>
      match writeAt d.buf d.idx (x + out * d.feedback) with
      | none => none
      | some buf1 =>
        let idx1 := d.idx + 1
        let idx2 := if idx1 ≥ (buf1.length : Int) then 0 else idx1
        some (out, { buf := buf1, idx := idx2, feedback := d.feedback })

/-- The body of `Reverb::Delay::clear`. -/
def clear [LinearOrderedField α] (d : Delay α) : Delay α :=
  { buf := List.replicate d.buf.length 0, idx := 0, feedback := d.feedback }

/-- Successive `process` calls on the samples of `ins`, collecting the returned values. -/
def run [LinearOrderedField α] : Delay α → List α → Option (List α × Delay α)
  | d, [] => some ([], d)
  | d, x :: xs =>
    match d.process x with
    | none => none
    | some (o, d1) =>
      match run d1 xs with
      | none => none
      | some (os, d2) => some (o :: os, d2)

/-- The cursor addresses a cell of a non-empty buffer. -/
def Valid (d : Delay α) : Prop := 0 ≤ d.idx ∧ d.idx < (d.buf.length : Int)

/-- The buffer in read order: the cell under the cursor first. -/
def queue (d : Delay α) : List α := d.buf.drop d.idx.toNat ++ d.buf.take d.idx.toNat

end Delay
end Reverb

/-! ## Reverb (reverb.h, reverb.cpp) -/

/-- The class `Reverb`: the arrays `combs[4]` and `allpasses[2]` are lists. -/
structure Reverb (α : Type) where
  combs : List (Reverb.Delay α)
  allpasses : List (Reverb.Delay α)
  sr : Int
deriving DecidableEq, Repr

/-- Conversion `int(x)` / `static_cast<int>(x)` of a float: truncation toward zero. -/
def truncToInt [LinearOrderedField α] [FloorRing α] (x : α) : Int :=
  if 0 ≤ x then ⌊x⌋ else ⌈x⌉

namespace Reverb

/-- The constructor `Reverb::Reverb() : sr(48000)`, with default-constructed delays. -/
def new [LinearOrderedField α] : Reverb α :=
  { combs := List.replicate 4 Delay.new, allpasses := List.replicate 2 Delay.new, sr := 48000 }

/-- The body of `Reverb::prepare`. -/
def prepare [LinearOrderedField α] [FloorRing α] (_r : Reverb α) (sampleRate : Int) :
    Option (Reverb α) :=
  let sr := sampleRate
  match Delay.init (truncToInt ((297 / 10000 : α) * (sr : α))) (78 / 100 : α),
        Delay.init (truncToInt ((371 / 10000 : α) * (sr : α))) (80 / 100 : α),
        Delay.init (truncToInt ((411 / 10000 : α) * (sr : α))) (82 / 100 : α),
        Delay.init (truncToInt ((437 / 10000 : α) * (sr : α))) (76 / 100 : α),
        Delay.init (truncToInt ((50 / 10000 : α) * (sr : α))) (70 / 100 : α),
        Delay.init (truncToInt ((17 / 10000 : α) * (sr : α))) (70 / 100 : α) with
  | some c0, some c1, some c2, some c3, some a0, some a1 =>
    some { combs := [c0, c1, c2, c3], allpasses := [a0, a1], sr := sr }
  | _, _, _, _, _, _ => none

/-- The loop `for (auto &c : combs) cSum += c.process(in);` with accumulator `cSum`. -/
def combLoop [LinearOrderedField α] (x : α) :
    List (Delay α) → α → Option (α × List (Delay α))
  | [], cSum => some (cSum, [])
  | c :: cs, cSum =>
    match c.process x with
    | none => none
    | some (o, c1) =>
      match combLoop x cs (cSum + o) with
      | none => none
      | some (s, cs1) => some (s, c1 :: cs1)

/-- The loop over `allpasses`: `delayed = ap.process(apOut); apOut = delayed * -0.5f + apOut`. -/
def allpassLoop [LinearOrderedField α] :
    List (Delay α) → α → Option (α × List (Delay α))
  | [], apOut => some (apOut, [])
  | ap :: aps, apOut =>
    match ap.process apOut with
    | none => none
    | some (delayed, ap1) =>
      match allpassLoop aps (delayed * (-(1 / 2)) + apOut) with
      | none => none
      | some (y, aps1) => some (y, ap1 :: aps1)

/-- The body of `Reverb::process`. -/
def process [LinearOrderedField α] (r : Reverb α) (x : α) : Option (α × Reverb α) :=
  match combLoop x r.combs 0 with
  | none => none
  | some (cSum, combs1) =>
    let cSum1 := cSum * (1 / 4)
    match allpassLoop r.allpasses cSum1 with
    | none => none
    | some (apOut, allpasses1) =>
      some (apOut, { combs := combs1, allpasses := allpasses1, sr := r.sr })

/-- The body of `Reverb::reset`. -/
def reset [LinearOrderedField α] (r : Reverb α) : Reverb α :=
  { combs := r.combs.map Delay.clear, allpasses := r.allpasses.map Delay.clear, sr := r.sr }

end Reverb

/-! ## Phaser (phaser.h, phaser.cpp) -/

/-- The class `Phaser`. -/
structure Phaser (α : Type) where
  lfoPhase : α
  lfoInc : α
  baseDelay : α
  depth : α
  buffer : List α
  writeIndex : Int
deriving DecidableEq, Repr

/-- The loop `while (r < 0) r += n;` run for at most `fuel` iterations; `none` when the
fuel does not suffice. -/
def wrapLoop (n : Int) : Nat → Int → Option Int
  | 0, r => if r < 0 then none else some r
  | fuel + 1, r => if r < 0 then wrapLoop n fuel (r + n) else some r

namespace Phaser

/-- The constructor `Phaser::Phaser()`. -/
def new [LinearOrderedField α] : Phaser α :=
  { lfoPhase := 0, lfoInc := 0, baseDelay := 0, depth := 0, buffer := [], writeIndex := 0 }

/-- The body of `Phaser::prepare`. The vector length `sampleRate * 0.02f` is converted to
`size_t` (a negative length is `none`), and the division by `sampleRate` needs it nonzero. -/
def prepare [LinearOrderedField α] [FloorRing α] (M_PI : α) (p : Phaser α) (sampleRate : Int) :
    Option (Phaser α) :=
  let n := truncToInt ((sampleRate : α) * (2 / 100))
  if n < 0 ∨ sampleRate = 0 then none
  else
    let lfoRate : α := 3 / 10
    some { lfoPhase := p.lfoPhase
           lfoInc := (2 * M_PI * lfoRate) / (sampleRate : α)
           baseDelay := (2 / 1000) * (sampleRate : α)
           depth := (15 / 10000) * (sampleRate : α)
           buffer := List.replicate n.toNat 0
           writeIndex := 0 }

/-- The body of `Phaser::process`. The `while` loop adds the buffer size (at least 1) to a
negative index, so `(-readIndex).toNat` iterations always suffice. -/
def process [LinearOrderedField α] [FloorRing α] (sinf : α → α) (M_PI : α)
    (p : Phaser α) (x : α) : Option (α × Phaser α) :=
  if p.buffer.isEmpty then some (x, p)
  else
    let mod := p.baseDelay + sinf p.lfoPhase * p.depth
    let lfoPhase1 := p.lfoPhase + p.lfoInc
    let lfoPhase2 := if lfoPhase1 ≥ 2 * M_PI then lfoPhase1 - 2 * M_PI else lfoPhase1
    let readIndex0 := p.writeIndex - truncToInt mod
    match wrapLoop (p.buffer.length : Int) (-readIndex0).toNat readIndex0 with
    | none => none
    | some readIndex =>
      match readAt p.buffer readIndex with
      | none => none
      | some delayed =>
        let out := (1 / 2) * (x + delayed)
        match writeAt p.buffer p.writeIndex x with
        | none => none
        | some buffer1 =>
          some (out, { lfoPhase := lfoPhase2
                       lfoInc := p.lfoInc
                       baseDelay := p.baseDelay
                       depth := p.depth
                       buffer := buffer1
                       writeIndex := (p.writeIndex + 1) % (buffer1.length : Int) })

/-- The body of `Phaser::reset`. -/
def reset [LinearOrderedField α] (p : Phaser α) : Phaser α :=
  { p with buffer := List.replicate p.buffer.length 0, writeIndex := 0, lfoPhase := 0 }

end Phaser

/-! ## Exciter (exciter.h, exciter.cpp) -/

/-- The class `Exciter`. -/
structure Exciter (α : Type) where
  hpState : α
  hpCoeff : α
  mix : α
deriving DecidableEq, Repr

namespace Exciter

/-- The constructor `Exciter::Exciter()`. -/
def new [LinearOrderedField α] : Exciter α :=
  { hpState := 0, hpCoeff := 0, mix := 4 / 10 }

/-- The body of `Exciter::prepare`; the division needs a nonzero sample rate. -/
def prepare [LinearOrderedField α] (expf : α → α) (M_PI : α) (e : Exciter α)
    (sampleRate : Int) : Option (Exciter α) :=
  if sampleRate = 0 then none
  else
    let cutoff : α := 3000
    let x := expf (-2 * M_PI * cutoff / (sampleRate : α))
    some { e with hpCoeff := x }

/-- The body of `Exciter::process`. -/
def process [LinearOrderedField α] (tanhf : α → α) (e : Exciter α) (x : α) :
    α × Exciter α :=
  let hp := x - e.hpState
  let hpState1 := e.hpState * e.hpCoeff + x * (1 - e.hpCoeff)
  let harmonic := tanhf (hp * 4)
  (x * (1 - e.mix) + harmonic * e.mix, { e with hpState := hpState1 })

/-- The body of `Exciter::reset`. -/
def reset [LinearOrderedField α] (e : Exciter α) : Exciter α :=
  { e with hpState := 0 }

end Exciter

/-! ## The controller (controller.cpp) -/

/-- The file-scope effect instances and enable flags of `controller.cpp`. -/
structure Engine (α : Type) where
  gPhaser : Phaser α
  gExciter : Exciter α
  gReverb : Reverb α
  usePhaser : Bool
  useExciter : Bool
  useReverb : Bool
deriving DecidableEq, Repr

/-- PortAudio's callback result `paContinue`. -/
def paContinue : Int := 0

namespace Engine

/-- Static initialisation: constructed units, all flags `false`. -/
def new [LinearOrderedField α] : Engine α :=
  { gPhaser := Phaser.new, gExciter := Exciter.new, gReverb := Reverb.new,
    usePhaser := false, useExciter := false, useReverb := false }

/-- The "Prepare effects" block of `main`. -/
def prepare [LinearOrderedField α] [FloorRing α] (expf : α → α) (M_PI : α) (e : Engine α) :
    Option (Engine α) :=
  let sampleRate : Int := 48000
  match e.gPhaser.prepare M_PI sampleRate, e.gExciter.prepare expf M_PI sampleRate,
        e.gReverb.prepare sampleRate with
  | some p, some x, some r => some { e with gPhaser := p, gExciter := x, gReverb := r }
  | _, _, _ => none

end Engine

/-- The `for` loop of `audioCallback`: `k` iterations remain, `i` is the loop counter.
The enable flags are read from the engine state at every sample. -/
def audioLoop [LinearOrderedField α] [FloorRing α] (sinf tanhf : α → α) (M_PI : α)
    (inp : List α) : Nat → Nat → Engine α → List α → Option (List α × Engine α)
  | 0, _, e, out => some (out, e)
  | k + 1, i, e, out =>
    match inp[i]? with
    | none => none
    | some x0 =>
      match (if e.usePhaser then e.gPhaser.process sinf M_PI x0 else some (x0, e.gPhaser)) with
      | none => none
      | some (x1, ph) =>
        match (if e.useExciter then e.gExciter.process tanhf x1 else (x1, e.gExciter)) with
        | (x2, ex) =>
          match (if e.useReverb then e.gReverb.process x2 else some (x2, e.gReverb)) with
          | none => none
          | some (x3, rv) =>
            match writeAt out (2 * (i : Int) + 0) x3 with
            | none => none
            | some out1 =>
              match writeAt out1 (2 * (i : Int) + 1) x3 with
              | none => none
              | some out2 =>
                audioLoop sinf tanhf M_PI inp k (i + 1)
                  { e with gPhaser := ph, gExciter := ex, gReverb := rv } out2

/-- The body of `audioCallback`. `input` is `none` for a null pointer, `out` is the memory
the output pointer addresses; the result is the output memory, the engine and the return
code. `memset` needs `frames * 2` floats of output memory. -/
def audioCallback [LinearOrderedField α] [FloorRing α] (sinf tanhf : α → α) (M_PI : α)
    (input : Option (List α)) (out : List α) (frames : Nat) (e : Engine α) :
    Option (List α × Engine α × Int) :=
  match input with
  | none =>
    if frames * 2 ≤ out.length then
      some (List.replicate (frames * 2) 0 ++ out.drop (frames * 2), e, paContinue)
    else none
  | some inp =>
    match audioLoop sinf tanhf M_PI inp frames 0 e out with
    | none => none
    | some (out1, e1) => some (out1, e1, paContinue)

/-- The key `switch` of the control loop in `main`; the `Bool` is `running`. -/
def handleKey (c : Char) (e : Engine α) (running : Bool) : Engine α × Bool :=
  if c = '1' then ({ e with usePhaser := !e.usePhaser }, running)
  else if c = '2' then ({ e with useExciter := !e.useExciter }, running)
  else if c = '3' then ({ e with useReverb := !e.useReverb }, running)
  else if c = 'q' then (e, false)
  else (e, running)

/-- The three units of the controller. -/
inductive EffectId where
  | phaser | exciter | reverb
deriving DecidableEq, Repr

/-- The key that toggles a unit. -/
def EffectId.key : EffectId → Char
  | .phaser => '1'
  | .exciter => '2'
  | .reverb => '3'

/-- Toggling a unit: the key press of that unit handled by the control loop. -/
def Engine.toggle (u : EffectId) (e : Engine α) : Engine α := (handleKey u.key e true).1

/-! ### The chain as the specification words it -/

/-- One stage of the chain: "if the unit's flag is set, replace the running sample with
`unit.process(sample)`". -/
def chainStage {σ : Type} (flag : Bool) (proc : σ → α → Option (α × σ)) (u : σ) (x : α) :
    Option (α × σ) :=
  if flag then proc u x else some (x, u)

/-- One sample through the stages Phaser, Exciter, Reverb, in that order. -/
def chainSample [LinearOrderedField α] [FloorRing α] (sinf tanhf : α → α) (M_PI : α)
    (e : Engine α) (x : α) : Option (α × Engine α) :=
  (chainStage e.usePhaser (Phaser.process sinf M_PI) e.gPhaser x).bind fun r1 =>
  (chainStage e.useExciter (fun u y => some (Exciter.process tanhf u y)) e.gExciter r1.1).bind
    fun r2 =>
  (chainStage e.useReverb Reverb.process e.gReverb r2.1).bind fun r3 =>
  some (r3.1, { e with gPhaser := r1.2, gExciter := r2.2, gReverb := r3.2 })

/-- A frame through the chain, unit state threaded from each sample to the next. -/
def chainRun [LinearOrderedField α] [FloorRing α] (sinf tanhf : α → α) (M_PI : α) :
    Engine α → List α → Option (List α × Engine α)
  | e, [] => some ([], e)
  | e, x :: xs =>
    (chainSample sinf tanhf M_PI e x).bind fun r =>
    (chainRun sinf tanhf M_PI r.2 xs).bind fun rs =>
    some (r.1 :: rs.1, rs.2)

/-! ## Fuzz (fuzz.h, fuzz..cpp) -/

/-- The class `Fuzz`. -/
structure Fuzz (α : Type) where
  inputGain : α
  clipLevel : α
  sampleRate : Int
  hpf_z : α
  lpf_z : α
  hpf_a : α
  hpf_b : α
  lpf_a : α
  lpf_b : α
deriving DecidableEq, Repr

namespace Fuzz

/-- The constructor `Fuzz::Fuzz()`. -/
def new [LinearOrderedField α] : Fuzz α :=
  { inputGain := 80, clipLevel := 8 / 100, sampleRate := 48000,
    hpf_z := 0, lpf_z := 0, hpf_a := 0, hpf_b := 0, lpf_a := 0, lpf_b := 0 }

/-- The body of `Fuzz::setHighpass`; the division needs a nonzero sample rate. -/
def setHighpass [LinearOrderedField α] (expf : α → α) (M_PI : α) (f : Fuzz α) (cutoff : α) :
    Option (Fuzz α) :=
  if f.sampleRate = 0 then none
  else
    let x := expf (-2 * M_PI * cutoff / (f.sampleRate : α))
    some { f with hpf_a := (1 + x) * (1 / 2), hpf_b := x }

/-- The body of `Fuzz::setLowpass`; the division needs a nonzero sample rate. -/
def setLowpass [LinearOrderedField α] (expf : α → α) (M_PI : α) (f : Fuzz α) (cutoff : α) :
    Option (Fuzz α) :=
  if f.sampleRate = 0 then none
  else
    let x := expf (-2 * M_PI * cutoff / (f.sampleRate : α))
    some { f with lpf_a := 1 - x, lpf_b := x }

/-- The body of `Fuzz::prepare`. -/
def prepare [LinearOrderedField α] (expf : α → α) (M_PI : α) (f : Fuzz α) (sr : Int) :
    Option (Fuzz α) :=
  (setHighpass expf M_PI { f with sampleRate := sr } 100).bind fun f1 =>
  setLowpass expf M_PI f1 800

/-- The body of `Fuzz::hpf_process`. -/
def hpf_process [LinearOrderedField α] (f : Fuzz α) (x : α) : α × Fuzz α :=
  let z := f.hpf_a * (x - f.hpf_z) + f.hpf_z * f.hpf_b
  (z, { f with hpf_z := z })

/-- The body of `Fuzz::lpf_process`. -/
def lpf_process [LinearOrderedField α] (f : Fuzz α) (x : α) : α × Fuzz α :=
  let z := f.lpf_a * x + f.lpf_b * f.lpf_z
  (z, { f with lpf_z := z })

/-- The body of `Fuzz::process`. -/
def process [LinearOrderedField α] (f : Fuzz α) (x : α) : α × Fuzz α :=
  let r1 := f.hpf_process x
  let x1 := r1.1 * f.inputGain
  let x2 := if x1 > f.clipLevel then f.clipLevel else x1
  let x3 := if x2 < -f.clipLevel then -f.clipLevel else x2
  r1.2.lpf_process x3

/-- The body of `Fuzz::reset`. -/
def reset [LinearOrderedField α] (f : Fuzz α) : Fuzz α :=
  { f with hpf_z := 0, lpf_z := 0 }

/-- The value returned by the last of `n + 1` successive `lpf_process` calls fed `v`. -/
def lpfConst [LinearOrderedField α] (f : Fuzz α) (v : α) : Nat → α × Fuzz α
  | 0 => f.lpf_process v
  | n + 1 => (lpfConst f v n).2.lpf_process v

end Fuzz

/-! ## PingPongDelay (pingpong_delay.h, pingpong_delay.cpp): the feedback lowpass -/

/-- The class `PingPongDelay`. -/
structure PingPongDelay (α : Type) where
  sampleRate : Int
  bufL : List α
  bufR : List α
  writePos : Nat
  delaySamplesL : Int
  delaySamplesR : Int
  fbLowpass_z : α
  fbLowpass_a0 : α
  fbLowpass_b1 : α
deriving DecidableEq, Repr

namespace PingPongDelay

/-- The constructor `PingPongDelay::PingPongDelay()`. -/
def new [LinearOrderedField α] : PingPongDelay α :=
  { sampleRate := 48000, bufL := [], bufR := [], writePos := 0,
    delaySamplesL := 1, delaySamplesR := 1,
    fbLowpass_z := 0, fbLowpass_a0 := 1, fbLowpass_b1 := 0 }

/-- The body of `PingPongDelay::fbLowpass_setCutoff`; the division needs a nonzero
sample rate. -/
def fbLowpass_setCutoff [LinearOrderedField α] (expf : α → α) (M_PI : α)
    (d : PingPongDelay α) (fc : α) : Option (PingPongDelay α) :=
  if d.sampleRate = 0 then none
  else
    let x := expf (-2 * M_PI * fc / (d.sampleRate : α))
    some { d with fbLowpass_b1 := x, fbLowpass_a0 := 1 - x }

/-- The body of `PingPongDelay::fbLowpass_process`. -/
def fbLowpass_process [LinearOrderedField α] (d : PingPongDelay α) (x : α) :
    α × PingPongDelay α :=
  let y := d.fbLowpass_a0 * x + d.fbLowpass_b1 * d.fbLowpass_z
  (y, { d with fbLowpass_z := y })

/-- The value returned by the last of `n + 1` successive `fbLowpass_process` calls fed `v`. -/
def fbLowpassConst [LinearOrderedField α] (d : PingPongDelay α) (v : α) :
    Nat → α × PingPongDelay α
  | 0 => d.fbLowpass_process v
  | n + 1 => (fbLowpassConst d v n).2.fbLowpass_process v

end PingPongDelay

/-! ## Bitcrusher (bitcrusher.h, bitcrusher.cpp) -/

/-- The class `Bitcrusher`. -/
structure Bitcrusher (α : Type) where
  sampleRate : Int
  downsampleFactor : Int
  bitDepth : Int
  holdCounter : Int
  heldSample : α
deriving DecidableEq, Repr

namespace Bitcrusher

/-- The constructor `Bitcrusher::Bitcrusher()`. -/
def new [LinearOrderedField α] : Bitcrusher α :=
  { sampleRate := 48000, downsampleFactor := 1, bitDepth := 8, holdCounter := 0,
    heldSample := 0 }

/-- The body of `Bitcrusher::prepare`. -/
def prepare (b : Bitcrusher α) (sr : Int) : Bitcrusher α :=
  { b with sampleRate := sr }

/-- The body of `Bitcrusher::quantizeSample`. The result is `none` when `1 << bits` is not
an `int` value (`bits` outside `0 .. 30`) and when the divisor `steps - 1` is zero. -/
def quantizeSample [LinearOrderedField α] [FloorRing α] (x : α) (bits : Int) : Option α :=
  let x1 := if x > 1 then 1 else x
  let x2 := if x1 < -1 then -1 else x1
  let v := (x2 + 1) * (1 / 2)
  if bits < 0 ∨ 31 ≤ bits then none
  else
    let steps : Int := 2 ^ bits.toNat
    let q : Int := ⌊v * ((steps - 1 : Int) : α) + 1 / 2⌋
    if steps - 1 = 0 then none
    else
      let vq := (q : α) / ((steps - 1 : Int) : α)
      some (vq * 2 - 1)

/-- The body of `Bitcrusher::softLimit`. -/
def softLimit [LinearOrderedField α] (x : α) : α :=
  let k : α := 6 / 10
  x / (1 + |x| * k)

/-- The two clamps that open `Bitcrusher::process`. -/
def clampParams (b : Bitcrusher α) : Bitcrusher α :=
  let b1 := if b.downsampleFactor < 1 then { b with downsampleFactor := 1 } else b
  let b2 := if b1.bitDepth < 1 then { b1 with bitDepth := 1 } else b1
  if b2.bitDepth > 24 then { b2 with bitDepth := 24 } else b2

/-- The body of `Bitcrusher::process`. -/
def process [LinearOrderedField α] [FloorRing α] (b : Bitcrusher α) (x : α) :
    Option (α × Bitcrusher α) :=
  let b3 := clampParams b
  let held : Option (Bitcrusher α) :=
    if b3.holdCounter ≤ 0 then
      match quantizeSample x b3.bitDepth with
      | none => none
      | some h => some { b3 with heldSample := h, holdCounter := b3.downsampleFactor }
    else some b3
  match held with
  | none => none
  | some b4 =>
    let b5 := { b4 with holdCounter := b4.holdCounter - 1 }
    let wet := b5.heldSample
    let dry := x
    let out := (6 / 10) * dry + (9 / 10) * wet
    let out1 := out * (95 / 100)
    some (softLimit out1, b5)

/-- The body of `Bitcrusher::reset`. -/
def reset [LinearOrderedField α] (b : Bitcrusher α) : Bitcrusher α :=
  { b with holdCounter := 0, heldSample := 0 }

/-- The body of `Bitcrusher::setDownsampleFactor`. -/
def setDownsampleFactor (b : Bitcrusher α) (f : Int) : Bitcrusher α :=
  if f ≥ 1 then { b with downsampleFactor := f } else b

/-- The body of `Bitcrusher::setBitDepth`. -/
def setBitDepth (b : Bitcrusher α) (n : Int) : Bitcrusher α :=
  if n ≥ 1 ∧ n ≤ 24 then { b with bitDepth := n } else b

end Bitcrusher

/-! ## AutoSwell (autoswell.h, autoswell.cpp) -/

/-- The class `AutoSwell`. -/
structure AutoSwell (α : Type) where
  attackTimeSec : α
  threshold : α
  releaseTimeSec : α
  env : α
  prevAbs : α
  attackCoeff : α
  releaseCoeff : α
  sampleRate : Int
deriving DecidableEq, Repr

namespace AutoSwell

/-- The constructor `AutoSwell::AutoSwell()`. It leaves `attackCoeff` and `releaseCoeff`
uninitialised: their indeterminate values are the arguments `ac` and `rc`. -/
def new [LinearOrderedField α] (ac rc : α) : AutoSwell α :=
  { attackTimeSec := 15 / 100, threshold := 1 / 100, releaseTimeSec := 2 / 10,
    env := 0, prevAbs := 0, attackCoeff := ac, releaseCoeff := rc, sampleRate := 48000 }

/-- The body of `AutoSwell::prepare`; each division needs a nonzero divisor. -/
def prepare [LinearOrderedField α] (a : AutoSwell α) (sr : Int) : Option (AutoSwell α) :=
  if a.attackTimeSec * (sr : α) = 0 ∨ a.releaseTimeSec * (sr : α) = 0 then none
  else
    some { a with sampleRate := sr
                  attackCoeff := 1 / (a.attackTimeSec * (sr : α))
                  releaseCoeff := 1 / (a.releaseTimeSec * (sr : α)) }

/-- The body of `AutoSwell::process`. -/
def process [LinearOrderedField α] (a : AutoSwell α) (x : α) : α × AutoSwell α :=
  let ax := |x|
  let env1 := if ax > a.threshold ∧ a.prevAbs ≤ a.threshold then 0 else a.env
  let env2 := if env1 < 1 then env1 + a.attackCoeff else 1
  let env3 := if ax < a.threshold * (1 / 2) then env2 - a.releaseCoeff else env2
  let env4 := if env3 < 0 then 0 else env3
  let env5 := if env4 > 1 then 1 else env4
  (x * env5, { a with prevAbs := ax, env := env5 })

/-- The body of `AutoSwell::reset`. -/
def reset [LinearOrderedField α] (a : AutoSwell α) : AutoSwell α :=
  { a with env := 0, prevAbs := 0 }

/-- Successive `process` calls on the samples of `ins`, collecting the returned values. -/
def run [LinearOrderedField α] : AutoSwell α → List α → List α × AutoSwell α
  | a, [] => ([], a)
  | a, x :: xs =>
    let r := a.process x
    let rs := run r.2 xs
    (r.1 :: rs.1, rs.2)

end AutoSwell

/-! ## Impulse response of a feedback delay -/

/-- The outputs of a delay initialised with `init(N, g)` on the unit impulse followed by
`m` zeros. -/
def impulseResponse [LinearOrderedField α] (N : Nat) (g : α) (m : Nat) : Option (List α) :=
  match Reverb.Delay.init (N : Int) g with
  | none => none
  | some d0 =>
    match d0.run (1 :: List.replicate m 0) with
    | none => none
    | some (outs, _) => some outs

/-- Peak magnitude of the `N` samples of `outs` that start at index `s`. -/
def windowPeak [LinearOrderedField α] (outs : List α) (s N : Nat) : α :=
  ((List.range N).map fun j => |outs.getD (s + j) 0|).foldr max 0

/-- Peak magnitude of the `j`-th window of `N` samples after index `s` in the impulse
response of a delay of capacity `N` and feedback `g`. -/
def combPeak [LinearOrderedField α] (N : Nat) (g : α) (s j : Nat) : Option α :=
  match impulseResponse N g (s + (j + 1) * N) with
  | none => none
  | some outs => some (windowPeak outs (s + j * N) N)

/-! ## SpectralMirror (spectral_mirror.h, spectral_mirror.cpp) -/

/-- The class `SpectralMirror`. -/
structure SpectralMirror (α : Type) where
  delayBuffer : List α
  writeIndex : Int
  delaySamples : Int
  delayMs : α
  sampleRate : Int
deriving DecidableEq, Repr

namespace SpectralMirror

/-- The constructor `SpectralMirror::SpectralMirror()`. -/
def new [LinearOrderedField α] : SpectralMirror α :=
  { delayBuffer := [], writeIndex := 0, delaySamples := 0, delayMs := 2, sampleRate := 48000 }

/-- The body of `SpectralMirror::prepare`. `sampleRate / 100` is the truncating `int`
division; a negative vector length throws (`none`). -/
def prepare [LinearOrderedField α] [FloorRing α] (m : SpectralMirror α) (sr : Int) :
    Option (SpectralMirror α) :=
  let delaySamples0 := truncToInt ((m.delayMs / 1000) * (sr : α))
  let delaySamples1 := if delaySamples0 < 1 then 1 else delaySamples0
  let n := Int.tdiv sr 100
  if n < 0 then none
  else
    some { delayBuffer := List.replicate n.toNat 0, writeIndex := 0,
           delaySamples := delaySamples1, delayMs := m.delayMs, sampleRate := sr }

/-- The body of `SpectralMirror::process`. -/
def process [LinearOrderedField α] (m : SpectralMirror α) (x : α) :
    Option (α × SpectralMirror α) :=
  if m.delayBuffer.isEmpty then some (x, m)
  else
    let readIndex0 := m.writeIndex - m.delaySamples
    let readIndex := if readIndex0 < 0 then readIndex0 + (m.delayBuffer.length : Int)
      else readIndex0
    match readAt m.delayBuffer readIndex with
    | none => none
    | some d =>
      match writeAt m.delayBuffer m.writeIndex x with
      | none => none
      | some buf1 =>
        some (d - x, { m with delayBuffer := buf1
                              writeIndex := Int.tmod (m.writeIndex + 1) (buf1.length : Int) })

/-- The body of `SpectralMirror::reset`. -/
def reset [LinearOrderedField α] (m : SpectralMirror α) : SpectralMirror α :=
  { m with delayBuffer := List.replicate m.delayBuffer.length 0, writeIndex := 0 }

end SpectralMirror

/-! ## PingPongDelay: prepare, process, reset -/

/-- The function `std::round` followed by the conversion to `int`: nearest integer, halves
away from zero. -/
def roundToInt [LinearOrderedField α] [FloorRing α] (x : α) : Int :=
  if 0 ≤ x then ⌊x + 1 / 2⌋ else ⌈x - 1 / 2⌉

namespace PingPongDelay

/-- The body of `PingPongDelay::prepare`. The conversion of `sampleRate * 2.0f` to `size_t`
needs a value that truncates to a non-negative integer. -/
def prepare [LinearOrderedField α] [FloorRing α] (expf : α → α) (M_PI : α)
    (d : PingPongDelay α) (sr : Int) : Option (PingPongDelay α) :=
  let n := truncToInt ((sr : α) * 2)
  if n < 0 then none
  else
    let maxSamples : Nat := n.toNat + 10
    fbLowpass_setCutoff expf M_PI
      { d with sampleRate := sr
               bufL := List.replicate maxSamples 0
               bufR := List.replicate maxSamples 0
               writePos := 0
               delaySamplesL := roundToInt ((350 : α) * (1 / 1000) * (sr : α))
               delaySamplesR := roundToInt ((550 : α) * (1 / 1000) * (sr : α)) }
      6000

/-- The body of `PingPongDelay::process`; the result is `((outL, outR), state)`. Each
`while` loop adds the buffer size to a negative position: with a size of at least 1
`(-readPos).toNat` iterations suffice, with size 0 the loop does not end (`none`). -/
def process [LinearOrderedField α] (d : PingPongDelay α) (x : α) :
    Option ((α × α) × PingPongDelay α) :=
  let N : Nat := d.bufL.length
  let readPosL0 : Int := (d.writePos : Int) - d.delaySamplesL
  let readPosR0 : Int := (d.writePos : Int) - d.delaySamplesR
  match wrapLoop (N : Int) (-readPosL0).toNat readPosL0,
        wrapLoop (N : Int) (-readPosR0).toNat readPosR0 with
  | some readPosL, some readPosR =>
    match readAt d.bufL readPosL, readAt d.bufR readPosR with
    | some delayedL, some delayedR =>
      let outL := (6 / 10) * x + (8 / 10) * delayedL
      let outR := (6 / 10) * x + (8 / 10) * delayedR
      let r1 := d.fbLowpass_process (delayedR * (45 / 100))
      let r2 := r1.2.fbLowpass_process (delayedL * (45 / 100))
      match writeAt d.bufL (d.writePos : Int) (x + r1.1),
            writeAt d.bufR (d.writePos : Int) (x + r2.1) with
      | some bufL1, some bufR1 =>
        if N = 0 then none
        else
          some ((outL, outR),
            { r2.2 with bufL := bufL1, bufR := bufR1, writePos := (d.writePos + 1) % N })
      | _, _ => none
    | _, _ => none
  | _, _ => none

/-- The body of `PingPongDelay::reset`. -/
def reset [LinearOrderedField α] (d : PingPongDelay α) : PingPongDelay α :=
  { d with bufL := List.replicate d.bufL.length 0
           bufR := List.replicate d.bufR.length 0
           writePos := 0
           fbLowpass_z := 0 }

end PingPongDelay

/-! ## Vibrato (vibrato.h, vibrato.cpp) -/

/-- The class `Vibrato`; the array `delayBuf[MAX_DELAY]` is a list. -/
structure Vibrato (α : Type) where
  delayBuf : List α
  writeIdx : Int
  depth : α
  rate : α
  sampleRate : Int
  sampleCounter : Nat
deriving DecidableEq, Repr

/-- The loop `while (r < 0) r += n;` on a float, run for at most `fuel` iterations; `fl`
rounds the sum to a float. -/
def wrapLoopF [LinearOrderedField α] (fl : α → α) (n : α) : Nat → α → Option α
  | 0, r => if r < 0 then none else some r
  | fuel + 1, r => if r < 0 then wrapLoopF fl n fuel (fl (r + n)) else some r

namespace Vibrato

/-- The constant `Vibrato::MAX_DELAY`. -/
def MAX_DELAY : Int := 1024

/-- The constructor `Vibrato::Vibrato()`. -/
def new [LinearOrderedField α] : Vibrato α :=
  { delayBuf := List.replicate 1024 0, writeIdx := 0, depth := 18, rate := 2,
    sampleRate := 48000, sampleCounter := 0 }

/-- The body of `Vibrato::prepare`. -/
def prepare (v : Vibrato α) (sr : Int) : Vibrato α :=
  { v with sampleRate := sr, writeIdx := 0, sampleCounter := 0 }

/-- The local `readDelay` of `Vibrato::process` (lines 27 and 28): `fl` rounds the casts
`(float)sampleCounter` and `(float)sampleRate`, the argument handed to `sinf`, the product
and the sum. -/
def readDelay [LinearOrderedField α] (fl sinf : α → α) (M_PI : α) (v : Vibrato α) : α :=
  fl (fl (v.depth * sinf (fl (2 * M_PI * v.rate * fl (v.sampleCounter : α)
    / fl (v.sampleRate : α)))) + v.depth)

/-- The local `readIdx` of `Vibrato::process` before the `while` loop (line 29): `fl` rounds
the cast `(float)writeIdx` and the difference. -/
def readIdx0 [LinearOrderedField α] (fl sinf : α → α) (M_PI : α) (v : Vibrato α) : α :=
  fl (fl (v.writeIdx : α) - readDelay fl sinf M_PI v)

/-- The body of `Vibrato::process`. Every cast to `float` and every `float` operation up to
the cast `(int)readIdx` is rounded by `fl`; the argument of `sinf` is formed in `double`
(`M_PI` is a `double`), exactly here, and rounded when it is handed to `sinf`; the
interpolation of the two samples is exact, as sample arithmetic is elsewhere. The division
needs a nonzero sample rate; the `while` loop adds 1024 to a negative position, so
`⌈-readIdx⌉` iterations suffice when the sum is exact or rounded to nearest; the counter is
an `unsigned long`. A read at `i1` or `i2` outside the array gives `none`. -/
def process [LinearOrderedField α] [FloorRing α] (fl sinf : α → α) (M_PI : α)
    (v : Vibrato α) (input : α) : Option (α × Vibrato α) :=
  match writeAt v.delayBuf v.writeIdx input with
  | none => none
  | some buf1 =>
    if v.sampleRate = 0 then none
    else
      let lfo := sinf (fl (2 * M_PI * v.rate * fl (v.sampleCounter : α)
        / fl (v.sampleRate : α)))
      let readDelay := fl (fl (v.depth * lfo) + v.depth)
      let readIdx0 := fl (fl (v.writeIdx : α) - readDelay)
      match wrapLoopF fl (MAX_DELAY : α) (⌈-readIdx0⌉).toNat readIdx0 with
      | none => none
      | some readIdx =>
        let i1 := truncToInt readIdx
        let i2 := Int.tmod (i1 + 1) MAX_DELAY
        let frac := readIdx - (i1 : α)
        match readAt buf1 i1, readAt buf1 i2 with
        | some a1, some a2 =>
          let out := a1 * (1 - frac) + a2 * frac
          some (out, { v with delayBuf := buf1
                              writeIdx := Int.tmod (v.writeIdx + 1) MAX_DELAY
                              sampleCounter := (v.sampleCounter + 1) % 2 ^ 64 })
        | _, _ => none

/-- The body of `Vibrato::reset`. -/
def reset [LinearOrderedField α] (v : Vibrato α) : Vibrato α :=
  { v with delayBuf := List.replicate v.delayBuf.length 0, writeIdx := 0, sampleCounter := 0 }

end Vibrato

/-! ## Runs of a unit over an input sequence -/

/-- Successive calls of a step function on the samples of `ins`, collecting the results;
`none` as soon as one call is `none`. -/
def runOpt {σ β : Type} (step : σ → α → Option (β × σ)) : σ → List α → Option (List β × σ)
  | s, [] => some ([], s)
  | s, x :: xs =>
    match step s x with
    | none => none
    | some (y, s1) =>
      match runOpt step s1 xs with
      | none => none
      | some (ys, s2) => some (y :: ys, s2)

/-- The value returned by the last of `n + 1` successive `hpf_process` calls fed `v`. -/
def Fuzz.hpfConst [LinearOrderedField α] (f : Fuzz α) (v : α) : Nat → α × Fuzz α
  | 0 => f.hpf_process v
  | n + 1 => (Fuzz.hpfConst f v n).2.hpf_process v

/-! ## Invariants of the hand-rolled delay lines -/

/-- The cell of a ring of `N` cells that lies `k` cells behind the write index `w`. -/
def ringPos (w N k : Nat) : Nat := if k ≤ w then w - k else w + N - k

/-- The ring `buf` with write index `w` holds the history `hist` (latest sample first): the
cell `k` behind the write index holds the `k`-th latest sample, or 0 before the start. -/
def RingHist [LinearOrderedField α] (buf : List α) (w : Nat) (hist : List α) : Prop :=
  w < buf.length ∧
    ∀ k, 1 ≤ k → k ≤ buf.length → buf[ringPos w buf.length k]? = some (hist.getD (k - 1) 0)

/-- What `Phaser::prepare(sr)` establishes and `process` and `reset` keep. -/
def Phaser.Ready [LinearOrderedField α] [FloorRing α] (sr : Int) (p : Phaser α) : Prop :=
  p.baseDelay = (2 / 1000) * (sr : α) ∧ p.depth = (15 / 10000) * (sr : α) ∧
    (p.buffer.length : Int) = truncToInt ((sr : α) * (2 / 100)) ∧
    0 ≤ p.writeIndex ∧ p.writeIndex < (p.buffer.length : Int)

/-- What `SpectralMirror::prepare(sr)` establishes on a constructed unit and `process` and
`reset` keep. -/
def SpectralMirror.Ready [LinearOrderedField α] [FloorRing α] (sr : Int)
    (m : SpectralMirror α) : Prop :=
  m.delaySamples = max 1 (truncToInt (((2 : α) / 1000) * (sr : α))) ∧
    (m.delayBuffer.length : Int) = Int.tdiv sr 100 ∧
    0 ≤ m.writeIndex ∧ m.writeIndex < (m.delayBuffer.length : Int)

/-- What `PingPongDelay::prepare(sr)` establishes and `process` and `reset` keep. -/
def PingPongDelay.Ready [LinearOrderedField α] [FloorRing α] (sr : Int)
    (d : PingPongDelay α) : Prop :=
  d.delaySamplesL = roundToInt ((350 : α) * (1 / 1000) * (sr : α)) ∧
    d.delaySamplesR = roundToInt ((550 : α) * (1 / 1000) * (sr : α)) ∧
    d.bufL.length = (truncToInt ((sr : α) * 2)).toNat + 10 ∧
    d.bufR.length = d.bufL.length ∧ d.writePos < d.bufL.length

/-- Reset restores the prepared state: the unit is prepared (`prepared = some p`), the run of
`step` over `ins` from `p` succeeds and ends in a state `s` with `reset s = p`; runs after
the reset then agree with runs of the freshly prepared unit. -/
def ResetRestores {σ β : Type} (prepared : Option σ) (step : σ → α → Option (β × σ))
    (reset : σ → σ) (ins : List α) : Prop :=
  ∃ p outs s, prepared = some p ∧ runOpt step p ins = some (outs, s) ∧ reset s = p ∧
    ∀ ins2, runOpt step (reset s) ins2 = runOpt step p ins2

/-! ## Invariants used for single calls and the impulse response -/

/-- The state of a PingPongDelay before call `t` of a run on the unit impulse, while the
write position has not wrapped: the impulse sits in cell 0 of both buffers, the cells from
`writePos` on are still zero. -/
def PingPongDelay.ImpulseInv [LinearOrderedField α] [FloorRing α] (sr : Int) (t : Nat)
    (d : PingPongDelay α) : Prop :=
  PingPongDelay.Ready sr d ∧
    (t < d.bufL.length → d.writePos = t ∧ (t = 0 → d.fbLowpass_z = 0) ∧
      (1 ≤ t → d.bufL[0]? = some 1 ∧ d.bufR[0]? = some 1) ∧
      ∀ j, t ≤ j → j < d.bufL.length → d.bufL[j]? = some 0 ∧ d.bufR[j]? = some 0)

/-- The outputs `(outL, outR)` of call `t` on the unit impulse, for delays `DL` and `DR`. -/
def PingPongDelay.ImpulseOut [LinearOrderedField α] (DL DR : Int) (t : Nat) (y : α × α) :
    Prop :=
  (t = 0 → y = (6 / 10, 6 / 10)) ∧
    (0 < t → (t : Int) < DL → y.1 = 0) ∧ ((t : Int) = DL → y.1 = 8 / 10) ∧
    (0 < t → (t : Int) < DR → y.2 = 0) ∧ ((t : Int) = DR → y.2 = 8 / 10)

/-- What `Reverb::prepare` establishes and `process` and `reset` keep: four combs and two
allpasses, each delay line empty or with its cursor on a cell. -/
def Reverb.Ready (r : Reverb α) : Prop :=
  r.combs.length = 4 ∧ r.allpasses.length = 2 ∧
    (∀ d ∈ r.combs, d.buf = [] ∨ d.Valid) ∧ (∀ d ∈ r.allpasses, d.buf = [] ∨ d.Valid)

/-! ## The standalone programs (effects_separated) -/

/-- The `for` loop of the callbacks of the standalone programs, which all have this shape:
`x = in[i]`, the loop body computes `y` from `x` and the file-scope state, then
`out[i*2 + 0] = y; out[i*2 + 1] = y`. `k` iterations remain, `i` is the loop counter. -/
def demoLoop {σ : Type} (body : σ → α → Option (α × σ)) (inp : List α) :
    Nat → Nat → σ → List α → Option (List α × σ)
  | 0, _, s, out => some (out, s)
  | k + 1, i, s, out =>
    match inp[i]? with
    | none => none
    | some x =>
      match body s x with
      | none => none
      | some (y, s1) =>
        match writeAt out (2 * (i : Int) + 0) y with
        | none => none
        | some out1 =>
          match writeAt out1 (2 * (i : Int) + 1) y with
          | none => none
          | some out2 => demoLoop body inp k (i + 1) s1 out2

/-- The callbacks of the standalone programs: a null input clears `frames * 2` floats and
returns `paContinue`; otherwise the statements before the loop (`prologue`), then the loop,
then `paContinue`. -/
def demoCallback [LinearOrderedField α] {σ : Type} (prologue : σ → σ)
    (body : σ → α → Option (α × σ)) (input : Option (List α)) (out : List α) (frames : Nat)
    (s : σ) : Option (List α × σ × Int) :=
  match input with
  | none =>
    if frames * 2 ≤ out.length then
      some (List.replicate (frames * 2) 0 ++ out.drop (frames * 2), s, paContinue)
    else none
  | some inp =>
    match demoLoop body inp frames 0 (prologue s) out with
    | none => none
    | some (out1, s1) => some (out1, s1, paContinue)

/-- The file-scope variables of `effects_separated/autoswell.cpp`. -/
structure AutoSwellDemo (α : Type) where
  attackTimeSec : α
  threshold : α
  releaseTimeSec : α
  env : α
  prevAbs : α
  attackCoeff : α
  releaseCoeff : α
deriving DecidableEq, Repr

namespace AutoSwellDemo

/-- Static initialisation; `attackCoeff` and `releaseCoeff` have no initialiser and are
zero-initialised. -/
def init [LinearOrderedField α] : AutoSwellDemo α :=
  { attackTimeSec := 15 / 100, threshold := 1 / 100, releaseTimeSec := 2 / 10,
    env := 0, prevAbs := 0, attackCoeff := 0, releaseCoeff := 0 }

/-- The constant `SAMPLE_RATE`. -/
def SAMPLE_RATE : Int := 48000

/-- The "Precompute envelope speeds" statements of `main`; each division needs a nonzero
divisor. -/
def main [LinearOrderedField α] (s : AutoSwellDemo α) : Option (AutoSwellDemo α) :=
  if s.attackTimeSec * (SAMPLE_RATE : α) = 0 ∨ s.releaseTimeSec * (SAMPLE_RATE : α) = 0 then none
  else
    some { s with attackCoeff := 1 / (s.attackTimeSec * (SAMPLE_RATE : α))
                  releaseCoeff := 1 / (s.releaseTimeSec * (SAMPLE_RATE : α)) }

/-- The loop body of `audioCallback`, from `float x = in[i]` to `float y = x * env`. -/
def body [LinearOrderedField α] (s : AutoSwellDemo α) (x : α) : α × AutoSwellDemo α :=
  let ax := |x|
  let env1 := if ax > s.threshold ∧ s.prevAbs ≤ s.threshold then 0 else s.env
  let prevAbs1 := ax
  let env2 := if env1 < 1 then env1 + s.attackCoeff else 1
  let env3 := if ax < s.threshold * (1 / 2) then env2 - s.releaseCoeff else env2
  let env4 := if env3 < 0 then 0 else env3
  let env5 := if env4 > 1 then 1 else env4
  (x * env5, { s with env := env5, prevAbs := prevAbs1 })

/-- The function `audioCallback` of `effects_separated/autoswell.cpp`. -/
def audioCallback [LinearOrderedField α] (input : Option (List α)) (out : List α)
    (frames : Nat) (s : AutoSwellDemo α) : Option (List α × AutoSwellDemo α × Int) :=
  demoCallback id (fun s x => some (body s x)) input out frames s

end AutoSwellDemo

/-- The file-scope variables of `effects_separated/bitcrusher.cpp`; the members of `gState`
are the last four fields. -/
structure BitcrusherDemo (α : Type) where
  downsampleFactor : Int
  bitDepth : Int
  dryLevel : α
  wetLevel : α
  holdCounter : Int
  heldSample : α
  steps : Int
  invSteps : α
deriving DecidableEq, Repr

namespace BitcrusherDemo

/-- Static initialisation from the `..._DEFAULT` constants. -/
def init [LinearOrderedField α] : BitcrusherDemo α :=
  { downsampleFactor := 1, bitDepth := 8, dryLevel := 6 / 10, wetLevel := 9 / 10,
    holdCounter := 0, heldSample := 0, steps := 2 ^ 8, invSteps := 1 / (2 ^ 8 : α) }

/-- The constant `OUTPUT_TRIM`. -/
def OUTPUT_TRIM [LinearOrderedField α] : α := 95 / 100

/-- The function `quantizeSample` of the program. The result is `none` when `1 << bits` is
not an `int` value and when the divisor `steps - 1` is zero. -/
def quantizeSample [LinearOrderedField α] [FloorRing α] (x : α) (bits : Int) : Option α :=
  let x1 := if x > 1 then 1 else x
  let x2 := if x1 < -1 then -1 else x1
  let v := (x2 + 1) * (1 / 2)
  if bits < 0 ∨ 31 ≤ bits then none
  else
    let steps : Int := 2 ^ bits.toNat
    let q : Int := ⌊v * ((steps - 1 : Int) : α) + 1 / 2⌋
    if steps - 1 = 0 then none
    else
      let vq := (q : α) / ((steps - 1 : Int) : α)
      some (vq * 2 - 1)

/-- The function `softLimit` of the program. -/
def softLimit [LinearOrderedField α] (x : α) : α :=
  let k : α := 6 / 10
  x / (1 + |x| * k)

/-- The "initialize runtime state" statements of `main`; `1 << bitDepth` needs a shift count
that gives an `int`. -/
def main [LinearOrderedField α] (s : BitcrusherDemo α) : Option (BitcrusherDemo α) :=
  if s.bitDepth < 0 ∨ 31 ≤ s.bitDepth then none
  else
    let steps : Int := 2 ^ s.bitDepth.toNat
    some { s with holdCounter := 0, heldSample := 0, steps := steps,
                  invSteps := 1 / (steps : α) }

/-- The three clamps of `audioCallback` before the loop. -/
def prologue (s : BitcrusherDemo α) : BitcrusherDemo α :=
  let s1 := if s.downsampleFactor < 1 then { s with downsampleFactor := 1 } else s
  let s2 := if s1.bitDepth < 1 then { s1 with bitDepth := 1 } else s1
  if s2.bitDepth > 24 then { s2 with bitDepth := 24 } else s2

/-- The loop body of `audioCallback`, from `float x = in[i]` to the soft limiter. -/
def body [LinearOrderedField α] [FloorRing α] (s : BitcrusherDemo α) (x : α) :
    Option (α × BitcrusherDemo α) :=
  let held : Option (BitcrusherDemo α) :=
    if s.holdCounter ≤ 0 then
      match quantizeSample x s.bitDepth with
      | none => none
      | some q => some { s with heldSample := q, holdCounter := s.downsampleFactor }
    else some s
  match held with
  | none => none
  | some s1 =>
    let s2 := { s1 with holdCounter := s1.holdCounter - 1 }
    let wet := s2.heldSample
    let dry := x
    let outSample := s2.dryLevel * dry + s2.wetLevel * wet
    let outSample1 := outSample * OUTPUT_TRIM
    some (softLimit outSample1, s2)

/-- The function `audioCallback` of `effects_separated/bitcrusher.cpp`. -/
def audioCallback [LinearOrderedField α] [FloorRing α] (input : Option (List α))
    (out : List α) (frames : Nat) (s : BitcrusherDemo α) :
    Option (List α × BitcrusherDemo α × Int) :=
  demoCallback prologue body input out frames s

end BitcrusherDemo

/-- The file-scope variables of `effects_separated/spectral_mirror.cpp`. -/
structure SpectralMirrorDemo (α : Type) where
  delayMs : α
  delaySamples : Int
  delayBuffer : List α
  writeIndex : Int
deriving DecidableEq, Repr

namespace SpectralMirrorDemo

/-- Static initialisation; `delaySamples` has no initialiser and is zero-initialised. -/
def init [LinearOrderedField α] : SpectralMirrorDemo α :=
  { delayMs := 2, delaySamples := 0, delayBuffer := [], writeIndex := 0 }

/-- The constant `SAMPLE_RATE`. -/
def SAMPLE_RATE : Int := 48000

/-- The first two statements of `main`. `delayBuffer.resize(SAMPLE_RATE * 0.01)` converts the
product to `size_t` (a negative length is `none`), keeps the first cells and fills with
zeros. -/
def main [LinearOrderedField α] [FloorRing α] (s : SpectralMirrorDemo α) :
    Option (SpectralMirrorDemo α) :=
  let delaySamples := truncToInt ((s.delayMs / 1000) * (SAMPLE_RATE : α))
  let n := truncToInt ((SAMPLE_RATE : α) * (1 / 100))
  if n < 0 then none
  else
    some { s with delaySamples := delaySamples
                  delayBuffer := s.delayBuffer.take n.toNat
                    ++ List.replicate (n.toNat - s.delayBuffer.length) 0 }

/-- The loop body of `audioCallback`, from `float x = in[i]` to `float y = d - x`. -/
def body [LinearOrderedField α] (s : SpectralMirrorDemo α) (x : α) :
    Option (α × SpectralMirrorDemo α) :=
  let readIndex0 := s.writeIndex - s.delaySamples
  let readIndex := if readIndex0 < 0 then readIndex0 + (s.delayBuffer.length : Int)
    else readIndex0
  match readAt s.delayBuffer readIndex with
  | none => none
  | some d =>
    match writeAt s.delayBuffer s.writeIndex x with
    | none => none
    | some buf1 =>
      let writeIndex1 := s.writeIndex + 1
      let writeIndex2 := if writeIndex1 ≥ (buf1.length : Int) then 0 else writeIndex1
      some (d - x, { s with delayBuffer := buf1, writeIndex := writeIndex2 })

/-- The function `audioCallback` of `effects_separated/spectral_mirror.cpp`. -/
def audioCallback [LinearOrderedField α] (input : Option (List α)) (out : List α)
    (frames : Nat) (s : SpectralMirrorDemo α) : Option (List α × SpectralMirrorDemo α × Int) :=
  demoCallback id body input out frames s

end SpectralMirrorDemo

/-- The standalone AutoSwell program and the unit hold the same threshold, envelope, previous
magnitude and coefficients. -/
def AutoSwellDemo.Matches (s : AutoSwellDemo α) (u : AutoSwell α) : Prop :=
  s.threshold = u.threshold ∧ s.env = u.env ∧ s.prevAbs = u.prevAbs ∧
    s.attackCoeff = u.attackCoeff ∧ s.releaseCoeff = u.releaseCoeff

/-- The standalone Bitcrusher program and the unit hold the same parameters (in range),
hold counter and held sample, and the program has its default mix levels. -/
def BitcrusherDemo.Matches [LinearOrderedField α] (s : BitcrusherDemo α) (u : Bitcrusher α) :
    Prop :=
  s.downsampleFactor = u.downsampleFactor ∧ s.bitDepth = u.bitDepth ∧
    1 ≤ u.downsampleFactor ∧ 1 ≤ u.bitDepth ∧ u.bitDepth ≤ 24 ∧
    s.dryLevel = 6 / 10 ∧ s.wetLevel = 9 / 10 ∧
    s.holdCounter = u.holdCounter ∧ s.heldSample = u.heldSample

/-- The standalone SpectralMirror program and the unit hold the same non-empty buffer, write
index (in range) and delay (between 0 and the buffer length). -/
def SpectralMirrorDemo.Matches (s : SpectralMirrorDemo α) (u : SpectralMirror α) : Prop :=
  s.delayBuffer = u.delayBuffer ∧ s.writeIndex = u.writeIndex ∧
    s.delaySamples = u.delaySamples ∧ 0 ≤ u.writeIndex ∧
    u.writeIndex < (u.delayBuffer.length : Int) ∧ 0 ≤ u.delaySamples ∧
    u.delaySamples ≤ (u.delayBuffer.length : Int)

/-! ## Bounded delay lines -/

/-- A delay line whose cells are bounded: it is empty or has its cursor on a cell, its
feedback has magnitude at most `γ`, and every cell has magnitude at most `B`. -/
def Reverb.Delay.BoundedBy [LinearOrderedField α] (γ B : α) (d : Reverb.Delay α) : Prop :=
  (d.buf = [] ∨ d.Valid) ∧ |d.feedback| ≤ γ ∧ ∀ c ∈ d.buf, |c| ≤ B

/-- A Reverb whose delay lines are bounded for inputs of magnitude at most `M`: the combs
(feedback at most 0.82) by `B1 = M/(1 - 0.82)`, the first allpass (feedback at most 0.7) by
`B1/(1 - 0.7)`, the second by `B2/(1 - 0.7)` with `B2 = B1 + 0.5·B1/(1 - 0.7)`. -/
def Reverb.BoundedBy [LinearOrderedField α] (M : α) (r : Reverb α) : Prop :=
  ∃ c0 c1 c2 c3 a0 a1, r.combs = [c0, c1, c2, c3] ∧ r.allpasses = [a0, a1] ∧
    (∀ c ∈ [c0, c1, c2, c3], Reverb.Delay.BoundedBy (82 / 100) (M / (1 - 82 / 100)) c) ∧
    Reverb.Delay.BoundedBy (7 / 10) (M / (1 - 82 / 100) / (1 - 7 / 10)) a0 ∧
    Reverb.Delay.BoundedBy (7 / 10)
      ((M / (1 - 82 / 100) + (1 / 2) * (M / (1 - 82 / 100) / (1 - 7 / 10))) / (1 - 7 / 10)) a1

/-! ## Properties of Reverb::Delay -/

section DelayLemmas
variable [LinearOrderedField α]
open Reverb

theorem Delay.process_valid (d : Delay α) (x : α) (h : d.Valid) :
    ∃ out, d.buf[d.idx.toNat]? = some out ∧
      d.process x = some (out,
        { buf := d.buf.set d.idx.toNat (x + out * d.feedback),
          idx := (d.idx + 1) % (d.buf.length : Int),
          feedback := d.feedback }) := by
  obtain ⟨h0, h1⟩ := h
  have hlt : d.idx.toNat < d.buf.length := by omega
  have hne : d.buf.isEmpty = false := by
    cases hb : d.buf with
    | nil => simp [hb] at hlt
    | cons a t => rfl
  refine ⟨d.buf[d.idx.toNat], by simp [hlt], ?_⟩
  have hr : readAt d.buf d.idx = some (d.buf[d.idx.toNat]) := by
    simp [readAt, h0, h1, hlt]
  have hw : ∀ v, writeAt d.buf d.idx v = some (d.buf.set d.idx.toNat v) := by
    intro v; simp [writeAt, h0, h1]
  simp only [Delay.process, hne, hr, hw, Bool.false_eq_true, if_false, List.length_set]
  congr 3
  by_cases hc : d.idx + 1 ≥ (d.buf.length : Int)
  · have : d.idx + 1 = d.buf.length := by omega
    simp [this]
  · rw [if_neg hc, Int.emod_eq_of_lt (by omega) (by omega)]

theorem Delay.process_queue (d : Delay α) (x : α) (h : d.Valid) :
    ∃ out rest d1, d.process x = some (out, d1) ∧ d.queue = out :: rest ∧
      d1.queue = rest ++ [x + out * d.feedback] ∧ d1.Valid ∧
      d1.feedback = d.feedback ∧ d1.buf.length = d.buf.length := by
  obtain ⟨out, hout, hp⟩ := Delay.process_valid d x h
  obtain ⟨h0, h1⟩ := h
  have hlt : d.idx.toNat < d.buf.length := by omega
  have hget : d.buf[d.idx.toNat] = out := by
    have := List.getElem?_eq_getElem hlt
    rw [this] at hout; exact Option.some.inj hout
  refine ⟨out, d.buf.drop (d.idx.toNat + 1) ++ d.buf.take d.idx.toNat, _, hp, ?_, ?_, ?_, rfl, ?_⟩
  · simp only [Delay.queue]
    rw [List.drop_eq_getElem_cons hlt, hget]; rfl
  · simp only [Delay.queue]
    rw [List.set_eq_take_append_cons_drop, if_pos hlt]
    by_cases hc : d.idx.toNat + 1 < d.buf.length
    · have hi : ((d.idx + 1) % (d.buf.length : Int)).toNat = d.idx.toNat + 1 := by
        rw [Int.emod_eq_of_lt (by omega) (by omega)]; omega
      rw [hi]
      have hl : (List.take d.idx.toNat d.buf).length = d.idx.toNat := by
        simp [List.length_take]; omega
      rw [List.drop_append_eq_append_drop, List.take_append_eq_append_take, hl]
      have e1 : d.idx.toNat + 1 - d.idx.toNat = 1 := by omega
      have e2 : List.drop (d.idx.toNat + 1) (List.take d.idx.toNat d.buf) = [] := by
        apply List.drop_eq_nil_of_le; simp [List.length_take]
      have e3 : List.take (d.idx.toNat + 1) (List.take d.idx.toNat d.buf)
          = List.take d.idx.toNat d.buf := by
        apply List.take_of_length_le; simp [List.length_take]
      rw [e1, e2, e3]
      simp
    · have hN : d.idx.toNat + 1 = d.buf.length := by omega
      have hi : ((d.idx + 1) % (d.buf.length : Int)).toNat = 0 := by
        have : d.idx + 1 = (d.buf.length : Int) := by omega
        rw [this, Int.emod_self]; rfl
      rw [hi]
      have e2 : List.drop (d.idx.toNat + 1) d.buf = [] := by
        apply List.drop_eq_nil_of_le; omega
      simp [e2]
  · constructor
    · exact Int.emod_nonneg _ (by omega)
    · simp only [List.length_set]
      exact Int.emod_lt_of_pos _ (by omega)
  · simp

theorem Delay.run_queue (d : Delay α) (ins : List α) (h : d.Valid) :
    ∃ outs d1, d.run ins = some (outs, d1) ∧ outs.length = ins.length ∧ d1.Valid ∧
      d1.feedback = d.feedback ∧ d1.buf.length = d.buf.length ∧
      outs ++ d1.queue
        = d.queue ++ List.zipWith (fun x o => x + o * d.feedback) ins outs := by
  induction ins generalizing d with
  | nil => exact ⟨[], d, rfl, rfl, h, rfl, rfl, by simp⟩
  | cons x xs ih =>
    obtain ⟨out, rest, d1, hp, hq, hq1, hv1, hf1, hl1⟩ := Delay.process_queue d x h
    obtain ⟨outs, d2, hr, hlen, hv2, hf2, hl2, hq2⟩ := ih d1 hv1
    refine ⟨out :: outs, d2, ?_, by simp [hlen], hv2, by rw [hf2, hf1], by rw [hl2, hl1], ?_⟩
    · simp [Delay.run, hp, hr]
    · rw [List.cons_append, hq2, hq1, hq, hf1]
      simp

omit [LinearOrderedField α] in
theorem Delay.queue_length (d : Delay α) (h : d.Valid) : d.queue.length = d.buf.length := by
  obtain ⟨h0, h1⟩ := h
  simp only [Delay.queue, List.length_append, List.length_drop, List.length_take]
  omega

theorem Delay.init_run (N : Nat) (hN : 1 ≤ N) (g : α) (ins : List α) :
    ∃ d0 outs d1, Delay.init (N : Int) g = some d0 ∧ d0.feedback = g ∧
      d0.buf = List.replicate N 0 ∧ d0.idx = 0 ∧
      d0.run ins = some (outs, d1) ∧ outs.length = ins.length ∧ d1.Valid ∧
      ∀ k, k < ins.length →
        outs[k]? = (List.replicate N (0 : α)
          ++ List.zipWith (fun x o => x + o * g) ins outs)[k]? := by
  have hv : (⟨List.replicate N 0, 0, g⟩ : Delay α).Valid := by
    constructor
    · exact le_refl _
    · simp only [List.length_replicate]; omega
  obtain ⟨outs, d1, hr, hlen, hv1, _, hl1, hq⟩ := Delay.run_queue _ ins hv
  refine ⟨_, outs, d1, ?_, rfl, rfl, rfl, hr, hlen, hv1, ?_⟩
  · simp [Delay.init]
  · intro k hk
    have hk1 : k < outs.length := by omega
    have : (outs ++ d1.queue)[k]? = outs[k]? := List.getElem?_append_left hk1
    rw [← this, hq]
    simp [Delay.queue]

omit [LinearOrderedField α] in
theorem zipWith_left_id (f : α → α → α) (hf : ∀ x o, f x o = x) :
    ∀ (ins outs : List α), outs.length = ins.length → List.zipWith f ins outs = ins
  | [], _, _ => by simp
  | x :: xs, [], h => by simp at h
  | x :: xs, o :: os, h => by
    simp only [List.zipWith_cons_cons, hf]
    rw [zipWith_left_id f hf xs os (by simpa using h)]

theorem Delay.init_run_zero (N : Nat) (hN : 1 ≤ N) (ins : List α) :
    ∃ d0 outs d1, Delay.init (N : Int) (0 : α) = some d0 ∧
      d0.run ins = some (outs, d1) ∧ outs.length = ins.length ∧
      ∀ k, k < ins.length → outs[k]? = if k < N then some 0 else ins[k - N]? := by
  obtain ⟨d0, outs, d1, hi, _, _, _, hr, hlen, _, hk⟩ := Delay.init_run N hN (0 : α) ins
  refine ⟨d0, outs, d1, hi, hr, hlen, ?_⟩
  intro k hlt
  rw [hk k hlt, zipWith_left_id _ (by intro x o; simp) ins outs hlen, List.getElem?_append]
  simp only [List.length_replicate]
  split
  · rename_i h; simp [h]
  · rfl

theorem impulse_getElem? (m k : Nat) (hk : k ≤ m) :
    ((1 : α) :: List.replicate m 0)[k]? = some (if k = 0 then 1 else 0) := by
  cases k with
  | zero => simp
  | succ j =>
    rw [List.getElem?_cons_succ, List.getElem?_replicate, if_pos (by omega)]
    simp

theorem impulseResponse_closed (N : Nat) (hN : 1 ≤ N) (g : α) (m : Nat) :
    ∃ outs, impulseResponse N g m = some outs ∧ outs.length = m + 1 ∧
      ∀ t, t ≤ m → outs[t]? = some (if 0 < t ∧ N ∣ t then g ^ (t / N - 1) else 0) := by
  obtain ⟨d0, outs, d1, hi, _, _, _, hr, hlen, _, hk⟩ :=
    Delay.init_run N hN g ((1 : α) :: List.replicate m 0)
  have hlen1 : outs.length = m + 1 := by simpa using hlen
  refine ⟨outs, by simp [impulseResponse, hi, hr], hlen1, ?_⟩
  intro t
  induction t using Nat.strong_induction_on with
  | _ t ih =>
    intro htm
    rw [hk t (by simp; omega), List.getElem?_append]
    simp only [List.length_replicate]
    by_cases h1 : t < N
    · have hnd : ¬ (0 < t ∧ N ∣ t) := fun h => by
        have := Nat.le_of_dvd h.1 h.2
        omega
      rw [if_pos h1, if_neg hnd, List.getElem?_replicate, if_pos h1]
    · rw [if_neg h1, List.getElem?_zipWith, impulse_getElem? m (t - N) (by omega),
        ih (t - N) (by omega) (by omega)]
      simp only
      have hdvd : N ∣ t - N ↔ N ∣ t := by
        constructor
        · intro h
          have := Dvd.dvd.add h (dvd_refl N)
          rwa [Nat.sub_add_cancel (by omega)] at this
        · intro h
          exact Nat.dvd_sub' h (dvd_refl N)
      have hdiv : t / N = (t - N) / N + 1 := by
        have : t = (t - N) + N := by omega
        conv_lhs => rw [this]
        exact Nat.add_div_right _ (by omega)
      by_cases h2 : t = N
      · subst h2
        simp [Nat.div_self (by omega : 0 < t)]
        rw [if_pos (by omega)]
      · have hpos : 0 < t - N := by omega
        have htpos : 0 < t := by omega
        have hne : t - N ≠ 0 := by omega
        by_cases h3 : N ∣ t
        · have h4 : N ∣ t - N := hdvd.mpr h3
          have hge : 1 ≤ (t - N) / N := by
            rw [Nat.le_div_iff_mul_le (by omega)]
            have := Nat.le_of_dvd hpos h4
            omega
          rw [if_neg hne, if_pos ⟨hpos, h4⟩, if_pos ⟨htpos, h3⟩, hdiv]
          have : (t - N) / N + 1 - 1 = ((t - N) / N - 1) + 1 := by omega
          rw [this, pow_succ]
          ring_nf
        · have h4 : ¬ N ∣ t - N := fun h => h3 (hdvd.mp h)
          rw [if_neg hne, if_neg (fun h => h4 h.2), if_neg (fun h => h3 h.2)]
          simp

theorem foldr_max_le (l : List α) (v : α) (hv : 0 ≤ v) (h : ∀ a ∈ l, a ≤ v) :
    l.foldr max 0 ≤ v := by
  induction l with
  | nil => simpa using hv
  | cons a t ih =>
    simp only [List.foldr_cons]
    exact max_le (h a (List.mem_cons_self _ _))
      (ih fun b hb => h b (List.mem_cons_of_mem _ hb))

theorem le_foldr_max (l : List α) (v : α) (h : v ∈ l) : v ≤ l.foldr max 0 := by
  induction l with
  | nil => simp at h
  | cons a t ih =>
    simp only [List.foldr_cons]
    rcases List.mem_cons.mp h with h | h
    · subst h; exact le_max_left _ _
    · exact le_trans (ih h) (le_max_right _ _)

theorem combPeak_closed (N : Nat) (hN : 1 ≤ N) (g : α) (hg : |g| ≤ 1) (s j : Nat)
    (hs : 1 ≤ s) : combPeak N g s j = some (|g| ^ ((s - 1) / N + j)) := by
  obtain ⟨outs, hi, hlen, hk⟩ := impulseResponse_closed N hN g (s + (j + 1) * N)
  simp only [combPeak, hi]
  congr 1
  have hval : ∀ t, t ≤ s + (j + 1) * N →
      outs.getD t 0 = if 0 < t ∧ N ∣ t then g ^ (t / N - 1) else 0 := by
    intro t ht
    rw [List.getD_eq_getElem?_getD, hk t ht]; rfl
  have hNpos : 0 < N := by omega
  set q := (s - 1) / N + j with hq
  have hq' : (s + j * N - 1) / N = q := by
    have : s + j * N - 1 = (s - 1) + j * N := by omega
    rw [this, Nat.add_mul_div_right _ _ hNpos]
  have hmod := Nat.div_add_mod (s + j * N - 1) N
  have hmlt := Nat.mod_lt (s + j * N - 1) hNpos
  rw [hq'] at hmod
  have hexp : (j + 1) * N = j * N + N := by ring
  apply le_antisymm
  · apply foldr_max_le _ _ (pow_nonneg (abs_nonneg g) _)
    intro a ha
    simp only [List.mem_map, List.mem_range] at ha
    obtain ⟨i, hiN, rfl⟩ := ha
    rw [hval _ (by omega)]
    split
    · rename_i hd
      rw [abs_pow]
      apply pow_le_pow_of_le_one (abs_nonneg g) hg
      obtain ⟨c, hc⟩ := hd.2
      rw [hc, Nat.mul_div_cancel_left _ hNpos]
      have : N * q < N * c := by
        have : s + j * N + i = N * c := hc
        omega
      have := Nat.lt_of_mul_lt_mul_left this
      omega
    · simp [pow_nonneg (abs_nonneg g)]
  · apply le_foldr_max
    simp only [List.mem_map, List.mem_range]
    refine ⟨N * (q + 1) - (s + j * N), ?_, ?_⟩
    · have : N * (q + 1) = N * q + N := by ring
      omega
    · have e : s + j * N + (N * (q + 1) - (s + j * N)) = N * (q + 1) := by
        have : N * (q + 1) = N * q + N := by ring
        omega
      have hb : N * (q + 1) ≤ s + (j + 1) * N := by
        have : N * (q + 1) = N * q + N := by ring
        omega
      rw [e, hval _ hb]
      have hpos : 0 < N * (q + 1) := Nat.mul_pos hNpos (Nat.succ_pos q)
      rw [if_pos ⟨hpos, Dvd.intro _ rfl⟩, Nat.mul_div_cancel_left _ hNpos, abs_pow]
      simp

theorem Delay.init_feedback (n : Int) (g : α) (d : Delay α)
    (h : Delay.init n g = some d) : d.feedback = g := by
  unfold Delay.init at h
  split at h
  · exact absurd h (by simp)
  · rw [← Option.some.inj h]

theorem Reverb.prepare_feedback [FloorRing α] (r0 r : Reverb α) (sr : Int)
    (h : r0.prepare sr = some r) :
    r.combs.map Delay.feedback = [78 / 100, 80 / 100, 82 / 100, 76 / 100] ∧
      r.allpasses.map Delay.feedback = [70 / 100, 70 / 100] := by
  unfold Reverb.prepare at h
  simp only at h
  split at h
  · rename_i c0 c1 c2 c3 a0 a1 h0 h1 h2 h3 h4 h5
    rw [← Option.some.inj h]
    simp [Delay.init_feedback _ _ _ h0, Delay.init_feedback _ _ _ h1,
      Delay.init_feedback _ _ _ h2, Delay.init_feedback _ _ _ h3,
      Delay.init_feedback _ _ _ h4, Delay.init_feedback _ _ _ h5]
  · exact absurd h (by simp)

end DelayLemmas

/-! ## Claims on the delay line -/

section DelayClaims
variable [LinearOrderedField α]
open Reverb

/-- C4. A delay initialised with `init(N, 0)`, `N ≥ 1`, is an exact `N`-sample delay: on any
input sequence call `k` returns `0` for `k < N` and `in[k - N]` otherwise; on the unit
impulse `1, 0, 0, ...` the call `N` samples after the impulse returns `1` and every
other call returns `0`. -/
theorem delay_line_exact (N : Nat) (hN : 1 ≤ N) :
    (∀ ins : List α, ∃ d0 outs d1, Delay.init (N : Int) (0 : α) = some d0 ∧
      d0.run ins = some (outs, d1) ∧ outs.length = ins.length ∧
      ∀ k, k < ins.length → outs[k]? = if k < N then some 0 else ins[k - N]?) ∧
    (∀ m : Nat, ∃ d0 outs d1, Delay.init (N : Int) (0 : α) = some d0 ∧
      d0.run (1 :: List.replicate m 0) = some (outs, d1) ∧ outs.length = m + 1 ∧
      ∀ k, k ≤ m → outs[k]? = some (if k = N then 1 else 0)) := by
  refine ⟨fun ins => Delay.init_run_zero N hN ins, fun m => ?_⟩
  obtain ⟨d0, outs, d1, hi, hr, hlen, hk⟩ :=
    Delay.init_run_zero N hN ((1 : α) :: List.replicate m 0)
  refine ⟨d0, outs, d1, hi, hr, by simpa using hlen, ?_⟩
  intro k hkm
  rw [hk k (by simp; omega)]
  by_cases h1 : k < N
  · have : k ≠ N := by omega
    simp [h1, this]
  · rw [if_neg h1]
    by_cases h2 : k = N
    · simp [h2]
    · have h3 : k - N = (k - N - 1) + 1 := by omega
      rw [if_neg h2, h3, List.getElem?_cons_succ, List.getElem?_replicate]
      rw [if_pos (by omega)]

/-- The delay of capacity 3 and feedback 0 on five samples. -/
theorem delay_line_exact_witness :
    (∀ ins : List ℚ, ∃ d0 outs d1, Delay.init ((3 : Nat) : Int) (0 : ℚ) = some d0 ∧
      d0.run ins = some (outs, d1) ∧ outs.length = ins.length ∧
      ∀ k, k < ins.length → outs[k]? = if k < 3 then some 0 else ins[k - 3]?) ∧
    (∀ m : Nat, ∃ d0 outs d1, Delay.init ((3 : Nat) : Int) (0 : ℚ) = some d0 ∧
      d0.run (1 :: List.replicate m 0) = some (outs, d1) ∧ outs.length = m + 1 ∧
      ∀ k, k ≤ m → outs[k]? = some (if k = 3 then 1 else 0)) :=
  delay_line_exact 3 (by decide)

/-- C5. On a delay whose cursor addresses a cell of its non-empty buffer, `process(in)`
returns the old cell `out = buf[idx]`, stores `in + out * feedback` there, leaves the other
cells, the length and the feedback unchanged and moves the cursor to `(idx + 1) mod N`, so
the cursor stays in `[0, N)` and every later call succeeds as well. -/
theorem delay_process_step (d : Delay α) (x : α) (h0 : 0 ≤ d.idx)
    (h1 : d.idx < (d.buf.length : Int)) :
    ∃ out d1, d.process x = some (out, d1) ∧ d.buf[d.idx.toNat]? = some out ∧
      d1.buf[d.idx.toNat]? = some (x + out * d.feedback) ∧
      (∀ j, j ≠ d.idx.toNat → d1.buf[j]? = d.buf[j]?) ∧
      d1.buf.length = d.buf.length ∧ d1.feedback = d.feedback ∧
      d1.idx = (d.idx + 1) % (d.buf.length : Int) ∧
      0 ≤ d1.idx ∧ d1.idx < (d1.buf.length : Int) ∧
      ∀ ins : List α, ∃ outs d2, d.run ins = some (outs, d2) ∧ outs.length = ins.length ∧
        0 ≤ d2.idx ∧ d2.idx < (d2.buf.length : Int) ∧ d2.buf.length = d.buf.length ∧
        d2.feedback = d.feedback := by
  obtain ⟨out, hout, hp⟩ := Delay.process_valid d x ⟨h0, h1⟩
  have hlt : d.idx.toNat < d.buf.length := by omega
  refine ⟨out, _, hp, hout, ?_, ?_, ?_, rfl, rfl, ?_, ?_, ?_⟩
  · simp [hlt]
  · intro j hj
    simp [List.getElem?_set_ne (Ne.symm hj)]
  · simp
  · exact Int.emod_nonneg _ (by omega)
  · simp only [List.length_set]
    exact Int.emod_lt_of_pos _ (by omega)
  · intro ins
    obtain ⟨outs, d2, hr, hlen, hv2, hf2, hl2, _⟩ := Delay.run_queue d ins ⟨h0, h1⟩
    exact ⟨outs, d2, hr, hlen, hv2.1, hv2.2, hl2, hf2⟩

/-- A three-cell delay with cursor 2 and feedback `1/2`, fed the sample 4. -/
theorem delay_process_step_witness :
    ∃ out d1, Delay.process (⟨[1, 2, 3], 2, 1 / 2⟩ : Delay ℚ) 4 = some (out, d1) ∧
      ([1, 2, 3] : List ℚ)[(2 : Int).toNat]? = some out ∧
      d1.buf[(2 : Int).toNat]? = some (4 + out * (1 / 2)) ∧
      d1.buf.length = 3 ∧ d1.idx = (2 + 1) % ((3 : Nat) : Int) := by
  obtain ⟨out, d1, hp, ho, hb, _, hl, _, hi, _⟩ :=
    delay_process_step (⟨[1, 2, 3], 2, 1 / 2⟩ : Delay ℚ) 4 (by decide) (by decide)
  exact ⟨out, d1, hp, ho, hb, hl, hi⟩

/-- C9. For capacity `N ≥ 1` and feedback `|g| < 1` the impulse response of a
zero-initialised delay is `g ^ (k - 1)` at call index `k * N` (`k ≥ 1`) and `0` at every
other index; over successive windows of `N` samples after the impulse (first window starting
at any index `s ≥ 1`) the peak magnitude is `|g| ^ ((s - 1) / N + j)`, non-increasing in `j`
and tending to `0`. The feedbacks configured by `Reverb::prepare` are 0.78, 0.80, 0.82, 0.76
and 0.70, 0.70, all of magnitude below 1. -/
theorem comb_impulse_decay (N : Nat) (hN : 1 ≤ N) (g : ℝ) (hg : |g| < 1) :
    (∀ m, ∃ outs, impulseResponse N g m = some outs ∧ outs.length = m + 1 ∧
      ∀ t, t ≤ m → outs[t]? = some (if 0 < t ∧ N ∣ t then g ^ (t / N - 1) else 0)) ∧
    (∀ s, 1 ≤ s → ∀ j, ∃ p q, combPeak N g s j = some p ∧ combPeak N g s (j + 1) = some q ∧
      p = |g| ^ ((s - 1) / N + j) ∧ q ≤ p) ∧
    (∀ s, 1 ≤ s →
      Filter.Tendsto (fun j => (combPeak N g s j).getD 0) Filter.atTop (nhds 0)) ∧
    (∀ (r0 r : Reverb ℝ) (sr : Int), r0.prepare sr = some r →
      r.combs.map Delay.feedback = [78 / 100, 80 / 100, 82 / 100, 76 / 100] ∧
      r.allpasses.map Delay.feedback = [70 / 100, 70 / 100] ∧
      ∀ d ∈ r.combs ++ r.allpasses, |d.feedback| < 1) := by
  refine ⟨fun m => impulseResponse_closed N hN g m, ?_, ?_, ?_⟩
  · intro s hs j
    refine ⟨_, _, combPeak_closed N hN g hg.le s j hs, combPeak_closed N hN g hg.le s (j + 1) hs,
      rfl, ?_⟩
    exact pow_le_pow_of_le_one (abs_nonneg g) hg.le (by omega)
  · intro s hs
    have hfun : (fun j => (combPeak N g s j).getD 0)
        = fun j => |g| ^ ((s - 1) / N) * |g| ^ j := by
      funext j
      rw [combPeak_closed N hN g hg.le s j hs, pow_add]; rfl
    rw [hfun]
    have := (tendsto_pow_atTop_nhds_zero_of_lt_one (abs_nonneg g) hg).const_mul
      (|g| ^ ((s - 1) / N))
    simpa using this
  · intro r0 r sr h
    obtain ⟨hc, ha⟩ := Reverb.prepare_feedback r0 r sr h
    refine ⟨hc, ha, ?_⟩
    intro d hd
    have hmem : d.feedback ∈ (r.combs ++ r.allpasses).map Delay.feedback :=
      List.mem_map_of_mem _ hd
    rw [List.map_append, hc, ha] at hmem
    simp only [List.cons_append, List.nil_append, List.mem_cons, List.mem_singleton,
      List.not_mem_nil, or_false] at hmem
    rcases hmem with h | h | h | h | h | h <;> rw [h, abs_lt] <;> constructor <;> norm_num

/-- The first comb of a reverb prepared at 48 kHz: capacity 1425, feedback 0.78. -/
theorem comb_impulse_decay_witness :
    (∀ m, ∃ outs, impulseResponse 1425 (78 / 100 : ℝ) m = some outs ∧ outs.length = m + 1 ∧
      ∀ t, t ≤ m →
        outs[t]? = some (if 0 < t ∧ 1425 ∣ t then (78 / 100 : ℝ) ^ (t / 1425 - 1) else 0)) ∧
    (∀ s, 1 ≤ s → ∀ j, ∃ p q, combPeak 1425 (78 / 100 : ℝ) s j = some p ∧
      combPeak 1425 (78 / 100 : ℝ) s (j + 1) = some q ∧
      p = |(78 / 100 : ℝ)| ^ ((s - 1) / 1425 + j) ∧ q ≤ p) :=
  ⟨(comb_impulse_decay 1425 (by decide) (78 / 100)
      (by rw [abs_lt]; constructor <;> norm_num)).1,
   (comb_impulse_decay 1425 (by decide) (78 / 100)
      (by rw [abs_lt]; constructor <;> norm_num)).2.1⟩

end DelayClaims

/-! ## The one-pole lowpass -/

section OnePole
variable [LinearOrderedField α]

theorem Fuzz.lpfConst_closed (f : Fuzz α) (v x : α) (ha : f.lpf_a = 1 - x)
    (hb : f.lpf_b = x) (n : Nat) :
    Fuzz.lpfConst f v n
      = (v + (f.lpf_z - v) * x ^ (n + 1),
         { f with lpf_z := v + (f.lpf_z - v) * x ^ (n + 1) }) := by
  induction n with
  | zero =>
    simp only [Fuzz.lpfConst, Fuzz.lpf_process, ha, hb]
    refine Prod.ext ?_ ?_
    · simp only; ring
    · simp only; congr 1; ring
  | succ n ih =>
    simp only [Fuzz.lpfConst, ih, Fuzz.lpf_process, ha, hb]
    refine Prod.ext ?_ ?_
    · simp only; ring
    · simp only; congr 1; ring

theorem PingPongDelay.fbLowpassConst_closed (d : PingPongDelay α) (v x : α)
    (ha : d.fbLowpass_a0 = 1 - x) (hb : d.fbLowpass_b1 = x) (n : Nat) :
    PingPongDelay.fbLowpassConst d v n
      = (v + (d.fbLowpass_z - v) * x ^ (n + 1),
         { d with fbLowpass_z := v + (d.fbLowpass_z - v) * x ^ (n + 1) }) := by
  induction n with
  | zero =>
    simp only [PingPongDelay.fbLowpassConst, PingPongDelay.fbLowpass_process, ha, hb]
    refine Prod.ext ?_ ?_
    · simp only; ring
    · simp only; congr 1; ring
  | succ n ih =>
    simp only [PingPongDelay.fbLowpassConst, ih, PingPongDelay.fbLowpass_process, ha, hb]
    refine Prod.ext ?_ ?_
    · simp only; ring
    · simp only; congr 1; ring

theorem Fuzz.setLowpass_some (expf : α → α) (M_PI : α) (f : Fuzz α) (fc : α)
    (h : f.sampleRate ≠ 0) :
    ∃ f1, Fuzz.setLowpass expf M_PI f fc = some f1 ∧
      f1.lpf_b = expf (-2 * M_PI * fc / (f.sampleRate : α)) ∧
      f1.lpf_a = 1 - expf (-2 * M_PI * fc / (f.sampleRate : α)) :=
  ⟨{ f with lpf_a := 1 - expf (-2 * M_PI * fc / (f.sampleRate : α)),
             lpf_b := expf (-2 * M_PI * fc / (f.sampleRate : α)) },
    by simp only [Fuzz.setLowpass, h, if_false], rfl, rfl⟩

theorem PingPongDelay.fbLowpass_setCutoff_some (expf : α → α) (M_PI : α)
    (d : PingPongDelay α) (fc : α) (h : d.sampleRate ≠ 0) :
    ∃ d1, PingPongDelay.fbLowpass_setCutoff expf M_PI d fc = some d1 ∧
      d1.fbLowpass_b1 = expf (-2 * M_PI * fc / (d.sampleRate : α)) ∧
      d1.fbLowpass_a0 = 1 - expf (-2 * M_PI * fc / (d.sampleRate : α)) :=
  ⟨{ d with fbLowpass_b1 := expf (-2 * M_PI * fc / (d.sampleRate : α)),
             fbLowpass_a0 := 1 - expf (-2 * M_PI * fc / (d.sampleRate : α)) },
    by simp only [PingPongDelay.fbLowpass_setCutoff, h, if_false], rfl, rfl⟩

end OnePole

theorem exp_coeff_bounds (sr : Int) (fc : ℝ) (hsr : 0 < sr) (hfc : 0 < fc) :
    0 < Real.exp (-2 * Real.pi * fc / (sr : ℝ)) ∧
      Real.exp (-2 * Real.pi * fc / (sr : ℝ)) < 1 := by
  refine ⟨Real.exp_pos _, ?_⟩
  rw [Real.exp_lt_one_iff]
  have hs : (0 : ℝ) < (sr : ℝ) := by exact_mod_cast hsr
  have hp := Real.pi_pos
  have hnum : -2 * Real.pi * fc < 0 := by nlinarith [mul_pos hp hfc]
  exact div_neg_of_neg_of_pos hnum hs

theorem tendsto_onepole (z0 v x : ℝ) (h0 : 0 < x) (h1 : x < 1) :
    Filter.Tendsto (fun n : Nat => v + (z0 - v) * x ^ (n + 1)) Filter.atTop (nhds v) := by
  have hp : Filter.Tendsto (fun n : Nat => x ^ (n + 1)) Filter.atTop (nhds 0) :=
    (Filter.tendsto_add_atTop_iff_nat 1).mpr
      (tendsto_pow_atTop_nhds_zero_of_lt_one h0.le h1)
  have := (hp.const_mul (z0 - v)).const_add v
  simpa using this

/-- C6. In exact real arithmetic, for a sample rate `sr > 0` and a cutoff `fc > 0` (the
bound `fc < sr / 2` is not needed) `Fuzz::setLowpass` and
`PingPongDelay::fbLowpass_setCutoff` store `b1 = x = exp(-2π·fc/sr)` with `0 < x < 1` and
`a0 = 1 - x`; for every start state `z0` and constant input `v` the `n`-th call of the
lowpass (`n ≥ 1`) returns `v + (z0 - v)·x^n` and stores it, and this tends to `v`. -/
theorem onepole_lowpass_converges (f : Fuzz ℝ) (d : PingPongDelay ℝ) (sr : Int) (fc : ℝ)
    (hf : f.sampleRate = sr) (hd : d.sampleRate = sr) (hsr : 0 < sr) (hfc : 0 < fc) :
    ∃ f1 d1, Fuzz.setLowpass Real.exp Real.pi f fc = some f1 ∧
      PingPongDelay.fbLowpass_setCutoff Real.exp Real.pi d fc = some d1 ∧
      f1.lpf_b = Real.exp (-2 * Real.pi * fc / (sr : ℝ)) ∧ f1.lpf_a = 1 - f1.lpf_b ∧
      d1.fbLowpass_b1 = Real.exp (-2 * Real.pi * fc / (sr : ℝ)) ∧
      d1.fbLowpass_a0 = 1 - d1.fbLowpass_b1 ∧
      0 < Real.exp (-2 * Real.pi * fc / (sr : ℝ)) ∧
      Real.exp (-2 * Real.pi * fc / (sr : ℝ)) < 1 ∧
      (∀ (z0 v : ℝ) (n : Nat),
        (Fuzz.lpfConst { f1 with lpf_z := z0 } v n).1 = v + (z0 - v) * f1.lpf_b ^ (n + 1) ∧
        (Fuzz.lpfConst { f1 with lpf_z := z0 } v n).2.lpf_z
          = v + (z0 - v) * f1.lpf_b ^ (n + 1) ∧
        (PingPongDelay.fbLowpassConst { d1 with fbLowpass_z := z0 } v n).1
          = v + (z0 - v) * d1.fbLowpass_b1 ^ (n + 1) ∧
        (PingPongDelay.fbLowpassConst { d1 with fbLowpass_z := z0 } v n).2.fbLowpass_z
          = v + (z0 - v) * d1.fbLowpass_b1 ^ (n + 1)) ∧
      (∀ z0 v : ℝ,
        Filter.Tendsto (fun n => (Fuzz.lpfConst { f1 with lpf_z := z0 } v n).1)
          Filter.atTop (nhds v) ∧
        Filter.Tendsto
          (fun n => (PingPongDelay.fbLowpassConst { d1 with fbLowpass_z := z0 } v n).1)
          Filter.atTop (nhds v)) := by
  have hne : sr ≠ 0 := by omega
  obtain ⟨hx0, hx1⟩ := exp_coeff_bounds sr fc hsr hfc
  obtain ⟨f1, hf1, hfb, hfa⟩ := Fuzz.setLowpass_some Real.exp Real.pi f fc (by rw [hf]; exact hne)
  obtain ⟨d1, hd1, hdb, hda⟩ :=
    PingPongDelay.fbLowpass_setCutoff_some Real.exp Real.pi d fc (by rw [hd]; exact hne)
  rw [hf] at hfb hfa
  rw [hd] at hdb hda
  have hF : ∀ (z0 v : ℝ) (n : Nat), Fuzz.lpfConst { f1 with lpf_z := z0 } v n
      = (v + (z0 - v) * f1.lpf_b ^ (n + 1),
         { f1 with lpf_z := v + (z0 - v) * f1.lpf_b ^ (n + 1) }) := fun z0 v n =>
    Fuzz.lpfConst_closed { f1 with lpf_z := z0 } v f1.lpf_b (by rw [hfb]; exact hfa) rfl n
  have hD : ∀ (z0 v : ℝ) (n : Nat),
      PingPongDelay.fbLowpassConst { d1 with fbLowpass_z := z0 } v n
      = (v + (z0 - v) * d1.fbLowpass_b1 ^ (n + 1),
         { d1 with fbLowpass_z := v + (z0 - v) * d1.fbLowpass_b1 ^ (n + 1) }) := fun z0 v n =>
    PingPongDelay.fbLowpassConst_closed { d1 with fbLowpass_z := z0 } v d1.fbLowpass_b1
      (by rw [hdb]; exact hda) rfl n
  refine ⟨f1, d1, hf1, hd1, hfb, by rw [hfb]; exact hfa, hdb, by rw [hdb]; exact hda,
    hx0, hx1, ?_, ?_⟩
  · intro z0 v n
    rw [hF z0 v n, hD z0 v n]
    exact ⟨rfl, rfl, rfl, rfl⟩
  · intro z0 v
    constructor
    · simp only [hF]
      rw [hfb]
      exact tendsto_onepole z0 v _ hx0 hx1
    · simp only [hD]
      rw [hdb]
      exact tendsto_onepole z0 v _ hx0 hx1

/-- The lowpass of a Fuzz and of a PingPongDelay at 48 kHz with cutoff 800 Hz. -/
theorem onepole_lowpass_converges_witness :
    ∃ (f1 : Fuzz ℝ) (d1 : PingPongDelay ℝ),
      Fuzz.setLowpass Real.exp Real.pi Fuzz.new 800 = some f1 ∧
      PingPongDelay.fbLowpass_setCutoff Real.exp Real.pi PingPongDelay.new 800 = some d1 ∧
      f1.lpf_b = Real.exp (-2 * Real.pi * 800 / ((48000 : Int) : ℝ)) ∧
      d1.fbLowpass_b1 = Real.exp (-2 * Real.pi * 800 / ((48000 : Int) : ℝ)) ∧
      ∀ z0 v : ℝ,
        Filter.Tendsto (fun n => (Fuzz.lpfConst { f1 with lpf_z := z0 } v n).1)
          Filter.atTop (nhds v) := by
  obtain ⟨f1, d1, h1, h2, h3, _, h5, _, _, _, _, h⟩ :=
    onepole_lowpass_converges (Fuzz.new : Fuzz ℝ) (PingPongDelay.new : PingPongDelay ℝ)
      48000 800 rfl rfl (by decide) (by norm_num)
  exact ⟨f1, d1, h1, h2, h3, h5, fun z0 v => (h z0 v).1⟩

/-! ## Bitcrusher -/

section BitcrusherClaims
variable [LinearOrderedField α] [FloorRing α]

omit [LinearOrderedField α] [FloorRing α] in
theorem Bitcrusher.clampParams_spec (b : Bitcrusher α) :
    (Bitcrusher.clampParams b).bitDepth = max 1 (min b.bitDepth 24) ∧
      (Bitcrusher.clampParams b).downsampleFactor = max b.downsampleFactor 1 ∧
      (Bitcrusher.clampParams b).holdCounter = b.holdCounter ∧
      (Bitcrusher.clampParams b).heldSample = b.heldSample ∧
      (Bitcrusher.clampParams b).sampleRate = b.sampleRate := by
  unfold Bitcrusher.clampParams
  simp only
  by_cases h1 : b.downsampleFactor < 1 <;> by_cases h2 : b.bitDepth < 1 <;>
    by_cases h3 : b.bitDepth > 24 <;>
    simp [h1, h2, h3] <;> omega

theorem Bitcrusher.quantizeSample_some (x : α) (bits : Int) (h1 : 1 ≤ bits) (h2 : bits ≤ 24) :
    ∃ y, Bitcrusher.quantizeSample x bits = some y := by
  have hr : ¬ (bits < 0 ∨ 31 ≤ bits) := by omega
  have hpow : (2 : Int) ^ bits.toNat - 1 ≠ 0 := by
    have h : 1 ≤ bits.toNat := by omega
    have : (2 : Int) ^ 1 ≤ 2 ^ bits.toNat := pow_le_pow_right₀ (by norm_num) h
    omega
  simp only [Bitcrusher.quantizeSample, hr, hpow, if_false]
  exact ⟨_, rfl⟩

theorem Bitcrusher.process_some (b : Bitcrusher α) (x : α) :
    ∃ out b1, Bitcrusher.process b x = some (out, b1) ∧
      b1.bitDepth = (Bitcrusher.clampParams b).bitDepth ∧
      b1.downsampleFactor = (Bitcrusher.clampParams b).downsampleFactor ∧
      ((Bitcrusher.clampParams b).holdCounter ≤ 0 →
        Bitcrusher.quantizeSample x (Bitcrusher.clampParams b).bitDepth = some b1.heldSample ∧
        b1.holdCounter = (Bitcrusher.clampParams b).downsampleFactor - 1) ∧
      (0 < (Bitcrusher.clampParams b).holdCounter →
        b1.heldSample = (Bitcrusher.clampParams b).heldSample ∧
        b1.holdCounter = (Bitcrusher.clampParams b).holdCounter - 1) := by
  obtain ⟨hbd, _, _, _, _⟩ := Bitcrusher.clampParams_spec b
  obtain ⟨y, hy⟩ := Bitcrusher.quantizeSample_some x (Bitcrusher.clampParams b).bitDepth
    (by rw [hbd]; exact le_max_left _ _)
    (by rw [hbd]; exact max_le (by norm_num) (min_le_right _ _))
  unfold Bitcrusher.process
  simp only [hy]
  by_cases hc : (Bitcrusher.clampParams b).holdCounter ≤ 0
  · simp only [hc, if_true]
    exact ⟨_, _, rfl, rfl, rfl, fun _ => ⟨rfl, rfl⟩, fun h => absurd h (not_lt.mpr hc)⟩
  · simp only [hc, if_false]
    exact ⟨_, _, rfl, rfl, rfl, fun h => False.elim h, fun _ => ⟨rfl, rfl⟩⟩

/-- C10. For every Bitcrusher state, also one whose `bitDepth` or `downsampleFactor` is out
of range, `process` returns a sample (no undefined shift, no zero divisor), leaves
`bitDepth` equal to the old value clamped into `[1, 24]` and `downsampleFactor` equal to
`max old 1`; the quantizer is invoked exactly when the hold counter is `≤ 0`, with the
clamped bit depth, and its result is the new held sample; the quantizer succeeds for every
`bits` in `[1, 24]`, where its divisor `2 ^ bits - 1` is at least 1, and its divisor is zero
for `bits = 0`. -/
theorem bitcrusher_process_clamps (b : Bitcrusher α) (x : α) :
    (∃ out b1, Bitcrusher.process b x = some (out, b1) ∧
      b1.bitDepth = max 1 (min b.bitDepth 24) ∧
      b1.downsampleFactor = max b.downsampleFactor 1 ∧
      1 ≤ b1.bitDepth ∧ b1.bitDepth ≤ 24 ∧ 1 ≤ b1.downsampleFactor ∧
      (1 : Int) ≤ 2 ^ b1.bitDepth.toNat - 1 ∧
      (b.holdCounter ≤ 0 →
        Bitcrusher.quantizeSample x (max 1 (min b.bitDepth 24)) = some b1.heldSample ∧
        b1.holdCounter = max b.downsampleFactor 1 - 1) ∧
      (0 < b.holdCounter →
        b1.heldSample = b.heldSample ∧ b1.holdCounter = b.holdCounter - 1)) ∧
    (∀ bits : Int, 1 ≤ bits → bits ≤ 24 →
      (1 : Int) ≤ 2 ^ bits.toNat - 1 ∧ ∃ y, Bitcrusher.quantizeSample x bits = some y) ∧
    Bitcrusher.quantizeSample x 0 = none := by
  have hq : ∀ bits : Int, 1 ≤ bits → bits ≤ 24 →
      (1 : Int) ≤ 2 ^ bits.toNat - 1 ∧ ∃ y, Bitcrusher.quantizeSample x bits = some y := by
    intro bits h1 h2
    refine ⟨?_, Bitcrusher.quantizeSample_some x bits h1 h2⟩
    have h : 1 ≤ bits.toNat := by omega
    have : (2 : Int) ^ 1 ≤ 2 ^ bits.toNat := pow_le_pow_right₀ (by norm_num) h
    omega
  obtain ⟨hbd, hdf, hhc, hhs, _⟩ := Bitcrusher.clampParams_spec b
  obtain ⟨out, b1, hp, h1, h2, h3, h4⟩ := Bitcrusher.process_some b x
  rw [hbd, hdf, hhc] at h3
  rw [hhc, hhs] at h4
  have hlo : 1 ≤ b1.bitDepth := by rw [h1, hbd]; exact le_max_left _ _
  have hhi : b1.bitDepth ≤ 24 := by
    rw [h1, hbd]; exact max_le (by norm_num) (min_le_right _ _)
  refine ⟨⟨out, b1, hp, by rw [h1, hbd], by rw [h2, hdf], hlo, hhi,
    by rw [h2, hdf]; exact le_max_right _ _, (hq _ hlo hhi).1, h3, h4⟩, hq, ?_⟩
  simp [Bitcrusher.quantizeSample]

/-- C7, as the code behaves. On a freshly constructed or reset Bitcrusher with
`bitDepth = 1` and `downsampleFactor = 1`, `process(0.5)` quantizes the input to exactly
`1` (`v = 0.75`, `steps = 2`, `q = 1`), mixes and trims it to `(0.6·0.5 + 0.9·1)·0.95 = 1.14`
and returns the soft-limited `1.14 / (1 + 1.14·0.6) = 1.14 / 1.684 = 285 / 421`. -/
theorem bitcrusher_literal (b : Bitcrusher α) :
    Bitcrusher.quantizeSample (1 / 2 : α) 1 = some 1 ∧
    Bitcrusher.process
        (Bitcrusher.setDownsampleFactor (Bitcrusher.setBitDepth (Bitcrusher.new : Bitcrusher α) 1) 1)
        (1 / 2)
      = some (285 / 421,
          { sampleRate := 48000, downsampleFactor := 1, bitDepth := 1, holdCounter := 0,
            heldSample := 1 }) ∧
    Bitcrusher.process
        (Bitcrusher.reset
          (Bitcrusher.setDownsampleFactor (Bitcrusher.setBitDepth b 1) 1))
        (1 / 2)
      = some (285 / 421,
          { sampleRate := b.sampleRate, downsampleFactor := 1, bitDepth := 1, holdCounter := 0,
            heldSample := 1 }) ∧
    (285 / 421 : α) = (114 / 100) / (1 + (114 / 100) * (6 / 10)) ∧
    (114 / 100 : α) = ((6 / 10) * (1 / 2) + (9 / 10) * 1) * (95 / 100) := by
  have hfl : ⌊(3 / 4 : α) + 1 / 2⌋ = 1 := by
    rw [Int.floor_eq_iff]; constructor <;> norm_num
  have hq : Bitcrusher.quantizeSample (1 / 2 : α) 1 = some 1 := by
    have h1 : ¬ ((1 / 2 : α) > 1) := by norm_num
    have h2 : ¬ ((1 / 2 : α) < -1) := by norm_num
    have h3 : ((1 / 2 : α) + 1) * (1 / 2) = 3 / 4 := by norm_num
    simp only [Bitcrusher.quantizeSample, h1, h2, if_false, h3]
    norm_num [hfl]
  have habs : |(57 / 50 : α)| = 57 / 50 := abs_of_nonneg (by norm_num)
  refine ⟨hq, ?_, ?_, by norm_num, by norm_num⟩
  · simp only [Bitcrusher.process, Bitcrusher.clampParams, Bitcrusher.setDownsampleFactor,
      Bitcrusher.setBitDepth, Bitcrusher.new, Bitcrusher.softLimit]
    norm_num [hq, habs]
  · simp only [Bitcrusher.process, Bitcrusher.clampParams, Bitcrusher.setDownsampleFactor,
      Bitcrusher.setBitDepth, Bitcrusher.reset, Bitcrusher.softLimit]
    norm_num [hq, habs]

/-- C7 as stated fails: on the fresh Bitcrusher with `bitDepth = 1`, `downsampleFactor = 1`
the value returned for `0.5` is `285/421 ≈ 0.677`, not `1.083 / 1.6498 ≈ 0.6564`. -/
theorem bitcrusher_spec_value_refuted :
    (Bitcrusher.process
        (Bitcrusher.setDownsampleFactor (Bitcrusher.setBitDepth (Bitcrusher.new : Bitcrusher ℚ) 1) 1)
        (1 / 2)).map Prod.fst = some (285 / 421) ∧
    (285 / 421 : ℚ) ≠ (1083 / 1000) / (1 + (1083 / 1000) * (6 / 10)) ∧
    (285 / 421 : ℚ) ≠ (1083 / 1000) / (16498 / 10000) ∧
    (2 / 100 : ℚ) < 285 / 421 - 6564 / 10000 := by
  have hfl : ⌊(3 / 4 : ℚ) + 1 / 2⌋ = 1 := by
    rw [Int.floor_eq_iff]; constructor <;> norm_num
  have hq : Bitcrusher.quantizeSample (1 / 2 : ℚ) 1 = some 1 := by
    have h1 : ¬ ((1 / 2 : ℚ) > 1) := by norm_num
    have h2 : ¬ ((1 / 2 : ℚ) < -1) := by norm_num
    have h3 : ((1 / 2 : ℚ) + 1) * (1 / 2) = 3 / 4 := by norm_num
    simp only [Bitcrusher.quantizeSample, h1, h2, if_false, h3]
    norm_num [hfl]
  have habs : |(57 / 50 : ℚ)| = 57 / 50 := abs_of_nonneg (by norm_num)
  refine ⟨?_, by norm_num, by norm_num, by norm_num⟩
  simp only [Bitcrusher.process, Bitcrusher.clampParams, Bitcrusher.setDownsampleFactor,
    Bitcrusher.setBitDepth, Bitcrusher.new, Bitcrusher.softLimit]
  norm_num [hq, habs]

end BitcrusherClaims

/-! ## AutoSwell -/

section AutoSwellClaims
variable [LinearOrderedField α]

/-- While the input stays above a positive threshold and the previous magnitude was above it
too, `n` calls raise the envelope `e` to `min (e + n·attackCoeff) 1`. -/
theorem AutoSwell.run_sustain (ins : List α) :
    ∀ a : AutoSwell α, 0 < a.threshold → 0 ≤ a.attackCoeff → a.threshold < a.prevAbs →
      0 ≤ a.env → a.env ≤ 1 → (∀ x ∈ ins, a.threshold < |x|) →
      (AutoSwell.run a ins).2.env = min (a.env + (ins.length : α) * a.attackCoeff) 1 ∧
      (AutoSwell.run a ins).2.attackCoeff = a.attackCoeff := by
  induction ins with
  | nil =>
    intro a _ _ _ _ h1 _
    simp [AutoSwell.run, h1]
  | cons x xs ih =>
    intro a hth hc hprev h0 h1 hall
    have hx : a.threshold < |x| := hall x (List.mem_cons_self _ _)
    have hnr : ¬ (|x| < a.threshold * (1 / 2)) := by
      have : a.threshold * (1 / 2) < a.threshold := by linarith
      exact not_lt.mpr (by linarith)
    have hno : ¬ (|x| > a.threshold ∧ a.prevAbs ≤ a.threshold) := fun h =>
      absurd h.2 (not_le.mpr hprev)
    have henv : (a.process x).2.env = min (a.env + a.attackCoeff) 1 := by
      simp only [AutoSwell.process, hno, hnr, if_false]
      by_cases he : a.env < 1
      · have h3 : ¬ (a.env + a.attackCoeff < 0) := not_lt.mpr (by linarith)
        simp only [he, if_true, h3, if_false]
        by_cases h4 : a.env + a.attackCoeff > 1
        · simp only [h4, if_true]; rw [min_eq_right h4.le]
        · simp only [h4, if_false]; rw [min_eq_left (not_lt.mp h4)]
      · have he1 : a.env = 1 := le_antisymm h1 (not_lt.mp he)
        have h3 : ¬ ((1 : α) < 0) := by norm_num
        have h4 : ¬ ((1 : α) > 1) := by norm_num
        simp only [he, if_false, h3, h4]
        rw [he1, min_eq_right (by linarith)]
    have hstep := ih (a.process x).2 hth hc (by simpa [AutoSwell.process] using hx)
      (by rw [henv]; exact le_min (by linarith) (by norm_num))
      (by rw [henv]; exact min_le_right _ _)
      (fun y hy => hall y (List.mem_cons_of_mem _ hy))
    have hrun : AutoSwell.run a (x :: xs)
        = ((a.process x).1 :: (AutoSwell.run (a.process x).2 xs).1,
           (AutoSwell.run (a.process x).2 xs).2) := rfl
    have hac : (a.process x).2.attackCoeff = a.attackCoeff := rfl
    rw [hrun]
    simp only
    rw [hstep.1, hstep.2, henv, hac]
    refine ⟨?_, rfl⟩
    simp only [List.length_cons, Nat.cast_add, Nat.cast_one]
    have hn : (0 : α) ≤ (xs.length : α) * a.attackCoeff :=
      mul_nonneg (Nat.cast_nonneg _) hc
    rcases le_total (a.env + a.attackCoeff) 1 with h | h
    · rw [min_eq_left h]
      congr 1; ring
    · rw [min_eq_right h, min_eq_right (by linarith), min_eq_right]
      nlinarith

/-- The onset sample resets the envelope, and the samples after it ramp it. -/
theorem AutoSwell.run_onset (a : AutoSwell α) (x : α) (xs : List α) (hth : 0 < a.threshold)
    (hc : 0 ≤ a.attackCoeff) (hprev : a.prevAbs ≤ a.threshold)
    (hall : ∀ y ∈ x :: xs, a.threshold < |y|) :
    (AutoSwell.run a (x :: xs)).2.env
      = min (((x :: xs).length : α) * a.attackCoeff) 1 := by
  have hx : a.threshold < |x| := hall x (List.mem_cons_self _ _)
  have hnr : ¬ (|x| < a.threshold * (1 / 2)) := by
    have : a.threshold * (1 / 2) < a.threshold := by linarith
    exact not_lt.mpr (by linarith)
  have hon : |x| > a.threshold ∧ a.prevAbs ≤ a.threshold := ⟨hx, hprev⟩
  have henv : (a.process x).2.env = min a.attackCoeff 1 := by
    have h3 : ¬ (0 + a.attackCoeff < 0) := not_lt.mpr (by linarith)
    simp only [AutoSwell.process, hon, hnr, if_false, and_self, if_true, zero_lt_one, h3]
    by_cases h4 : 0 + a.attackCoeff > 1
    · simp only [h4, if_true]; rw [min_eq_right (by linarith)]
    · simp only [h4, if_false]; rw [min_eq_left (by linarith [not_lt.mp h4]), zero_add]
  have hstep := AutoSwell.run_sustain xs (a.process x).2 hth hc
    (by simpa [AutoSwell.process] using hx)
    (by rw [henv]; exact le_min hc (by norm_num))
    (by rw [henv]; exact min_le_right _ _)
    (fun y hy => hall y (List.mem_cons_of_mem _ hy))
  have hrun : AutoSwell.run a (x :: xs)
      = ((a.process x).1 :: (AutoSwell.run (a.process x).2 xs).1,
         (AutoSwell.run (a.process x).2 xs).2) := rfl
  have hac : (a.process x).2.attackCoeff = a.attackCoeff := rfl
  rw [hrun]
  simp only
  rw [hstep.1, henv, hac]
  simp only [List.length_cons, Nat.cast_add, Nat.cast_one]
  have hn : (0 : α) ≤ (xs.length : α) * a.attackCoeff := mul_nonneg (Nat.cast_nonneg _) hc
  rcases le_total a.attackCoeff 1 with h | h
  · rw [min_eq_left h]
    congr 1; ring
  · rw [min_eq_right h, min_eq_right (by linarith), min_eq_right]
    nlinarith

/-- C8. With the default attack time 0.15 s and threshold 0.01, after `prepare(sr)`, `sr > 0`,
for every prior envelope value and every previous magnitude `≤ 0.01`: when the input jumps
to 0.02 and then stays above the threshold, the envelope after `k ≥ 1` samples (the onset
sample counted) is `min (k·attackCoeff) 1` with `attackCoeff = 1/(0.15·sr)`; so it is
`attackCoeff` after the onset sample whatever it was before, it is `k·attackCoeff` for
every `k ≤ 0.15·sr`, and it equals `1` exactly for the `k ≥ 0.15·sr`. -/
theorem autoswell_onset_ramp (sr : Int) (hsr : 0 < sr) (e0 p0 ac rc : α)
    (hp : p0 ≤ 1 / 100) (rest : List α) (hrest : ∀ x ∈ rest, 1 / 100 < |x|) :
    ∃ p, AutoSwell.prepare { AutoSwell.new ac rc with env := e0, prevAbs := p0 } sr = some p ∧
      p.attackCoeff = 1 / ((15 / 100) * (sr : α)) ∧
      (AutoSwell.run p [2 / 100]).2.env = min p.attackCoeff 1 ∧
      ∀ k : Nat, 1 ≤ k → k ≤ rest.length + 1 →
        (AutoSwell.run p (((2 / 100 : α) :: rest).take k)).2.env
            = min ((k : α) * p.attackCoeff) 1 ∧
        ((k : α) ≤ (15 / 100) * (sr : α) →
          (AutoSwell.run p (((2 / 100 : α) :: rest).take k)).2.env = (k : α) * p.attackCoeff) ∧
        ((AutoSwell.run p (((2 / 100 : α) :: rest).take k)).2.env = 1
          ↔ (15 / 100) * (sr : α) ≤ (k : α)) := by
  have hs : (0 : α) < (sr : α) := by exact_mod_cast hsr
  have hd : (0 : α) < (15 / 100) * (sr : α) := by positivity
  have hd2 : (0 : α) < (2 / 10) * (sr : α) := by positivity
  have hc : (0 : α) < 1 / ((15 / 100) * (sr : α)) := by positivity
  have h2 : (1 / 100 : α) < |(2 / 100 : α)| := by
    rw [abs_of_nonneg (by norm_num)]; norm_num
  refine ⟨{ AutoSwell.new ac rc with
              env := e0, prevAbs := p0, sampleRate := sr,
              attackCoeff := 1 / ((15 / 100) * (sr : α)),
              releaseCoeff := 1 / ((2 / 10) * (sr : α)) }, ?_, rfl, ?_, ?_⟩
  · simp only [AutoSwell.prepare, AutoSwell.new]
    rw [if_neg (by
      intro h
      rcases h with h | h
      · exact (ne_of_gt hd) h
      · exact (ne_of_gt hd2) h)]
  · have := AutoSwell.run_onset
      ({ AutoSwell.new ac rc with
          env := e0, prevAbs := p0, sampleRate := sr,
          attackCoeff := 1 / ((15 / 100) * (sr : α)),
          releaseCoeff := 1 / ((2 / 10) * (sr : α)) } : AutoSwell α) (2 / 100) []
      (by simp [AutoSwell.new]) hc.le hp
      (by intro y hy; simp only [List.mem_singleton] at hy; rw [hy]; exact h2)
    simpa using this
  · intro k hk1 hk2
    obtain ⟨j, rfl⟩ : ∃ j, k = j + 1 := ⟨k - 1, by omega⟩
    have hlen : (((2 / 100 : α) :: rest).take (j + 1)).length = j + 1 := by
      simp only [List.length_take, List.length_cons]; omega
    have henv := AutoSwell.run_onset
      ({ AutoSwell.new ac rc with
          env := e0, prevAbs := p0, sampleRate := sr,
          attackCoeff := 1 / ((15 / 100) * (sr : α)),
          releaseCoeff := 1 / ((2 / 10) * (sr : α)) } : AutoSwell α)
      (2 / 100) (rest.take j) (by simp [AutoSwell.new]) hc.le hp
      (by
        intro y hy
        rcases List.mem_cons.mp hy with h | h
        · rw [h]; exact h2
        · exact hrest y (List.mem_of_mem_take h))
    rw [List.take_succ_cons]
    rw [← List.take_succ_cons, hlen] at henv
    rw [List.take_succ_cons] at henv
    simp only at henv
    have hkc : ((j + 1 : Nat) : α) * (1 / ((15 / 100) * (sr : α))) ≤ 1
        ↔ ((j + 1 : Nat) : α) ≤ (15 / 100) * (sr : α) := by
      rw [mul_one_div, div_le_one hd]
    have hck : 1 ≤ ((j + 1 : Nat) : α) * (1 / ((15 / 100) * (sr : α)))
        ↔ (15 / 100) * (sr : α) ≤ ((j + 1 : Nat) : α) := by
      rw [mul_one_div, one_le_div hd]
    refine ⟨henv, ?_, ?_⟩
    · intro hle
      rw [henv]
      exact min_eq_left (hkc.mpr hle)
    · rw [henv]
      constructor
      · intro h
        apply hck.mp
        rcases le_total (((j + 1 : Nat) : α) * (1 / ((15 / 100) * (sr : α)))) 1 with h' | h'
        · rw [min_eq_left h'] at h; exact h.ge
        · exact h'
      · intro h
        exact min_eq_right (hck.mpr h)

/-- At 48 kHz the envelope first equals 1 after exactly 7200 samples. -/
theorem autoswell_onset_ramp_witness :
    ∃ p : AutoSwell ℚ,
      AutoSwell.prepare { (AutoSwell.new 0 0 : AutoSwell ℚ) with env := 1 / 2, prevAbs := 0 }
          48000 = some p ∧
      p.attackCoeff = 1 / ((15 / 100) * ((48000 : Int) : ℚ)) ∧
      ∀ k : Nat, 1 ≤ k → k ≤ (List.replicate 9000 (2 / 100 : ℚ)).length + 1 →
        ((AutoSwell.run p (((2 / 100 : ℚ) :: List.replicate 9000 (2 / 100)).take k)).2.env = 1
          ↔ (7200 : ℚ) ≤ (k : ℚ)) := by
  obtain ⟨p, h1, h2, _, h4⟩ :=
    autoswell_onset_ramp (48000 : Int) (by decide) (1 / 2 : ℚ) 0 0 0 (by norm_num)
      (List.replicate 9000 (2 / 100 : ℚ))
      (by
        intro x hx
        rw [List.eq_of_mem_replicate hx, abs_of_nonneg (by norm_num)]
        norm_num)
  refine ⟨p, h1, h2, fun k hk1 hk2 => ?_⟩
  have h := (h4 k hk1 hk2).2.2
  have e : (15 / 100 : ℚ) * ((48000 : Int) : ℚ) = 7200 := by norm_num
  rw [e] at h
  exact h

end AutoSwellClaims

/-! ## The frame callback -/

section Callback
variable [LinearOrderedField α] [FloorRing α]

/-- One iteration of the callback loop is one sample through the chain followed by the two
stereo writes. -/
theorem audioLoop_succ (sinf tanhf : α → α) (M_PI : α) (inp : List α) (k i : Nat)
    (e : Engine α) (out : List α) :
    audioLoop sinf tanhf M_PI inp (k + 1) i e out =
      match inp[i]? with
      | none => none
      | some x =>
        match chainSample sinf tanhf M_PI e x with
        | none => none
        | some (y, e1) =>
          match writeAt out (2 * (i : Int) + 0) y with
          | none => none
          | some out1 =>
            match writeAt out1 (2 * (i : Int) + 1) y with
            | none => none
            | some out2 => audioLoop sinf tanhf M_PI inp k (i + 1) e1 out2 := by
  rw [audioLoop]
  cases inp[i]? with
  | none => rfl
  | some x =>
    simp only [chainSample, chainStage]
    cases e.usePhaser <;> cases e.useExciter <;> cases e.useReverb <;>
      simp only [Bool.false_eq_true, if_false, if_true, Option.some_bind] <;>
      first
      | rfl
      | (cases Phaser.process sinf M_PI e.gPhaser x <;>
          simp only [Option.none_bind, Option.some_bind] <;>
          first
          | rfl
          | (rename_i r1
             cases Reverb.process e.gReverb (Exciter.process tanhf e.gExciter r1.1).1 <;> rfl)
          | (rename_i r1
             cases Reverb.process e.gReverb r1.1 <;> rfl))
      | (cases Reverb.process e.gReverb (Exciter.process tanhf e.gExciter x).1 <;> rfl)
      | (cases Reverb.process e.gReverb x <;> rfl)

omit [LinearOrderedField α] [FloorRing α] in
theorem writeAt_some (out : List α) (j : Nat) (v : α) (h : j < out.length) :
    writeAt out (j : Int) v = some (out.set j v) := by
  have : (0 : Int) ≤ (j : Int) ∧ (j : Int) < (out.length : Int) := ⟨by omega, by omega⟩
  simp [writeAt, this]

theorem audioLoop_spec (sinf tanhf : α → α) (M_PI : α) (inp : List α) :
    ∀ (k i : Nat) (e : Engine α) (out : List α), i + k ≤ inp.length →
      2 * (i + k) ≤ out.length →
      (chainRun sinf tanhf M_PI e ((inp.drop i).take k) = none →
        audioLoop sinf tanhf M_PI inp k i e out = none) ∧
      (∀ ys e1, chainRun sinf tanhf M_PI e ((inp.drop i).take k) = some (ys, e1) →
        ∃ out1, audioLoop sinf tanhf M_PI inp k i e out = some (out1, e1) ∧
          out1.length = out.length ∧ ys.length = k ∧
          (∀ t, t < k → out1[2 * (i + t)]? = ys[t]? ∧ out1[2 * (i + t) + 1]? = ys[t]?) ∧
          (∀ j, j < 2 * i ∨ 2 * (i + k) ≤ j → out1[j]? = out[j]?)) := by
  intro k
  induction k with
  | zero =>
    intro i e out _ _
    simp only [List.take_zero, chainRun]
    refine ⟨fun h => absurd h (by simp), ?_⟩
    intro ys e1 h
    simp only [Option.some.injEq, Prod.mk.injEq] at h
    obtain ⟨rfl, rfl⟩ := h
    exact ⟨out, rfl, rfl, rfl, fun t ht => absurd ht (by omega), fun _ _ => rfl⟩
  | succ k ih =>
    intro i e out hi ho
    have hlt : i < inp.length := by omega
    have hget : inp[i]? = some inp[i] := List.getElem?_eq_getElem hlt
    have htake : (inp.drop i).take (k + 1) = inp[i] :: (inp.drop (i + 1)).take k := by
      rw [List.drop_eq_getElem_cons hlt, List.take_succ_cons]
    rw [htake, audioLoop_succ, hget]
    simp only [chainRun]
    cases hcs : chainSample sinf tanhf M_PI e inp[i] with
    | none => simp
    | some r =>
      obtain ⟨y, e1⟩ := r
      have hw1 : writeAt out (2 * (i : Int) + 0) y = some (out.set (2 * i) y) := by
        have := writeAt_some out (2 * i) y (by omega)
        simpa using this
      have hw2 : writeAt (out.set (2 * i) y) (2 * (i : Int) + 1) y
          = some ((out.set (2 * i) y).set (2 * i + 1) y) := by
        have := writeAt_some (out.set (2 * i) y) (2 * i + 1) y (by simp; omega)
        simpa using this
      simp only [Option.some_bind, hw1, hw2]
      obtain ⟨ihn, ihs⟩ := ih (i + 1) e1 ((out.set (2 * i) y).set (2 * i + 1) y)
        (by omega) (by simp; omega)
      cases hcr : chainRun sinf tanhf M_PI e1 ((inp.drop (i + 1)).take k) with
      | none => simp [ihn hcr]
      | some rs =>
        obtain ⟨ys, e2⟩ := rs
        obtain ⟨out1, hl, hlen, hys, hin, hout⟩ := ihs ys e2 hcr
        refine ⟨fun h => absurd h (by simp), ?_⟩
        intro ys' e' h
        simp only [Option.some_bind, Option.some.injEq, Prod.mk.injEq] at h
        obtain ⟨rfl, rfl⟩ := h
        refine ⟨out1, hl, by simpa using hlen, by simp [hys], ?_, ?_⟩
        · intro t ht
          cases t with
          | zero =>
            have a1 := hout (2 * i) (Or.inl (by omega))
            have a2 := hout (2 * i + 1) (Or.inl (by omega))
            have hne : 2 * i ≠ 2 * i + 1 := by omega
            have hl0 : 2 * i < out.length := by omega
            have hl1 : 2 * i + 1 < (out.set (2 * i) y).length := by simp; omega
            simp only [Nat.add_zero, List.getElem?_cons_zero]
            constructor
            · rw [a1, List.getElem?_set_ne (Ne.symm hne), List.getElem?_set_eq_of_lt _ hl0]
            · rw [a2, List.getElem?_set_eq_of_lt _ hl1]
          | succ t =>
            have := hin t (by omega)
            have e1 : 2 * (i + (t + 1)) = 2 * (i + 1 + t) := by omega
            rw [e1, List.getElem?_cons_succ]
            exact this
        · intro j hj
          have a := hout j (by omega)
          have hne1 : 2 * i + 1 ≠ j := by omega
          have hne0 : 2 * i ≠ j := by omega
          rw [a, List.getElem?_set_ne hne1, List.getElem?_set_ne hne0]

theorem chainRun_flags_clear (sinf tanhf : α → α) (M_PI : α) (xs : List α) :
    ∀ e : Engine α, e.usePhaser = false → e.useExciter = false → e.useReverb = false →
      chainRun sinf tanhf M_PI e xs = some (xs, e) := by
  induction xs with
  | nil => intro e _ _ _; rfl
  | cons x xs ih =>
    intro e h1 h2 h3
    have hs : chainSample sinf tanhf M_PI e x = some (x, e) := by
      rcases e with ⟨p, q, r, f1, f2, f3⟩
      simp only at h1 h2 h3
      subst h1 h2 h3
      rfl
    simp [chainRun, hs, ih e h1 h2 h3]

/-- C1. For every frame count `n`, every engine state (the three units and the three flags)
and output memory of at least `2n` floats, `audioCallback` with a null input writes `0` to
all `2n` interleaved output slots, touches nothing else, returns the engine state unchanged
and returns `paContinue`. -/
theorem audioCallback_null_silence (sinf tanhf : α → α) (M_PI : α) (e : Engine α)
    (out : List α) (n : Nat) (h : 2 * n ≤ out.length) :
    ∃ out1, audioCallback sinf tanhf M_PI none out n e = some (out1, e, paContinue) ∧
      out1.length = out.length ∧ (∀ j, j < 2 * n → out1[j]? = some 0) ∧
      (∀ j, 2 * n ≤ j → out1[j]? = out[j]?) := by
  have h' : n * 2 ≤ out.length := by omega
  refine ⟨List.replicate (n * 2) 0 ++ out.drop (n * 2), ?_, ?_, ?_, ?_⟩
  · simp [audioCallback, h']
  · simp only [List.length_append, List.length_replicate, List.length_drop]; omega
  · intro j hj
    rw [List.getElem?_append_left (by simp; omega), List.getElem?_replicate,
      if_pos (by omega)]
  · intro j hj
    rw [List.getElem?_append_right (by simp; omega), List.getElem?_drop]
    simp only [List.length_replicate]
    congr 1; omega

/-- A null frame of 2 samples on the constructed engine with the reverb enabled. -/
theorem audioCallback_null_silence_witness :
    ∃ out1, audioCallback (fun _ => (0 : ℚ)) (fun x => x) 3 none [9, 8, 7, 6, 5] 2
        { (Engine.new : Engine ℚ) with useReverb := true }
        = some (out1, { (Engine.new : Engine ℚ) with useReverb := true }, paContinue) ∧
      out1.length = ([9, 8, 7, 6, 5] : List ℚ).length ∧
      (∀ j, j < 2 * 2 → out1[j]? = some 0) ∧
      (∀ j, 2 * 2 ≤ j → out1[j]? = ([9, 8, 7, 6, 5] : List ℚ)[j]?) :=
  audioCallback_null_silence _ _ _ _ _ 2 (by decide)

/-- C2. For a non-null input frame of `n` samples and fixed enable flags, `audioCallback`
produces for each `i < n` the value `y_i` of the chain (Phaser, then Exciter, then Reverb,
each applied exactly when its flag is set, unit state threaded from sample to sample) and
writes it to both `out[2i]` and `out[2i+1]`; it fails exactly when the chain does; with all
flags clear `y_i = in[i]` and the engine is unchanged. -/
theorem audioCallback_chain (sinf tanhf : α → α) (M_PI : α) (e : Engine α) (xs out : List α)
    (n : Nat) (hn : xs.length = n) (ho : 2 * n ≤ out.length) :
    (∀ ys e1, chainRun sinf tanhf M_PI e xs = some (ys, e1) →
      ∃ out1, audioCallback sinf tanhf M_PI (some xs) out n e = some (out1, e1, paContinue) ∧
        out1.length = out.length ∧ ys.length = n ∧
        (∀ i, i < n → out1[2 * i]? = ys[i]? ∧ out1[2 * i + 1]? = ys[i]?) ∧
        (∀ j, 2 * n ≤ j → out1[j]? = out[j]?)) ∧
    (chainRun sinf tanhf M_PI e xs = none →
      audioCallback sinf tanhf M_PI (some xs) out n e = none) ∧
    (e.usePhaser = false → e.useExciter = false → e.useReverb = false →
      chainRun sinf tanhf M_PI e xs = some (xs, e) ∧
      ∃ out1, audioCallback sinf tanhf M_PI (some xs) out n e = some (out1, e, paContinue) ∧
        ∀ i, i < n → out1[2 * i]? = xs[i]? ∧ out1[2 * i + 1]? = xs[i]?) := by
  have hxs : (xs.drop 0).take n = xs := by
    rw [List.drop_zero, ← hn, List.take_length]
  obtain ⟨hnone, hsome⟩ := audioLoop_spec sinf tanhf M_PI xs n 0 e out (by omega) (by omega)
  rw [hxs] at hnone hsome
  have main : ∀ ys e1, chainRun sinf tanhf M_PI e xs = some (ys, e1) →
      ∃ out1, audioCallback sinf tanhf M_PI (some xs) out n e = some (out1, e1, paContinue) ∧
        out1.length = out.length ∧ ys.length = n ∧
        (∀ i, i < n → out1[2 * i]? = ys[i]? ∧ out1[2 * i + 1]? = ys[i]?) ∧
        (∀ j, 2 * n ≤ j → out1[j]? = out[j]?) := by
    intro ys e1 h
    obtain ⟨out1, hl, hlen, hys, hin, hout⟩ := hsome ys e1 h
    refine ⟨out1, by simp [audioCallback, hl], hlen, hys, ?_, ?_⟩
    · intro i hi
      have := hin i hi
      simpa using this
    · intro j hj
      exact hout j (Or.inr (by omega))
  refine ⟨main, ?_, ?_⟩
  · intro h
    simp [audioCallback, hnone h]
  · intro h1 h2 h3
    have hc := chainRun_flags_clear sinf tanhf M_PI xs e h1 h2 h3
    obtain ⟨out1, hcb, _, _, hin, _⟩ := main xs e hc
    exact ⟨hc, out1, hcb, hin⟩

/-- A frame of two samples through the constructed engine with only the exciter enabled. -/
theorem audioCallback_chain_witness :
    chainRun (fun _ => (0 : ℚ)) (fun x => x) 3 { (Engine.new : Engine ℚ) with useExciter := true }
        [1, 2]
      = some ([11 / 5, 14 / 5], { (Engine.new : Engine ℚ) with
          useExciter := true, gExciter := { hpState := 2, hpCoeff := 0, mix := 4 / 10 } }) ∧
    ∃ out1, audioCallback (fun _ => (0 : ℚ)) (fun x => x) 3 (some [1, 2]) [9, 8, 7, 6, 5] 2
        { (Engine.new : Engine ℚ) with useExciter := true }
        = some (out1, { (Engine.new : Engine ℚ) with
            useExciter := true, gExciter := { hpState := 2, hpCoeff := 0, mix := 4 / 10 } },
          paContinue) ∧
      ∀ i, i < 2 → out1[2 * i]? = ([11 / 5, 14 / 5] : List ℚ)[i]? ∧
        out1[2 * i + 1]? = ([11 / 5, 14 / 5] : List ℚ)[i]? := by
  have hc : chainRun (fun _ => (0 : ℚ)) (fun x => x) 3
      { (Engine.new : Engine ℚ) with useExciter := true } [1, 2]
      = some ([11 / 5, 14 / 5], { (Engine.new : Engine ℚ) with
          useExciter := true, gExciter := { hpState := 2, hpCoeff := 0, mix := 4 / 10 } }) := by
    simp only [chainRun, chainSample, chainStage, Engine.new, Exciter.new, Exciter.process]
    norm_num
  refine ⟨hc, ?_⟩
  obtain ⟨out1, h1, _, _, h4, _⟩ :=
    (audioCallback_chain (fun _ => (0 : ℚ)) (fun x => x) 3
      { (Engine.new : Engine ℚ) with useExciter := true } [1, 2] [9, 8, 7, 6, 5] 2
      rfl (by decide)).1 _ _ hc
  exact ⟨out1, h1, h4⟩

/-- C3. Toggling a unit's enable flag twice with no callback in between restores the engine
state exactly (flags and all unit states), so every later callback behaves as if the flag
had never been toggled; a single toggle negates that unit's flag only. -/
theorem toggle_twice_identity (u : EffectId) (e : Engine α) :
    Engine.toggle u (Engine.toggle u e) = e ∧
    (Engine.toggle u e).gPhaser = e.gPhaser ∧ (Engine.toggle u e).gExciter = e.gExciter ∧
    (Engine.toggle u e).gReverb = e.gReverb ∧
    (Engine.toggle u e).usePhaser = (if u = EffectId.phaser then !e.usePhaser else e.usePhaser) ∧
    (Engine.toggle u e).useExciter
      = (if u = EffectId.exciter then !e.useExciter else e.useExciter) ∧
    (Engine.toggle u e).useReverb = (if u = EffectId.reverb then !e.useReverb else e.useReverb) ∧
    ∀ (sinf tanhf : α → α) (M_PI : α) (input : Option (List α)) (out : List α) (n : Nat),
      audioCallback sinf tanhf M_PI input out n (Engine.toggle u (Engine.toggle u e))
        = audioCallback sinf tanhf M_PI input out n e := by
  have h : Engine.toggle u (Engine.toggle u e) = e := by
    rcases e with ⟨p, q, r, f1, f2, f3⟩
    cases u <;> simp [Engine.toggle, handleKey, EffectId.key]
  refine ⟨h, ?_, ?_, ?_, ?_, ?_, ?_, ?_⟩
  · cases u <;> simp [Engine.toggle, handleKey, EffectId.key]
  · cases u <;> simp [Engine.toggle, handleKey, EffectId.key]
  · cases u <;> simp [Engine.toggle, handleKey, EffectId.key]
  · cases u <;> simp [Engine.toggle, handleKey, EffectId.key]
  · cases u <;> simp [Engine.toggle, handleKey, EffectId.key]
  · cases u <;> simp [Engine.toggle, handleKey, EffectId.key]
  · intro sinf tanhf M_PI input out n
    rw [h]

end Callback

/-! ## Parameter setters and preparation -/

section Setters

/-- C11, as the code behaves. `setBitDepth(b)` stores `b` when `1 ≤ b ≤ 24` and keeps the
stored bit depth otherwise; `setDownsampleFactor(f)` stores `f` when `f ≥ 1` and keeps the
stored factor otherwise; no other field changes, and values stored in range stay in
range. -/
theorem bitcrusher_setters_guard (b : Bitcrusher α) (n f : Int) :
    (b.setBitDepth n).bitDepth = (if 1 ≤ n ∧ n ≤ 24 then n else b.bitDepth) ∧
    (b.setDownsampleFactor f).downsampleFactor = (if 1 ≤ f then f else b.downsampleFactor) ∧
    (b.setBitDepth n).downsampleFactor = b.downsampleFactor ∧
    (b.setDownsampleFactor f).bitDepth = b.bitDepth ∧
    (b.setBitDepth n).holdCounter = b.holdCounter ∧
    (b.setBitDepth n).heldSample = b.heldSample ∧
    (b.setBitDepth n).sampleRate = b.sampleRate ∧
    (b.setDownsampleFactor f).holdCounter = b.holdCounter ∧
    (b.setDownsampleFactor f).heldSample = b.heldSample ∧
    (b.setDownsampleFactor f).sampleRate = b.sampleRate ∧
    (1 ≤ b.bitDepth ∧ b.bitDepth ≤ 24 →
      1 ≤ (b.setBitDepth n).bitDepth ∧ (b.setBitDepth n).bitDepth ≤ 24) ∧
    (1 ≤ b.downsampleFactor → 1 ≤ (b.setDownsampleFactor f).downsampleFactor) := by
  unfold Bitcrusher.setBitDepth Bitcrusher.setDownsampleFactor
  by_cases h1 : n ≥ 1 ∧ n ≤ 24 <;> by_cases h2 : f ≥ 1
  · have h1' : 1 ≤ n ∧ n ≤ 24 := h1
    have h2' : 1 ≤ f := h2
    simp only [h1, h2, h1', h2', if_true, and_self, true_and]
    exact ⟨fun _ => trivial, fun _ => trivial⟩
  · have h1' : 1 ≤ n ∧ n ≤ 24 := h1
    have h2' : ¬ 1 ≤ f := h2
    simp only [h1, h2, h1', h2', if_true, if_false, and_self, true_and]
    exact ⟨fun _ => trivial, fun h => h⟩
  · have h1' : ¬ (1 ≤ n ∧ n ≤ 24) := h1
    have h2' : 1 ≤ f := h2
    simp only [h1, h2, h1', h2', if_true, if_false, and_self, true_and]
    exact ⟨fun h => h, fun _ => trivial⟩
  · have h1' : ¬ (1 ≤ n ∧ n ≤ 24) := h1
    have h2' : ¬ 1 ≤ f := h2
    simp only [h1, h2, h1', h2', if_false, and_self, true_and]
    exact ⟨fun h => h, fun h => h⟩

/-- C11 as stated fails: on the constructed Bitcrusher (bit depth 8) `setBitDepth(30)`
leaves 8, not 24, and `setBitDepth(0)` leaves 8, not 1; with factor 4 stored,
`setDownsampleFactor(0)` leaves 4, not 1. -/
theorem bitcrusher_setters_not_clamping :
    ((Bitcrusher.new : Bitcrusher ℚ).setBitDepth 30).bitDepth = 8 ∧
    (8 : Int) ≠ max 1 (min 30 24) ∧
    ((Bitcrusher.new : Bitcrusher ℚ).setBitDepth 0).bitDepth = 8 ∧
    (8 : Int) ≠ max 1 (min 0 24) ∧
    (((Bitcrusher.new : Bitcrusher ℚ).setDownsampleFactor 4).setDownsampleFactor 0).downsampleFactor
      = 4 ∧
    (4 : Int) ≠ max 0 1 := by
  refine ⟨rfl, by decide, rfl, by decide, rfl, by decide⟩

/-- C14. On a Phaser whose buffer is empty (prepare never called) `process(in)` returns `in`
and leaves the whole state, LFO phase and write index included, unchanged. -/
theorem phaser_unprepared_passthrough [LinearOrderedField α] [FloorRing α]
    (sinf : α → α) (M_PI : α) (p : Phaser α) (x : α) (h : p.buffer = []) :
    Phaser.process sinf M_PI p x = some (x, p) := by
  simp [Phaser.process, h]

/-- The constructed Phaser passes the sample 7 through. -/
theorem phaser_unprepared_passthrough_witness :
    Phaser.process (fun _ => (0 : ℚ)) 3 Phaser.new 7 = some (7, Phaser.new) :=
  phaser_unprepared_passthrough _ _ _ _ rfl

end Setters

/-! ## AutoSwell: envelope range and release -/

section AutoSwellEnvelope
variable [LinearOrderedField α]

theorem AutoSwell.process_env_range (a : AutoSwell α) (x : α) :
    0 ≤ (a.process x).2.env ∧ (a.process x).2.env ≤ 1 := by
  have key : ∀ e : α, 0 ≤ (if (if e < 0 then 0 else e) > 1 then 1 else (if e < 0 then 0 else e)) ∧
      (if (if e < 0 then 0 else e) > 1 then 1 else (if e < 0 then 0 else e)) ≤ 1 := by
    intro e
    by_cases h1 : e < 0
    · have h3 : ¬ ((0 : α) > 1) := by norm_num
      simp only [h1, if_true, h3, if_false]
      exact ⟨le_refl _, zero_le_one⟩
    · by_cases h2 : e > 1
      · simp [h1, h2]
      · simp only [h1, h2, if_false]
        exact ⟨not_lt.mp h1, not_lt.mp h2⟩
  exact key _

/-- One `process` call on a sample below half of a positive threshold: the attack step is
taken first, whatever the input level, then the release step. -/
theorem AutoSwell.process_quiet (a : AutoSwell α) (x : α) (hth : 0 < a.threshold)
    (hx : |x| < a.threshold * (1 / 2)) :
    (a.process x).2.env
      = max 0 (min 1 ((if a.env < 1 then a.env + a.attackCoeff else 1) - a.releaseCoeff)) := by
  have hno : ¬ (|x| > a.threshold ∧ a.prevAbs ≤ a.threshold) := by
    intro h
    have : a.threshold * (1 / 2) < a.threshold := by linarith
    linarith [h.1]
  simp only [AutoSwell.process, hno, hx, if_false, if_true]
  generalize (if a.env < 1 then a.env + a.attackCoeff else 1) - a.releaseCoeff = e
  by_cases h1 : e < 0
  · have h2 : ¬ ((0 : α) > 1) := by norm_num
    simp only [h1, if_true, h2, if_false]
    rw [max_eq_left]
    exact le_trans (min_le_right _ _) h1.le
  · simp only [h1, if_false]
    by_cases h2 : e > 1
    · simp only [h2, if_true]
      rw [min_eq_left h2.le, max_eq_right (by norm_num)]
    · simp only [h2, if_false]
      rw [min_eq_right (not_lt.mp h2), max_eq_right (not_lt.mp h1)]

/-- After a sample below half the threshold a non-negative envelope becomes at least
`min (attackCoeff - releaseCoeff) (1 - releaseCoeff)`. -/
theorem AutoSwell.process_quiet_lower (a : AutoSwell α) (x : α) (hth : 0 < a.threshold)
    (hx : |x| < a.threshold * (1 / 2)) (hr0 : 0 ≤ a.releaseCoeff) (he0 : 0 ≤ a.env) :
    min (a.attackCoeff - a.releaseCoeff) (1 - a.releaseCoeff) ≤ (a.process x).2.env := by
  rw [AutoSwell.process_quiet a x hth hx]
  apply le_trans _ (le_max_right _ _)
  by_cases he : a.env < 1
  · simp only [he, if_true]
    apply le_min
    · apply le_trans (min_le_right _ _); linarith
    · apply le_trans (min_le_left _ _); linarith
  · simp only [he, if_false]
    apply le_min
    · apply le_trans (min_le_right _ _); linarith
    · exact min_le_right _ _

theorem AutoSwell.run_quiet_lower (ins : List α) :
    ∀ a : AutoSwell α, ins ≠ [] → 0 < a.threshold → 0 ≤ a.releaseCoeff → 0 ≤ a.env →
      (∀ x ∈ ins, |x| < a.threshold * (1 / 2)) →
      min (a.attackCoeff - a.releaseCoeff) (1 - a.releaseCoeff)
        ≤ (AutoSwell.run a ins).2.env := by
  induction ins with
  | nil => intro a h; exact absurd rfl h
  | cons x xs ih =>
    intro a _ hth hr he0 hall
    have hx := hall x (List.mem_cons_self _ _)
    have hrun : AutoSwell.run a (x :: xs)
        = ((a.process x).1 :: (AutoSwell.run (a.process x).2 xs).1,
           (AutoSwell.run (a.process x).2 xs).2) := rfl
    rw [hrun]
    simp only
    cases xs with
    | nil => exact AutoSwell.process_quiet_lower a x hth hx hr he0
    | cons y ys =>
      exact ih (a.process x).2 (by simp) hth hr (AutoSwell.process_env_range a x).1
        (fun z hz => hall z (List.mem_cons_of_mem _ hz))

/-- C19, what the code does. After `prepare(sr)` with the default times (`sr ≥ 6`) the attack
step `env += attackCoeff` runs on every sample, also one below half the threshold, and
`attackCoeff = 1/(0.15·sr)` exceeds `releaseCoeff = 1/(0.2·sr)`: from an envelope
`0 ≤ e < 1` a quiet sample gives `min 1 (e + attackCoeff - releaseCoeff)`, which is above `e`
and is not `max 0 (e - releaseCoeff)`; and after any non-empty run of quiet samples the
envelope is at least `min (attackCoeff - releaseCoeff) (1 - releaseCoeff) > 0`, so silence
does not drive it to 0. -/
theorem autoswell_quiet_sample_raises_envelope (sr : Int) (hsr : 6 ≤ sr) (e0 p0 ac rc x : α)
    (he0 : 0 ≤ e0) (he1 : e0 < 1) (hx : |x| < 1 / 200) :
    ∃ p, AutoSwell.prepare { AutoSwell.new ac rc with env := e0, prevAbs := p0 } sr = some p ∧
      p.attackCoeff = 1 / ((15 / 100) * (sr : α)) ∧
      p.releaseCoeff = 1 / ((2 / 10) * (sr : α)) ∧
      0 < p.releaseCoeff ∧ p.releaseCoeff < p.attackCoeff ∧ p.releaseCoeff < 1 ∧
      (p.process x).2.env = min 1 (e0 + p.attackCoeff - p.releaseCoeff) ∧
      e0 < (p.process x).2.env ∧
      (p.process x).2.env ≠ max 0 (e0 - p.releaseCoeff) ∧
      ∀ ins : List α, ins ≠ [] → (∀ y ∈ ins, |y| < 1 / 200) →
        0 < min (p.attackCoeff - p.releaseCoeff) (1 - p.releaseCoeff) ∧
        min (p.attackCoeff - p.releaseCoeff) (1 - p.releaseCoeff)
          ≤ (AutoSwell.run p ins).2.env := by
  have hs6 : (6 : α) ≤ (sr : α) := by exact_mod_cast hsr
  have hs : (0 : α) < (sr : α) := by linarith
  have hd : (0 : α) < (15 / 100) * (sr : α) := by positivity
  have hd2 : (0 : α) < (2 / 10) * (sr : α) := by positivity
  have hr0 : (0 : α) < 1 / ((2 / 10) * (sr : α)) := by positivity
  have har : (1 : α) / ((2 / 10) * (sr : α)) < 1 / ((15 / 100) * (sr : α)) := by
    apply one_div_lt_one_div_of_lt hd
    linarith
  have hr1 : (1 : α) / ((2 / 10) * (sr : α)) < 1 := by
    rw [div_lt_one hd2]; linarith
  have hth : (1 / 100 : α) * (1 / 2) = 1 / 200 := by norm_num
  refine ⟨{ AutoSwell.new ac rc with
              env := e0, prevAbs := p0, sampleRate := sr,
              attackCoeff := 1 / ((15 / 100) * (sr : α)),
              releaseCoeff := 1 / ((2 / 10) * (sr : α)) }, ?_, rfl, rfl, hr0, har, hr1, ?_⟩
  · simp only [AutoSwell.prepare, AutoSwell.new]
    rw [if_neg (by
      intro h
      rcases h with h | h
      · exact (ne_of_gt hd) h
      · exact (ne_of_gt hd2) h)]
  · set p : AutoSwell α := { AutoSwell.new ac rc with
              env := e0, prevAbs := p0, sampleRate := sr,
              attackCoeff := 1 / ((15 / 100) * (sr : α)),
              releaseCoeff := 1 / ((2 / 10) * (sr : α)) } with hp
    have hpt : p.threshold = 1 / 100 := rfl
    have hpa : p.attackCoeff = 1 / ((15 / 100) * (sr : α)) := rfl
    have hpr : p.releaseCoeff = 1 / ((2 / 10) * (sr : α)) := rfl
    have hpe : p.env = e0 := rfl
    have hq := AutoSwell.process_quiet p x (by rw [hpt]; norm_num) (by rw [hpt, hth]; exact hx)
    rw [hpe, if_pos he1] at hq
    have hpos : 0 < e0 + p.attackCoeff - p.releaseCoeff := by rw [hpa, hpr]; linarith
    have henv : (p.process x).2.env = min 1 (e0 + p.attackCoeff - p.releaseCoeff) := by
      rw [hq, max_eq_right (le_min zero_le_one hpos.le)]
    have hgt : e0 < (p.process x).2.env := by
      rw [henv]
      exact lt_min he1 (by rw [hpa, hpr]; linarith)
    refine ⟨henv, hgt, ?_, ?_⟩
    · intro h
      rw [h] at hgt
      rcases le_total 0 (e0 - p.releaseCoeff) with h' | h'
      · rw [max_eq_right h'] at hgt
        rw [hpr] at hgt; linarith
      · rw [max_eq_left h'] at hgt
        linarith
    · intro ins hne hall
      refine ⟨lt_min (by rw [hpa, hpr]; linarith) (by rw [hpr]; linarith), ?_⟩
      exact AutoSwell.run_quiet_lower ins p hne (by rw [hpt]; norm_num)
        (by rw [hpr]; exact hr0.le) (by rw [hpe]; exact he0)
        (fun y hy => by rw [hpt, hth]; exact hall y hy)

/-- At 48 kHz, envelope 1/2 and a silent sample: the envelope becomes
`1/2 + 1/7200 - 1/9600`, not `1/2 - 1/9600`. -/
theorem autoswell_quiet_sample_raises_envelope_witness :
    ∃ p : AutoSwell ℚ,
      AutoSwell.prepare { (AutoSwell.new 0 0 : AutoSwell ℚ) with env := 1 / 2, prevAbs := 0 }
          48000 = some p ∧
      (p.process 0).2.env = 1 / 2 + 1 / 7200 - 1 / 9600 ∧
      (p.process 0).2.env ≠ max 0 (1 / 2 - 1 / 9600) := by
  obtain ⟨p, h1, h2, h3, _, _, _, h7, _, h9, _⟩ :=
    autoswell_quiet_sample_raises_envelope (48000 : Int) (by decide) (1 / 2 : ℚ) 0 0 0 0
      (by norm_num) (by norm_num) (by norm_num)
  have e1 : (1 : ℚ) / ((15 / 100) * ((48000 : Int) : ℚ)) = 1 / 7200 := by norm_num
  have e2 : (1 : ℚ) / ((2 / 10) * ((48000 : Int) : ℚ)) = 1 / 9600 := by norm_num
  rw [e1] at h2
  rw [e2] at h3
  rw [h3] at h9
  refine ⟨p, h1, ?_, h9⟩
  rw [h7, h2, h3, min_eq_right (by norm_num)]

end AutoSwellEnvelope

/-! ## Exciter and the Fuzz pre-filter -/

theorem tanh_injective_real : Function.Injective Real.tanh := by
  intro a b h
  rw [Real.tanh_eq_sinh_div_cosh, Real.tanh_eq_sinh_div_cosh,
    div_eq_div_iff (ne_of_gt (Real.cosh_pos a)) (ne_of_gt (Real.cosh_pos b))] at h
  have h2 : Real.sinh (a - b) = Real.sinh 0 := by
    rw [Real.sinh_sub, Real.sinh_zero]; linarith
  have := Real.sinh_injective h2
  linarith

/-- For `x ≠ 1`, `in ≠ z` and `mix ≠ 0` the value returned by `Exciter::process` differs
from the formula that takes the high band from the lowpass output of the current sample. -/
theorem exciter_output_ne_current_lowpass (e : Exciter ℝ) (x : ℝ)
    (hc : e.hpCoeff ≠ 1) (hx : x ≠ e.hpState) (hm : e.mix ≠ 0) :
    (Exciter.process Real.tanh e x).1
      ≠ x * (1 - e.mix)
        + e.mix * Real.tanh (4 * (x - (e.hpCoeff * e.hpState + (1 - e.hpCoeff) * x))) := by
  intro h
  have h1 : (Exciter.process Real.tanh e x).1
      = x * (1 - e.mix) + Real.tanh ((x - e.hpState) * 4) * e.mix := rfl
  rw [h1] at h
  have h2 : Real.tanh ((x - e.hpState) * 4)
      = Real.tanh (4 * (x - (e.hpCoeff * e.hpState + (1 - e.hpCoeff) * x))) := by
    have : Real.tanh ((x - e.hpState) * 4) * e.mix
        = e.mix * Real.tanh (4 * (x - (e.hpCoeff * e.hpState + (1 - e.hpCoeff) * x))) := by
      linarith
    rw [mul_comm] at this
    exact mul_left_cancel₀ hm this
  have h3 := tanh_injective_real h2
  have h4 : (x - e.hpState) * (1 - e.hpCoeff) = 0 := by linarith
  rcases mul_eq_zero.mp h4 with h5 | h5
  · exact hx (by linarith)
  · exact hc (by linarith)

/-- C17, as the code behaves. `Exciter::process` takes the high band from the lowpass state
`z` stored before the call: it returns `in·(1 - mix) + mix·tanh(4·(in - z))` and then stores
the lowpass output `y = x·z + (1 - x)·in`, keeping `mix` and `x`; `in - y = x·(in - z)`.
After `prepare(sr)` on a constructed unit, `mix = 0.4`, `x = exp(-2π·3000/sr)`, `z = 0`. -/
theorem exciter_process_formula [LinearOrderedField α] (expf tanhf : α → α) (M_PI : α)
    (e : Exciter α) (x : α) :
    (Exciter.process tanhf e x).1
      = x * (1 - e.mix) + e.mix * tanhf (4 * (x - e.hpState)) ∧
    (Exciter.process tanhf e x).2.hpState = e.hpCoeff * e.hpState + (1 - e.hpCoeff) * x ∧
    (Exciter.process tanhf e x).2.hpCoeff = e.hpCoeff ∧
    (Exciter.process tanhf e x).2.mix = e.mix ∧
    x - (e.hpCoeff * e.hpState + (1 - e.hpCoeff) * x) = e.hpCoeff * (x - e.hpState) ∧
    ∀ sr : Int, sr ≠ 0 →
      Exciter.prepare expf M_PI Exciter.new sr
        = some { hpState := 0, hpCoeff := expf (-2 * M_PI * 3000 / (sr : α)), mix := 4 / 10 } := by
  refine ⟨?_, ?_, rfl, rfl, by ring, ?_⟩
  · simp only [Exciter.process]
    ring_nf
  · simp only [Exciter.process]
    ring
  · intro sr hsr
    simp [Exciter.prepare, Exciter.new, hsr]

/-- C17 as stated fails: on the Exciter prepared at 48 kHz, fresh state, input 1, the code
returns `0.6 + 0.4·tanh(4)`; the formula with the lowpass output of the current sample
gives `0.6 + 0.4·tanh(4·x)`, `x = exp(-2π·3000/48000)`, a different value. -/
theorem exciter_current_lowpass_refuted :
    ∃ e : Exciter ℝ, Exciter.prepare Real.exp Real.pi Exciter.new 48000 = some e ∧
      e.hpState = 0 ∧ e.mix = 4 / 10 ∧
      e.hpCoeff = Real.exp (-2 * Real.pi * 3000 / ((48000 : Int) : ℝ)) ∧
      (Exciter.process Real.tanh e 1).1 = 1 * (1 - 4 / 10) + Real.tanh ((1 - 0) * 4) * (4 / 10) ∧
      (Exciter.process Real.tanh e 1).1
        ≠ 1 * (1 - e.mix)
          + e.mix * Real.tanh (4 * (1 - (e.hpCoeff * e.hpState + (1 - e.hpCoeff) * 1))) := by
  have hb := exp_coeff_bounds 48000 3000 (by decide) (by norm_num)
  have h := exciter_output_ne_current_lowpass
    ({ hpState := 0, hpCoeff := Real.exp (-2 * Real.pi * 3000 / ((48000 : Int) : ℝ)),
       mix := 4 / 10 } : Exciter ℝ) 1 (ne_of_lt hb.2) (by norm_num) (by norm_num)
  refine ⟨{ hpState := 0, hpCoeff := Real.exp (-2 * Real.pi * 3000 / ((48000 : Int) : ℝ)),
            mix := 4 / 10 }, ?_, rfl, rfl, rfl, rfl, h⟩
  simp [Exciter.prepare, Exciter.new]

theorem Fuzz.hpfConst_closed [LinearOrderedField α] (f : Fuzz α) (v c : α)
    (hc : f.hpf_b - f.hpf_a = c) (hc1 : 1 - c ≠ 0) (n : Nat) :
    Fuzz.hpfConst f v n
      = (f.hpf_a * v / (1 - c) + (f.hpf_z - f.hpf_a * v / (1 - c)) * c ^ (n + 1),
         { f with hpf_z := f.hpf_a * v / (1 - c)
                    + (f.hpf_z - f.hpf_a * v / (1 - c)) * c ^ (n + 1) }) := by
  have hb : f.hpf_b = c + f.hpf_a := by rw [← hc]; ring
  induction n with
  | zero =>
    simp only [Fuzz.hpfConst, Fuzz.hpf_process, hb]
    refine Prod.ext ?_ ?_
    · simp only; field_simp; ring
    · simp only; congr 1; field_simp; ring
  | succ n ih =>
    simp only [Fuzz.hpfConst, ih, Fuzz.hpf_process, hb]
    refine Prod.ext ?_ ?_
    · simp only; field_simp; ring
    · simp only; congr 1; field_simp; ring

theorem fuzz_prepare_some [LinearOrderedField α] (expf : α → α) (M_PI : α) (f : Fuzz α)
    (sr : Int) (h : sr ≠ 0) :
    ∃ f1, Fuzz.prepare expf M_PI f sr = some f1 ∧
      f1.hpf_a = (1 + expf (-2 * M_PI * 100 / (sr : α))) * (1 / 2) ∧
      f1.hpf_b = expf (-2 * M_PI * 100 / (sr : α)) ∧
      f1.lpf_a = 1 - expf (-2 * M_PI * 800 / (sr : α)) ∧
      f1.lpf_b = expf (-2 * M_PI * 800 / (sr : α)) ∧
      f1.hpf_z = f.hpf_z ∧ f1.lpf_z = f.lpf_z ∧ f1.sampleRate = sr ∧
      f1.inputGain = f.inputGain ∧ f1.clipLevel = f.clipLevel := by
  refine ⟨{ f with sampleRate := sr
                   hpf_a := (1 + expf (-2 * M_PI * 100 / (sr : α))) * (1 / 2)
                   hpf_b := expf (-2 * M_PI * 100 / (sr : α))
                   lpf_a := 1 - expf (-2 * M_PI * 800 / (sr : α))
                   lpf_b := expf (-2 * M_PI * 800 / (sr : α)) }, ?_,
    rfl, rfl, rfl, rfl, rfl, rfl, rfl, rfl, rfl⟩
  simp [Fuzz.prepare, Fuzz.setHighpass, Fuzz.setLowpass, h]

/-- C18, what the code does. After `prepare(sr)`, `sr > 0`, the pre-filter has
`hpf_a = (1 + x)/2`, `hpf_b = x`, `x = exp(-2π·100/sr)`, `0 < x < 1`. Fed the constant `v`
from the reset state, call `n` of `hpf_process` returns
`(1 + x)·v/(3 - x) · (1 - ((x - 1)/2)^n)`; this tends to `(1 + x)·v/(3 - x)`, which is not 0
for `v ≠ 0`: the stage does not block DC. -/
theorem fuzz_prefilter_passes_dc (f : Fuzz ℝ) (sr : Int) (hsr : 0 < sr) :
    ∃ (f1 : Fuzz ℝ) (x : ℝ), Fuzz.prepare Real.exp Real.pi f sr = some f1 ∧
      x = Real.exp (-2 * Real.pi * 100 / (sr : ℝ)) ∧ 0 < x ∧ x < 1 ∧
      f1.hpf_a = (1 + x) * (1 / 2) ∧ f1.hpf_b = x ∧
      ∀ v : ℝ,
        (∀ n : Nat, (Fuzz.hpfConst f1.reset v n).1
          = (1 + x) * v / (3 - x) * (1 - ((x - 1) / 2) ^ (n + 1))) ∧
        Filter.Tendsto (fun n => (Fuzz.hpfConst f1.reset v n).1) Filter.atTop
          (nhds ((1 + x) * v / (3 - x))) ∧
        (v ≠ 0 → (1 + x) * v / (3 - x) ≠ 0 ∧
          ¬ Filter.Tendsto (fun n => (Fuzz.hpfConst f1.reset v n).1) Filter.atTop (nhds 0)) := by
  obtain ⟨hx0, hx1⟩ := exp_coeff_bounds sr 100 hsr (by norm_num)
  obtain ⟨f1, hf1, ha, hb, _, _, _, _, _, _, _⟩ :=
    fuzz_prepare_some Real.exp Real.pi f sr (by omega)
  set x := Real.exp (-2 * Real.pi * 100 / (sr : ℝ)) with hxdef
  have h3 : (3 : ℝ) - x ≠ 0 := by linarith
  have hc1 : (1 : ℝ) - (x - 1) / 2 ≠ 0 := by
    have : (1 : ℝ) - (x - 1) / 2 = (3 - x) / 2 := by ring
    rw [this]; exact div_ne_zero h3 (by norm_num)
  have hclosed : ∀ (v : ℝ) (n : Nat), (Fuzz.hpfConst f1.reset v n).1
      = (1 + x) * v / (3 - x) * (1 - ((x - 1) / 2) ^ (n + 1)) := by
    intro v n
    have hra : f1.reset.hpf_a = (1 + x) * (1 / 2) := ha
    have hrb : f1.reset.hpf_b = x := hb
    have hrz : f1.reset.hpf_z = 0 := rfl
    rw [Fuzz.hpfConst_closed f1.reset v ((x - 1) / 2) (by rw [hra, hrb]; ring) hc1 n]
    simp only [hra, hrz]
    have hK : (1 + x) * (1 / 2) * v / (1 - (x - 1) / 2) = (1 + x) * v / (3 - x) := by
      rw [div_eq_div_iff hc1 h3]
      ring
    rw [hK]
    ring
  have hlim : ∀ v : ℝ, Filter.Tendsto (fun n => (Fuzz.hpfConst f1.reset v n).1) Filter.atTop
      (nhds ((1 + x) * v / (3 - x))) := by
    intro v
    simp only [hclosed]
    have habs : |(x - 1) / 2| < 1 := by
      rw [abs_lt]; constructor <;> linarith
    have hp : Filter.Tendsto (fun n : Nat => ((x - 1) / 2) ^ (n + 1)) Filter.atTop (nhds 0) :=
      (Filter.tendsto_add_atTop_iff_nat 1).mpr (tendsto_pow_atTop_nhds_zero_of_abs_lt_one habs)
    have := (hp.const_sub 1).const_mul ((1 + x) * v / (3 - x))
    simpa using this
  refine ⟨f1, x, hf1, rfl, hx0, hx1, ha, hb, fun v => ⟨hclosed v, hlim v, ?_⟩⟩
  intro hv
  have hne : (1 + x) * v / (3 - x) ≠ 0 :=
    div_ne_zero (mul_ne_zero (by linarith) hv) h3
  exact ⟨hne, fun h0 => hne (tendsto_nhds_unique (hlim v) h0)⟩

/-- At 48 kHz the constant input 1 settles at `(1 + x)/(3 - x)`, not at 0. -/
theorem fuzz_prefilter_passes_dc_witness :
    ∃ (f1 : Fuzz ℝ) (x : ℝ), Fuzz.prepare Real.exp Real.pi Fuzz.new 48000 = some f1 ∧
      x = Real.exp (-2 * Real.pi * 100 / ((48000 : Int) : ℝ)) ∧ 0 < x ∧ x < 1 ∧
      Filter.Tendsto (fun n => (Fuzz.hpfConst f1.reset 1 n).1) Filter.atTop
        (nhds ((1 + x) * 1 / (3 - x))) ∧
      ¬ Filter.Tendsto (fun n => (Fuzz.hpfConst f1.reset 1 n).1) Filter.atTop (nhds 0) := by
  obtain ⟨f1, x, h1, h2, h3, h4, _, _, h7⟩ :=
    fuzz_prefilter_passes_dc (Fuzz.new : Fuzz ℝ) 48000 (by decide)
  exact ⟨f1, x, h1, h2, h3, h4, (h7 1).2.1, ((h7 1).2.2 one_ne_zero).2⟩

/-! ## Preparation with a sample rate that is not positive -/

section PrepareRates
variable [LinearOrderedField α] [FloorRing α]

theorem truncToInt_small_neg (x : α) (h1 : -1 < x) (h0 : x < 0) : truncToInt x = 0 := by
  unfold truncToInt
  rw [if_neg (not_le.mpr h0), Int.ceil_eq_iff]
  constructor
  · simpa using h1
  · simpa using h0.le

theorem tdiv_hundred_small_neg (sr : Int) (h1 : -100 < sr) (h0 : sr < 0) :
    Int.tdiv sr 100 = 0 := by
  obtain ⟨k, rfl⟩ : ∃ k : Int, sr = -k := ⟨-sr, by omega⟩
  rw [Int.neg_tdiv, Int.tdiv_eq_ediv (by omega) (by decide),
    Int.ediv_eq_zero_of_lt (by omega) (by omega)]
  rfl

/-- C12, as the code behaves. No `prepare` checks its argument or reports anything. For
every `sampleRate < 0`: `AutoSwell::prepare` completes with the rate stored and the negative
coefficients `1/(0.15·sampleRate)`, `1/(0.2·sampleRate)`; `Exciter::prepare` and
`Fuzz::prepare` complete with the coefficients `exp(-2π·fc/sampleRate)`;
`Bitcrusher::prepare` and `Vibrato::prepare` store the rate (for every integer, 0 included);
`SpectralMirror::prepare` completes for `-100 < sampleRate` with an empty buffer and
`delaySamples = 1`; `Phaser::prepare` completes for `-50 < sampleRate` with an empty buffer
and `baseDelay = 0.002·sampleRate`. -/
theorem prepare_accepts_nonpositive_rate (expf : α → α) (M_PI : α) (sr : Int) (hsr : sr < 0)
    (ac rc : α) (e : Exciter α) (f : Fuzz α) (b : Bitcrusher α) (v : Vibrato α)
    (p : Phaser α) :
    (∃ a, AutoSwell.prepare (AutoSwell.new ac rc) sr = some a ∧ a.sampleRate = sr ∧
      a.attackCoeff = 1 / ((15 / 100) * (sr : α)) ∧ a.attackCoeff < 0 ∧
      a.releaseCoeff = 1 / ((2 / 10) * (sr : α)) ∧ a.releaseCoeff < 0) ∧
    Exciter.prepare expf M_PI e sr
      = some { e with hpCoeff := expf (-2 * M_PI * 3000 / (sr : α)) } ∧
    (∃ f1, Fuzz.prepare expf M_PI f sr = some f1 ∧ f1.sampleRate = sr ∧
      f1.hpf_b = expf (-2 * M_PI * 100 / (sr : α)) ∧
      f1.lpf_b = expf (-2 * M_PI * 800 / (sr : α))) ∧
    (∀ r : Int, (b.prepare r).sampleRate = r ∧ (v.prepare r).sampleRate = r) ∧
    (-100 < sr → SpectralMirror.prepare (SpectralMirror.new : SpectralMirror α) sr
      = some { delayBuffer := [], writeIndex := 0, delaySamples := 1, delayMs := 2,
               sampleRate := sr }) ∧
    (-50 < sr → ∃ p1, Phaser.prepare M_PI p sr = some p1 ∧ p1.buffer = [] ∧
      p1.baseDelay = (2 / 1000) * (sr : α) ∧ p1.depth = (15 / 10000) * (sr : α) ∧
      p1.lfoInc = (2 * M_PI * (3 / 10)) / (sr : α)) := by
  have hs : (sr : α) < 0 := by exact_mod_cast hsr
  have hne : sr ≠ 0 := by omega
  have hd : (15 / 100 : α) * (sr : α) < 0 := by nlinarith
  have hd2 : (2 / 10 : α) * (sr : α) < 0 := by nlinarith
  refine ⟨?_, ?_, ?_, fun r => ⟨rfl, rfl⟩, ?_, ?_⟩
  · refine ⟨{ AutoSwell.new ac rc with
                sampleRate := sr,
                attackCoeff := 1 / ((15 / 100) * (sr : α)),
                releaseCoeff := 1 / ((2 / 10) * (sr : α)) }, ?_, rfl, rfl,
      one_div_neg.mpr hd, rfl, one_div_neg.mpr hd2⟩
    simp only [AutoSwell.prepare, AutoSwell.new]
    rw [if_neg (by
      intro h
      rcases h with h | h
      · exact (ne_of_lt hd) h
      · exact (ne_of_lt hd2) h)]
  · simp [Exciter.prepare, hne]
  · obtain ⟨f1, h1, _, h3, _, h5, _, _, h8, _, _⟩ := fuzz_prepare_some expf M_PI f sr hne
    exact ⟨f1, h1, h8, h3, h5⟩
  · intro h100
    have hs100 : (-100 : α) < (sr : α) := by exact_mod_cast h100
    have ht : truncToInt (((2 : α) / 1000) * (sr : α)) = 0 :=
      truncToInt_small_neg _ (by linarith) (by nlinarith)
    simp [SpectralMirror.prepare, SpectralMirror.new, ht, tdiv_hundred_small_neg sr h100 hsr]
  · intro h50
    have hs50 : (-50 : α) < (sr : α) := by exact_mod_cast h50
    have ht : truncToInt ((sr : α) * (2 / 100)) = 0 :=
      truncToInt_small_neg _ (by linarith) (by nlinarith)
    refine ⟨{ lfoPhase := p.lfoPhase
              lfoInc := (2 * M_PI * (3 / 10)) / (sr : α)
              baseDelay := (2 / 1000) * (sr : α)
              depth := (15 / 10000) * (sr : α)
              buffer := []
              writeIndex := 0 }, ?_, rfl, rfl, rfl, rfl⟩
    simp [Phaser.prepare, ht, hne]

/-- The sample rate -1. -/
theorem prepare_accepts_nonpositive_rate_witness :
    (∃ a, AutoSwell.prepare (AutoSwell.new (0 : ℚ) 0) (-1) = some a ∧ a.sampleRate = -1 ∧
      a.attackCoeff = 1 / ((15 / 100) * (((-1 : Int)) : ℚ)) ∧ a.attackCoeff < 0) ∧
    SpectralMirror.prepare (SpectralMirror.new : SpectralMirror ℚ) (-1)
      = some { delayBuffer := [], writeIndex := 0, delaySamples := 1, delayMs := 2,
               sampleRate := -1 } := by
  have h := prepare_accepts_nonpositive_rate (fun _ => (0 : ℚ)) 3 (-1) (by decide) 0 0
    Exciter.new Fuzz.new Bitcrusher.new Vibrato.new Phaser.new
  obtain ⟨a, h1, h2, h3, h4, _⟩ := h.1
  exact ⟨⟨a, h1, h2, h3, h4⟩, h.2.2.2.2.1 (by decide)⟩

/-- C12 as stated fails: `prepare(-1)` on a constructed AutoSwell completes and leaves the
coefficients `-20/3` and `-5` derived from the rate; `prepare(0)` on a Bitcrusher stores 0;
`prepare(-50)` on a SpectralMirror completes with an empty buffer. -/
theorem prepare_does_not_fail_fast :
    AutoSwell.prepare (AutoSwell.new (0 : ℚ) 0) (-1)
      = some { attackTimeSec := 15 / 100, threshold := 1 / 100, releaseTimeSec := 2 / 10,
               env := 0, prevAbs := 0, attackCoeff := -20 / 3, releaseCoeff := -5,
               sampleRate := -1 } ∧
    Bitcrusher.prepare (Bitcrusher.new : Bitcrusher ℚ) 0
      = { sampleRate := 0, downsampleFactor := 1, bitDepth := 8, holdCounter := 0,
          heldSample := 0 } ∧
    SpectralMirror.prepare (SpectralMirror.new : SpectralMirror ℚ) (-50)
      = some { delayBuffer := [], writeIndex := 0, delaySamples := 1, delayMs := 2,
               sampleRate := -50 } := by
  refine ⟨?_, rfl, ?_⟩
  · simp only [AutoSwell.prepare, AutoSwell.new]
    norm_num
  · have ht : truncToInt (-((2 : ℚ) / 1000 * 50)) = 0 :=
      truncToInt_small_neg _ (by norm_num) (by norm_num)
    simp [SpectralMirror.prepare, SpectralMirror.new, ht, tdiv_hundred_small_neg (-50)]

end PrepareRates

/-! ## Wrap loops, runs and ring buffers -/

theorem wrapLoop_emod (n : Int) (hn : 0 < n) :
    ∀ (fuel : Nat) (r : Int), r < n → (-r).toNat ≤ fuel →
      wrapLoop n fuel r = some (r % n) := by
  intro fuel
  induction fuel with
  | zero =>
    intro r hr hf
    have h0 : ¬ r < 0 := by omega
    simp only [wrapLoop, h0, if_false]
    rw [Int.emod_eq_of_lt (by omega) hr]
  | succ k ih =>
    intro r hr hf
    by_cases h0 : r < 0
    · simp only [wrapLoop, h0, if_true]
      rw [ih (r + n) (by omega) (by omega), Int.add_emod_self]
    · simp only [wrapLoop, h0, if_false]
      rw [Int.emod_eq_of_lt (by omega) hr]

theorem runOpt_inv {σ β : Type} (step : σ → α → Option (β × σ)) (Inv : σ → Prop)
    (h : ∀ s x, Inv s → ∃ y s1, step s x = some (y, s1) ∧ Inv s1) :
    ∀ (ins : List α) (s : σ), Inv s →
      ∃ outs s1, runOpt step s ins = some (outs, s1) ∧ outs.length = ins.length ∧ Inv s1 := by
  intro ins
  induction ins with
  | nil => intro s hs; exact ⟨[], s, rfl, rfl, hs⟩
  | cons x xs ih =>
    intro s hs
    obtain ⟨y, s1, h1, hi1⟩ := h s x hs
    obtain ⟨ys, s2, h2, hl, hi2⟩ := ih s1 hi1
    exact ⟨y :: ys, s2, by simp [runOpt, h1, h2], by simp [hl], hi2⟩

theorem nat_succ_mod (w N : Nat) (h : w < N) :
    (w + 1) % N = if w + 1 = N then 0 else w + 1 := by
  by_cases h1 : w + 1 = N
  · rw [if_pos h1, h1, Nat.mod_self]
  · rw [if_neg h1, Nat.mod_eq_of_lt (by omega)]

theorem ringPos_emod (w N k : Nat) (hw : w < N) (hk : k ≤ N) :
    ((w : Int) - (k : Int)) % (N : Int) = (ringPos w N k : Int) := by
  unfold ringPos
  by_cases h : k ≤ w
  · rw [if_pos h, Int.emod_eq_of_lt (by omega) (by omega)]
    omega
  · rw [if_neg h, ← Int.add_emod_self, Int.emod_eq_of_lt (by omega) (by omega)]
    omega

theorem ringPos_lt (w N k : Nat) (hw : w < N) (hk1 : 1 ≤ k) (hk : k ≤ N) :
    ringPos w N k < N := by
  unfold ringPos
  split <;> omega

theorem RingHist.init [LinearOrderedField α] (N : Nat) (hN : 0 < N) :
    RingHist (List.replicate N (0 : α)) 0 [] := by
  refine ⟨by simpa using hN, ?_⟩
  intro k hk1 hk
  simp only [List.length_replicate] at hk ⊢
  rw [List.getElem?_replicate, if_pos (ringPos_lt 0 N k hN hk1 hk)]
  simp

theorem RingHist.push [LinearOrderedField α] (buf : List α) (w : Nat) (hist : List α) (x : α)
    (h : RingHist buf w hist) :
    RingHist (buf.set w x) ((w + 1) % buf.length) (x :: hist) := by
  obtain ⟨hw, hcells⟩ := h
  have hmod := nat_succ_mod w buf.length hw
  refine ⟨by simp only [List.length_set]; exact Nat.mod_lt _ (by omega), ?_⟩
  intro k hk1 hk
  simp only [List.length_set] at hk ⊢
  by_cases hk2 : k = 1
  · subst hk2
    have hp : ringPos ((w + 1) % buf.length) buf.length 1 = w := by
      rw [hmod]; unfold ringPos
      by_cases h1 : w + 1 = buf.length
      · rw [if_pos h1]; simp; omega
      · rw [if_neg h1]; simp
    rw [hp, List.getElem?_set_eq_of_lt _ hw]
    rfl
  · have hp : ringPos ((w + 1) % buf.length) buf.length k = ringPos w buf.length (k - 1) := by
      rw [hmod]; unfold ringPos
      by_cases h1 : w + 1 = buf.length
      · rw [if_pos h1]
        have c1 : ¬ k ≤ 0 := by omega
        have c2 : k - 1 ≤ w := by omega
        rw [if_neg c1, if_pos c2]; omega
      · rw [if_neg h1]
        by_cases c : k ≤ w + 1
        · have c2 : k - 1 ≤ w := by omega
          rw [if_pos c, if_pos c2]; omega
        · have c2 : ¬ k - 1 ≤ w := by omega
          rw [if_neg c, if_neg c2]; omega
    have hne : w ≠ ringPos w buf.length (k - 1) := by
      unfold ringPos
      split <;> omega
    rw [hp, List.getElem?_set_ne hne, hcells (k - 1) (by omega) (by omega)]
    have : k - 1 = (k - 1 - 1) + 1 := by omega
    rw [this, List.getD_cons_succ]
    simp

/-! ## SpectralMirror -/

section SpectralMirrorLemmas
variable [LinearOrderedField α]

omit [LinearOrderedField α] in
theorem readAt_some (buf : List α) (i : Int) (h0 : 0 ≤ i) (h1 : i < (buf.length : Int)) :
    ∃ v, buf[i.toNat]? = some v ∧ readAt buf i = some v := by
  have hlt : i.toNat < buf.length := by omega
  exact ⟨buf[i.toNat], List.getElem?_eq_getElem hlt,
    by simp [readAt, h0, h1, List.getElem?_eq_getElem hlt]⟩

omit [LinearOrderedField α] in
theorem writeAt_int_some (buf : List α) (i : Int) (v : α) (h0 : 0 ≤ i)
    (h1 : i < (buf.length : Int)) : writeAt buf i v = some (buf.set i.toNat v) := by
  simp [writeAt, h0, h1]

/-- One `process` call of a SpectralMirror whose write index is in range and whose delay is
between 0 and the buffer length. -/
theorem mirror_process_valid (m : SpectralMirror α) (x : α)
    (hw0 : 0 ≤ m.writeIndex) (hw : m.writeIndex < (m.delayBuffer.length : Int))
    (hD0 : 0 ≤ m.delaySamples) (hD : m.delaySamples ≤ (m.delayBuffer.length : Int)) :
    (if m.writeIndex - m.delaySamples < 0
        then m.writeIndex - m.delaySamples + (m.delayBuffer.length : Int)
        else m.writeIndex - m.delaySamples)
      = (m.writeIndex - m.delaySamples) % (m.delayBuffer.length : Int) ∧
    0 ≤ (m.writeIndex - m.delaySamples) % (m.delayBuffer.length : Int) ∧
    (m.writeIndex - m.delaySamples) % (m.delayBuffer.length : Int)
      < (m.delayBuffer.length : Int) ∧
    ∃ d, readAt m.delayBuffer
          ((m.writeIndex - m.delaySamples) % (m.delayBuffer.length : Int)) = some d ∧
      m.process x = some (d - x,
        { m with delayBuffer := m.delayBuffer.set m.writeIndex.toNat x
                 writeIndex := (m.writeIndex + 1) % (m.delayBuffer.length : Int) }) := by
  have hN : (0 : Int) < (m.delayBuffer.length : Int) := by omega
  have hr : (if m.writeIndex - m.delaySamples < 0
        then m.writeIndex - m.delaySamples + (m.delayBuffer.length : Int)
        else m.writeIndex - m.delaySamples)
      = (m.writeIndex - m.delaySamples) % (m.delayBuffer.length : Int) := by
    by_cases h : m.writeIndex - m.delaySamples < 0
    · rw [if_pos h, ← Int.add_emod_self, Int.emod_eq_of_lt (by omega) (by omega)]
    · rw [if_neg h, Int.emod_eq_of_lt (by omega) (by omega)]
  have h0 := Int.emod_nonneg (m.writeIndex - m.delaySamples) (ne_of_gt hN)
  have h1 := Int.emod_lt_of_pos (m.writeIndex - m.delaySamples) hN
  obtain ⟨d, _, hd⟩ := readAt_some m.delayBuffer _ h0 h1
  refine ⟨hr, h0, h1, d, hd, ?_⟩
  have hne : m.delayBuffer.isEmpty = false := by
    cases hb : m.delayBuffer with
    | nil => simp [hb] at hN
    | cons a t => rfl
  simp only [SpectralMirror.process, hne, Bool.false_eq_true, if_false, hr,
    hd, writeAt_int_some _ _ x hw0 hw, List.length_set,
    Int.tmod_eq_emod (by omega : (0 : Int) ≤ m.writeIndex + 1) hN.le]

/-- A run of a SpectralMirror in terms of the history its ring holds. -/
theorem SpectralMirror.run_hist (ins : List α) :
    ∀ (m : SpectralMirror α) (w : Nat) (hist : List α), m.writeIndex = (w : Int) →
      1 ≤ m.delaySamples → m.delaySamples ≤ (m.delayBuffer.length : Int) →
      RingHist m.delayBuffer w hist →
      ∃ outs m1, runOpt SpectralMirror.process m ins = some (outs, m1) ∧
        outs.length = ins.length ∧ m1.delaySamples = m.delaySamples ∧
        m1.delayBuffer.length = m.delayBuffer.length ∧ m1.delayMs = m.delayMs ∧
        m1.sampleRate = m.sampleRate ∧ 0 ≤ m1.writeIndex ∧
        m1.writeIndex < (m1.delayBuffer.length : Int) ∧
        ∀ t, t < ins.length →
          outs[t]? = some (((ins.take t).reverse ++ hist).getD (m.delaySamples.toNat - 1) 0
            - ins.getD t 0) := by
  induction ins with
  | nil =>
    intro m w hist hw hD1 hDN hR
    refine ⟨[], m, rfl, rfl, rfl, rfl, rfl, rfl, by omega, ?_, fun t ht => absurd ht (by simp)⟩
    have := hR.1; omega
  | cons x xs ih =>
    intro m w hist hw hD1 hDN hR
    have hwN := hR.1
    obtain ⟨_, _, _, d, hd, hp⟩ := mirror_process_valid m x (by omega) (by omega)
      (by omega) hDN
    -- the cell that is read holds the sample `delaySamples` steps back
    have hk : (m.delaySamples.toNat : Int) = m.delaySamples := by omega
    have hpos : (m.writeIndex - m.delaySamples) % (m.delayBuffer.length : Int)
        = (ringPos w m.delayBuffer.length m.delaySamples.toNat : Int) := by
      rw [hw, ← hk]
      exact ringPos_emod w _ _ hwN (by omega)
    have hcell := hR.2 m.delaySamples.toNat (by omega) (by omega)
    have hdv : d = hist.getD (m.delaySamples.toNat - 1) 0 := by
      rw [hpos] at hd
      have hlt := ringPos_lt w m.delayBuffer.length m.delaySamples.toNat hwN (by omega)
        (by omega)
      obtain ⟨v, hv1, hv2⟩ := readAt_some m.delayBuffer
        (ringPos w m.delayBuffer.length m.delaySamples.toNat : Int) (by omega) (by omega)
      simp only [Int.toNat_ofNat] at hv1
      rw [hv2] at hd
      rw [hcell] at hv1
      exact (Option.some.inj hd).symm.trans (Option.some.inj hv1).symm
    have hw1 : (m.writeIndex + 1) % (m.delayBuffer.length : Int)
        = (((w + 1) % m.delayBuffer.length : Nat) : Int) := by
      rw [hw]; norm_cast
    have hset : m.writeIndex.toNat = w := by omega
    obtain ⟨outs, m2, hr, hlen, hD2, hN2, hms, hsr, hw0, hwlt, hout⟩ :=
      ih { m with delayBuffer := m.delayBuffer.set m.writeIndex.toNat x
                  writeIndex := (m.writeIndex + 1) % (m.delayBuffer.length : Int) }
        ((w + 1) % m.delayBuffer.length) (x :: hist) hw1 hD1
        (by simpa using hDN)
        (by
          have := RingHist.push m.delayBuffer w hist x hR
          simpa [hset] using this)
    refine ⟨(d - x) :: outs, m2, by simp [runOpt, hp, hr], by simp [hlen], hD2,
      by simpa using hN2, hms, hsr, hw0, hwlt, ?_⟩
    intro t ht
    cases t with
    | zero => simp [hdv]
    | succ t =>
      have := hout t (by simpa using ht)
      simp only [List.getElem?_cons_succ, List.take_succ_cons, List.reverse_cons,
        List.append_assoc, List.singleton_append, List.getD_cons_succ]
      simpa using this

omit [LinearOrderedField α] in
theorem getD_reverse_take [Zero α] (ins : List α) (t j : Nat) (ht : t ≤ ins.length) :
    (ins.take t).reverse.getD j 0 = if j < t then ins.getD (t - 1 - j) 0 else 0 := by
  have hl : (ins.take t).length = t := by simp [List.length_take, ht]
  by_cases h : j < t
  · rw [if_pos h, List.getD_eq_getElem?_getD, List.getElem?_reverse (by omega), hl,
      List.getElem?_take_of_lt (by omega), List.getD_eq_getElem?_getD]
  · rw [if_neg h, List.getD_eq_getElem?_getD, List.getElem?_eq_none (by simp [hl]; omega)]
    rfl

theorem SpectralMirror.prepare_new [FloorRing α] (sr : Int) (h : 0 ≤ sr) :
    SpectralMirror.prepare (SpectralMirror.new : SpectralMirror α) sr
      = some { delayBuffer := List.replicate (sr / 100).toNat 0, writeIndex := 0,
               delaySamples := max 1 ⌊((2 : α) / 1000) * (sr : α)⌋, delayMs := 2,
               sampleRate := sr } := by
  have hs : (0 : α) ≤ (sr : α) := by exact_mod_cast h
  have hx : (0 : α) ≤ ((2 : α) / 1000) * (sr : α) := by positivity
  have ht : truncToInt (((2 : α) / 1000) * (sr : α)) = ⌊((2 : α) / 1000) * (sr : α)⌋ := by
    simp [truncToInt, hx]
  have hdiv : Int.tdiv sr 100 = sr / 100 := Int.tdiv_eq_ediv h (by decide)
  have hn : ¬ (sr / 100 < 0) := not_lt.mpr (Int.ediv_nonneg h (by decide))
  simp only [SpectralMirror.prepare, SpectralMirror.new, ht, hdiv, hn, if_false]
  congr 2
  by_cases h1 : ⌊((2 : α) / 1000) * (sr : α)⌋ < 1
  · rw [if_pos h1, max_eq_left h1.le]
  · rw [if_neg h1, max_eq_right (not_lt.mp h1)]

theorem floor_rate_le_length [FloorRing α] (sr : Int) (h : 100 ≤ sr) :
    max 1 ⌊((2 : α) / 1000) * (sr : α)⌋ ≤ sr / 100 := by
  have hs : (100 : α) ≤ (sr : α) := by exact_mod_cast h
  apply max_le
  · exact (Int.le_ediv_iff_mul_le (by decide)).mpr (by omega)
  · rw [Int.le_ediv_iff_mul_le (by decide)]
    have h1 : ((⌊((2 : α) / 1000) * (sr : α)⌋ : Int) : α) ≤ ((2 : α) / 1000) * (sr : α) :=
      Int.floor_le _
    have h2 : ((⌊((2 : α) / 1000) * (sr : α)⌋ * 100 : Int) : α) ≤ (sr : α) := by
      push_cast
      nlinarith
    exact_mod_cast h2

/-- C16. A SpectralMirror prepared at `sr ≥ 100` has `D = max 1 ⌊0.002·sr⌋` and a buffer of
`⌊sr/100⌋` cells; on any input sequence from the prepared state output `t` is
`in[t - D] - in[t]` for `t ≥ D` and `-in[t]` for `t < D`; the reset of the state reached is
the prepared state again, so the same holds from a reset state. -/
theorem spectral_mirror_response [FloorRing α] (sr : Int) (hsr : 100 ≤ sr) (ins : List α) :
    ∃ m0 outs m1, SpectralMirror.prepare (SpectralMirror.new : SpectralMirror α) sr = some m0 ∧
      m0.delaySamples = max 1 ⌊((2 : α) / 1000) * (sr : α)⌋ ∧
      (m0.delayBuffer.length : Int) = sr / 100 ∧
      runOpt SpectralMirror.process m0 ins = some (outs, m1) ∧ outs.length = ins.length ∧
      (∀ t, t < ins.length →
        outs[t]? = some (if m0.delaySamples.toNat ≤ t
          then ins.getD (t - m0.delaySamples.toNat) 0 - ins.getD t 0
          else -ins.getD t 0)) ∧
      m1.reset = m0 := by
  have hN : (1 : Int) ≤ sr / 100 := (Int.le_ediv_iff_mul_le (by decide)).mpr (by omega)
  have hDN := floor_rate_le_length (α := α) sr hsr
  have hlen : ((List.replicate (sr / 100).toNat (0 : α)).length : Int) = sr / 100 := by
    simp only [List.length_replicate]; omega
  obtain ⟨outs, m1, hr, hl, hD1, hN1, hms, hsr1, _, _, hout⟩ :=
    SpectralMirror.run_hist ins
      ({ delayBuffer := List.replicate (sr / 100).toNat 0, writeIndex := 0,
         delaySamples := max 1 ⌊((2 : α) / 1000) * (sr : α)⌋, delayMs := 2,
         sampleRate := sr } : SpectralMirror α) 0 [] rfl (le_max_left _ _)
      (by rw [hlen]; exact hDN)
      (RingHist.init _ (by omega))
  refine ⟨_, outs, m1, SpectralMirror.prepare_new sr (by omega), rfl, hlen, hr, hl, ?_, ?_⟩
  · intro t ht
    have hD : 1 ≤ (max 1 ⌊((2 : α) / 1000) * (sr : α)⌋).toNat := by
      have := le_max_left (1 : Int) ⌊((2 : α) / 1000) * (sr : α)⌋
      omega
    have hout1 := hout t ht
    dsimp only at hout1 ⊢
    generalize (max 1 ⌊((2 : α) / 1000) * (sr : α)⌋).toNat = D at hD hout1 ⊢
    rw [hout1, List.append_nil, getD_reverse_take ins t _ ht.le]
    by_cases h : D ≤ t
    · have e : t - 1 - (D - 1) = t - D := by omega
      rw [if_pos (by omega), if_pos h, e]
    · rw [if_neg (by omega), if_neg h, zero_sub]
  · rcases m1 with ⟨b, w, d, ms, r⟩
    simp only at hD1 hN1 hms hsr1
    subst hD1 hms hsr1
    simp only [SpectralMirror.reset, hN1, List.length_replicate]

/-- The SpectralMirror at 48 kHz: the delay is 96 samples, the buffer has 480 cells. -/
theorem spectral_mirror_response_witness :
    ∃ m0 outs m1, SpectralMirror.prepare (SpectralMirror.new : SpectralMirror ℚ) 48000 = some m0 ∧
      m0.delaySamples = 96 ∧ (m0.delayBuffer.length : Int) = 480 ∧
      runOpt SpectralMirror.process m0 [1, 2, 3] = some (outs, m1) ∧
      (∀ t, t < 3 →
        outs[t]? = some (if m0.delaySamples.toNat ≤ t
          then ([1, 2, 3] : List ℚ).getD (t - m0.delaySamples.toNat) 0
            - ([1, 2, 3] : List ℚ).getD t 0
          else -([1, 2, 3] : List ℚ).getD t 0)) ∧
      m1.reset = m0 := by
  obtain ⟨m0, outs, m1, h1, h2, h3, h4, _, h6, h7⟩ :=
    spectral_mirror_response (α := ℚ) 48000 (by decide) [1, 2, 3]
  have hf : ⌊((2 : ℚ) / 1000) * ((48000 : Int) : ℚ)⌋ = 96 := by
    rw [Int.floor_eq_iff]; constructor <;> norm_num
  rw [hf] at h2
  exact ⟨m0, outs, m1, h1, h2, h3, h4, h6, h7⟩

end SpectralMirrorLemmas

/-! ## Phaser and PingPongDelay: the delay reads -/

section DelayReads
variable [LinearOrderedField α] [FloorRing α]

/-- One `process` call of a Phaser whose write index is in range and whose integer delay is
not negative: the loop leaves `(writeIndex - D) mod N`. -/
theorem phaser_process_valid (sinf : α → α) (M_PI : α) (p : Phaser α) (x : α)
    (hw0 : 0 ≤ p.writeIndex) (hw : p.writeIndex < (p.buffer.length : Int))
    (hD : 0 ≤ truncToInt (p.baseDelay + sinf p.lfoPhase * p.depth)) :
    wrapLoop (p.buffer.length : Int)
        (-(p.writeIndex - truncToInt (p.baseDelay + sinf p.lfoPhase * p.depth))).toNat
        (p.writeIndex - truncToInt (p.baseDelay + sinf p.lfoPhase * p.depth))
      = some ((p.writeIndex - truncToInt (p.baseDelay + sinf p.lfoPhase * p.depth))
          % (p.buffer.length : Int)) ∧
    0 ≤ (p.writeIndex - truncToInt (p.baseDelay + sinf p.lfoPhase * p.depth))
          % (p.buffer.length : Int) ∧
    (p.writeIndex - truncToInt (p.baseDelay + sinf p.lfoPhase * p.depth))
          % (p.buffer.length : Int) < (p.buffer.length : Int) ∧
    ∃ d, readAt p.buffer
          ((p.writeIndex - truncToInt (p.baseDelay + sinf p.lfoPhase * p.depth))
            % (p.buffer.length : Int)) = some d ∧
      Phaser.process sinf M_PI p x = some ((1 / 2) * (x + d),
        { lfoPhase := if p.lfoPhase + p.lfoInc ≥ 2 * M_PI
            then p.lfoPhase + p.lfoInc - 2 * M_PI else p.lfoPhase + p.lfoInc
          lfoInc := p.lfoInc
          baseDelay := p.baseDelay
          depth := p.depth
          buffer := p.buffer.set p.writeIndex.toNat x
          writeIndex := (p.writeIndex + 1) % (p.buffer.length : Int) }) := by
  have hN : (0 : Int) < (p.buffer.length : Int) := by omega
  generalize hDg : truncToInt (p.baseDelay + sinf p.lfoPhase * p.depth) = D at hD ⊢
  have hwl := wrapLoop_emod (p.buffer.length : Int) hN (-(p.writeIndex - D)).toNat
    (p.writeIndex - D) (by omega) (le_refl _)
  have h0 := Int.emod_nonneg (p.writeIndex - D) (ne_of_gt hN)
  have h1 := Int.emod_lt_of_pos (p.writeIndex - D) hN
  obtain ⟨d, _, hd⟩ := readAt_some p.buffer _ h0 h1
  refine ⟨hwl, h0, h1, d, hd, ?_⟩
  have hne : p.buffer.isEmpty = false := by
    cases hb : p.buffer with
    | nil => simp [hb] at hN
    | cons a t => rfl
  simp only [Phaser.process, hne, Bool.false_eq_true, if_false, hDg, hwl, hd,
    writeAt_int_some _ _ x hw0 hw, List.length_set]

/-- With `|sinf| ≤ 1` and the prepared `baseDelay` and `depth` the integer delay is between
0 and `⌊0.0035·sr⌋`. -/
theorem Phaser.delay_bounds (sinf : α → α) (sr : Int) (hsr : 0 ≤ sr) (p : Phaser α)
    (hb : p.baseDelay = (2 / 1000) * (sr : α)) (hd : p.depth = (15 / 10000) * (sr : α))
    (hsin : ∀ t, |sinf t| ≤ 1) :
    0 ≤ truncToInt (p.baseDelay + sinf p.lfoPhase * p.depth) ∧
      ((truncToInt (p.baseDelay + sinf p.lfoPhase * p.depth) : Int) : α)
        ≤ (35 / 10000) * (sr : α) := by
  have hs : (0 : α) ≤ (sr : α) := by exact_mod_cast hsr
  obtain ⟨hl, hu⟩ := abs_le.mp (hsin p.lfoPhase)
  have hm0 : 0 ≤ p.baseDelay + sinf p.lfoPhase * p.depth := by
    rw [hb, hd]; nlinarith
  have hm1 : p.baseDelay + sinf p.lfoPhase * p.depth ≤ (35 / 10000) * (sr : α) := by
    rw [hb, hd]; nlinarith
  have ht : truncToInt (p.baseDelay + sinf p.lfoPhase * p.depth)
      = ⌊p.baseDelay + sinf p.lfoPhase * p.depth⌋ := by
    simp [truncToInt, hm0]
  rw [ht]
  exact ⟨Int.floor_nonneg.mpr hm0, le_trans (Int.floor_le _) hm1⟩

theorem phaser_prepare_some (M_PI : α) (p0 : Phaser α) (sr : Int) (hsr : 0 < sr) :
    Phaser.prepare M_PI p0 sr
      = some { lfoPhase := p0.lfoPhase
               lfoInc := (2 * M_PI * (3 / 10)) / (sr : α)
               baseDelay := (2 / 1000) * (sr : α)
               depth := (15 / 10000) * (sr : α)
               buffer := List.replicate (truncToInt ((sr : α) * (2 / 100))).toNat 0
               writeIndex := 0 } ∧
    0 ≤ truncToInt ((sr : α) * (2 / 100)) ∧
    truncToInt ((sr : α) * (2 / 100)) = ⌊(sr : α) * (2 / 100)⌋ := by
  have hs : (0 : α) < (sr : α) := by exact_mod_cast hsr
  have hx : (0 : α) ≤ (sr : α) * (2 / 100) := by positivity
  have ht : truncToInt ((sr : α) * (2 / 100)) = ⌊(sr : α) * (2 / 100)⌋ := by
    simp [truncToInt, hx]
  have hn : 0 ≤ truncToInt ((sr : α) * (2 / 100)) := by
    rw [ht]; exact Int.floor_nonneg.mpr hx
  refine ⟨?_, hn, ht⟩
  have hc : ¬ (truncToInt ((sr : α) * (2 / 100)) < 0 ∨ sr = 0) := by
    intro h; rcases h with h | h <;> omega
  simp only [Phaser.prepare, hc, if_false]

theorem truncToInt_intCast (n : Int) : truncToInt ((n : α)) = n := by
  unfold truncToInt
  split
  · exact Int.floor_intCast n
  · exact Int.ceil_intCast n

theorem roundToInt_bounds (x : α) (hx : 0 ≤ x) :
    0 ≤ roundToInt x ∧ ((roundToInt x : Int) : α) ≤ x + 1 / 2 := by
  unfold roundToInt
  rw [if_pos hx]
  exact ⟨Int.floor_nonneg.mpr (by linarith), Int.floor_le _⟩

omit [FloorRing α] in
/-- One `process` call of a PingPongDelay with equal buffer sizes, write position in range
and non-negative delays: each loop leaves `(writePos - D) mod N`. -/
theorem pingpong_process_valid (d : PingPongDelay α) (x : α)
    (hR : d.bufR.length = d.bufL.length) (hw : d.writePos < d.bufL.length)
    (hDL : 0 ≤ d.delaySamplesL) (hDR : 0 ≤ d.delaySamplesR) :
    wrapLoop (d.bufL.length : Int) (-((d.writePos : Int) - d.delaySamplesL)).toNat
        ((d.writePos : Int) - d.delaySamplesL)
      = some (((d.writePos : Int) - d.delaySamplesL) % (d.bufL.length : Int)) ∧
    wrapLoop (d.bufL.length : Int) (-((d.writePos : Int) - d.delaySamplesR)).toNat
        ((d.writePos : Int) - d.delaySamplesR)
      = some (((d.writePos : Int) - d.delaySamplesR) % (d.bufL.length : Int)) ∧
    0 ≤ ((d.writePos : Int) - d.delaySamplesL) % (d.bufL.length : Int) ∧
    ((d.writePos : Int) - d.delaySamplesL) % (d.bufL.length : Int) < (d.bufL.length : Int) ∧
    0 ≤ ((d.writePos : Int) - d.delaySamplesR) % (d.bufL.length : Int) ∧
    ((d.writePos : Int) - d.delaySamplesR) % (d.bufL.length : Int) < (d.bufR.length : Int) ∧
    ∃ dl dr, readAt d.bufL (((d.writePos : Int) - d.delaySamplesL) % (d.bufL.length : Int))
          = some dl ∧
      readAt d.bufR (((d.writePos : Int) - d.delaySamplesR) % (d.bufL.length : Int))
          = some dr ∧
      d.process x = some (((6 / 10) * x + (8 / 10) * dl, (6 / 10) * x + (8 / 10) * dr),
        { (d.fbLowpass_process (dr * (45 / 100))).2.fbLowpass_process (dl * (45 / 100)) |>.2 with
          bufL := d.bufL.set d.writePos (x + (d.fbLowpass_process (dr * (45 / 100))).1)
          bufR := d.bufR.set d.writePos
            (x + ((d.fbLowpass_process (dr * (45 / 100))).2.fbLowpass_process
              (dl * (45 / 100))).1)
          writePos := (d.writePos + 1) % d.bufL.length }) := by
  have hN : (0 : Int) < (d.bufL.length : Int) := by omega
  have hwlL := wrapLoop_emod (d.bufL.length : Int) hN (-((d.writePos : Int) - d.delaySamplesL)).toNat
    ((d.writePos : Int) - d.delaySamplesL) (by omega) (le_refl _)
  have hwlR := wrapLoop_emod (d.bufL.length : Int) hN (-((d.writePos : Int) - d.delaySamplesR)).toNat
    ((d.writePos : Int) - d.delaySamplesR) (by omega) (le_refl _)
  have hL0 := Int.emod_nonneg ((d.writePos : Int) - d.delaySamplesL) (ne_of_gt hN)
  have hL1 := Int.emod_lt_of_pos ((d.writePos : Int) - d.delaySamplesL) hN
  have hR0 := Int.emod_nonneg ((d.writePos : Int) - d.delaySamplesR) (ne_of_gt hN)
  have hR1 := Int.emod_lt_of_pos ((d.writePos : Int) - d.delaySamplesR) hN
  obtain ⟨dl, _, hdl⟩ := readAt_some d.bufL _ hL0 hL1
  obtain ⟨dr, _, hdr⟩ := readAt_some d.bufR _ hR0 (by rw [hR]; exact hR1)
  refine ⟨hwlL, hwlR, hL0, hL1, hR0, by rw [hR]; exact hR1, dl, dr, hdl, hdr, ?_⟩
  have hwL := writeAt_int_some d.bufL (d.writePos : Int)
    (x + (d.fbLowpass_process (dr * (45 / 100))).1) (by omega) (by omega)
  have hwR := writeAt_int_some d.bufR (d.writePos : Int)
    (x + ((d.fbLowpass_process (dr * (45 / 100))).2.fbLowpass_process (dl * (45 / 100))).1)
    (by omega) (by omega)
  have hN0 : ¬ d.bufL.length = 0 := by omega
  simp only [Int.toNat_ofNat] at hwL hwR
  simp only [PingPongDelay.process, hwlL, hwlR, hdl, hdr, hwL, hwR, hN0, if_false]

theorem pingpong_prepare_some (expf : α → α) (M_PI : α) (d0 : PingPongDelay α)
    (sr : Int) (hsr : 0 < sr) :
    PingPongDelay.prepare expf M_PI d0 sr
      = some { sampleRate := sr
               bufL := List.replicate ((sr * 2).toNat + 10) 0
               bufR := List.replicate ((sr * 2).toNat + 10) 0
               writePos := 0
               delaySamplesL := roundToInt ((350 : α) * (1 / 1000) * (sr : α))
               delaySamplesR := roundToInt ((550 : α) * (1 / 1000) * (sr : α))
               fbLowpass_z := d0.fbLowpass_z
               fbLowpass_a0 := 1 - expf (-2 * M_PI * 6000 / (sr : α))
               fbLowpass_b1 := expf (-2 * M_PI * 6000 / (sr : α)) } := by
  have ht : truncToInt ((sr : α) * 2) = sr * 2 := by
    have : (sr : α) * 2 = ((sr * 2 : Int) : α) := by push_cast; ring
    rw [this, truncToInt_intCast]
  have hn : ¬ (sr * 2 < 0) := by omega
  have hne : sr ≠ 0 := by omega
  simp only [PingPongDelay.prepare, ht, hn, if_false, PingPongDelay.fbLowpass_setCutoff, hne]

/-- C15. For `sr ≥ 100` (and `|sinf| ≤ 1`), `prepare(sr)` establishes and `process` and
`reset` keep: the write index lies in `[0, N)`; the Phaser delay `D` satisfies
`0 ≤ D < N`, the SpectralMirror delay `1 ≤ D ≤ N`, the PingPongDelay delays
`0 ≤ D < N`; each read uses the index `(writeIndex - D) mod N`, which lies in `[0, N)`,
and every buffer access of `process` succeeds. -/
theorem delay_read_index_in_range (sinf expf : α → α) (M_PI : α) (sr : Int) (hsr : 100 ≤ sr)
    (hsin : ∀ t, |sinf t| ≤ 1) :
    (∀ p0 : Phaser α, ∃ p, Phaser.prepare M_PI p0 sr = some p ∧ Phaser.Ready sr p) ∧
    (∀ p : Phaser α, Phaser.Ready sr p → Phaser.Ready sr p.reset ∧
      0 ≤ truncToInt (p.baseDelay + sinf p.lfoPhase * p.depth) ∧
      truncToInt (p.baseDelay + sinf p.lfoPhase * p.depth) < (p.buffer.length : Int) ∧
      wrapLoop (p.buffer.length : Int)
          (-(p.writeIndex - truncToInt (p.baseDelay + sinf p.lfoPhase * p.depth))).toNat
          (p.writeIndex - truncToInt (p.baseDelay + sinf p.lfoPhase * p.depth))
        = some ((p.writeIndex - truncToInt (p.baseDelay + sinf p.lfoPhase * p.depth))
            % (p.buffer.length : Int)) ∧
      0 ≤ (p.writeIndex - truncToInt (p.baseDelay + sinf p.lfoPhase * p.depth))
            % (p.buffer.length : Int) ∧
      (p.writeIndex - truncToInt (p.baseDelay + sinf p.lfoPhase * p.depth))
            % (p.buffer.length : Int) < (p.buffer.length : Int) ∧
      ∀ x, ∃ d p1, readAt p.buffer
            ((p.writeIndex - truncToInt (p.baseDelay + sinf p.lfoPhase * p.depth))
              % (p.buffer.length : Int)) = some d ∧
        Phaser.process sinf M_PI p x = some ((1 / 2) * (x + d), p1) ∧ Phaser.Ready sr p1) ∧
    (∀ m0 : SpectralMirror α, m0.delayMs = 2 →
      ∃ m, SpectralMirror.prepare m0 sr = some m ∧ m.delayMs = 2 ∧
        SpectralMirror.Ready sr m) ∧
    (∀ m : SpectralMirror α, SpectralMirror.Ready sr m → SpectralMirror.Ready sr m.reset ∧
      1 ≤ m.delaySamples ∧ m.delaySamples ≤ (m.delayBuffer.length : Int) ∧
      (if m.writeIndex - m.delaySamples < 0
          then m.writeIndex - m.delaySamples + (m.delayBuffer.length : Int)
          else m.writeIndex - m.delaySamples)
        = (m.writeIndex - m.delaySamples) % (m.delayBuffer.length : Int) ∧
      0 ≤ (m.writeIndex - m.delaySamples) % (m.delayBuffer.length : Int) ∧
      (m.writeIndex - m.delaySamples) % (m.delayBuffer.length : Int)
        < (m.delayBuffer.length : Int) ∧
      ∀ x, ∃ d m1, readAt m.delayBuffer
            ((m.writeIndex - m.delaySamples) % (m.delayBuffer.length : Int)) = some d ∧
        m.process x = some (d - x, m1) ∧ SpectralMirror.Ready sr m1) ∧
    (∀ d0 : PingPongDelay α,
      ∃ d, PingPongDelay.prepare expf M_PI d0 sr = some d ∧ PingPongDelay.Ready sr d) ∧
    (∀ d : PingPongDelay α, PingPongDelay.Ready sr d → PingPongDelay.Ready sr d.reset ∧
      0 ≤ d.delaySamplesL ∧ d.delaySamplesL < (d.bufL.length : Int) ∧
      0 ≤ d.delaySamplesR ∧ d.delaySamplesR < (d.bufR.length : Int) ∧
      wrapLoop (d.bufL.length : Int) (-((d.writePos : Int) - d.delaySamplesL)).toNat
          ((d.writePos : Int) - d.delaySamplesL)
        = some (((d.writePos : Int) - d.delaySamplesL) % (d.bufL.length : Int)) ∧
      wrapLoop (d.bufL.length : Int) (-((d.writePos : Int) - d.delaySamplesR)).toNat
          ((d.writePos : Int) - d.delaySamplesR)
        = some (((d.writePos : Int) - d.delaySamplesR) % (d.bufL.length : Int)) ∧
      0 ≤ ((d.writePos : Int) - d.delaySamplesL) % (d.bufL.length : Int) ∧
      ((d.writePos : Int) - d.delaySamplesL) % (d.bufL.length : Int)
        < (d.bufL.length : Int) ∧
      0 ≤ ((d.writePos : Int) - d.delaySamplesR) % (d.bufL.length : Int) ∧
      ((d.writePos : Int) - d.delaySamplesR) % (d.bufL.length : Int)
        < (d.bufR.length : Int) ∧
      ∀ x, ∃ dl dr d1,
        readAt d.bufL (((d.writePos : Int) - d.delaySamplesL) % (d.bufL.length : Int))
          = some dl ∧
        readAt d.bufR (((d.writePos : Int) - d.delaySamplesR) % (d.bufL.length : Int))
          = some dr ∧
        d.process x
          = some (((6 / 10) * x + (8 / 10) * dl, (6 / 10) * x + (8 / 10) * dr), d1) ∧
        PingPongDelay.Ready sr d1) := by
  have hs : (100 : α) ≤ (sr : α) := by exact_mod_cast hsr
  have hs0 : (0 : Int) < sr := by omega
  refine ⟨?_, ?_, ?_, ?_, ?_, ?_⟩
  · -- Phaser: prepare
    intro p0
    obtain ⟨hp, hn, ht⟩ := phaser_prepare_some M_PI p0 sr hs0
    refine ⟨_, hp, rfl, rfl, ?_, le_refl _, ?_⟩
    · simp only [List.length_replicate]; omega
    · simp only [List.length_replicate]
      have h2 : (2 : Int) ≤ ⌊(sr : α) * (2 / 100)⌋ := by
        rw [Int.le_floor]; push_cast; linarith
      omega
  · -- Phaser: process and reset
    intro p ⟨hb, hd, hlen, hw0, hw⟩
    obtain ⟨hD0, hD1⟩ := Phaser.delay_bounds sinf sr (by omega) p hb hd hsin
    have hDN : truncToInt (p.baseDelay + sinf p.lfoPhase * p.depth)
        < (p.buffer.length : Int) := by
      rw [hlen]
      have hx : (0 : α) ≤ (sr : α) * (2 / 100) := by linarith
      have ht : truncToInt ((sr : α) * (2 / 100)) = ⌊(sr : α) * (2 / 100)⌋ := by
        simp [truncToInt, hx]
      rw [ht, Int.lt_iff_add_one_le, Int.le_floor]
      push_cast
      linarith
    obtain ⟨hwl, h0, h1, d, hrd, hproc⟩ := phaser_process_valid sinf M_PI p (0 : α) hw0 hw hD0
    refine ⟨⟨hb, hd, ?_, le_refl _, ?_⟩, hD0, hDN, hwl, h0, h1, ?_⟩
    · simp only [Phaser.reset, List.length_replicate]; exact hlen
    · simp only [Phaser.reset, List.length_replicate]; omega
    · intro x
      obtain ⟨_, _, _, d', hrd', hproc'⟩ := phaser_process_valid sinf M_PI p x hw0 hw hD0
      refine ⟨d', _, hrd', hproc', hb, hd, ?_, ?_, ?_⟩
      · simp only [List.length_set]; exact hlen
      · exact Int.emod_nonneg _ (by omega)
      · simp only [List.length_set]
        exact Int.emod_lt_of_pos _ (by omega)
  · -- SpectralMirror: prepare
    intro m0 hms
    have hN : (1 : Int) ≤ sr / 100 := (Int.le_ediv_iff_mul_le (by decide)).mpr (by omega)
    have hx : (0 : α) ≤ ((2 : α) / 1000) * (sr : α) := by linarith
    have hdiv : Int.tdiv sr 100 = sr / 100 := Int.tdiv_eq_ediv (by omega) (by decide)
    have hn : ¬ (sr / 100 < 0) := by omega
    refine ⟨{ delayBuffer := List.replicate (sr / 100).toNat 0, writeIndex := 0,
              delaySamples := max 1 (truncToInt (((2 : α) / 1000) * (sr : α))),
              delayMs := 2, sampleRate := sr }, ?_, rfl, rfl, ?_, le_refl _, ?_⟩
    · simp only [SpectralMirror.prepare, hms, hdiv, hn, if_false]
      congr 2
      by_cases h1 : truncToInt (((2 : α) / 1000) * (sr : α)) < 1
      · rw [if_pos h1, max_eq_left h1.le]
      · rw [if_neg h1, max_eq_right (not_lt.mp h1)]
    · simp only [List.length_replicate]; omega
    · simp only [List.length_replicate]; omega
  · -- SpectralMirror: process and reset
    intro m ⟨hD, hlen, hw0, hw⟩
    have hx : (0 : α) ≤ ((2 : α) / 1000) * (sr : α) := by linarith
    have ht : truncToInt (((2 : α) / 1000) * (sr : α)) = ⌊((2 : α) / 1000) * (sr : α)⌋ := by
      simp [truncToInt, hx]
    have hdiv : Int.tdiv sr 100 = sr / 100 := Int.tdiv_eq_ediv (by omega) (by decide)
    have hD1 : 1 ≤ m.delaySamples := by rw [hD]; exact le_max_left _ _
    have hDN : m.delaySamples ≤ (m.delayBuffer.length : Int) := by
      rw [hD, hlen, ht, hdiv]; exact floor_rate_le_length sr hsr
    obtain ⟨hr, h0, h1, _, _, _⟩ := mirror_process_valid m (0 : α) hw0 hw (by omega) hDN
    refine ⟨⟨hD, ?_, le_refl _, ?_⟩, hD1, hDN, hr, h0, h1, ?_⟩
    · simp only [SpectralMirror.reset, List.length_replicate]; exact hlen
    · simp only [SpectralMirror.reset, List.length_replicate]; omega
    · intro x
      obtain ⟨_, _, _, d, hrd, hproc⟩ := mirror_process_valid m x hw0 hw (by omega) hDN
      refine ⟨d, _, hrd, hproc, hD, ?_, ?_, ?_⟩
      · simp only [List.length_set]; exact hlen
      · exact Int.emod_nonneg _ (by omega)
      · simp only [List.length_set]
        exact Int.emod_lt_of_pos _ (by omega)
  · -- PingPongDelay: prepare
    intro d0
    refine ⟨_, pingpong_prepare_some expf M_PI d0 sr hs0, rfl, rfl, ?_, ?_, ?_⟩
    · have ht : truncToInt ((sr : α) * 2) = sr * 2 := by
        have : (sr : α) * 2 = ((sr * 2 : Int) : α) := by push_cast; ring
        rw [this, truncToInt_intCast]
      simp only [List.length_replicate, ht]
    · simp only [List.length_replicate]
    · simp only [List.length_replicate]; omega
  · -- PingPongDelay: process and reset
    intro d ⟨hL, hR, hlen, hlenR, hw⟩
    have ht : truncToInt ((sr : α) * 2) = sr * 2 := by
      have : (sr : α) * 2 = ((sr * 2 : Int) : α) := by push_cast; ring
      rw [this, truncToInt_intCast]
    rw [ht] at hlen
    obtain ⟨hL0, hL1⟩ := roundToInt_bounds ((350 : α) * (1 / 1000) * (sr : α)) (by linarith)
    obtain ⟨hR0, hR1⟩ := roundToInt_bounds ((550 : α) * (1 / 1000) * (sr : α)) (by linarith)
    rw [← hL] at hL0 hL1
    rw [← hR] at hR0 hR1
    have hNc : ((d.bufL.length : Int) : α) = (sr : α) * 2 + 10 := by
      have : (d.bufL.length : Int) = sr * 2 + 10 := by omega
      rw [this]; push_cast; ring
    have hLN : d.delaySamplesL < (d.bufL.length : Int) := by
      have : ((d.delaySamplesL : Int) : α) < ((d.bufL.length : Int) : α) := by
        rw [hNc]; linarith
      exact_mod_cast this
    have hRN : d.delaySamplesR < (d.bufR.length : Int) := by
      rw [hlenR]
      have : ((d.delaySamplesR : Int) : α) < ((d.bufL.length : Int) : α) := by
        rw [hNc]; linarith
      exact_mod_cast this
    obtain ⟨a1, a2, a3, a4, a5, a6, _⟩ := pingpong_process_valid d (0 : α) hlenR hw hL0 hR0
    refine ⟨⟨hL, hR, ?_, ?_, ?_⟩, hL0, hLN, hR0, hRN, a1, a2, a3, a4, a5, a6, ?_⟩
    · simp only [PingPongDelay.reset, List.length_replicate, ht]; omega
    · simp only [PingPongDelay.reset, List.length_replicate]; exact hlenR
    · simp only [PingPongDelay.reset, List.length_replicate]; omega
    · intro x
      obtain ⟨_, _, _, _, _, _, dl, dr, hdl, hdr, hproc⟩ :=
        pingpong_process_valid d x hlenR hw hL0 hR0
      refine ⟨dl, dr, _, hdl, hdr, hproc, hL, hR, ?_, ?_, ?_⟩
      · simp only [List.length_set, ht]; omega
      · simp only [List.length_set]; exact hlenR
      · simp only [List.length_set]
        exact Nat.mod_lt _ (by omega)

/-- The three delay units at 48 kHz. -/
theorem delay_read_index_in_range_witness :
    (∀ p0 : Phaser ℚ, ∃ p, Phaser.prepare 3 p0 48000 = some p ∧ Phaser.Ready 48000 p) ∧
    (∀ m0 : SpectralMirror ℚ, m0.delayMs = 2 →
      ∃ m, SpectralMirror.prepare m0 48000 = some m ∧ m.delayMs = 2 ∧
        SpectralMirror.Ready 48000 m) ∧
    (∀ d0 : PingPongDelay ℚ,
      ∃ d, PingPongDelay.prepare (fun _ => 1 / 2) 3 d0 48000 = some d ∧
        PingPongDelay.Ready 48000 d) := by
  have h := delay_read_index_in_range (fun _ => (0 : ℚ)) (fun _ => 1 / 2) 3 48000
    (by decide) (fun _ => by simp)
  exact ⟨h.1, h.2.2.1, h.2.2.2.2.1⟩

end DelayReads

/-! ## Reset after a run -/

theorem resetRestores_of_inv {σ β : Type} (prepared : Option σ)
    (step : σ → α → Option (β × σ)) (reset : σ → σ) (p : σ) (hp : prepared = some p)
    (hpr : reset p = p) (Inv : σ → Prop) (h0 : Inv p)
    (hstep : ∀ s x, Inv s → ∃ y s1, step s x = some (y, s1) ∧ Inv s1 ∧ reset s1 = reset s)
    (ins : List α) : ResetRestores prepared step reset ins := by
  obtain ⟨outs, s, hr, _, _, hs⟩ := runOpt_inv step (fun s => Inv s ∧ reset s = p)
    (by
      intro s x ⟨hi, he⟩
      obtain ⟨y, s1, h1, h2, h3⟩ := hstep s x hi
      exact ⟨y, s1, h1, h2, by rw [h3, he]⟩)
    ins p ⟨h0, hpr⟩
  exact ⟨p, outs, s, hp, hr, hs, fun ins2 => by rw [hs]⟩

section ResetUnits
variable [LinearOrderedField α]

theorem fuzz_resetRestores (expf : α → α) (M_PI : α) (sr : Int) (hsr : 0 < sr)
    (ins : List α) :
    ResetRestores (Fuzz.prepare expf M_PI Fuzz.new sr) (fun f x => some (Fuzz.process f x))
      Fuzz.reset ins := by
  obtain ⟨f1, h1, _, _, _, _, hz1, hz2, _, _, _⟩ :=
    fuzz_prepare_some expf M_PI (Fuzz.new : Fuzz α) sr (by omega)
  refine resetRestores_of_inv _ _ _ f1 h1 ?_ (fun _ => True) trivial ?_ ins
  · rcases f1 with ⟨a, b, c, z1, z2, d, e, f, g⟩
    simp only [Fuzz.new] at hz1 hz2
    subst hz1 hz2
    rfl
  · intro s x _
    exact ⟨_, _, rfl, trivial, rfl⟩

theorem exciter_resetRestores (expf tanhf : α → α) (M_PI : α) (sr : Int) (hsr : 0 < sr)
    (ins : List α) :
    ResetRestores (Exciter.prepare expf M_PI Exciter.new sr)
      (fun e x => some (Exciter.process tanhf e x)) Exciter.reset ins := by
  have hne : sr ≠ 0 := by omega
  refine resetRestores_of_inv _ _ _
    { (Exciter.new : Exciter α) with hpCoeff := expf (-2 * M_PI * 3000 / (sr : α)) }
    (by simp [Exciter.prepare, hne]) rfl (fun _ => True) trivial ?_ ins
  intro s x _
  exact ⟨_, _, rfl, trivial, rfl⟩

theorem autoswell_resetRestores (ac rc : α) (sr : Int) (hsr : 0 < sr) (ins : List α) :
    ResetRestores (AutoSwell.prepare (AutoSwell.new ac rc) sr)
      (fun a x => some (AutoSwell.process a x)) AutoSwell.reset ins := by
  have hs : (0 : α) < (sr : α) := by exact_mod_cast hsr
  have hd : (15 / 100 : α) * (sr : α) ≠ 0 := ne_of_gt (by positivity)
  have hd2 : (2 / 10 : α) * (sr : α) ≠ 0 := ne_of_gt (by positivity)
  refine resetRestores_of_inv _ _ _
    { AutoSwell.new ac rc with
        sampleRate := sr,
        attackCoeff := 1 / ((15 / 100) * (sr : α)),
        releaseCoeff := 1 / ((2 / 10) * (sr : α)) }
    ?_ rfl (fun _ => True) trivial ?_ ins
  · simp only [AutoSwell.prepare, AutoSwell.new]
    rw [if_neg (by
      intro h
      rcases h with h | h
      · exact hd h
      · exact hd2 h)]
  · intro s x _
    exact ⟨_, _, rfl, trivial, rfl⟩

omit [LinearOrderedField α] in
theorem Bitcrusher.clampParams_id (b : Bitcrusher α) (h1 : 1 ≤ b.bitDepth)
    (h2 : b.bitDepth ≤ 24) (h3 : 1 ≤ b.downsampleFactor) : Bitcrusher.clampParams b = b := by
  have c1 : ¬ b.downsampleFactor < 1 := by omega
  have c2 : ¬ b.bitDepth < 1 := by omega
  have c3 : ¬ b.bitDepth > 24 := by omega
  simp [Bitcrusher.clampParams, c1, c2, c3]

theorem Bitcrusher.process_in_range [FloorRing α] (b : Bitcrusher α) (x : α)
    (h1 : 1 ≤ b.bitDepth) (h2 : b.bitDepth ≤ 24) (h3 : 1 ≤ b.downsampleFactor) :
    ∃ out b1, Bitcrusher.process b x = some (out, b1) ∧ b1.bitDepth = b.bitDepth ∧
      b1.downsampleFactor = b.downsampleFactor ∧ b1.sampleRate = b.sampleRate := by
  obtain ⟨y, hy⟩ := Bitcrusher.quantizeSample_some x b.bitDepth h1 h2
  unfold Bitcrusher.process
  rw [Bitcrusher.clampParams_id b h1 h2 h3]
  simp only [hy]
  by_cases hc : b.holdCounter ≤ 0
  · simp only [hc, if_true]
    exact ⟨_, _, rfl, rfl, rfl, rfl⟩
  · simp only [hc, if_false]
    exact ⟨_, _, rfl, rfl, rfl, rfl⟩

theorem bitcrusher_resetRestores [FloorRing α] (sr : Int) (ins : List α) :
    ResetRestores (some (Bitcrusher.prepare (Bitcrusher.new : Bitcrusher α) sr))
      Bitcrusher.process Bitcrusher.reset ins := by
  refine resetRestores_of_inv _ _ _ _ rfl rfl
    (fun b => 1 ≤ b.bitDepth ∧ b.bitDepth ≤ 24 ∧ 1 ≤ b.downsampleFactor)
    ⟨by simp [Bitcrusher.prepare, Bitcrusher.new], by simp [Bitcrusher.prepare, Bitcrusher.new],
      by simp [Bitcrusher.prepare, Bitcrusher.new]⟩ ?_ ins
  intro b x ⟨h1, h2, h3⟩
  obtain ⟨out, b1, hp, e1, e2, e3⟩ := Bitcrusher.process_in_range b x h1 h2 h3
  refine ⟨out, b1, hp, ⟨by rw [e1]; exact h1, by rw [e1]; exact h2, by rw [e2]; exact h3⟩, ?_⟩
  rcases b1 with ⟨a1, a2, a3, a4, a5⟩
  rcases b with ⟨c1, c2, c3, c4, c5⟩
  simp only at e1 e2 e3
  subst e1 e2 e3
  rfl

theorem mirror_resetRestores [FloorRing α] (sr : Int) (hsr : 0 < sr)
    (ins : List α) :
    ResetRestores (SpectralMirror.prepare (SpectralMirror.new : SpectralMirror α) sr)
      SpectralMirror.process SpectralMirror.reset ins := by
  refine resetRestores_of_inv _ _ _ _ (SpectralMirror.prepare_new sr (by omega))
    (by simp [SpectralMirror.reset])
    (fun m => m.delaySamples = max 1 ⌊((2 : α) / 1000) * (sr : α)⌋ ∧
      m.delayBuffer.length = (sr / 100).toNat ∧ 0 ≤ m.writeIndex ∧
      (m.delayBuffer ≠ [] → m.writeIndex < (m.delayBuffer.length : Int)))
    ⟨rfl, by simp, le_refl _, ?_⟩ ?_ ins
  · intro h
    have : (List.replicate (sr / 100).toNat (0 : α)).length ≠ 0 := by
      intro h0; exact h (List.length_eq_zero.mp h0)
    simp only [List.length_replicate] at this ⊢
    omega
  · intro m x ⟨hD, hlen, hw0, hw⟩
    by_cases hb : m.delayBuffer = []
    · refine ⟨x, m, by simp [SpectralMirror.process, hb], ⟨hD, hlen, hw0, hw⟩, rfl⟩
    · have hwN := hw hb
      have hpos : 0 < m.delayBuffer.length := List.length_pos.mpr hb
      have h100 : 100 ≤ sr := by
        by_contra hlt
        have h0 : sr / 100 = 0 := Int.ediv_eq_zero_of_lt (by omega) (by omega)
        have : m.delayBuffer.length = 0 := by rw [hlen, h0]; rfl
        omega
      have hDN : m.delaySamples ≤ (m.delayBuffer.length : Int) := by
        rw [hD, hlen]
        have := floor_rate_le_length (α := α) sr h100
        omega
      have hD1 : 1 ≤ m.delaySamples := by rw [hD]; exact le_max_left _ _
      obtain ⟨_, _, _, d, _, hproc⟩ :=
        mirror_process_valid m x hw0 hwN (by omega) hDN
      refine ⟨_, _, hproc, ⟨hD, by simpa using hlen, ?_, ?_⟩, ?_⟩
      · exact Int.emod_nonneg _ (by omega)
      · intro _
        simp only [List.length_set]
        exact Int.emod_lt_of_pos _ (by omega)
      · simp [SpectralMirror.reset]

theorem phaser_resetRestores [FloorRing α] (sinf : α → α) (M_PI : α) (sr : Int)
    (hsr : 0 < sr) (hsin : ∀ t, |sinf t| ≤ 1) (ins : List α) :
    ResetRestores (Phaser.prepare M_PI (Phaser.new : Phaser α) sr)
      (Phaser.process sinf M_PI) Phaser.reset ins := by
  obtain ⟨hp, hn, _⟩ := phaser_prepare_some M_PI (Phaser.new : Phaser α) sr hsr
  refine resetRestores_of_inv _ _ _ _ hp (by simp [Phaser.reset, Phaser.new])
    (fun s => s.baseDelay = (2 / 1000) * (sr : α) ∧ s.depth = (15 / 10000) * (sr : α) ∧
      0 ≤ s.writeIndex ∧ (s.buffer ≠ [] → s.writeIndex < (s.buffer.length : Int)))
    ⟨rfl, rfl, le_refl _, ?_⟩ ?_ ins
  · intro h
    have hpos : 0 < (List.replicate (truncToInt ((sr : α) * (2 / 100))).toNat (0 : α)).length :=
      List.length_pos.mpr h
    simp only [List.length_replicate] at hpos ⊢
    omega
  · intro s x ⟨hb, hd, hw0, hw⟩
    by_cases hbuf : s.buffer = []
    · exact ⟨x, s, by simp [Phaser.process, hbuf], ⟨hb, hd, hw0, hw⟩, rfl⟩
    · have hwN := hw hbuf
      obtain ⟨hD0, _⟩ := Phaser.delay_bounds sinf sr (by omega) s hb hd hsin
      obtain ⟨_, _, _, d, _, hproc⟩ := phaser_process_valid sinf M_PI s x hw0 hwN hD0
      refine ⟨_, _, hproc, ⟨hb, hd, ?_, ?_⟩, ?_⟩
      · exact Int.emod_nonneg _ (by omega)
      · intro _
        simp only [List.length_set]
        exact Int.emod_lt_of_pos _ (by omega)
      · simp [Phaser.reset]

theorem pingpong_resetRestores [FloorRing α] (expf : α → α) (M_PI : α) (sr : Int)
    (hsr : 0 < sr) (ins : List α) :
    ResetRestores (PingPongDelay.prepare expf M_PI (PingPongDelay.new : PingPongDelay α) sr)
      PingPongDelay.process PingPongDelay.reset ins := by
  have hs : (0 : α) < (sr : α) := by exact_mod_cast hsr
  obtain ⟨hL0, _⟩ := roundToInt_bounds ((350 : α) * (1 / 1000) * (sr : α)) (by positivity)
  obtain ⟨hR0, _⟩ := roundToInt_bounds ((550 : α) * (1 / 1000) * (sr : α)) (by positivity)
  refine resetRestores_of_inv _ _ _ _
    (pingpong_prepare_some expf M_PI (PingPongDelay.new : PingPongDelay α) sr hsr)
    (by simp [PingPongDelay.reset, PingPongDelay.new])
    (fun d => d.bufR.length = d.bufL.length ∧ d.writePos < d.bufL.length ∧
      0 ≤ d.delaySamplesL ∧ 0 ≤ d.delaySamplesR)
    ⟨rfl, by simp, hL0, hR0⟩ ?_ ins
  intro d x ⟨hlen, hw, hL, hR⟩
  obtain ⟨_, _, _, _, _, _, dl, dr, _, _, hproc⟩ :=
    pingpong_process_valid d x hlen hw hL hR
  refine ⟨_, _, hproc, ⟨?_, ?_, hL, hR⟩, ?_⟩
  · simpa using hlen
  · simp only [List.length_set]
    exact Nat.mod_lt _ (by omega)
  · simp [PingPongDelay.reset, PingPongDelay.fbLowpass_process]

open Reverb in
theorem Delay.process_ok (d : Delay α) (x : α) (h : d.buf = [] ∨ d.Valid) :
    ∃ out d1, d.process x = some (out, d1) ∧ d1.clear = d.clear ∧
      (d1.buf = [] ∨ d1.Valid) := by
  rcases h with h | h
  · exact ⟨x, d, by simp [Delay.process, h], rfl, Or.inl h⟩
  · obtain ⟨out, _, hp⟩ := Delay.process_valid d x h
    obtain ⟨h0, h1⟩ := h
    refine ⟨out, _, hp, by simp [Delay.clear], Or.inr ⟨?_, ?_⟩⟩
    · exact Int.emod_nonneg _ (by omega)
    · simp only [List.length_set]
      exact Int.emod_lt_of_pos _ (by omega)

open Reverb in
theorem Reverb.combLoop_ok (x : α) (cs : List (Delay α)) :
    ∀ acc, (∀ c ∈ cs, c.buf = [] ∨ c.Valid) →
      ∃ sum cs1, Reverb.combLoop x cs acc = some (sum, cs1) ∧
        cs1.map Delay.clear = cs.map Delay.clear ∧ ∀ c ∈ cs1, c.buf = [] ∨ c.Valid := by
  induction cs with
  | nil => intro acc _; exact ⟨acc, [], rfl, rfl, fun c hc => absurd hc (by simp)⟩
  | cons c cs ih =>
    intro acc h
    obtain ⟨o, c1, hp, hc, hok⟩ := Delay.process_ok c x (h c (List.mem_cons_self _ _))
    obtain ⟨sum, cs1, hl, hm, hall⟩ := ih (acc + o) (fun d hd => h d (List.mem_cons_of_mem _ hd))
    refine ⟨sum, c1 :: cs1, by simp only [Reverb.combLoop, hp, hl], by simp [hc, hm], ?_⟩
    intro d hd
    rcases List.mem_cons.mp hd with e | e
    · rw [e]; exact hok
    · exact hall d e

open Reverb in
theorem Reverb.allpassLoop_ok (aps : List (Delay α)) :
    ∀ apOut, (∀ c ∈ aps, c.buf = [] ∨ c.Valid) →
      ∃ y aps1, Reverb.allpassLoop aps apOut = some (y, aps1) ∧
        aps1.map Delay.clear = aps.map Delay.clear ∧ ∀ c ∈ aps1, c.buf = [] ∨ c.Valid := by
  induction aps with
  | nil => intro apOut _; exact ⟨apOut, [], rfl, rfl, fun c hc => absurd hc (by simp)⟩
  | cons c cs ih =>
    intro apOut h
    obtain ⟨o, c1, hp, hc, hok⟩ := Delay.process_ok c apOut (h c (List.mem_cons_self _ _))
    obtain ⟨y, cs1, hl, hm, hall⟩ := ih (o * (-(1 / 2)) + apOut)
      (fun d hd => h d (List.mem_cons_of_mem _ hd))
    refine ⟨y, c1 :: cs1, by simp only [Reverb.allpassLoop, hp, hl], by simp [hc, hm], ?_⟩
    intro d hd
    rcases List.mem_cons.mp hd with e | e
    · rw [e]; exact hok
    · exact hall d e

open Reverb in
theorem Delay.init_some (n : Int) (h : 0 ≤ n) (g : α) :
    Delay.init n g = some ⟨List.replicate n.toNat 0, 0, g⟩ := by
  have : ¬ n < 0 := by omega
  simp [Delay.init, this]

open Reverb in
theorem Delay.ok_zeros (n : Nat) (g : α) :
    (⟨List.replicate n 0, 0, g⟩ : Delay α).buf = [] ∨
      (⟨List.replicate n 0, 0, g⟩ : Delay α).Valid := by
  cases n with
  | zero => left; rfl
  | succ k =>
    right
    exact ⟨le_refl _, by simp only [List.length_replicate]; omega⟩

theorem truncToInt_nonneg [FloorRing α] (x : α) (h : 0 ≤ x) : 0 ≤ truncToInt x := by
  simp only [truncToInt, h, if_true]
  exact Int.floor_nonneg.mpr h

open Reverb in
theorem reverb_resetRestores [FloorRing α] (sr : Int) (hsr : 0 < sr) (ins : List α) :
    ResetRestores (Reverb.prepare (Reverb.new : Reverb α) sr) Reverb.process Reverb.reset
      ins := by
  have hs : (0 : α) < (sr : α) := by exact_mod_cast hsr
  have i0 := Delay.init_some (truncToInt ((297 / 10000 : α) * (sr : α)))
    (truncToInt_nonneg _ (by positivity)) (78 / 100 : α)
  have i1 := Delay.init_some (truncToInt ((371 / 10000 : α) * (sr : α)))
    (truncToInt_nonneg _ (by positivity)) (80 / 100 : α)
  have i2 := Delay.init_some (truncToInt ((411 / 10000 : α) * (sr : α)))
    (truncToInt_nonneg _ (by positivity)) (82 / 100 : α)
  have i3 := Delay.init_some (truncToInt ((437 / 10000 : α) * (sr : α)))
    (truncToInt_nonneg _ (by positivity)) (76 / 100 : α)
  have i4 := Delay.init_some (truncToInt ((50 / 10000 : α) * (sr : α)))
    (truncToInt_nonneg _ (by positivity)) (70 / 100 : α)
  have i5 := Delay.init_some (truncToInt ((17 / 10000 : α) * (sr : α)))
    (truncToInt_nonneg _ (by positivity)) (70 / 100 : α)
  have hprep : Reverb.prepare (Reverb.new : Reverb α) sr
      = some { combs := [⟨List.replicate (truncToInt ((297 / 10000 : α) * (sr : α))).toNat 0, 0,
                            78 / 100⟩,
                         ⟨List.replicate (truncToInt ((371 / 10000 : α) * (sr : α))).toNat 0, 0,
                            80 / 100⟩,
                         ⟨List.replicate (truncToInt ((411 / 10000 : α) * (sr : α))).toNat 0, 0,
                            82 / 100⟩,
                         ⟨List.replicate (truncToInt ((437 / 10000 : α) * (sr : α))).toNat 0, 0,
                            76 / 100⟩],
               allpasses := [⟨List.replicate (truncToInt ((50 / 10000 : α) * (sr : α))).toNat 0,
                                0, 70 / 100⟩,
                             ⟨List.replicate (truncToInt ((17 / 10000 : α) * (sr : α))).toNat 0,
                                0, 70 / 100⟩],
               sr := sr } := by
    simp only [Reverb.prepare, i0, i1, i2, i3, i4, i5]
  refine resetRestores_of_inv _ _ _ _ hprep (by simp [Reverb.reset, Delay.clear])
    (fun r => (∀ c ∈ r.combs, c.buf = [] ∨ c.Valid) ∧ (∀ c ∈ r.allpasses, c.buf = [] ∨ c.Valid))
    ⟨?_, ?_⟩ ?_ ins
  · intro c hc
    simp only [List.mem_cons, List.mem_singleton, List.not_mem_nil, or_false] at hc
    rcases hc with h | h | h | h <;> rw [h] <;> exact Delay.ok_zeros _ _
  · intro c hc
    simp only [List.mem_cons, List.mem_singleton, List.not_mem_nil, or_false] at hc
    rcases hc with h | h <;> rw [h] <;> exact Delay.ok_zeros _ _
  · intro r x ⟨hc, ha⟩
    obtain ⟨sum, cs1, h1, hm1, hok1⟩ := Reverb.combLoop_ok x r.combs 0 hc
    obtain ⟨y, as1, h2, hm2, hok2⟩ := Reverb.allpassLoop_ok r.allpasses (sum * (1 / 4)) ha
    refine ⟨y, { combs := cs1, allpasses := as1, sr := r.sr }, ?_, ⟨hok1, hok2⟩, ?_⟩
    · simp only [Reverb.process, h1, h2]
    · simp [Reverb.reset, hm1, hm2]

/-- With exact sums the wrap loop ends within `⌈-r⌉` iterations, in `[0, n)`. -/
theorem wrapLoopF_range [FloorRing α] (n : α) (hn : 1 ≤ n) :
    ∀ (fuel : Nat) (r : α), r < n → (⌈-r⌉).toNat ≤ fuel →
      ∃ r1, wrapLoopF id n fuel r = some r1 ∧ 0 ≤ r1 ∧ r1 < n := by
  intro fuel
  induction fuel with
  | zero =>
    intro r hr hf
    have hc : ⌈-r⌉ ≤ 0 := by omega
    have h0 : -r ≤ 0 := by
      have := Int.ceil_le.mp hc
      simpa using this
    have hnn : ¬ r < 0 := not_lt.mpr (by linarith)
    exact ⟨r, by simp only [wrapLoopF, hnn, if_false], by linarith, hr⟩
  | succ k ih =>
    intro r hr hf
    by_cases h0 : r < 0
    · have hpos : 0 < ⌈-r⌉ := Int.ceil_pos.mpr (by linarith)
      have hle : ⌈-(r + n)⌉ ≤ ⌈-r⌉ - 1 := by
        rw [Int.ceil_le]
        have := Int.le_ceil (-r)
        push_cast
        linarith
      obtain ⟨r1, h1, h2, h3⟩ := ih (r + n) (by linarith) (by omega)
      exact ⟨r1, by simp only [wrapLoopF, h0, if_true, id_eq, h1], h2, h3⟩
    · exact ⟨r, by simp only [wrapLoopF, h0, if_false], not_lt.mp h0, hr⟩

/-- One `process` call, in exact arithmetic, of a Vibrato with a full array, write index in
range, a non-negative depth, a nonzero sample rate and `sinf ≥ -1`. -/
theorem vibrato_process_valid [FloorRing α] (sinf : α → α) (M_PI : α) (v : Vibrato α)
    (x : α) (hlen : v.delayBuf.length = 1024) (hw0 : 0 ≤ v.writeIdx) (hw : v.writeIdx < 1024)
    (hd : 0 ≤ v.depth) (hsr : v.sampleRate ≠ 0) (hsin : ∀ t, |sinf t| ≤ 1) :
    ∃ out, Vibrato.process id sinf M_PI v x = some (out,
      { v with delayBuf := v.delayBuf.set v.writeIdx.toNat x
               writeIdx := (v.writeIdx + 1) % 1024
               sampleCounter := (v.sampleCounter + 1) % 2 ^ 64 }) := by
  have hwr := writeAt_int_some v.delayBuf v.writeIdx x hw0 (by omega)
  obtain ⟨hl, _⟩ := abs_le.mp
    (hsin (2 * M_PI * v.rate * (v.sampleCounter : α) / (v.sampleRate : α)))
  have hrd : 0 ≤ v.depth * sinf (2 * M_PI * v.rate * (v.sampleCounter : α) / (v.sampleRate : α))
      + v.depth := by nlinarith
  have hwc : ((v.writeIdx : Int) : α) ≤ 1023 := by
    have : v.writeIdx ≤ 1023 := by omega
    exact_mod_cast this
  have hM : ((Vibrato.MAX_DELAY : Int) : α) = 1024 := by simp [Vibrato.MAX_DELAY]
  obtain ⟨r, hr, hr0, hr1⟩ := wrapLoopF_range (1024 : α) (by norm_num)
    (⌈-((v.writeIdx : α) - (v.depth * sinf (2 * M_PI * v.rate * (v.sampleCounter : α)
      / (v.sampleRate : α)) + v.depth))⌉).toNat
    ((v.writeIdx : α) - (v.depth * sinf (2 * M_PI * v.rate * (v.sampleCounter : α)
      / (v.sampleRate : α)) + v.depth)) (by linarith) (le_refl _)
  have ht : truncToInt r = ⌊r⌋ := by simp [truncToInt, hr0]
  have hi0 : 0 ≤ ⌊r⌋ := Int.floor_nonneg.mpr hr0
  have hi1 : ⌊r⌋ < 1024 := by
    rw [Int.floor_lt]; exact_mod_cast hr1
  have hblen : ((v.delayBuf.set v.writeIdx.toNat x).length : Int) = 1024 := by
    simp only [List.length_set, hlen]; rfl
  have hmod : Int.tmod (⌊r⌋ + 1) Vibrato.MAX_DELAY = (⌊r⌋ + 1) % 1024 :=
    Int.tmod_eq_emod (by omega) (by decide)
  have hmodw : Int.tmod (v.writeIdx + 1) Vibrato.MAX_DELAY = (v.writeIdx + 1) % 1024 :=
    Int.tmod_eq_emod (by omega) (by decide)
  obtain ⟨a1, _, ha1⟩ := readAt_some (v.delayBuf.set v.writeIdx.toNat x) ⌊r⌋ hi0 (by omega)
  obtain ⟨a2, _, ha2⟩ := readAt_some (v.delayBuf.set v.writeIdx.toNat x) ((⌊r⌋ + 1) % 1024)
    (by omega) (by omega)
  refine ⟨a1 * (1 - (r - (⌊r⌋ : α))) + a2 * (r - (⌊r⌋ : α)), ?_⟩
  simp only [Vibrato.process, hwr, hsr, if_false, hM, id_eq, hr, ht, hmod, hmodw, ha1, ha2]

theorem vibrato_resetRestores [FloorRing α] (sinf : α → α) (M_PI : α) (sr : Int)
    (hsr : 0 < sr) (hsin : ∀ t, |sinf t| ≤ 1) (ins : List α) :
    ResetRestores (some (Vibrato.prepare (Vibrato.new : Vibrato α) sr))
      (Vibrato.process id sinf M_PI) Vibrato.reset ins := by
  refine resetRestores_of_inv _ _ _ _ rfl
    (by simp only [Vibrato.reset, Vibrato.prepare, Vibrato.new, List.length_replicate])
    (fun v => v.delayBuf.length = 1024 ∧ 0 ≤ v.writeIdx ∧ v.writeIdx < 1024 ∧ 0 ≤ v.depth ∧
      v.sampleRate ≠ 0)
    ⟨by simp only [Vibrato.prepare, Vibrato.new, List.length_replicate],
      by simp only [Vibrato.prepare]; exact le_refl _,
      by simp only [Vibrato.prepare]; decide,
      by simp only [Vibrato.prepare, Vibrato.new]; norm_num,
      by simp only [Vibrato.prepare]; omega⟩ ?_ ins
  intro v x ⟨hlen, hw0, hw, hd, hsr0⟩
  obtain ⟨out, hp⟩ := vibrato_process_valid sinf M_PI v x hlen hw0 hw hd hsr0 hsin
  refine ⟨out, _, hp, ⟨by simpa using hlen, ?_, ?_, hd, hsr0⟩, ?_⟩
  · exact Int.emod_nonneg _ (by decide)
  · exact Int.emod_lt_of_pos _ (by decide)
  · simp [Vibrato.reset]

/-- C13. For each of the nine units, every sample rate `sr > 0` and every finite input
sequence (with `|sinf| ≤ 1`; the read position of the Vibrato in exact arithmetic):
constructing the unit and calling `prepare(sr)` succeeds, the run over the sequence succeeds,
and `reset()` of the state reached equals the prepared state; hence every run after the
reset equals the run of the freshly prepared unit. -/
theorem reset_restores_prepared_state [FloorRing α] (sinf expf tanhf : α → α)
    (M_PI ac rc : α) (sr : Int) (hsr : 0 < sr) (hsin : ∀ t, |sinf t| ≤ 1) (ins : List α) :
    ResetRestores (Phaser.prepare M_PI (Phaser.new : Phaser α) sr)
      (Phaser.process sinf M_PI) Phaser.reset ins ∧
    ResetRestores (Reverb.prepare (Reverb.new : Reverb α) sr) Reverb.process Reverb.reset
      ins ∧
    ResetRestores (PingPongDelay.prepare expf M_PI (PingPongDelay.new : PingPongDelay α) sr)
      PingPongDelay.process PingPongDelay.reset ins ∧
    ResetRestores (some (Vibrato.prepare (Vibrato.new : Vibrato α) sr))
      (Vibrato.process id sinf M_PI) Vibrato.reset ins ∧
    ResetRestores (some (Bitcrusher.prepare (Bitcrusher.new : Bitcrusher α) sr))
      Bitcrusher.process Bitcrusher.reset ins ∧
    ResetRestores (Fuzz.prepare expf M_PI Fuzz.new sr) (fun f x => some (Fuzz.process f x))
      Fuzz.reset ins ∧
    ResetRestores (Exciter.prepare expf M_PI Exciter.new sr)
      (fun e x => some (Exciter.process tanhf e x)) Exciter.reset ins ∧
    ResetRestores (AutoSwell.prepare (AutoSwell.new ac rc) sr)
      (fun a x => some (AutoSwell.process a x)) AutoSwell.reset ins ∧
    ResetRestores (SpectralMirror.prepare (SpectralMirror.new : SpectralMirror α) sr)
      SpectralMirror.process SpectralMirror.reset ins :=
  ⟨phaser_resetRestores sinf M_PI sr hsr hsin ins,
   reverb_resetRestores sr hsr ins,
   pingpong_resetRestores expf M_PI sr hsr ins,
   vibrato_resetRestores sinf M_PI sr hsr hsin ins,
   bitcrusher_resetRestores sr ins,
   fuzz_resetRestores expf M_PI sr hsr ins,
   exciter_resetRestores expf tanhf M_PI sr hsr ins,
   autoswell_resetRestores ac rc sr hsr ins,
   mirror_resetRestores sr hsr ins⟩

/-- The nine units at 48 kHz on three samples. -/
theorem reset_restores_prepared_state_witness :
    ResetRestores (Phaser.prepare (3 : ℚ) (Phaser.new : Phaser ℚ) 48000)
      (Phaser.process (fun _ => 0) 3) Phaser.reset [1, 2, 3] ∧
    ResetRestores (Reverb.prepare (Reverb.new : Reverb ℚ) 48000) Reverb.process Reverb.reset
      [1, 2, 3] ∧
    ResetRestores (SpectralMirror.prepare (SpectralMirror.new : SpectralMirror ℚ) 48000)
      SpectralMirror.process SpectralMirror.reset [1, 2, 3] := by
  have h := reset_restores_prepared_state (fun _ => (0 : ℚ)) (fun _ => 1 / 2) (fun x => x)
    3 0 0 48000 (by decide) (fun _ => by simp) [1, 2, 3]
  exact ⟨h.1, h.2.1, h.2.2.2.2.2.2.2.2⟩

end ResetUnits

/-! ## PingPongDelay: one call and the impulse response -/

/-- A run whose invariant `J` and output property `Q` are indexed by the call number. -/
theorem runOpt_timed {σ β : Type} (step : σ → α → Option (β × σ)) (ins : List α)
    (J : Nat → σ → Prop) (Q : Nat → β → Prop)
    (h : ∀ t s x, ins[t]? = some x → J t s →
      ∃ y s1, step s x = some (y, s1) ∧ J (t + 1) s1 ∧ Q t y) :
    ∀ (k t : Nat) (s : σ), t + k = ins.length → J t s →
      ∃ outs s1, runOpt step s (ins.drop t) = some (outs, s1) ∧ outs.length = k ∧
        J ins.length s1 ∧ ∀ i, i < k → ∃ y, outs[i]? = some y ∧ Q (t + i) y := by
  intro k
  induction k with
  | zero =>
    intro t s ht hJ
    have hd : ins.drop t = [] := List.drop_eq_nil_of_le (by omega)
    rw [hd]
    have ht2 : t = ins.length := by omega
    exact ⟨[], s, rfl, rfl, ht2 ▸ hJ, fun i hi => absurd hi (by omega)⟩
  | succ k ih =>
    intro t s ht hJ
    have hlt : t < ins.length := by omega
    rw [List.drop_eq_getElem_cons hlt]
    obtain ⟨y, s1, h1, hJ1, hQ⟩ := h t s ins[t] (List.getElem?_eq_getElem hlt) hJ
    obtain ⟨ys, s2, h2, hl, hJ2, hall⟩ := ih (t + 1) s1 (by omega) hJ1
    refine ⟨y :: ys, s2, by simp only [runOpt, h1, h2], by simp [hl], hJ2, ?_⟩
    intro i hi
    cases i with
    | zero => exact ⟨y, by simp, hQ⟩
    | succ j =>
      obtain ⟨z, hz, hQz⟩ := hall j (by omega)
      refine ⟨z, by simpa using hz, ?_⟩
      have e : t + (j + 1) = t + 1 + j := by omega
      rw [e]; exact hQz

theorem readAt_getElem (buf : List α) (i : Int) (v : α) (h : readAt buf i = some v) :
    buf[i.toNat]? = some v := by
  unfold readAt at h
  split at h
  · exact h
  · exact absurd h (by simp)

section PingPong
variable [LinearOrderedField α] [FloorRing α]

omit [FloorRing α] in
theorem impulse_getElem (m t : Nat) (x : α)
    (h : (1 :: List.replicate m (0 : α))[t]? = some x) : x = if t = 0 then 1 else 0 := by
  cases t with
  | zero => simpa using h.symm
  | succ j =>
    rw [List.getElem?_cons_succ, List.getElem?_replicate] at h
    by_cases hj : j < m
    · rw [if_pos hj] at h
      simp only [Option.some.injEq] at h
      simp [← h]
    · rw [if_neg hj] at h
      exact absurd h (by simp)

/-- In a prepared PingPongDelay both delays lie in `[0, N)` and `N = 2·sr + 10`. -/
theorem pingpong_ready_bounds (sr : Int) (hsr : 0 < sr) (d : PingPongDelay α)
    (h : PingPongDelay.Ready sr d) :
    (d.bufL.length : Int) = sr * 2 + 10 ∧
    0 ≤ d.delaySamplesL ∧ d.delaySamplesL < (d.bufL.length : Int) ∧
    0 ≤ d.delaySamplesR ∧ d.delaySamplesR < (d.bufL.length : Int) := by
  obtain ⟨hL, hR, hlen, hlenR, hw⟩ := h
  have hs : (0 : α) < (sr : α) := by exact_mod_cast hsr
  have ht : truncToInt ((sr : α) * 2) = sr * 2 := by
    have : (sr : α) * 2 = ((sr * 2 : Int) : α) := by push_cast; ring
    rw [this, truncToInt_intCast]
  rw [ht] at hlen
  obtain ⟨hL0, hL1⟩ := roundToInt_bounds ((350 : α) * (1 / 1000) * (sr : α)) (by positivity)
  obtain ⟨hR0, hR1⟩ := roundToInt_bounds ((550 : α) * (1 / 1000) * (sr : α)) (by positivity)
  rw [← hL] at hL0 hL1
  rw [← hR] at hR0 hR1
  have hN : (d.bufL.length : Int) = sr * 2 + 10 := by omega
  have hNc : ((d.bufL.length : Int) : α) = (sr : α) * 2 + 10 := by
    rw [hN]; push_cast; ring
  refine ⟨hN, hL0, ?_, hR0, ?_⟩
  · have : ((d.delaySamplesL : Int) : α) < ((d.bufL.length : Int) : α) := by
      rw [hNc]; linarith
    exact_mod_cast this
  · have : ((d.delaySamplesR : Int) : α) < ((d.bufL.length : Int) : α) := by
      rw [hNc]; linarith
    exact_mod_cast this

/-- C21. For every sample rate `sr > 0`, `prepare(sr)` yields a prepared state, and for every
prepared state and input `x`: `process` reads `delayedL = bufL[(writePos - DL) mod N]` and
`delayedR = bufR[(writePos - DR) mod N]` from the buffers of the state before the call,
returns `outL = 0.6·x + 0.8·delayedL` and `outR = 0.6·x + 0.8·delayedR`, writes
`bufL[writePos] = x + y1` and `bufR[writePos] = x + y2` where `y1 = a0·(0.45·delayedR) + b1·z`
is the first lowpass call and `y2 = a0·(0.45·delayedL) + b1·y1` the second, started from the
state `y1` left by the first; the lowpass state ends as `y2`, `writePos` becomes
`(writePos + 1) mod N`, and the state is again prepared. -/
theorem pingpong_process_formula (expf : α → α) (M_PI : α) (sr : Int) (hsr : 0 < sr) :
    (∀ d0 : PingPongDelay α,
      ∃ d, PingPongDelay.prepare expf M_PI d0 sr = some d ∧ PingPongDelay.Ready sr d) ∧
    ∀ d : PingPongDelay α, PingPongDelay.Ready sr d → ∀ x : α,
      ∃ delayedL delayedR,
        readAt d.bufL (((d.writePos : Int) - d.delaySamplesL) % (d.bufL.length : Int))
          = some delayedL ∧
        readAt d.bufR (((d.writePos : Int) - d.delaySamplesR) % (d.bufR.length : Int))
          = some delayedR ∧
        d.process x
          = some (((6 / 10) * x + (8 / 10) * delayedL, (6 / 10) * x + (8 / 10) * delayedR),
              { d with
                bufL := d.bufL.set d.writePos
                  (x + (d.fbLowpass_a0 * (delayedR * (45 / 100))
                    + d.fbLowpass_b1 * d.fbLowpass_z))
                bufR := d.bufR.set d.writePos
                  (x + (d.fbLowpass_a0 * (delayedL * (45 / 100))
                    + d.fbLowpass_b1 * (d.fbLowpass_a0 * (delayedR * (45 / 100))
                      + d.fbLowpass_b1 * d.fbLowpass_z)))
                fbLowpass_z := d.fbLowpass_a0 * (delayedL * (45 / 100))
                    + d.fbLowpass_b1 * (d.fbLowpass_a0 * (delayedR * (45 / 100))
                      + d.fbLowpass_b1 * d.fbLowpass_z)
                writePos := (d.writePos + 1) % d.bufL.length }) ∧
        ∀ d1 o, d.process x = some (o, d1) → PingPongDelay.Ready sr d1 := by
  refine ⟨?_, ?_⟩
  · intro d0
    refine ⟨_, pingpong_prepare_some expf M_PI d0 sr hsr, rfl, rfl, ?_, ?_, ?_⟩
    · have ht : truncToInt ((sr : α) * 2) = sr * 2 := by
        have : (sr : α) * 2 = ((sr * 2 : Int) : α) := by push_cast; ring
        rw [this, truncToInt_intCast]
      simp only [List.length_replicate, ht]
    · simp only [List.length_replicate]
    · simp only [List.length_replicate]; omega
  · intro d hrd x
    obtain ⟨hN, hL0, hL1, hR0, hR1⟩ := pingpong_ready_bounds sr hsr d hrd
    obtain ⟨hL, hR, hlen, hlenR, hw⟩ := hrd
    obtain ⟨_, _, _, _, _, _, dl, dr, hdl, hdr, hproc⟩ :=
      pingpong_process_valid d x hlenR hw hL0 hR0
    refine ⟨dl, dr, hdl, by rw [hlenR]; exact hdr, ?_, ?_⟩
    · rw [hproc]; rfl
    · intro d1 o hp
      rw [hproc] at hp
      simp only [Option.some.injEq, Prod.mk.injEq] at hp
      obtain ⟨_, rfl⟩ := hp
      refine ⟨hL, hR, ?_, ?_, ?_⟩
      · simp only [List.length_set]; exact hlen
      · simp only [List.length_set]; exact hlenR
      · simp only [List.length_set]
        exact Nat.mod_lt _ (by omega)

/-- The unit constructed and prepared at 48 kHz, fed one sample. -/
theorem pingpong_process_formula_witness :
    ∃ d, PingPongDelay.prepare (fun _ => 1 / 2) 3 (PingPongDelay.new : PingPongDelay ℚ) 48000
        = some d ∧
      ∃ o d1, d.process 1 = some (o, d1) ∧ PingPongDelay.Ready 48000 d1 := by
  have h := pingpong_process_formula (fun _ => (1 / 2 : ℚ)) 3 48000 (by decide)
  obtain ⟨d, hd, hr⟩ := h.1 PingPongDelay.new
  obtain ⟨_, _, _, _, hp, hk⟩ := h.2 d hr 1
  exact ⟨d, hd, _, _, hp, hk _ _ hp⟩

omit [FloorRing α] in
/-- The value read `D` cells behind write position `t` in a buffer that holds the impulse
in cell 0 and zeros from cell `t` on. -/
theorem impulse_read (buf : List α) (t : Nat) (D : Int) (v : α)
    (hD1 : 1 ≤ D) (hDN : D < (buf.length : Int))
    (h0 : 1 ≤ t → buf[0]? = some 1)
    (hz : ∀ j, t ≤ j → j < buf.length → buf[j]? = some 0)
    (hr : readAt buf (((t : Int) - D) % (buf.length : Int)) = some v) :
    ((t : Int) < D → v = 0) ∧ ((t : Int) = D → v = 1) := by
  have hg := readAt_getElem _ _ _ hr
  constructor
  · intro hlt
    have he : ((t : Int) - D) % (buf.length : Int) = (t : Int) - D + (buf.length : Int) := by
      rw [← Int.add_emod_self, Int.emod_eq_of_lt (by omega) (by omega)]
    rw [he] at hg
    have := hz ((t : Int) - D + (buf.length : Int)).toNat (by omega) (by omega)
    rw [this] at hg
    exact (Option.some.inj hg).symm
  · intro heq
    have he : ((t : Int) - D) % (buf.length : Int) = 0 := by
      rw [heq, sub_self]; rfl
    rw [he] at hg
    have := h0 (by omega)
    simp only [Int.toNat_zero] at hg
    rw [this] at hg
    exact (Option.some.inj hg).symm

theorem pingpong_impulse_step (sr : Int) (hsr : 0 < sr) (d : PingPongDelay α) (t : Nat)
    (x : α) (hx : x = if t = 0 then 1 else 0)
    (hDL : 1 ≤ d.delaySamplesL) (hDR : 1 ≤ d.delaySamplesR)
    (hJ : PingPongDelay.ImpulseInv sr t d) :
    ∃ y d1, d.process x = some (y, d1) ∧ PingPongDelay.ImpulseInv sr (t + 1) d1 ∧
      d1.delaySamplesL = d.delaySamplesL ∧ d1.delaySamplesR = d.delaySamplesR ∧
      PingPongDelay.ImpulseOut d.delaySamplesL d.delaySamplesR t y := by
  obtain ⟨hrd, hinv⟩ := hJ
  obtain ⟨hN, hL0, hL1, hR0, hR1⟩ := pingpong_ready_bounds sr hsr d hrd
  obtain ⟨hL, hR, hlen, hlenR, hw⟩ := hrd
  obtain ⟨_, _, _, _, _, _, dl, dr, hdl, hdr, hproc⟩ :=
    pingpong_process_valid d x hlenR hw hL0 hR0
  have hrd1 : PingPongDelay.Ready sr
      { (d.fbLowpass_process (dr * (45 / 100))).2.fbLowpass_process (dl * (45 / 100)) |>.2 with
        bufL := d.bufL.set d.writePos (x + (d.fbLowpass_process (dr * (45 / 100))).1)
        bufR := d.bufR.set d.writePos
          (x + ((d.fbLowpass_process (dr * (45 / 100))).2.fbLowpass_process
            (dl * (45 / 100))).1)
        writePos := (d.writePos + 1) % d.bufL.length } := by
    refine ⟨hL, hR, ?_, ?_, ?_⟩
    · simp only [List.length_set]; exact hlen
    · simp only [List.length_set]; exact hlenR
    · simp only [List.length_set]
      exact Nat.mod_lt _ (by omega)
  refine ⟨_, _, hproc, ⟨hrd1, ?_⟩, rfl, rfl, ?_⟩
  · -- the invariant at t + 1
    simp only [List.length_set]
    intro ht1
    obtain ⟨hwp, hz0, hc0, hzs⟩ := hinv (by omega)
    have hdl0 := (impulse_read d.bufL t d.delaySamplesL dl hDL hL1
      (fun h => (hc0 h).1) (fun j a b => (hzs j a b).1) (by rw [← hwp]; exact hdl))
    have hdr0 := (impulse_read d.bufR t d.delaySamplesR dr hDR (by omega)
      (fun h => (hc0 h).2) (fun j a b => (hzs j a (by omega)).2)
      (by rw [← hwp, hlenR]; exact hdr))
    refine ⟨?_, fun h => absurd h (by omega), ?_, ?_⟩
    · rw [hwp, Nat.mod_eq_of_lt ht1]
    · intro _
      by_cases h0 : t = 0
      · have hdlz : dl = 0 := hdl0.1 (by omega)
        have hdrz : dr = 0 := hdr0.1 (by omega)
        have hz := hz0 h0
        have hx1 : x = 1 := by rw [hx, if_pos h0]
        rw [hwp, h0, List.getElem?_set_eq_of_lt _ (by omega),
          List.getElem?_set_eq_of_lt _ (by omega)]
        simp only [PingPongDelay.fbLowpass_process, hdlz, hdrz, hz, hx1]
        norm_num
      · rw [hwp, List.getElem?_set_ne h0, List.getElem?_set_ne h0]
        exact hc0 (by omega)
    · intro j hj1 hj2
      have hne : t ≠ j := by omega
      rw [hwp, List.getElem?_set_ne hne, List.getElem?_set_ne hne]
      exact hzs j (by omega) hj2
  · -- the outputs of call t
    by_cases htN : t < d.bufL.length
    · obtain ⟨hwp, hz0, hc0, hzs⟩ := hinv htN
      have hdl0 := (impulse_read d.bufL t d.delaySamplesL dl hDL hL1
        (fun h => (hc0 h).1) (fun j a b => (hzs j a b).1) (by rw [← hwp]; exact hdl))
      have hdr0 := (impulse_read d.bufR t d.delaySamplesR dr hDR (by omega)
        (fun h => (hc0 h).2) (fun j a b => (hzs j a (by omega)).2)
        (by rw [← hwp, hlenR]; exact hdr))
      refine ⟨?_, ?_, ?_, ?_, ?_⟩
      · intro h0
        have hdlz : dl = 0 := hdl0.1 (by omega)
        have hdrz : dr = 0 := hdr0.1 (by omega)
        rw [hx, if_pos h0, hdlz, hdrz]
        norm_num
      · intro h0 hlt
        have h0' : ¬ t = 0 := by omega
        show (6 / 10 : α) * x + 8 / 10 * dl = 0
        rw [hx, if_neg h0', hdl0.1 hlt]
        norm_num
      · intro heq
        have h0' : ¬ t = 0 := by omega
        show (6 / 10 : α) * x + 8 / 10 * dl = 8 / 10
        rw [hx, if_neg h0', hdl0.2 heq]
        norm_num
      · intro h0 hlt
        have h0' : ¬ t = 0 := by omega
        show (6 / 10 : α) * x + 8 / 10 * dr = 0
        rw [hx, if_neg h0', hdr0.1 hlt]
        norm_num
      · intro heq
        have h0' : ¬ t = 0 := by omega
        show (6 / 10 : α) * x + 8 / 10 * dr = 8 / 10
        rw [hx, if_neg h0', hdr0.2 heq]
        norm_num
    · refine ⟨fun h => absurd h (by omega), fun _ h => absurd h (by omega),
        fun h => absurd h (by omega), fun _ h => absurd h (by omega),
        fun h => absurd h (by omega)⟩

/-- The rounded delays at 48 kHz. -/
theorem pingpong_delays_48k :
    roundToInt ((350 : α) * (1 / 1000) * ((48000 : Int) : α)) = 16800 ∧
    roundToInt ((550 : α) * (1 / 1000) * ((48000 : Int) : α)) = 26400 := by
  have h1 : (350 : α) * (1 / 1000) * ((48000 : Int) : α) = ((16800 : Int) : α) := by
    push_cast; norm_num
  have h2 : (550 : α) * (1 / 1000) * ((48000 : Int) : α) = ((26400 : Int) : α) := by
    push_cast; norm_num
  have r : ∀ n : Int, 0 ≤ n → roundToInt ((n : α)) = n := by
    intro n hn
    have hc : (0 : α) ≤ (n : α) := by exact_mod_cast hn
    unfold roundToInt
    rw [if_pos hc, Int.floor_eq_iff]
    constructor <;> linarith
  rw [h1, h2, r _ (by decide), r _ (by decide)]
  exact ⟨rfl, rfl⟩

/-- C22. A PingPongDelay constructed and prepared at a sample rate `sr > 0` whose delays
`DL = round(0.35·sr)` and `DR = round(0.55·sr)` are at least 1, fed the unit impulse followed
by `m` zeros: the run succeeds with `m + 1` output pairs, `outL[0] = outR[0] = 0.6`,
`outL[t] = 0` for `0 < t < DL`, `outL[DL] = 0.8`, `outR[t] = 0` for `0 < t < DR` and
`outR[DR] = 0.8`; at `sr = 48000` the delays are `DL = 16800` and `DR = 26400`. -/
theorem pingpong_impulse_response (expf : α → α) (M_PI : α) (sr : Int) (hsr : 0 < sr)
    (hDL : 1 ≤ roundToInt ((350 : α) * (1 / 1000) * (sr : α)))
    (hDR : 1 ≤ roundToInt ((550 : α) * (1 / 1000) * (sr : α))) (m : Nat) :
    (∃ p outs s, PingPongDelay.prepare expf M_PI (PingPongDelay.new : PingPongDelay α) sr
        = some p ∧
      runOpt PingPongDelay.process p (1 :: List.replicate m 0) = some (outs, s) ∧
      outs.length = m + 1 ∧
      ∀ t, t ≤ m → ∃ outL outR, outs[t]? = some (outL, outR) ∧
        (t = 0 → outL = 6 / 10 ∧ outR = 6 / 10) ∧
        (0 < t → (t : Int) < roundToInt ((350 : α) * (1 / 1000) * (sr : α)) → outL = 0) ∧
        ((t : Int) = roundToInt ((350 : α) * (1 / 1000) * (sr : α)) → outL = 8 / 10) ∧
        (0 < t → (t : Int) < roundToInt ((550 : α) * (1 / 1000) * (sr : α)) → outR = 0) ∧
        ((t : Int) = roundToInt ((550 : α) * (1 / 1000) * (sr : α)) → outR = 8 / 10)) ∧
    roundToInt ((350 : α) * (1 / 1000) * ((48000 : Int) : α)) = 16800 ∧
    roundToInt ((550 : α) * (1 / 1000) * ((48000 : Int) : α)) = 26400 := by
  refine ⟨?_, pingpong_delays_48k⟩
  have hprep := pingpong_prepare_some expf M_PI (PingPongDelay.new : PingPongDelay α) sr hsr
  have ht : truncToInt ((sr : α) * 2) = sr * 2 := by
    have : (sr : α) * 2 = ((sr * 2 : Int) : α) := by push_cast; ring
    rw [this, truncToInt_intCast]
  obtain ⟨outs, s, hrun, hlen, _, hall⟩ := runOpt_timed PingPongDelay.process
    (1 :: List.replicate m (0 : α))
    (fun t d => PingPongDelay.ImpulseInv sr t d ∧
      d.delaySamplesL = roundToInt ((350 : α) * (1 / 1000) * (sr : α)) ∧
      d.delaySamplesR = roundToInt ((550 : α) * (1 / 1000) * (sr : α)))
    (fun t y => PingPongDelay.ImpulseOut (roundToInt ((350 : α) * (1 / 1000) * (sr : α)))
      (roundToInt ((550 : α) * (1 / 1000) * (sr : α))) t y)
    (by
      intro t d x hx ⟨hJ, hL, hR⟩
      obtain ⟨y, d1, hp, hJ1, e1, e2, hQ⟩ := pingpong_impulse_step sr hsr d t x
        (impulse_getElem m t x hx) (by rw [hL]; exact hDL) (by rw [hR]; exact hDR) hJ
      rw [hL, hR] at hQ
      exact ⟨y, d1, hp, ⟨hJ1, by rw [e1, hL], by rw [e2, hR]⟩, hQ⟩)
    (m + 1) 0
    { sampleRate := sr
      bufL := List.replicate ((sr * 2).toNat + 10) 0
      bufR := List.replicate ((sr * 2).toNat + 10) 0
      writePos := 0
      delaySamplesL := roundToInt ((350 : α) * (1 / 1000) * (sr : α))
      delaySamplesR := roundToInt ((550 : α) * (1 / 1000) * (sr : α))
      fbLowpass_z := (PingPongDelay.new : PingPongDelay α).fbLowpass_z
      fbLowpass_a0 := 1 - expf (-2 * M_PI * 6000 / (sr : α))
      fbLowpass_b1 := expf (-2 * M_PI * 6000 / (sr : α)) }
    (by simp)
    ⟨⟨⟨rfl, rfl, by simp only [List.length_replicate, ht], by simp only [List.length_replicate],
        by simp only [List.length_replicate]; omega⟩,
      fun _ => ⟨rfl, fun _ => rfl, fun h => absurd h (by omega), fun j _ hj => by
        simp only [List.length_replicate] at hj
        simp only [List.getElem?_replicate, if_pos hj, and_self]⟩⟩, rfl, rfl⟩
  rw [List.drop_zero] at hrun
  refine ⟨_, outs, s, hprep, hrun, hlen, ?_⟩
  intro t htm
  obtain ⟨y, hy, hQ⟩ := hall t (by omega)
  rw [Nat.zero_add] at hQ
  obtain ⟨q0, q1, q2, q3, q4⟩ := hQ
  refine ⟨y.1, y.2, hy, ?_, q1, q2, q3, q4⟩
  intro h0
  have := q0 h0
  rw [this]
  exact ⟨rfl, rfl⟩

/-- The impulse response at 48 kHz over 30001 samples: the echoes at 16800 and 26400. -/
theorem pingpong_impulse_response_witness :
    ∃ p outs s, PingPongDelay.prepare (fun _ => 1 / 2) 3 (PingPongDelay.new : PingPongDelay ℚ)
        48000 = some p ∧
      runOpt PingPongDelay.process p (1 :: List.replicate 30000 0) = some (outs, s) ∧
      (∃ r, outs[0]? = some ((6 / 10 : ℚ), (6 / 10 : ℚ)) ∧ outs[1]? = some (0, 0) ∧
        outs[16800]? = some (8 / 10, 0) ∧ outs[26400]? = some (r, 8 / 10)) := by
  have hd := pingpong_delays_48k (α := ℚ)
  obtain ⟨⟨p, outs, s, hp, hr, _, hall⟩, _⟩ :=
    pingpong_impulse_response (fun _ => (1 / 2 : ℚ)) 3 48000 (by decide)
      (by rw [hd.1]; decide) (by rw [hd.2]; decide) 30000
  rw [hd.1, hd.2] at hall
  obtain ⟨a0, b0, h0, c0, _⟩ := hall 0 (by decide)
  obtain ⟨a1, b1, h1, _, c1, _, c1', _⟩ := hall 1 (by decide)
  obtain ⟨a2, b2, h2, _, _, c2, c2', _⟩ := hall 16800 (by decide)
  obtain ⟨a3, b3, h3, _, _, _, _, c3⟩ := hall 26400 (by decide)
  refine ⟨p, outs, s, hp, hr, a3, ?_, ?_, ?_, ?_⟩
  · rw [h0, (c0 rfl).1, (c0 rfl).2]
  · rw [h1, c1 (by decide) (by decide), c1' (by decide) (by decide)]
  · rw [h2, c2 (by norm_num), c2' (by decide) (by norm_num)]
  · rw [h3, c3 (by norm_num)]

end PingPong

/-! ## Reverb: one call -/

theorem list_length_four {β : Type} (l : List β) (h : l.length = 4) :
    ∃ a b c d, l = [a, b, c, d] := by
  match l, h with
  | [a, b, c, d], _ => exact ⟨a, b, c, d, rfl⟩

theorem list_length_two {β : Type} (l : List β) (h : l.length = 2) :
    ∃ a b, l = [a, b] := by
  match l, h with
  | [a, b], _ => exact ⟨a, b, rfl⟩


section ReverbCall
variable [LinearOrderedField α]
open Reverb

/-- One `Reverb::process` call on four combs and two allpasses whose `process` results are
given. -/
theorem reverb_process_of_delays (r : Reverb α) (c0 c1 c2 c3 a0 a1 : Delay α)
    (hc : r.combs = [c0, c1, c2, c3]) (ha : r.allpasses = [a0, a1]) (x : α)
    (o0 o1 o2 o3 d0 d1 : α) (c0n c1n c2n c3n a0n a1n : Delay α)
    (h0 : c0.process x = some (o0, c0n)) (h1 : c1.process x = some (o1, c1n))
    (h2 : c2.process x = some (o2, c2n)) (h3 : c3.process x = some (o3, c3n))
    (h4 : a0.process ((1 / 4) * (o0 + o1 + o2 + o3)) = some (d0, a0n))
    (h5 : a1.process ((1 / 4) * (o0 + o1 + o2 + o3) - (1 / 2) * d0) = some (d1, a1n)) :
    r.process x = some ((1 / 4) * (o0 + o1 + o2 + o3) - (1 / 2) * d0 - (1 / 2) * d1,
      { combs := [c0n, c1n, c2n, c3n], allpasses := [a0n, a1n], sr := r.sr }) := by
  have e1 : (0 + o0 + o1 + o2 + o3) * (1 / 4) = (1 / 4) * (o0 + o1 + o2 + o3) := by ring
  have e2 : d0 * (-(1 / 2)) + (1 / 4) * (o0 + o1 + o2 + o3)
      = (1 / 4) * (o0 + o1 + o2 + o3) - (1 / 2) * d0 := by ring
  have e3 : d1 * (-(1 / 2)) + ((1 / 4) * (o0 + o1 + o2 + o3) - (1 / 2) * d0)
      = (1 / 4) * (o0 + o1 + o2 + o3) - (1 / 2) * d0 - (1 / 2) * d1 := by ring
  simp only [Reverb.process, hc, ha, Reverb.combLoop, h0, h1, h2, h3, e1, Reverb.allpassLoop,
    h4, e2, h5, e3]

/-- The value a non-empty delay line returns does not depend on its input. -/
theorem Delay.process_out (d : Delay α) (h : d.Valid) :
    ∃ out, ∀ x, ∃ d1, d.process x = some (out, d1) ∧ d1.Valid := by
  obtain ⟨out, hb, _⟩ := Delay.process_valid d 0 h
  refine ⟨out, fun x => ?_⟩
  obtain ⟨out', hb', hp⟩ := Delay.process_valid d x h
  have : out' = out := Option.some.inj (hb'.symm.trans hb)
  rw [this] at hp
  obtain ⟨h0, h1⟩ := h
  refine ⟨_, hp, Int.emod_nonneg _ (by omega), ?_⟩
  simp only [List.length_set]
  exact Int.emod_lt_of_pos _ (by omega)

theorem reverb_prepare_some [FloorRing α] (sr : Int) (hsr : 0 < sr) :
    ∃ r, Reverb.prepare (Reverb.new : Reverb α) sr = some r ∧ Reverb.Ready r := by
  have hs : (0 : α) < (sr : α) := by exact_mod_cast hsr
  have i0 := Delay.init_some (truncToInt ((297 / 10000 : α) * (sr : α)))
    (truncToInt_nonneg _ (by positivity)) (78 / 100 : α)
  have i1 := Delay.init_some (truncToInt ((371 / 10000 : α) * (sr : α)))
    (truncToInt_nonneg _ (by positivity)) (80 / 100 : α)
  have i2 := Delay.init_some (truncToInt ((411 / 10000 : α) * (sr : α)))
    (truncToInt_nonneg _ (by positivity)) (82 / 100 : α)
  have i3 := Delay.init_some (truncToInt ((437 / 10000 : α) * (sr : α)))
    (truncToInt_nonneg _ (by positivity)) (76 / 100 : α)
  have i4 := Delay.init_some (truncToInt ((50 / 10000 : α) * (sr : α)))
    (truncToInt_nonneg _ (by positivity)) (70 / 100 : α)
  have i5 := Delay.init_some (truncToInt ((17 / 10000 : α) * (sr : α)))
    (truncToInt_nonneg _ (by positivity)) (70 / 100 : α)
  have hprep : Reverb.prepare (Reverb.new : Reverb α) sr
      = some { combs := [⟨List.replicate (truncToInt ((297 / 10000 : α) * (sr : α))).toNat 0, 0,
                            78 / 100⟩,
                         ⟨List.replicate (truncToInt ((371 / 10000 : α) * (sr : α))).toNat 0, 0,
                            80 / 100⟩,
                         ⟨List.replicate (truncToInt ((411 / 10000 : α) * (sr : α))).toNat 0, 0,
                            82 / 100⟩,
                         ⟨List.replicate (truncToInt ((437 / 10000 : α) * (sr : α))).toNat 0, 0,
                            76 / 100⟩],
               allpasses := [⟨List.replicate (truncToInt ((50 / 10000 : α) * (sr : α))).toNat 0,
                                0, 70 / 100⟩,
                             ⟨List.replicate (truncToInt ((17 / 10000 : α) * (sr : α))).toNat 0,
                                0, 70 / 100⟩],
               sr := sr } := by
    simp only [Reverb.prepare, i0, i1, i2, i3, i4, i5]
  refine ⟨_, hprep, rfl, rfl, ?_, ?_⟩
  · intro c hc
    simp only [List.mem_cons, List.mem_singleton, List.not_mem_nil, or_false] at hc
    rcases hc with h | h | h | h <;> rw [h] <;> exact Delay.ok_zeros _ _
  · intro c hc
    simp only [List.mem_cons, List.mem_singleton, List.not_mem_nil, or_false] at hc
    rcases hc with h | h <;> rw [h] <;> exact Delay.ok_zeros _ _

/-- C23. `Reverb::prepare(sr)` with `sr > 0` on a constructed reverb yields a prepared state,
and for every prepared state with combs `c0..c3` and allpasses `a0, a1` and every input `x`:
each comb's `process(x)` returns a value `oi`, `a0.process(0.25·(o0+o1+o2+o3))` returns `d0`,
`a1.process(0.25·(o0+o1+o2+o3) - 0.5·d0)` returns `d1`, and `process(x)` returns
`0.25·(o0+o1+o2+o3) - 0.5·d0 - 0.5·d1` and leaves exactly the six delay lines these calls
produced (a prepared state again); when no delay line is empty the returned value is the same
for every input. -/
theorem reverb_process_formula [FloorRing α] (sr : Int) (hsr : 0 < sr) :
    (∃ r, Reverb.prepare (Reverb.new : Reverb α) sr = some r ∧ Reverb.Ready r) ∧
    ∀ r : Reverb α, Reverb.Ready r → ∀ x : α,
      ∃ c0 c1 c2 c3 a0 a1 o0 o1 o2 o3 d0 d1 c0n c1n c2n c3n a0n a1n,
        r.combs = [c0, c1, c2, c3] ∧ r.allpasses = [a0, a1] ∧
        Delay.process c0 x = some (o0, c0n) ∧ Delay.process c1 x = some (o1, c1n) ∧
        Delay.process c2 x = some (o2, c2n) ∧ Delay.process c3 x = some (o3, c3n) ∧
        Delay.process a0 ((1 / 4) * (o0 + o1 + o2 + o3)) = some (d0, a0n) ∧
        Delay.process a1 ((1 / 4) * (o0 + o1 + o2 + o3) - (1 / 2) * d0) = some (d1, a1n) ∧
        r.process x = some ((1 / 4) * (o0 + o1 + o2 + o3) - (1 / 2) * d0 - (1 / 2) * d1,
          { combs := [c0n, c1n, c2n, c3n], allpasses := [a0n, a1n], sr := r.sr }) ∧
        Reverb.Ready
          ({ combs := [c0n, c1n, c2n, c3n], allpasses := [a0n, a1n], sr := r.sr } : Reverb α) ∧
        ((∀ d ∈ r.combs ++ r.allpasses, d.buf ≠ []) →
          ∀ x2 : α, ∃ r2, r.process x2
            = some ((1 / 4) * (o0 + o1 + o2 + o3) - (1 / 2) * d0 - (1 / 2) * d1, r2)) := by
  refine ⟨reverb_prepare_some sr hsr, ?_⟩
  intro r ⟨hl4, hl2, hcs, has⟩ x
  obtain ⟨c0, c1, c2, c3, hc⟩ := list_length_four r.combs hl4
  obtain ⟨a0, a1, ha⟩ := list_length_two r.allpasses hl2
  have k0 := hcs c0 (by simp [hc])
  have k1 := hcs c1 (by simp [hc])
  have k2 := hcs c2 (by simp [hc])
  have k3 := hcs c3 (by simp [hc])
  have k4 := has a0 (by simp [ha])
  have k5 := has a1 (by simp [ha])
  obtain ⟨o0, c0n, h0, _, n0⟩ := Delay.process_ok c0 x k0
  obtain ⟨o1, c1n, h1, _, n1⟩ := Delay.process_ok c1 x k1
  obtain ⟨o2, c2n, h2, _, n2⟩ := Delay.process_ok c2 x k2
  obtain ⟨o3, c3n, h3, _, n3⟩ := Delay.process_ok c3 x k3
  obtain ⟨d0, a0n, h4, _, n4⟩ := Delay.process_ok a0 ((1 / 4) * (o0 + o1 + o2 + o3)) k4
  obtain ⟨d1, a1n, h5, _, n5⟩ :=
    Delay.process_ok a1 ((1 / 4) * (o0 + o1 + o2 + o3) - (1 / 2) * d0) k5
  refine ⟨c0, c1, c2, c3, a0, a1, o0, o1, o2, o3, d0, d1, c0n, c1n, c2n, c3n, a0n, a1n,
    hc, ha, h0, h1, h2, h3, h4, h5,
    reverb_process_of_delays r c0 c1 c2 c3 a0 a1 hc ha x o0 o1 o2 o3 d0 d1 _ _ _ _ _ _
      h0 h1 h2 h3 h4 h5, ⟨rfl, rfl, ?_, ?_⟩, ?_⟩
  · intro c hcm
    simp only [List.mem_cons, List.mem_singleton, List.not_mem_nil, or_false] at hcm
    rcases hcm with h | h | h | h <;> rw [h] <;> assumption
  · intro c hcm
    simp only [List.mem_cons, List.mem_singleton, List.not_mem_nil, or_false] at hcm
    rcases hcm with h | h <;> rw [h] <;> assumption
  · intro hne x2
    have v : ∀ d, d ∈ r.combs ++ r.allpasses → (d.buf = [] ∨ d.Valid) → d.Valid := by
      intro d hd hk
      rcases hk with hk | hk
      · exact absurd hk (hne d hd)
      · exact hk
    obtain ⟨p0, q0⟩ := Delay.process_out c0 (v c0 (by simp [hc]) k0)
    obtain ⟨p1, q1⟩ := Delay.process_out c1 (v c1 (by simp [hc]) k1)
    obtain ⟨p2, q2⟩ := Delay.process_out c2 (v c2 (by simp [hc]) k2)
    obtain ⟨p3, q3⟩ := Delay.process_out c3 (v c3 (by simp [hc]) k3)
    obtain ⟨p4, q4⟩ := Delay.process_out a0 (v a0 (by simp [ha]) k4)
    obtain ⟨p5, q5⟩ := Delay.process_out a1 (v a1 (by simp [ha]) k5)
    have same : ∀ (d : Delay α) (y o p : α) (dn : Delay α), d.process y = some (o, dn) →
        (∀ z, ∃ d1, d.process z = some (p, d1) ∧ d1.Valid) → o = p := by
      intro d y o p dn hp hq
      obtain ⟨d1, hq1, _⟩ := hq y
      rw [hp] at hq1
      simp only [Option.some.injEq, Prod.mk.injEq] at hq1
      exact hq1.1
    rw [same c0 x o0 p0 c0n h0 q0, same c1 x o1 p1 c1n h1 q1, same c2 x o2 p2 c2n h2 q2,
      same c3 x o3 p3 c3n h3 q3, same a0 _ d0 p4 a0n h4 q4, same a1 _ d1 p5 a1n h5 q5]
    obtain ⟨_, g0, _⟩ := q0 x2
    obtain ⟨_, g1, _⟩ := q1 x2
    obtain ⟨_, g2, _⟩ := q2 x2
    obtain ⟨_, g3, _⟩ := q3 x2
    obtain ⟨_, g4, _⟩ := q4 ((1 / 4) * (p0 + p1 + p2 + p3))
    obtain ⟨_, g5, _⟩ := q5 ((1 / 4) * (p0 + p1 + p2 + p3) - (1 / 2) * p4)
    exact ⟨_, reverb_process_of_delays r c0 c1 c2 c3 a0 a1 hc ha x2 p0 p1 p2 p3 p4 p5
      _ _ _ _ _ _ g0 g1 g2 g3 g4 g5⟩

/-- The reverb prepared at 48 kHz. -/
theorem reverb_process_formula_witness :
    ∃ r, Reverb.prepare (Reverb.new : Reverb ℚ) 48000 = some r ∧
      ∃ y r1, r.process 1 = some (y, r1) ∧ Reverb.Ready r1 := by
  have h := reverb_process_formula (α := ℚ) 48000 (by decide)
  obtain ⟨r, hr, hk⟩ := h.1
  obtain ⟨_, _, _, _, _, _, _, _, _, _, _, _, _, _, _, _, _, _, _, _, _, _, _, _, _, _, hp, hk1, _⟩ :=
    h.2 r hk 1
  exact ⟨r, hr, _, _, hp, hk1⟩

end ReverbCall

/-! ## Phaser: one call and the LFO phase -/

section PhaserCall
variable [LinearOrderedField α] [FloorRing α]

/-- For `sr ≥ 50` the prepared buffer is not empty and the integer delay lies in `[0, N)`. -/
theorem phaser_delay_lt (sinf : α → α) (sr : Int) (hsr : 50 ≤ sr) (p : Phaser α)
    (h : Phaser.Ready sr p) (hsin : ∀ t, |sinf t| ≤ 1) :
    0 < (p.buffer.length : Int) ∧
    0 ≤ truncToInt (p.baseDelay + sinf p.lfoPhase * p.depth) ∧
    truncToInt (p.baseDelay + sinf p.lfoPhase * p.depth) < (p.buffer.length : Int) := by
  obtain ⟨hb, hd, hlen, hw0, hw⟩ := h
  have hs : (50 : α) ≤ (sr : α) := by exact_mod_cast hsr
  obtain ⟨hD0, hD1⟩ := Phaser.delay_bounds sinf sr (by omega) p hb hd hsin
  have hx : (0 : α) ≤ (sr : α) * (2 / 100) := by linarith
  have ht : truncToInt ((sr : α) * (2 / 100)) = ⌊(sr : α) * (2 / 100)⌋ := by
    simp [truncToInt, hx]
  have hN1 : (1 : Int) ≤ ⌊(sr : α) * (2 / 100)⌋ := by
    rw [Int.le_floor]; push_cast; linarith
  refine ⟨by omega, hD0, ?_⟩
  rw [hlen, ht]
  by_cases h61 : 61 ≤ sr
  · have hs61 : (61 : α) ≤ (sr : α) := by exact_mod_cast h61
    rw [Int.lt_iff_add_one_le, Int.le_floor]
    push_cast
    linarith
  · have hs60 : (sr : α) ≤ 60 := by
      have : sr ≤ 60 := by omega
      exact_mod_cast this
    have hlt : ((truncToInt (p.baseDelay + sinf p.lfoPhase * p.depth) : Int) : α) < 1 := by
      linarith
    have : truncToInt (p.baseDelay + sinf p.lfoPhase * p.depth) < 1 := by exact_mod_cast hlt
    omega

/-- C24. For `sr ≥ 50` (and `|sinf| ≤ 1`) `prepare(sr)` yields a prepared state with
`baseDelay = 0.002·sr`, `depth = 0.0015·sr` and a buffer of `N ≥ 1` cells, and in every
prepared state the delay `d = trunc(baseDelay + sin(lfoPhase)·depth)`, computed from the phase
of the state before the call, satisfies `0 ≤ d < N`; `process(x)` returns
`0.5·(x + buffer[(writeIndex - d) mod N])` read from the buffer before the call, stores `x`
at `buffer[writeIndex]`, advances `writeIndex` to `(writeIndex + 1) mod N`, and the state is
again prepared. -/
theorem phaser_process_formula (sinf : α → α) (M_PI : α) (sr : Int) (hsr : 50 ≤ sr)
    (hsin : ∀ t, |sinf t| ≤ 1) :
    (∀ p0 : Phaser α, ∃ p, Phaser.prepare M_PI p0 sr = some p ∧ Phaser.Ready sr p) ∧
    ∀ p : Phaser α, Phaser.Ready sr p →
      p.baseDelay = (2 / 1000) * (sr : α) ∧ p.depth = (15 / 10000) * (sr : α) ∧
      0 < (p.buffer.length : Int) ∧
      0 ≤ truncToInt (p.baseDelay + sinf p.lfoPhase * p.depth) ∧
      truncToInt (p.baseDelay + sinf p.lfoPhase * p.depth) < (p.buffer.length : Int) ∧
      ∀ x : α, ∃ delayed,
        readAt p.buffer
          ((p.writeIndex - truncToInt (p.baseDelay + sinf p.lfoPhase * p.depth))
            % (p.buffer.length : Int)) = some delayed ∧
        Phaser.process sinf M_PI p x = some ((1 / 2) * (x + delayed),
          { lfoPhase := if p.lfoPhase + p.lfoInc ≥ 2 * M_PI
              then p.lfoPhase + p.lfoInc - 2 * M_PI else p.lfoPhase + p.lfoInc
            lfoInc := p.lfoInc
            baseDelay := p.baseDelay
            depth := p.depth
            buffer := p.buffer.set p.writeIndex.toNat x
            writeIndex := (p.writeIndex + 1) % (p.buffer.length : Int) }) ∧
        Phaser.Ready sr
          { lfoPhase := if p.lfoPhase + p.lfoInc ≥ 2 * M_PI
              then p.lfoPhase + p.lfoInc - 2 * M_PI else p.lfoPhase + p.lfoInc
            lfoInc := p.lfoInc
            baseDelay := p.baseDelay
            depth := p.depth
            buffer := p.buffer.set p.writeIndex.toNat x
            writeIndex := (p.writeIndex + 1) % (p.buffer.length : Int) } := by
  have hs : (50 : α) ≤ (sr : α) := by exact_mod_cast hsr
  refine ⟨?_, ?_⟩
  · intro p0
    obtain ⟨hp, hn, ht⟩ := phaser_prepare_some M_PI p0 sr (by omega)
    refine ⟨_, hp, rfl, rfl, ?_, le_refl _, ?_⟩
    · simp only [List.length_replicate]; omega
    · simp only [List.length_replicate]
      have h1 : (1 : Int) ≤ ⌊(sr : α) * (2 / 100)⌋ := by
        rw [Int.le_floor]; push_cast; linarith
      omega
  · intro p hrd
    obtain ⟨hN, hD0, hDN⟩ := phaser_delay_lt sinf sr hsr p hrd hsin
    obtain ⟨hb, hd, hlen, hw0, hw⟩ := hrd
    refine ⟨hb, hd, hN, hD0, hDN, ?_⟩
    intro x
    obtain ⟨_, _, _, d, hrd, hproc⟩ := phaser_process_valid sinf M_PI p x hw0 hw hD0
    refine ⟨d, hrd, hproc, hb, hd, ?_, ?_, ?_⟩
    · simp only [List.length_set]; exact hlen
    · exact Int.emod_nonneg _ (by omega)
    · simp only [List.length_set]
      exact Int.emod_lt_of_pos _ (by omega)

/-- The Phaser prepared at the smallest admitted rate, 50 Hz: one cell, delay 0. -/
theorem phaser_process_formula_witness :
    ∃ p, Phaser.prepare 3 (Phaser.new : Phaser ℚ) 50 = some p ∧ Phaser.Ready 50 p ∧
      ∃ delayed p1, Phaser.process (fun _ => 1) 3 p 7 = some ((1 / 2) * (7 + delayed), p1) := by
  have h := phaser_process_formula (fun _ => (1 : ℚ)) 3 50 (by decide) (fun _ => by simp)
  obtain ⟨p, hp, hr⟩ := h.1 Phaser.new
  obtain ⟨_, _, _, _, _, hx⟩ := h.2 p hr
  obtain ⟨d, _, hproc, _⟩ := hx 7
  exact ⟨p, hp, hr, d, _, hproc⟩

omit [FloorRing α] in
/-- The phase update of `Phaser::process`: one conditional subtraction of `2π` keeps the
phase in `[0, 2π)` when the increment is in `(0, 2π)`. -/
theorem phaser_phase_step (M_PI φ inc : α) (h0 : 0 ≤ φ) (h1 : φ < 2 * M_PI) (hi0 : 0 < inc)
    (hi1 : inc < 2 * M_PI) :
    0 ≤ (if φ + inc ≥ 2 * M_PI then φ + inc - 2 * M_PI else φ + inc) ∧
      (if φ + inc ≥ 2 * M_PI then φ + inc - 2 * M_PI else φ + inc) < 2 * M_PI := by
  by_cases h : φ + inc ≥ 2 * M_PI
  · rw [if_pos h]; constructor <;> linarith
  · rw [if_neg h]; constructor <;> linarith

omit [FloorRing α] in
theorem phaser_inc_range (M_PI : α) (hpi : 0 < M_PI) (sr : Int) (hsr : 1 ≤ sr) :
    0 < (2 * M_PI * (3 / 10)) / (sr : α) ∧ (2 * M_PI * (3 / 10)) / (sr : α) < 2 * M_PI := by
  have hs : (1 : α) ≤ (sr : α) := by exact_mod_cast hsr
  have hs0 : (0 : α) < (sr : α) := by linarith
  refine ⟨by positivity, ?_⟩
  have := div_le_self (show (0 : α) ≤ 2 * M_PI * (3 / 10) by positivity) hs
  linarith

/-- One call of a Phaser that is unprepared-empty or prepared at `sr ≥ 50`, with the phase in
range: the call succeeds and keeps all of that. -/
theorem phaser_phase_inv (sinf : α → α) (M_PI : α) (hpi : 0 < M_PI) (sr : Int)
    (hsr : 1 ≤ sr) (hsin : ∀ t, |sinf t| ≤ 1) (p : Phaser α) (x : α)
    (hb : p.buffer = [] ∨ (50 ≤ sr ∧ Phaser.Ready sr p))
    (hinc : p.lfoInc = (2 * M_PI * (3 / 10)) / (sr : α))
    (h0 : 0 ≤ p.lfoPhase) (h1 : p.lfoPhase < 2 * M_PI) :
    ∃ y p1, Phaser.process sinf M_PI p x = some (y, p1) ∧
      (p1.buffer = [] ∨ (50 ≤ sr ∧ Phaser.Ready sr p1)) ∧
      p1.lfoInc = (2 * M_PI * (3 / 10)) / (sr : α) ∧
      0 ≤ p1.lfoPhase ∧ p1.lfoPhase < 2 * M_PI ∧
      (p1.lfoPhase = p.lfoPhase ∨ p1.lfoPhase = p.lfoPhase + p.lfoInc ∨
        p1.lfoPhase = p.lfoPhase + p.lfoInc - 2 * M_PI) := by
  rcases hb with hb | ⟨h50, hrd⟩
  · refine ⟨x, p, by simp [Phaser.process, hb], Or.inl hb, hinc, h0, h1, Or.inl rfl⟩
  · obtain ⟨hN, hD0, hDN⟩ := phaser_delay_lt sinf sr h50 p hrd hsin
    obtain ⟨hbd, hd, hlen, hw0, hw⟩ := hrd
    obtain ⟨_, _, _, d, _, hproc⟩ := phaser_process_valid sinf M_PI p x hw0 hw hD0
    obtain ⟨i0, i1⟩ := phaser_inc_range M_PI hpi sr hsr
    rw [← hinc] at i0 i1
    obtain ⟨r0, r1⟩ := phaser_phase_step M_PI p.lfoPhase p.lfoInc h0 h1 i0 i1
    refine ⟨_, _, hproc, Or.inr ⟨h50, hbd, hd, ?_, ?_, ?_⟩, hinc, r0, r1, ?_⟩
    · simp only [List.length_set]; exact hlen
    · exact Int.emod_nonneg _ (by omega)
    · simp only [List.length_set]
      exact Int.emod_lt_of_pos _ (by omega)
    · by_cases h : p.lfoPhase + p.lfoInc ≥ 2 * M_PI
      · right; right; simp only [h, if_true]
      · right; left; simp only [h, if_false]

/-- C28. For `sr ≥ 1`, `π > 0` and `|sinf| ≤ 1`: the Phaser constructed and prepared at `sr`
has phase 0 and an increment `2π·0.3/sr` in `(0, 2π)`; every run of `process` calls from it
succeeds and ends with `0 ≤ lfoPhase < 2π`; and a single call on a state with the phase in
that range leaves it at `φ`, `φ + inc` or `φ + inc - 2π` (one subtraction at most), again in
`[0, 2π)`. -/
theorem phaser_lfo_phase_range (sinf : α → α) (M_PI : α) (hpi : 0 < M_PI) (sr : Int)
    (hsr : 1 ≤ sr) (hsin : ∀ t, |sinf t| ≤ 1) :
    ∃ p, Phaser.prepare M_PI (Phaser.new : Phaser α) sr = some p ∧ p.lfoPhase = 0 ∧
      p.lfoInc = (2 * M_PI * (3 / 10)) / (sr : α) ∧ 0 < p.lfoInc ∧ p.lfoInc < 2 * M_PI ∧
      (∀ ins : List α, ∃ outs s, runOpt (Phaser.process sinf M_PI) p ins = some (outs, s) ∧
        outs.length = ins.length ∧ 0 ≤ s.lfoPhase ∧ s.lfoPhase < 2 * M_PI) ∧
      ∀ (ins : List α) (x : α) (outs : List α) (s : Phaser α),
        runOpt (Phaser.process sinf M_PI) p ins = some (outs, s) →
        ∃ y s1, Phaser.process sinf M_PI s x = some (y, s1) ∧
          0 ≤ s1.lfoPhase ∧ s1.lfoPhase < 2 * M_PI ∧
          (s1.lfoPhase = s.lfoPhase ∨ s1.lfoPhase = s.lfoPhase + s.lfoInc ∨
            s1.lfoPhase = s.lfoPhase + s.lfoInc - 2 * M_PI) := by
  obtain ⟨hp, hn, ht⟩ := phaser_prepare_some M_PI (Phaser.new : Phaser α) sr (by omega)
  obtain ⟨i0, i1⟩ := phaser_inc_range M_PI hpi sr hsr
  have hinit : (fun s : Phaser α => (s.buffer = [] ∨ (50 ≤ sr ∧ Phaser.Ready sr s)) ∧
      s.lfoInc = (2 * M_PI * (3 / 10)) / (sr : α) ∧ 0 ≤ s.lfoPhase ∧ s.lfoPhase < 2 * M_PI)
      { lfoPhase := (Phaser.new : Phaser α).lfoPhase
        lfoInc := (2 * M_PI * (3 / 10)) / (sr : α)
        baseDelay := (2 / 1000) * (sr : α)
        depth := (15 / 10000) * (sr : α)
        buffer := List.replicate (truncToInt ((sr : α) * (2 / 100))).toNat 0
        writeIndex := 0 } := by
    refine ⟨?_, rfl, le_refl _, by show (0 : α) < 2 * M_PI; positivity⟩
    by_cases h50 : 50 ≤ sr
    · right
      have hs : (50 : α) ≤ (sr : α) := by exact_mod_cast h50
      refine ⟨h50, rfl, rfl, ?_, le_refl _, ?_⟩
      · simp only [List.length_replicate]; omega
      · simp only [List.length_replicate]
        have h1 : (1 : Int) ≤ ⌊(sr : α) * (2 / 100)⌋ := by
          rw [Int.le_floor]; push_cast; linarith
        omega
    · left
      have hs : (sr : α) < 50 := by
        have : sr < 50 := by omega
        exact_mod_cast this
      have h0 : ⌊(sr : α) * (2 / 100)⌋ < 1 := by
        rw [Int.floor_lt]; push_cast; linarith
      have : (truncToInt ((sr : α) * (2 / 100))).toNat = 0 := by omega
      show List.replicate (truncToInt ((sr : α) * (2 / 100))).toNat (0 : α) = []
      rw [this]; rfl
  have hstep : ∀ (s : Phaser α) (x : α),
      ((s.buffer = [] ∨ (50 ≤ sr ∧ Phaser.Ready sr s)) ∧
        s.lfoInc = (2 * M_PI * (3 / 10)) / (sr : α) ∧ 0 ≤ s.lfoPhase ∧ s.lfoPhase < 2 * M_PI) →
      ∃ y s1, Phaser.process sinf M_PI s x = some (y, s1) ∧
        ((s1.buffer = [] ∨ (50 ≤ sr ∧ Phaser.Ready sr s1)) ∧
          s1.lfoInc = (2 * M_PI * (3 / 10)) / (sr : α) ∧ 0 ≤ s1.lfoPhase ∧
          s1.lfoPhase < 2 * M_PI) := by
    intro s x ⟨hb, hinc, h0, h1⟩
    obtain ⟨y, s1, hpr, a, b, c, d, _⟩ :=
      phaser_phase_inv sinf M_PI hpi sr hsr hsin s x hb hinc h0 h1
    exact ⟨y, s1, hpr, a, b, c, d⟩
  refine ⟨_, hp, rfl, rfl, i0, i1, ?_, ?_⟩
  · intro ins
    obtain ⟨outs, s, hr, hl, _, _, h0, h1⟩ := runOpt_inv _ _ hstep ins _ hinit
    exact ⟨outs, s, hr, hl, h0, h1⟩
  · intro ins x outs s hrun
    obtain ⟨outs', s', hr, _, hb, hinc, h0, h1⟩ := runOpt_inv _ _ hstep ins _ hinit
    rw [hrun] at hr
    simp only [Option.some.injEq, Prod.mk.injEq] at hr
    obtain ⟨_, rfl⟩ := hr
    obtain ⟨y, s1, hpr, _, _, c, d, e⟩ :=
      phaser_phase_inv sinf M_PI hpi sr hsr hsin s x hb hinc h0 h1
    exact ⟨y, s1, hpr, c, d, e⟩

/-- The Phaser at 48 kHz with `π` taken as 3 and a constant LFO, run on three samples. -/
theorem phaser_lfo_phase_range_witness :
    ∃ p, Phaser.prepare 3 (Phaser.new : Phaser ℚ) 48000 = some p ∧
      ∃ outs s, runOpt (Phaser.process (fun _ => 0) 3) p [1, 2, 3] = some (outs, s) ∧
        0 ≤ s.lfoPhase ∧ s.lfoPhase < 2 * 3 := by
  obtain ⟨p, hp, _, _, _, _, hrun, _⟩ :=
    phaser_lfo_phase_range (fun _ => (0 : ℚ)) 3 (by norm_num) 48000 (by decide)
      (fun _ => by simp)
  obtain ⟨outs, s, hr, _, h0, h1⟩ := hrun [1, 2, 3]
  exact ⟨p, hp, outs, s, hr, h0, h1⟩

end PhaserCall

/-! ## Exciter: the bounded harmonic component -/

/-- A stage whose flag is clear passes the samples on and keeps the unit. -/
theorem runOpt_stage_clear {σ : Type} (proc : σ → α → Option (α × σ)) (u : σ) (xs : List α) :
    runOpt (chainStage false proc) u xs = some (xs, u) := by
  induction xs with
  | nil => rfl
  | cons x xs ih => simp [runOpt, chainStage, ih]

/-- A stage whose flag is set is the run of the unit. -/
theorem runOpt_stage_set {σ : Type} (proc : σ → α → Option (α × σ)) (u : σ) (xs : List α) :
    runOpt (chainStage true proc) u xs = runOpt proc u xs := by
  have : chainStage true proc = proc := by
    funext s x
    simp [chainStage]
  rw [this]

section Stagewise
variable [LinearOrderedField α] [FloorRing α]

/-- The sample-by-sample chain succeeds exactly when the three stage-by-stage runs do: the
Phaser stage over the input, the Exciter stage over the Phaser stage's output, the Reverb
stage over the Exciter stage's output; each unit ends in the state of its own run. -/
theorem chainRun_stagewise (sinf tanhf : α → α) (M_PI : α) (xs : List α) :
    ∀ (e : Engine α) (ys : List α) (e1 : Engine α),
      chainRun sinf tanhf M_PI e xs = some (ys, e1) ↔
        ∃ xs1 xs2,
          runOpt (chainStage e.usePhaser (Phaser.process sinf M_PI)) e.gPhaser xs
            = some (xs1, e1.gPhaser) ∧
          runOpt (chainStage e.useExciter (fun u y => some (Exciter.process tanhf u y)))
            e.gExciter xs1 = some (xs2, e1.gExciter) ∧
          runOpt (chainStage e.useReverb Reverb.process) e.gReverb xs2
            = some (ys, e1.gReverb) ∧
          e1.usePhaser = e.usePhaser ∧ e1.useExciter = e.useExciter ∧
          e1.useReverb = e.useReverb := by
  induction xs with
  | nil =>
    intro e ys e1
    constructor
    · intro h
      have h0 : chainRun sinf tanhf M_PI e [] = some ([], e) := rfl
      rw [h0] at h
      simp only [Option.some.injEq, Prod.mk.injEq] at h
      obtain ⟨rfl, rfl⟩ := h
      exact ⟨[], [], rfl, rfl, rfl, rfl, rfl, rfl⟩
    · rintro ⟨xs1, xs2, h1, h2, h3, f1, f2, f3⟩
      simp only [runOpt, Option.some.injEq, Prod.mk.injEq] at h1
      obtain ⟨rfl, g1⟩ := h1
      simp only [runOpt, Option.some.injEq, Prod.mk.injEq] at h2
      obtain ⟨rfl, g2⟩ := h2
      simp only [runOpt, Option.some.injEq, Prod.mk.injEq] at h3
      obtain ⟨rfl, g3⟩ := h3
      rcases e with ⟨a, b, c, d, g, h⟩
      rcases e1 with ⟨a1, b1, c1, d1, g1', h1'⟩
      simp only at g1 g2 g3 f1 f2 f3
      subst g1 g2 g3 f1 f2 f3
      rfl
  | cons x xs ih =>
    intro e ys e1
    simp only [chainRun, runOpt]
    cases hp : chainStage e.usePhaser (Phaser.process sinf M_PI) e.gPhaser x with
    | none => simp [chainSample, hp]
    | some r1 =>
      obtain ⟨a, p1⟩ := r1
      cases hx : chainStage e.useExciter (fun u y => some (Exciter.process tanhf u y))
          e.gExciter a with
      | none => by_cases hf : e.useExciter = true <;> simp [chainStage, hf] at hx
      | some r2 =>
        obtain ⟨b, x1⟩ := r2
        cases hr : chainStage e.useReverb Reverb.process e.gReverb b with
        | none =>
          simp only [chainSample, hp, hx, hr, Option.some_bind, Option.none_bind]
          constructor
          · intro h; exact absurd h (by simp)
          · rintro ⟨xs1, xs2, h1, h2, h3, _⟩
            cases hq1 : runOpt (chainStage e.usePhaser (Phaser.process sinf M_PI)) p1 xs with
            | none => simp [hq1] at h1
            | some q1 =>
              obtain ⟨zs1, p2⟩ := q1
              simp only [hq1, Option.some.injEq, Prod.mk.injEq] at h1
              obtain ⟨rfl, _⟩ := h1
              simp only [runOpt, hx] at h2
              cases hq2 : runOpt (chainStage e.useExciter
                  (fun u y => some (Exciter.process tanhf u y))) x1 zs1 with
              | none => simp [hq2] at h2
              | some q2 =>
                obtain ⟨zs2, x2⟩ := q2
                simp only [hq2, Option.some.injEq, Prod.mk.injEq] at h2
                obtain ⟨rfl, _⟩ := h2
                simp [runOpt, hr] at h3
        | some r3 =>
          obtain ⟨c, v1⟩ := r3
          simp only [chainSample, hp, hx, hr, Option.some_bind]
          have key := ih { e with gPhaser := p1, gExciter := x1, gReverb := v1 }
          simp only at key
          constructor
          · intro h
            cases hc : chainRun sinf tanhf M_PI
                { e with gPhaser := p1, gExciter := x1, gReverb := v1 } xs with
            | none => simp [hc] at h
            | some rs =>
              obtain ⟨ys', e2⟩ := rs
              simp only [hc, Option.some_bind, Option.some.injEq, Prod.mk.injEq] at h
              obtain ⟨rfl, rfl⟩ := h
              obtain ⟨xs1, xs2, h1, h2, h3, f1, f2, f3⟩ := (key ys' e2).mp hc
              refine ⟨a :: xs1, b :: xs2, ?_, ?_, ?_, f1, f2, f3⟩
              · simp only [h1]
              · simp only [runOpt, hx, h2]
              · simp only [runOpt, hr, h3]
          · rintro ⟨xs1, xs2, h1, h2, h3, f1, f2, f3⟩
            cases hq1 : runOpt (chainStage e.usePhaser (Phaser.process sinf M_PI)) p1 xs with
            | none => simp [hq1] at h1
            | some q1 =>
              obtain ⟨zs1, p2⟩ := q1
              simp only [hq1, Option.some.injEq, Prod.mk.injEq] at h1
              obtain ⟨rfl, hp2⟩ := h1
              simp only [runOpt, hx] at h2
              cases hq2 : runOpt (chainStage e.useExciter
                  (fun u y => some (Exciter.process tanhf u y))) x1 zs1 with
              | none => simp [hq2] at h2
              | some q2 =>
                obtain ⟨zs2, x2⟩ := q2
                simp only [hq2, Option.some.injEq, Prod.mk.injEq] at h2
                obtain ⟨rfl, hx2⟩ := h2
                simp only [runOpt, hr] at h3
                cases hq3 : runOpt (chainStage e.useReverb Reverb.process) v1 zs2 with
                | none => simp [hq3] at h3
                | some q3 =>
                  obtain ⟨zs3, v2⟩ := q3
                  simp only [hq3, Option.some.injEq, Prod.mk.injEq] at h3
                  obtain ⟨rfl, hv2⟩ := h3
                  have hc := (key zs3 e1).mpr
                    ⟨zs1, zs2, by rw [hq1, hp2], by rw [hq2, hx2], by rw [hq3, hv2], f1, f2, f3⟩
                  simp only [hc, Option.some_bind]

/-- C30. For output memory of at least `2n` floats: a null frame returns the whole engine
unchanged; for a non-null frame `xs` of `n` samples, whenever the callback returns, the flags
are unchanged, every unit whose flag is clear has exactly its state from before the callback
and passes its samples on, and each unit's final state is the end state of the run of its own
stage from its own prior state over the samples fed to it (the frame for the Phaser stage, the
Phaser stage's output for the Exciter stage, the Exciter stage's output for the Reverb stage),
whose output is written to both channels; conversely, when these three runs succeed the
callback returns with exactly these unit states. -/
theorem disabled_unit_untouched (sinf tanhf : α → α) (M_PI : α) (e : Engine α)
    (out : List α) (n : Nat) (ho : 2 * n ≤ out.length) :
    (∃ out1, audioCallback sinf tanhf M_PI none out n e = some (out1, e, paContinue)) ∧
    ∀ xs : List α, xs.length = n →
      (∀ out1 e1 rc, audioCallback sinf tanhf M_PI (some xs) out n e = some (out1, e1, rc) →
        e1.usePhaser = e.usePhaser ∧ e1.useExciter = e.useExciter ∧
        e1.useReverb = e.useReverb ∧
        ∃ xs1 xs2 xs3,
          runOpt (chainStage e.usePhaser (Phaser.process sinf M_PI)) e.gPhaser xs
            = some (xs1, e1.gPhaser) ∧
          runOpt (chainStage e.useExciter (fun u y => some (Exciter.process tanhf u y)))
            e.gExciter xs1 = some (xs2, e1.gExciter) ∧
          runOpt (chainStage e.useReverb Reverb.process) e.gReverb xs2
            = some (xs3, e1.gReverb) ∧
          (e.usePhaser = false → e1.gPhaser = e.gPhaser ∧ xs1 = xs) ∧
          (e.useExciter = false → e1.gExciter = e.gExciter ∧ xs2 = xs1) ∧
          (e.useReverb = false → e1.gReverb = e.gReverb ∧ xs3 = xs2) ∧
          (e.usePhaser = true →
            runOpt (Phaser.process sinf M_PI) e.gPhaser xs = some (xs1, e1.gPhaser)) ∧
          (e.useExciter = true →
            runOpt (fun u y => some (Exciter.process tanhf u y)) e.gExciter xs1
              = some (xs2, e1.gExciter)) ∧
          (e.useReverb = true →
            runOpt Reverb.process e.gReverb xs2 = some (xs3, e1.gReverb)) ∧
          ∀ i, i < n → out1[2 * i]? = xs3[i]? ∧ out1[2 * i + 1]? = xs3[i]?) ∧
      (∀ xs1 xs2 xs3 p1 x1 r1,
        runOpt (chainStage e.usePhaser (Phaser.process sinf M_PI)) e.gPhaser xs
          = some (xs1, p1) →
        runOpt (chainStage e.useExciter (fun u y => some (Exciter.process tanhf u y)))
          e.gExciter xs1 = some (xs2, x1) →
        runOpt (chainStage e.useReverb Reverb.process) e.gReverb xs2 = some (xs3, r1) →
        ∃ out1, audioCallback sinf tanhf M_PI (some xs) out n e
          = some (out1, { e with gPhaser := p1, gExciter := x1, gReverb := r1 },
              paContinue)) := by
  refine ⟨?_, ?_⟩
  · have h2 : n * 2 ≤ out.length := by omega
    exact ⟨List.replicate (n * 2) 0 ++ out.drop (n * 2),
      by simp only [audioCallback, h2, if_true]⟩
  intro xs hn
  have hxs : (xs.drop 0).take n = xs := by
    rw [List.drop_zero, ← hn, List.take_length]
  obtain ⟨hnone, hsome⟩ := audioLoop_spec sinf tanhf M_PI xs n 0 e out (by omega) (by omega)
  rw [hxs] at hnone hsome
  refine ⟨?_, ?_⟩
  · intro out1 e1 rc h
    cases hc : chainRun sinf tanhf M_PI e xs with
    | none =>
      simp only [audioCallback, hnone hc] at h
      exact absurd h (by simp)
    | some r =>
      obtain ⟨ys, e2⟩ := r
      obtain ⟨o1, hl, _, _, hin, _⟩ := hsome ys e2 hc
      simp only [audioCallback, hl, Option.some.injEq, Prod.mk.injEq] at h
      obtain ⟨rfl, rfl, _⟩ := h
      obtain ⟨xs1, xs2, h1, h2, h3, f1, f2, f3⟩ :=
        (chainRun_stagewise sinf tanhf M_PI xs e ys e2).mp hc
      refine ⟨f1, f2, f3, xs1, xs2, ys, h1, h2, h3, ?_, ?_, ?_, ?_, ?_, ?_, ?_⟩
      · intro hf
        rw [hf, runOpt_stage_clear] at h1
        simp only [Option.some.injEq, Prod.mk.injEq] at h1
        exact ⟨h1.2.symm, h1.1.symm⟩
      · intro hf
        rw [hf, runOpt_stage_clear] at h2
        simp only [Option.some.injEq, Prod.mk.injEq] at h2
        exact ⟨h2.2.symm, h2.1.symm⟩
      · intro hf
        rw [hf, runOpt_stage_clear] at h3
        simp only [Option.some.injEq, Prod.mk.injEq] at h3
        exact ⟨h3.2.symm, h3.1.symm⟩
      · intro hf
        rw [hf, runOpt_stage_set] at h1
        exact h1
      · intro hf
        rw [hf, runOpt_stage_set] at h2
        exact h2
      · intro hf
        rw [hf, runOpt_stage_set] at h3
        exact h3
      · intro i hi
        have := hin i hi
        simpa using this
  · intro xs1 xs2 xs3 p1 x1 r1 h1 h2 h3
    have hc := (chainRun_stagewise sinf tanhf M_PI xs e xs3
      { e with gPhaser := p1, gExciter := x1, gReverb := r1 }).mpr
      ⟨xs1, xs2, h1, h2, h3, rfl, rfl, rfl⟩
    obtain ⟨o1, hl, _⟩ := hsome _ _ hc
    exact ⟨o1, by simp only [audioCallback, hl]⟩

/-- A frame of two samples with only the Exciter enabled: the Phaser and the Reverb keep
their state. -/
theorem disabled_unit_untouched_witness :
    ∃ out1 e1, audioCallback (fun _ => (0 : ℚ)) (fun x => x) 3 (some [1, 2]) [9, 8, 7, 6, 5] 2
        { (Engine.new : Engine ℚ) with useExciter := true } = some (out1, e1, paContinue) ∧
      e1.gPhaser = (Engine.new : Engine ℚ).gPhaser ∧
      e1.gReverb = (Engine.new : Engine ℚ).gReverb := by
  have h := (disabled_unit_untouched (fun _ => (0 : ℚ)) (fun x => x) 3
    { (Engine.new : Engine ℚ) with useExciter := true } [9, 8, 7, 6, 5] 2 (by decide)).2
    [1, 2] rfl
  obtain ⟨o1, ho1⟩ := h.2 [1, 2] _ _ _ _ _ (runOpt_stage_clear _ _ _) rfl
    (runOpt_stage_clear _ _ _)
  exact ⟨o1, _, ho1, rfl, rfl⟩

end Stagewise

/-! ## Vibrato: index safety and the order of write and read -/

section VibratoCall
variable [LinearOrderedField α] [FloorRing α]

omit [FloorRing α] in
/-- The wrap loop leaves a non-negative position alone, whatever the fuel. -/
theorem wrapLoopF_nonneg (fl : α → α) (n : α) (fuel : Nat) (r : α) (h : 0 ≤ r) :
    wrapLoopF fl n fuel r = some r := by
  have hn : ¬ r < 0 := not_lt.mpr h
  cases fuel with
  | zero => simp only [wrapLoopF, hn, if_false]
  | succ k => simp only [wrapLoopF, hn, if_false]

omit [FloorRing α] in
/-- One iteration suffices for a negative position that one rounded addition makes
non-negative. -/
theorem wrapLoopF_once (fl : α → α) (n : α) (fuel : Nat) (r : α) (h : r < 0)
    (h2 : 0 ≤ fl (r + n)) (hf : 1 ≤ fuel) : wrapLoopF fl n fuel r = some (fl (r + n)) := by
  cases fuel with
  | zero => omega
  | succ k =>
    simp only [wrapLoopF, h, if_true]
    exact wrapLoopF_nonneg fl n k (fl (r + n)) h2

omit [FloorRing α] in
/-- The local `readDelay` in exact arithmetic. -/
theorem readDelay_id (sinf : α → α) (M_PI : α) (v : Vibrato α) :
    Vibrato.readDelay id sinf M_PI v
      = v.depth * sinf (2 * M_PI * v.rate * (v.sampleCounter : α) / (v.sampleRate : α))
        + v.depth := rfl

omit [FloorRing α] in
/-- The local `readIdx` before the loop in exact arithmetic. -/
theorem readIdx0_id (sinf : α → α) (M_PI : α) (v : Vibrato α) :
    Vibrato.readIdx0 id sinf M_PI v
      = (v.writeIdx : α) - (v.depth * sinf (2 * M_PI * v.rate * (v.sampleCounter : α)
        / (v.sampleRate : α)) + v.depth) := rfl

/-- The body of `Vibrato::process` from the loop on, in terms of the position before the
loop. -/
theorem vibrato_process_locals (fl sinf : α → α) (M_PI : α) (v : Vibrato α) (x : α) :
    Vibrato.process fl sinf M_PI v x =
      match writeAt v.delayBuf v.writeIdx x with
      | none => none
      | some buf1 =>
        if v.sampleRate = 0 then none
        else
          match wrapLoopF fl ((Vibrato.MAX_DELAY : Int) : α)
            (⌈-Vibrato.readIdx0 fl sinf M_PI v⌉).toNat (Vibrato.readIdx0 fl sinf M_PI v) with
          | none => none
          | some readIdx =>
            match readAt buf1 (truncToInt readIdx),
              readAt buf1 (Int.tmod (truncToInt readIdx + 1) Vibrato.MAX_DELAY) with
            | some a1, some a2 =>
              some (a1 * (1 - (readIdx - (truncToInt readIdx : α)))
                  + a2 * (readIdx - (truncToInt readIdx : α)),
                { v with delayBuf := buf1
                         writeIdx := Int.tmod (v.writeIdx + 1) Vibrato.MAX_DELAY
                         sampleCounter := (v.sampleCounter + 1) % 2 ^ 64 })
            | _, _ => none := rfl

/-- One `process` call of a Vibrato, given the position `r` in `[0, 1024)` the wrap loop
leaves: the two reads are made in the array after the write of the input. -/
theorem vibrato_process_at (fl sinf : α → α) (M_PI : α) (v : Vibrato α) (x r : α)
    (hlen : v.delayBuf.length = 1024) (hw0 : 0 ≤ v.writeIdx) (hw : v.writeIdx < 1024)
    (hsr : v.sampleRate ≠ 0)
    (hr : wrapLoopF fl (1024 : α) (⌈-Vibrato.readIdx0 fl sinf M_PI v⌉).toNat
      (Vibrato.readIdx0 fl sinf M_PI v) = some r)
    (hr0 : 0 ≤ r) (hr1 : r < 1024) :
    truncToInt r = ⌊r⌋ ∧ 0 ≤ ⌊r⌋ ∧ ⌊r⌋ ≤ 1023 ∧
    Int.tmod (⌊r⌋ + 1) Vibrato.MAX_DELAY = (⌊r⌋ + 1) % 1024 ∧
    ∃ a1 a2, readAt (v.delayBuf.set v.writeIdx.toNat x) ⌊r⌋ = some a1 ∧
      readAt (v.delayBuf.set v.writeIdx.toNat x) ((⌊r⌋ + 1) % 1024) = some a2 ∧
      Vibrato.process fl sinf M_PI v x
        = some (a1 * (1 - (r - (⌊r⌋ : α))) + a2 * (r - (⌊r⌋ : α)),
            { v with delayBuf := v.delayBuf.set v.writeIdx.toNat x
                     writeIdx := (v.writeIdx + 1) % 1024
                     sampleCounter := (v.sampleCounter + 1) % 2 ^ 64 }) := by
  have hwr := writeAt_int_some v.delayBuf v.writeIdx x hw0 (by omega)
  have hM : ((Vibrato.MAX_DELAY : Int) : α) = 1024 := by simp [Vibrato.MAX_DELAY]
  have ht : truncToInt r = ⌊r⌋ := by simp [truncToInt, hr0]
  have hi0 : 0 ≤ ⌊r⌋ := Int.floor_nonneg.mpr hr0
  have hi1 : ⌊r⌋ < 1024 := by
    rw [Int.floor_lt]; exact_mod_cast hr1
  have hblen : ((v.delayBuf.set v.writeIdx.toNat x).length : Int) = 1024 := by
    simp only [List.length_set, hlen]; rfl
  have hmod : Int.tmod (⌊r⌋ + 1) Vibrato.MAX_DELAY = (⌊r⌋ + 1) % 1024 :=
    Int.tmod_eq_emod (by omega) (by decide)
  have hmodw : Int.tmod (v.writeIdx + 1) Vibrato.MAX_DELAY = (v.writeIdx + 1) % 1024 :=
    Int.tmod_eq_emod (by omega) (by decide)
  obtain ⟨a1, _, ha1⟩ := readAt_some (v.delayBuf.set v.writeIdx.toNat x) ⌊r⌋ hi0 (by omega)
  obtain ⟨a2, _, ha2⟩ := readAt_some (v.delayBuf.set v.writeIdx.toNat x) ((⌊r⌋ + 1) % 1024)
    (by omega) (by omega)
  refine ⟨ht, hi0, by omega, hmod, a1, a2, ha1, ha2, ?_⟩
  rw [vibrato_process_locals]
  simp only [hwr, hsr, if_false, hM, hr, ht, hmod, hmodw, ha1, ha2]

/-- Index safety of `Vibrato::process` in exact arithmetic: for a full array,
`0 ≤ writeIdx < 1024`, `sampleRate > 0`, `depth = 18` and `|sinf| ≤ 1` the read offset lies in
`[0, 36]`, the loop makes at most one addition and leaves `readIdx` in `[0, 1024)`, both
indices lie in `[0, 1023]`, the fraction in `[0, 1)`, and the call returns. -/
theorem vibrato_exact_index_bounds (sinf : α → α) (M_PI : α) (v : Vibrato α) (x : α)
    (hlen : v.delayBuf.length = 1024) (hw0 : 0 ≤ v.writeIdx) (hw : v.writeIdx < 1024)
    (hsr : 0 < v.sampleRate) (hd : v.depth = 18) (hsin : ∀ t, |sinf t| ≤ 1) :
    ∃ (readDelay readIdx : α) (i1 i2 : Int),
      readDelay = v.depth * sinf (2 * M_PI * v.rate * (v.sampleCounter : α)
        / (v.sampleRate : α)) + v.depth ∧
      0 ≤ readDelay ∧ readDelay ≤ 36 ∧
      wrapLoopF id (1024 : α) 1 ((v.writeIdx : α) - readDelay) = some readIdx ∧
      wrapLoopF id ((Vibrato.MAX_DELAY : Int) : α) (⌈-((v.writeIdx : α) - readDelay)⌉).toNat
        ((v.writeIdx : α) - readDelay) = some readIdx ∧
      (readIdx = (v.writeIdx : α) - readDelay ∨
        readIdx = (v.writeIdx : α) - readDelay + 1024) ∧
      0 ≤ readIdx ∧ readIdx < 1024 ∧
      i1 = truncToInt readIdx ∧ i2 = Int.tmod (i1 + 1) Vibrato.MAX_DELAY ∧
      0 ≤ i1 ∧ i1 ≤ 1023 ∧ 0 ≤ i2 ∧ i2 ≤ 1023 ∧
      0 ≤ readIdx - (i1 : α) ∧ readIdx - (i1 : α) < 1 ∧
      ∃ a1 a2 v1, readAt (v.delayBuf.set v.writeIdx.toNat x) i1 = some a1 ∧
        readAt (v.delayBuf.set v.writeIdx.toNat x) i2 = some a2 ∧
        Vibrato.process id sinf M_PI v x
          = some (a1 * (1 - (readIdx - (i1 : α))) + a2 * (readIdx - (i1 : α)), v1) ∧
        v1.delayBuf.length = 1024 ∧ 0 ≤ v1.writeIdx ∧ v1.writeIdx < 1024 ∧
        v1.writeIdx = (v.writeIdx + 1) % 1024 ∧ v1.depth = 18 ∧
        v1.sampleRate = v.sampleRate := by
  obtain ⟨hl, hu⟩ := abs_le.mp
    (hsin (2 * M_PI * v.rate * (v.sampleCounter : α) / (v.sampleRate : α)))
  have hS := readIdx0_id sinf M_PI v
  generalize hRD : v.depth * sinf (2 * M_PI * v.rate * (v.sampleCounter : α)
    / (v.sampleRate : α)) + v.depth = rd at hS
  have hrd0 : 0 ≤ rd := by rw [← hRD, hd]; linarith
  have hrd1 : rd ≤ 36 := by rw [← hRD, hd]; linarith
  have hwc0 : (0 : α) ≤ (v.writeIdx : α) := by exact_mod_cast hw0
  have hwc : ((v.writeIdx : Int) : α) ≤ 1023 := by
    have : v.writeIdx ≤ 1023 := by omega
    exact_mod_cast this
  have hM : ((Vibrato.MAX_DELAY : Int) : α) = 1024 := by simp [Vibrato.MAX_DELAY]
  -- the loop
  have hloop : ∃ r, wrapLoopF id (1024 : α) 1 ((v.writeIdx : α) - rd) = some r ∧
      wrapLoopF id (1024 : α) (⌈-((v.writeIdx : α) - rd)⌉).toNat ((v.writeIdx : α) - rd)
        = some r ∧
      (r = (v.writeIdx : α) - rd ∨ r = (v.writeIdx : α) - rd + 1024) ∧ 0 ≤ r ∧ r < 1024 := by
    by_cases hneg : (v.writeIdx : α) - rd < 0
    · have hpos : 0 < ⌈-((v.writeIdx : α) - rd)⌉ := Int.ceil_pos.mpr (by linarith)
      have h2 : (0 : α) ≤ id ((v.writeIdx : α) - rd + 1024) := by
        rw [id_eq]; linarith
      refine ⟨(v.writeIdx : α) - rd + 1024,
        wrapLoopF_once id _ 1 _ hneg h2 (le_refl _),
        wrapLoopF_once id _ _ _ hneg h2 (by omega), Or.inr rfl, by linarith,
        by linarith⟩
    · have h0 : 0 ≤ (v.writeIdx : α) - rd := not_lt.mp hneg
      exact ⟨(v.writeIdx : α) - rd, wrapLoopF_nonneg _ _ _ _ h0, wrapLoopF_nonneg _ _ _ _ h0,
        Or.inl rfl, h0, by linarith⟩
  obtain ⟨r, hr1, hrf, hcase, hr0, hrN⟩ := hloop
  have hne : v.sampleRate ≠ 0 := by omega
  obtain ⟨ht, hi0, hi1, hmod, a1, a2, ha1, ha2, hproc⟩ :=
    vibrato_process_at id sinf M_PI v x r hlen hw0 hw hne (by rw [hS]; exact hrf) hr0 hrN
  refine ⟨rd, r, ⌊r⌋, (⌊r⌋ + 1) % 1024, rfl, hrd0, hrd1, hr1, by rw [hM]; exact hrf, hcase,
    hr0, hrN, ht.symm, hmod.symm, hi0, hi1, Int.emod_nonneg _ (by decide),
    by have := Int.emod_lt_of_pos (⌊r⌋ + 1) (show (0 : Int) < 1024 by decide); omega,
    by linarith [Int.floor_le r], by linarith [Int.lt_floor_add_one r],
    a1, a2, _, ha1, ha2, hproc, ?_, ?_, ?_, rfl, hd, rfl⟩
  · simp only [List.length_set]; exact hlen
  · exact Int.emod_nonneg _ (by decide)
  · exact Int.emod_lt_of_pos _ (by decide)

/-- Under a rounding that maps the sums in `[1024 - 2⁻¹⁵, 1024]` to `1024`, a position in
`[-2⁻¹⁵, 0)` before the loop ends at `1024`, the index `i1 = 1024` is outside the array and
the call has no result. -/
theorem vibrato_rounded_index_escapes (fl sinf : α → α) (M_PI : α) (v : Vibrato α) (x : α)
    (hlen : v.delayBuf.length = 1024) (hw0 : 0 ≤ v.writeIdx) (hw : v.writeIdx < 1024)
    (hsr : v.sampleRate ≠ 0)
    (hfl : ∀ y : α, 1024 - 1 / 32768 ≤ y → y ≤ 1024 → fl y = 1024)
    (hneg : Vibrato.readIdx0 fl sinf M_PI v < 0)
    (hsmall : -(1 / 32768) ≤ Vibrato.readIdx0 fl sinf M_PI v) :
    wrapLoopF fl ((Vibrato.MAX_DELAY : Int) : α) (⌈-Vibrato.readIdx0 fl sinf M_PI v⌉).toNat
        (Vibrato.readIdx0 fl sinf M_PI v) = some 1024 ∧
      truncToInt (1024 : α) = 1024 ∧
      readAt (v.delayBuf.set v.writeIdx.toNat x) 1024 = none ∧
      Vibrato.process fl sinf M_PI v x = none := by
  have hwr := writeAt_int_some v.delayBuf v.writeIdx x hw0 (by omega)
  have hM : ((Vibrato.MAX_DELAY : Int) : α) = 1024 := by simp [Vibrato.MAX_DELAY]
  have hpos : 0 < ⌈-Vibrato.readIdx0 fl sinf M_PI v⌉ := Int.ceil_pos.mpr (by linarith)
  have hsum : fl (Vibrato.readIdx0 fl sinf M_PI v + 1024) = 1024 :=
    hfl _ (by linarith) (by linarith)
  have hloop : wrapLoopF fl (1024 : α) (⌈-Vibrato.readIdx0 fl sinf M_PI v⌉).toNat
      (Vibrato.readIdx0 fl sinf M_PI v) = some 1024 := by
    have h := wrapLoopF_once fl (1024 : α) (⌈-Vibrato.readIdx0 fl sinf M_PI v⌉).toNat
      (Vibrato.readIdx0 fl sinf M_PI v) hneg (by rw [hsum]; norm_num) (by omega)
    rw [hsum] at h
    exact h
  have ht : truncToInt (1024 : α) = 1024 := by
    have h := truncToInt_intCast (α := α) 1024
    simpa using h
  have hrd : readAt (v.delayBuf.set v.writeIdx.toNat x) 1024 = none := by
    simp [readAt, hlen]
  refine ⟨by rw [hM]; exact hloop, ht, hrd, ?_⟩
  rw [vibrato_process_locals]
  simp only [hwr, hsr, if_false, hM, hloop, ht, hrd]

/-- C25. Index safety of `Vibrato::process` holds in exact arithmetic and fails under `float`
rounding. For every Vibrato state with a full array, `0 ≤ writeIdx < 1024` and
`sampleRate > 0`. Exact arithmetic (`fl = id`), `depth = 18`, `|sinf| ≤ 1`: the read offset
`readDelay = depth·sin(2π·rate·n/sr) + depth` lies in `[0, 36]`; the wrap loop ends after at
most one iteration (fuel 1 suffices) and leaves `readIdx` in `[0, 1024)`, equal to
`writeIdx - readDelay` or that plus 1024; `i1 = trunc(readIdx)` and `i2 = (i1 + 1) mod 1024`
lie in `[0, 1023]`; the fraction `readIdx - i1` lies in `[0, 1)`; both reads succeed, the call
returns `buf[i1]·(1 - frac) + buf[i2]·frac`, and the new `writeIdx` lies in `[0, 1024)`.
Rounded arithmetic: for every rounding `fl` that maps the reals in `[1024 - 2⁻¹⁵, 1024]` to
`1024` (round to nearest binary32 does: the floats next to 1024 from below are `2⁻¹⁴`
apart) and every state whose position before the loop lies in `[-2⁻¹⁵, 0)`, the loop makes
one addition and leaves `readIdx = 1024`, so `i1 = 1024`, the read `delayBuf[1024]` is outside
the array, and `process` has no result. -/
theorem vibrato_index_safety_rounding (sinf : α → α) (M_PI : α) (v : Vibrato α) (x : α)
    (hlen : v.delayBuf.length = 1024) (hw0 : 0 ≤ v.writeIdx) (hw : v.writeIdx < 1024)
    (hsr : 0 < v.sampleRate) :
    (v.depth = 18 → (∀ t, |sinf t| ≤ 1) →
      ∃ (readDelay readIdx : α) (i1 i2 : Int),
        readDelay = v.depth * sinf (2 * M_PI * v.rate * (v.sampleCounter : α)
          / (v.sampleRate : α)) + v.depth ∧
        0 ≤ readDelay ∧ readDelay ≤ 36 ∧
        wrapLoopF id (1024 : α) 1 ((v.writeIdx : α) - readDelay) = some readIdx ∧
        wrapLoopF id ((Vibrato.MAX_DELAY : Int) : α) (⌈-((v.writeIdx : α) - readDelay)⌉).toNat
          ((v.writeIdx : α) - readDelay) = some readIdx ∧
        (readIdx = (v.writeIdx : α) - readDelay ∨
          readIdx = (v.writeIdx : α) - readDelay + 1024) ∧
        0 ≤ readIdx ∧ readIdx < 1024 ∧
        i1 = truncToInt readIdx ∧ i2 = Int.tmod (i1 + 1) Vibrato.MAX_DELAY ∧
        0 ≤ i1 ∧ i1 ≤ 1023 ∧ 0 ≤ i2 ∧ i2 ≤ 1023 ∧
        0 ≤ readIdx - (i1 : α) ∧ readIdx - (i1 : α) < 1 ∧
        ∃ a1 a2 v1, readAt (v.delayBuf.set v.writeIdx.toNat x) i1 = some a1 ∧
          readAt (v.delayBuf.set v.writeIdx.toNat x) i2 = some a2 ∧
          Vibrato.process id sinf M_PI v x
            = some (a1 * (1 - (readIdx - (i1 : α))) + a2 * (readIdx - (i1 : α)), v1) ∧
          v1.delayBuf.length = 1024 ∧ 0 ≤ v1.writeIdx ∧ v1.writeIdx < 1024 ∧
          v1.writeIdx = (v.writeIdx + 1) % 1024 ∧ v1.depth = 18 ∧
          v1.sampleRate = v.sampleRate) ∧
    (∀ fl : α → α, (∀ y : α, 1024 - 1 / 32768 ≤ y → y ≤ 1024 → fl y = 1024) →
      Vibrato.readIdx0 fl sinf M_PI v < 0 →
      -(1 / 32768) ≤ Vibrato.readIdx0 fl sinf M_PI v →
      wrapLoopF fl ((Vibrato.MAX_DELAY : Int) : α)
          (⌈-Vibrato.readIdx0 fl sinf M_PI v⌉).toNat (Vibrato.readIdx0 fl sinf M_PI v)
        = some 1024 ∧
      truncToInt (1024 : α) = 1024 ∧
      readAt (v.delayBuf.set v.writeIdx.toNat x) 1024 = none ∧
      Vibrato.process fl sinf M_PI v x = none) :=
  ⟨fun hd hsin => vibrato_exact_index_bounds sinf M_PI v x hlen hw0 hw hsr hd hsin,
   fun fl hfl hneg hsmall =>
    vibrato_rounded_index_escapes fl sinf M_PI v x hlen hw0 hw (by omega) hfl hneg hsmall⟩

/-- The state of the Vibrato prepared at 44.1 kHz before call 1,912,832 (write index 0), with
the sine at `-1 + 1/786432`, so that the offset is `3·2⁻¹⁷`: under a rounding that is exact
except that it maps `[1024 - 2⁻¹⁵, 1024]` to `1024` the call has no result; in exact
arithmetic it returns. -/
theorem vibrato_index_safety_rounding_witness :
    Vibrato.process (fun y => if 1024 - 1 / 32768 ≤ y ∧ y ≤ 1024 then 1024 else y)
        (fun _ => -1 + 1 / 786432) 3
        { Vibrato.prepare (Vibrato.new : Vibrato ℚ) 44100 with sampleCounter := 1912832 } 5
      = none ∧
    ∃ out v1, Vibrato.process id (fun _ => -1 + 1 / 786432) 3
        { Vibrato.prepare (Vibrato.new : Vibrato ℚ) 44100 with sampleCounter := 1912832 } 5
      = some (out, v1) := by
  have h := vibrato_index_safety_rounding (fun _ => (-1 + 1 / 786432 : ℚ)) 3
    { Vibrato.prepare (Vibrato.new : Vibrato ℚ) 44100 with sampleCounter := 1912832 } 5
    (by simp only [Vibrato.prepare, Vibrato.new, List.length_replicate])
    (by show (0 : Int) ≤ 0; decide) (by show (0 : Int) < 1024; decide)
    (by show (0 : Int) < 44100; decide)
  refine ⟨(h.2 (fun y => if 1024 - 1 / 32768 ≤ y ∧ y ≤ 1024 then 1024 else y)
    (fun y h1 h2 => if_pos ⟨h1, h2⟩) ?_ ?_).2.2.2, ?_⟩
  · simp only [Vibrato.readIdx0, Vibrato.readDelay, Vibrato.prepare, Vibrato.new]
    norm_num
  · simp only [Vibrato.readIdx0, Vibrato.readDelay, Vibrato.prepare, Vibrato.new]
    norm_num
  · obtain ⟨_, _, _, _, _, _, _, _, _, _, _, _, _, _, _, _, _, _, _, _, _, _, _, _, _, hp, _⟩ :=
      h.1 rfl (fun _ => by rw [abs_le]; constructor <;> norm_num)
    exact ⟨_, _, hp⟩

/-- A Vibrato call whose read offset is 0 returns its own input, under every rounding that
keeps the write index: the read position is the cell just written. -/
theorem vibrato_zero_offset (fl sinf : α → α) (M_PI : α) (v : Vibrato α) (x : α)
    (hlen : v.delayBuf.length = 1024) (hw0 : 0 ≤ v.writeIdx) (hw : v.writeIdx < 1024)
    (hsr : v.sampleRate ≠ 0) (hfw : fl (v.writeIdx : α) = (v.writeIdx : α))
    (hz : Vibrato.readDelay fl sinf M_PI v = 0) :
    Vibrato.process fl sinf M_PI v x
      = some (x, { v with delayBuf := v.delayBuf.set v.writeIdx.toNat x
                          writeIdx := (v.writeIdx + 1) % 1024
                          sampleCounter := (v.sampleCounter + 1) % 2 ^ 64 }) := by
  have hwc0 : (0 : α) ≤ (v.writeIdx : α) := by exact_mod_cast hw0
  have hwc : ((v.writeIdx : Int) : α) < 1024 := by exact_mod_cast hw
  have hS : Vibrato.readIdx0 fl sinf M_PI v = (v.writeIdx : α) := by
    simp only [Vibrato.readIdx0, hz, hfw, sub_zero]
  obtain ⟨_, _, _, _, a1, a2, ha1, ha2, hproc⟩ :=
    vibrato_process_at fl sinf M_PI v x (v.writeIdx : α) hlen hw0 hw hsr
      (by rw [hS]; exact wrapLoopF_nonneg _ _ _ _ hwc0) hwc0 hwc
  rw [Int.floor_intCast] at ha1 hproc
  have hg := readAt_getElem _ _ _ ha1
  rw [List.getElem?_set_eq_of_lt _ (by omega)] at hg
  have h1 : a1 = x := (Option.some.inj hg).symm
  rw [hproc, h1]
  have hv : x * (1 - ((v.writeIdx : α) - ((v.writeIdx : Int) : α)))
      + a2 * ((v.writeIdx : α) - ((v.writeIdx : Int) : α)) = x := by ring
  rw [hv]

/-- Whatever the rounding, a result of a Vibrato call is interpolated between two cells of the
array as it is after the write of the input. -/
theorem vibrato_reads_after_write (fl sinf : α → α) (M_PI : α) (v : Vibrato α) (x : α)
    (hw0 : 0 ≤ v.writeIdx) (hw : v.writeIdx < (v.delayBuf.length : Int))
    (out : α) (v1 : Vibrato α) (h : Vibrato.process fl sinf M_PI v x = some (out, v1)) :
    ∃ r a1 a2, wrapLoopF fl ((Vibrato.MAX_DELAY : Int) : α)
        (⌈-Vibrato.readIdx0 fl sinf M_PI v⌉).toNat (Vibrato.readIdx0 fl sinf M_PI v)
        = some r ∧
      readAt (v.delayBuf.set v.writeIdx.toNat x) (truncToInt r) = some a1 ∧
      readAt (v.delayBuf.set v.writeIdx.toNat x)
        (Int.tmod (truncToInt r + 1) Vibrato.MAX_DELAY) = some a2 ∧
      out = a1 * (1 - (r - (truncToInt r : α))) + a2 * (r - (truncToInt r : α)) := by
  have hwr := writeAt_int_some v.delayBuf v.writeIdx x hw0 hw
  rw [vibrato_process_locals] at h
  simp only [hwr] at h
  by_cases hsr : v.sampleRate = 0
  · simp only [hsr, if_true] at h
    exact absurd h (by simp)
  · simp only [hsr, if_false] at h
    cases hl : wrapLoopF fl ((Vibrato.MAX_DELAY : Int) : α)
        (⌈-Vibrato.readIdx0 fl sinf M_PI v⌉).toNat (Vibrato.readIdx0 fl sinf M_PI v) with
    | none =>
      rw [hl] at h
      exact absurd h (by simp)
    | some r =>
      rw [hl] at h
      cases h1 : readAt (v.delayBuf.set v.writeIdx.toNat x) (truncToInt r) with
      | none =>
        simp only [h1] at h
        exact absurd h (by simp)
      | some a1 =>
        cases h2 : readAt (v.delayBuf.set v.writeIdx.toNat x)
            (Int.tmod (truncToInt r + 1) Vibrato.MAX_DELAY) with
        | none =>
          simp only [h1, h2] at h
          exact absurd h (by simp)
        | some a2 =>
          simp only [h1, h2] at h
          have h3 := congrArg Prod.fst (Option.some.inj h)
          exact ⟨r, a1, a2, rfl, h1, h2, h3.symm⟩

/-- C26, as the code behaves. For `sr ≥ 100` and `|sinf| ≤ 1`: in every prepared Phaser,
PingPongDelay and SpectralMirror state the delayed value is a cell of the buffer as it is on
entry, the same for every input, and `process` combines it with the input (read before write).
Vibrato writes the input first and reads the array after the write: in exact arithmetic the
call returns the interpolation of two cells of the array after the write, at the position the
wrap loop leaves; under every rounding a result of the call is such an interpolation; and
under every rounding that keeps the write index a call with read offset 0 returns its
input. -/
theorem delay_units_read_write_order (sinf : α → α) (M_PI : α) (sr : Int) (hsr : 100 ≤ sr)
    (hsin : ∀ t, |sinf t| ≤ 1) :
    (∀ p : Phaser α, Phaser.Ready sr p →
      ∃ delayed, readAt p.buffer
          ((p.writeIndex - truncToInt (p.baseDelay + sinf p.lfoPhase * p.depth))
            % (p.buffer.length : Int)) = some delayed ∧
        ∀ x : α, ∃ p1, Phaser.process sinf M_PI p x = some ((1 / 2) * (x + delayed), p1) ∧
          p1.buffer = p.buffer.set p.writeIndex.toNat x) ∧
    (∀ d : PingPongDelay α, PingPongDelay.Ready sr d →
      ∃ delayedL delayedR,
        readAt d.bufL (((d.writePos : Int) - d.delaySamplesL) % (d.bufL.length : Int))
          = some delayedL ∧
        readAt d.bufR (((d.writePos : Int) - d.delaySamplesR) % (d.bufL.length : Int))
          = some delayedR ∧
        ∀ x : α, ∃ d1, d.process x
          = some (((6 / 10) * x + (8 / 10) * delayedL, (6 / 10) * x + (8 / 10) * delayedR),
              d1)) ∧
    (∀ m : SpectralMirror α, SpectralMirror.Ready sr m →
      ∃ delayed, readAt m.delayBuffer
          ((m.writeIndex - m.delaySamples) % (m.delayBuffer.length : Int)) = some delayed ∧
        ∀ x : α, ∃ m1, m.process x = some (delayed - x, m1) ∧
          m1.delayBuffer = m.delayBuffer.set m.writeIndex.toNat x) ∧
    (∀ v : Vibrato α, v.delayBuf.length = 1024 → 0 ≤ v.writeIdx → v.writeIdx < 1024 →
      0 ≤ v.depth → v.sampleRate ≠ 0 → ∀ x : α,
      (∃ (r : α) (a1 a2 : α) (v1 : Vibrato α), 0 ≤ r ∧ r < 1024 ∧
        wrapLoopF id ((Vibrato.MAX_DELAY : Int) : α)
          (⌈-Vibrato.readIdx0 id sinf M_PI v⌉).toNat (Vibrato.readIdx0 id sinf M_PI v)
          = some r ∧
        readAt (v.delayBuf.set v.writeIdx.toNat x) ⌊r⌋ = some a1 ∧
        readAt (v.delayBuf.set v.writeIdx.toNat x) ((⌊r⌋ + 1) % 1024) = some a2 ∧
        Vibrato.process id sinf M_PI v x
          = some (a1 * (1 - (r - (⌊r⌋ : α))) + a2 * (r - (⌊r⌋ : α)), v1)) ∧
      (∀ (fl : α → α) (out : α) (v1 : Vibrato α),
        Vibrato.process fl sinf M_PI v x = some (out, v1) →
        ∃ r a1 a2, wrapLoopF fl ((Vibrato.MAX_DELAY : Int) : α)
            (⌈-Vibrato.readIdx0 fl sinf M_PI v⌉).toNat (Vibrato.readIdx0 fl sinf M_PI v)
            = some r ∧
          readAt (v.delayBuf.set v.writeIdx.toNat x) (truncToInt r) = some a1 ∧
          readAt (v.delayBuf.set v.writeIdx.toNat x)
            (Int.tmod (truncToInt r + 1) Vibrato.MAX_DELAY) = some a2 ∧
          out = a1 * (1 - (r - (truncToInt r : α))) + a2 * (r - (truncToInt r : α))) ∧
      (∀ fl : α → α, fl (v.writeIdx : α) = (v.writeIdx : α) →
        Vibrato.readDelay fl sinf M_PI v = 0 →
        ∃ v1, Vibrato.process fl sinf M_PI v x = some (x, v1))) := by
  have hs : (100 : α) ≤ (sr : α) := by exact_mod_cast hsr
  refine ⟨?_, ?_, ?_, ?_⟩
  · intro p hrd
    obtain ⟨hN, hD0, hDN⟩ := phaser_delay_lt sinf sr (by omega) p hrd hsin
    obtain ⟨hb, hd, hlen, hw0, hw⟩ := hrd
    obtain ⟨_, _, _, d, hd0, _⟩ := phaser_process_valid sinf M_PI p 0 hw0 hw hD0
    refine ⟨d, hd0, fun x => ?_⟩
    obtain ⟨_, _, _, d', hd', hproc⟩ := phaser_process_valid sinf M_PI p x hw0 hw hD0
    have e : d' = d := Option.some.inj (hd'.symm.trans hd0)
    rw [e] at hproc
    exact ⟨_, hproc, rfl⟩
  · intro d hrd
    obtain ⟨hN, hL0, hL1, hR0, hR1⟩ := pingpong_ready_bounds sr (by omega) d hrd
    obtain ⟨hL, hR, hlen, hlenR, hw⟩ := hrd
    obtain ⟨_, _, _, _, _, _, dl, dr, hdl, hdr, _⟩ :=
      pingpong_process_valid d 0 hlenR hw hL0 hR0
    refine ⟨dl, dr, hdl, hdr, fun x => ?_⟩
    obtain ⟨_, _, _, _, _, _, dl', dr', hdl', hdr', hproc⟩ :=
      pingpong_process_valid d x hlenR hw hL0 hR0
    have e1 : dl' = dl := Option.some.inj (hdl'.symm.trans hdl)
    have e2 : dr' = dr := Option.some.inj (hdr'.symm.trans hdr)
    rw [e1, e2] at hproc
    exact ⟨_, hproc⟩
  · intro m ⟨hD, hlen, hw0, hw⟩
    have hx : (0 : α) ≤ ((2 : α) / 1000) * (sr : α) := by linarith
    have ht : truncToInt (((2 : α) / 1000) * (sr : α)) = ⌊((2 : α) / 1000) * (sr : α)⌋ := by
      simp [truncToInt, hx]
    have hdiv : Int.tdiv sr 100 = sr / 100 := Int.tdiv_eq_ediv (by omega) (by decide)
    have hD1 : 1 ≤ m.delaySamples := by rw [hD]; exact le_max_left _ _
    have hDN : m.delaySamples ≤ (m.delayBuffer.length : Int) := by
      rw [hD, hlen, ht, hdiv]; exact floor_rate_le_length sr hsr
    obtain ⟨_, _, _, d, hd0, _⟩ := mirror_process_valid m 0 hw0 hw (by omega) hDN
    refine ⟨d, hd0, fun x => ?_⟩
    obtain ⟨_, _, _, d', hd', hproc⟩ := mirror_process_valid m x hw0 hw (by omega) hDN
    have e : d' = d := Option.some.inj (hd'.symm.trans hd0)
    rw [e] at hproc
    exact ⟨_, hproc, rfl⟩
  · intro v hlen hw0 hw hd hsr0 x
    refine ⟨?_, fun fl out v1 h =>
        vibrato_reads_after_write fl sinf M_PI v x hw0 (by rw [hlen]; exact_mod_cast hw) out v1 h,
      fun fl hfw hz => ⟨_, vibrato_zero_offset fl sinf M_PI v x hlen hw0 hw hsr0 hfw hz⟩⟩
    obtain ⟨hl, _⟩ := abs_le.mp
      (hsin (2 * M_PI * v.rate * (v.sampleCounter : α) / (v.sampleRate : α)))
    have hrd : 0 ≤ v.depth * sinf (2 * M_PI * v.rate * (v.sampleCounter : α)
        / (v.sampleRate : α)) + v.depth := by nlinarith
    have hwc : ((v.writeIdx : Int) : α) ≤ 1023 := by
      have : v.writeIdx ≤ 1023 := by omega
      exact_mod_cast this
    have hM : ((Vibrato.MAX_DELAY : Int) : α) = 1024 := by simp [Vibrato.MAX_DELAY]
    have hS := readIdx0_id sinf M_PI v
    obtain ⟨r, hr, hr0, hr1⟩ := wrapLoopF_range (1024 : α) (by norm_num)
      (⌈-Vibrato.readIdx0 id sinf M_PI v⌉).toNat (Vibrato.readIdx0 id sinf M_PI v)
      (by rw [hS]; linarith) (le_refl _)
    obtain ⟨_, _, _, _, a1, a2, ha1, ha2, hproc⟩ :=
      vibrato_process_at id sinf M_PI v x r hlen hw0 hw hsr0 hr hr0 hr1
    exact ⟨r, a1, a2, _, hr0, hr1, by rw [hM]; exact hr, ha1, ha2, hproc⟩

/-- The constructed Vibrato prepared at 48 kHz with the LFO at its minimum returns the
sample it is fed. -/
theorem delay_units_read_write_order_witness :
    ∃ v1, Vibrato.process id (fun _ => -1) 3
        (Vibrato.prepare (Vibrato.new : Vibrato ℚ) 48000) 5 = some (5, v1) :=
  ((delay_units_read_write_order (fun _ => (-1 : ℚ)) 3 48000 (by decide)
    (fun _ => by simp)).2.2.2 (Vibrato.prepare (Vibrato.new : Vibrato ℚ) 48000)
    (by simp only [Vibrato.prepare, Vibrato.new, List.length_replicate])
    (by show (0 : Int) ≤ 0; decide) (by show (0 : Int) < 1024; decide)
    (by show (0 : ℚ) ≤ 18; norm_num) (by show (48000 : Int) ≠ 0; decide) 5).2.2 id rfl
    (by show (18 : ℚ) * -1 + 18 = 0; norm_num)

end VibratoCall

/-- The LFO argument of the Vibrato at 48 kHz and 2 Hz after 18000 samples is `3π/2`, where
the sine is `-1`. -/
theorem sin_lfo_minimum :
    Real.sin (2 * Real.pi * 2 * ((18000 : Nat) : ℝ) / ((48000 : Int) : ℝ)) = -1 := by
  have h : 2 * Real.pi * 2 * ((18000 : Nat) : ℝ) / ((48000 : Int) : ℝ)
      = Real.pi / 2 + Real.pi := by
    push_cast
    ring
  rw [h, Real.sin_add_pi, Real.sin_pi_div_two]

/-- The state of the Vibrato constructed and prepared at 48 kHz before call `t` of a run on
silence. -/
theorem vibrato_silence_run (n : Nat) :
    ∃ outs s, runOpt (Vibrato.process id Real.sin Real.pi)
        (Vibrato.prepare (Vibrato.new : Vibrato ℝ) 48000) (List.replicate n 0)
        = some (outs, s) ∧
      s.delayBuf.length = 1024 ∧ s.writeIdx = ((n % 1024 : Nat) : Int) ∧ s.depth = 18 ∧
      s.rate = 2 ∧ s.sampleRate = 48000 ∧ s.sampleCounter = n % 2 ^ 64 ∧
      ∀ c ∈ s.delayBuf, c = 0 := by
  obtain ⟨outs, s, hrun, _, hJ, _⟩ := runOpt_timed (Vibrato.process id Real.sin Real.pi)
    (List.replicate n (0 : ℝ))
    (fun t v => v.delayBuf.length = 1024 ∧ v.writeIdx = ((t % 1024 : Nat) : Int) ∧
      v.depth = 18 ∧ v.rate = 2 ∧ v.sampleRate = 48000 ∧ v.sampleCounter = t % 2 ^ 64 ∧
      ∀ c ∈ v.delayBuf, c = 0)
    (fun _ _ => True)
    (by
      intro t v x hx ⟨hlen, hw, hd, hrt, hsr, hsc, hz⟩
      have hx0 : x = 0 := by
        rw [List.getElem?_replicate] at hx
        split at hx
        · exact (Option.some.inj hx).symm
        · exact absurd hx (by simp)
      obtain ⟨out, hp⟩ := vibrato_process_valid Real.sin Real.pi v x hlen (by omega)
        (by omega) (by rw [hd]; norm_num) (by omega) Real.abs_sin_le_one
      refine ⟨out, _, hp, ⟨?_, ?_, hd, hrt, hsr, ?_, ?_⟩, trivial⟩
      · simp only [List.length_set]; exact hlen
      · show (v.writeIdx + 1) % 1024 = (((t + 1) % 1024 : Nat) : Int)
        omega
      · show (v.sampleCounter + 1) % 2 ^ 64 = (t + 1) % 2 ^ 64
        rw [hsc, Nat.mod_add_mod]
      · intro c hc
        rcases List.mem_or_eq_of_mem_set hc with h | h
        · exact hz c h
        · rw [h, hx0])
    n 0 (Vibrato.prepare (Vibrato.new : Vibrato ℝ) 48000) (by simp)
    ⟨by simp only [Vibrato.prepare, Vibrato.new, List.length_replicate], rfl, rfl, rfl, rfl,
      rfl, by
        intro c hc
        simp only [Vibrato.prepare, Vibrato.new] at hc
        exact (List.mem_replicate.mp hc).2⟩
  rw [List.drop_zero] at hrun
  rw [List.length_replicate] at hJ
  exact ⟨outs, s, hrun, hJ⟩

/-- The Vibrato constructed and prepared at 48 kHz, run on 18000 samples of silence: the
array then holds only zeros, and the next call, fed the sample 1, returns 1, the sample it
has just written. -/
theorem vibrato_returns_sample_just_written :
    ∃ outs s, runOpt (Vibrato.process id Real.sin Real.pi)
        (Vibrato.prepare (Vibrato.new : Vibrato ℝ) 48000) (List.replicate 18000 0)
        = some (outs, s) ∧
      (∀ c ∈ s.delayBuf, c = 0) ∧
      ∃ s1, Vibrato.process id Real.sin Real.pi s 1 = some (1, s1) := by
  obtain ⟨outs, s, hrun, hlen, hw, hd, hrt, hsr, hsc, hz⟩ := vibrato_silence_run 18000
  have hsc2 : s.sampleCounter = 18000 := by rw [hsc]; norm_num
  refine ⟨outs, s, hrun, hz, _, vibrato_zero_offset id Real.sin Real.pi s 1 hlen (by omega)
    (by omega) (by omega) rfl ?_⟩
  rw [readDelay_id, hd, hrt, hsr, hsc2, sin_lfo_minimum]
  norm_num


/-! ## Bitcrusher: sample and hold -/

theorem nat_succ_mod_div (u F : Nat) (hF : 1 ≤ F) :
    ((u % F + 1 = F) → (u + 1) % F = 0 ∧ F * ((u + 1) / F) = u + 1) ∧
    ((u % F + 1 ≠ F) → (u + 1) % F = u % F + 1 ∧ (u + 1) / F = u / F) := by
  have hlt := Nat.mod_lt u (show 0 < F by omega)
  have hmod : (u + 1) % F = if u % F + 1 = F then 0 else u % F + 1 := by
    rw [← Nat.mod_add_mod]
    exact nat_succ_mod (u % F) F hlt
  have h1 := Nat.div_add_mod u F
  have h2 := Nat.div_add_mod (u + 1) F
  constructor
  · intro h
    rw [if_pos h] at hmod
    refine ⟨hmod, ?_⟩
    rw [hmod] at h2
    omega
  · intro h
    rw [if_neg h] at hmod
    refine ⟨hmod, ?_⟩
    apply Nat.div_eq_of_lt_le
    · rw [Nat.mul_comm]; omega
    · rw [Nat.succ_mul, Nat.mul_comm]; omega

theorem getD_of_getElem {β : Type} (l : List β) (t : Nat) (x d : β) (h : l[t]? = some x) :
    l.getD t d = x := by
  rw [List.getD_eq_getElem?_getD, h]
  rfl

section SampleHold
variable [LinearOrderedField α] [FloorRing α]

/-- One `process` call with parameters in range: the refresh branch (`holdCounter ≤ 0`) and
the hold branch. -/
theorem bitcrusher_process_step (b : Bitcrusher α) (x : α) (h1 : 1 ≤ b.bitDepth)
    (h2 : b.bitDepth ≤ 24) (h3 : 1 ≤ b.downsampleFactor) :
    ∃ held b1, Bitcrusher.process b x
        = some (Bitcrusher.softLimit (((6 / 10) * x + (9 / 10) * held) * (95 / 100)), b1) ∧
      b1.heldSample = held ∧ b1.bitDepth = b.bitDepth ∧
      b1.downsampleFactor = b.downsampleFactor ∧
      (b.holdCounter ≤ 0 → Bitcrusher.quantizeSample x b.bitDepth = some held ∧
        b1.holdCounter = b.downsampleFactor - 1) ∧
      (0 < b.holdCounter → held = b.heldSample ∧ b1.holdCounter = b.holdCounter - 1) := by
  obtain ⟨y, hy⟩ := Bitcrusher.quantizeSample_some x b.bitDepth h1 h2
  unfold Bitcrusher.process
  rw [Bitcrusher.clampParams_id b h1 h2 h3]
  simp only [hy]
  by_cases hc : b.holdCounter ≤ 0
  · simp only [hc, if_true]
    exact ⟨y, _, rfl, rfl, rfl, rfl, fun _ => ⟨rfl, rfl⟩, fun h => absurd h (by omega)⟩
  · simp only [hc, if_false]
    exact ⟨b.heldSample, _, rfl, rfl, rfl, rfl, fun h => h.elim, fun _ => ⟨rfl, rfl⟩⟩

/-- C27. From the reset state of a Bitcrusher with `downsampleFactor = F ≥ 1` and
`bitDepth = b` in `[1, 24]`, for every input sequence: the run succeeds, call `t` (from 0)
uses the held value `quantizeSample(in[F·⌊t/F⌋], b)` and returns
`softLimit(0.95·(0.6·in[t] + 0.9·held))`; after the last call (call `n - 1`) the stored held
sample is `quantizeSample(in[F·⌊(n-1)/F⌋], b)` and the hold counter is
`F - 1 - ((n-1) mod F)`, a value in `[0, F-1]`. -/
theorem bitcrusher_sample_and_hold (b0 : Bitcrusher α) (F : Nat) (hF : 1 ≤ F) (bits : Int)
    (hb1 : 1 ≤ bits) (hb2 : bits ≤ 24) (hf : b0.downsampleFactor = (F : Int))
    (hbd : b0.bitDepth = bits) (ins : List α) :
    ∃ outs s, runOpt Bitcrusher.process b0.reset ins = some (outs, s) ∧
      outs.length = ins.length ∧
      (∀ t, t < ins.length →
        ∃ held, Bitcrusher.quantizeSample (ins.getD (F * (t / F)) 0) bits = some held ∧
          outs[t]? = some (Bitcrusher.softLimit
            (((6 / 10) * ins.getD t 0 + (9 / 10) * held) * (95 / 100)))) ∧
      (1 ≤ ins.length →
        Bitcrusher.quantizeSample (ins.getD (F * ((ins.length - 1) / F)) 0) bits
          = some s.heldSample ∧
        s.holdCounter = (F : Int) - 1 - (((ins.length - 1) % F : Nat) : Int) ∧
        0 ≤ s.holdCounter ∧ s.holdCounter ≤ (F : Int) - 1) ∧
      s.downsampleFactor = (F : Int) ∧ s.bitDepth = bits := by
  obtain ⟨outs, s, hrun, hlen, hJ, hall⟩ := runOpt_timed Bitcrusher.process ins
    (fun t b => b.downsampleFactor = (F : Int) ∧ b.bitDepth = bits ∧
      (t = 0 → b.holdCounter = 0) ∧
      ∀ u, t = u + 1 → b.holdCounter = (F : Int) - 1 - ((u % F : Nat) : Int) ∧
        Bitcrusher.quantizeSample (ins.getD (F * (u / F)) 0) bits = some b.heldSample)
    (fun t y => ∃ held, Bitcrusher.quantizeSample (ins.getD (F * (t / F)) 0) bits = some held ∧
      y = Bitcrusher.softLimit (((6 / 10) * ins.getD t 0 + (9 / 10) * held) * (95 / 100)))
    (by
      intro t b x hx ⟨jf, jb, j0, ju⟩
      have hxd : ins.getD t 0 = x := getD_of_getElem ins t x 0 hx
      obtain ⟨held, b1, hp, e0, e1, e2, hrefresh, hhold⟩ :=
        bitcrusher_process_step b x (by rw [jb]; exact hb1) (by rw [jb]; exact hb2)
          (by rw [jf]; omega)
      rw [jb, jf] at hrefresh
      have key : Bitcrusher.quantizeSample (ins.getD (F * (t / F)) 0) bits = some held ∧
          b1.holdCounter = (F : Int) - 1 - ((t % F : Nat) : Int) := by
        cases t with
        | zero =>
          have hc := j0 rfl
          obtain ⟨q, c⟩ := hrefresh (by omega)
          rw [Nat.zero_div, Nat.mul_zero, hxd, Nat.zero_mod]
          exact ⟨q, by rw [c]; simp⟩
        | succ u =>
          obtain ⟨hc, hq⟩ := ju u rfl
          obtain ⟨ca, cb⟩ := nat_succ_mod_div u F hF
          have hlt := Nat.mod_lt u (show 0 < F by omega)
          by_cases hw : u % F + 1 = F
          · obtain ⟨m0, d0⟩ := ca hw
            obtain ⟨q, c⟩ := hrefresh (by omega)
            rw [d0, hxd, m0]
            exact ⟨q, by rw [c]; simp⟩
          · obtain ⟨m0, d0⟩ := cb hw
            obtain ⟨q, c⟩ := hhold (by omega)
            rw [d0, m0, q]
            exact ⟨hq, by rw [c, hc]; push_cast; ring⟩
      refine ⟨_, b1, hp, ⟨by rw [e2, jf], by rw [e1, jb], fun h => absurd h (by omega), ?_⟩,
        held, key.1, by rw [hxd]⟩
      intro u hu
      have : u = t := by omega
      subst this
      exact ⟨key.2, by rw [e0]; exact key.1⟩)
    ins.length 0 b0.reset (by omega)
    ⟨hf, hbd, fun _ => rfl, fun u h => absurd h (by omega)⟩
  rw [List.drop_zero] at hrun
  obtain ⟨jf, jb, _, ju⟩ := hJ
  refine ⟨outs, s, hrun, hlen, ?_, ?_, jf, jb⟩
  · intro t ht
    obtain ⟨y, hy, held, hq, hv⟩ := hall t ht
    rw [Nat.zero_add] at hq hv
    exact ⟨held, hq, by rw [hy, hv]⟩
  · intro h1
    obtain ⟨hc, hq⟩ := ju (ins.length - 1) (by omega)
    have hlt := Nat.mod_lt (ins.length - 1) (show 0 < F by omega)
    exact ⟨hq, hc, by omega, by omega⟩

/-- A Bitcrusher with factor 2 and depth 8 on three samples. -/
theorem bitcrusher_sample_and_hold_witness :
    ∃ outs s, runOpt Bitcrusher.process
        ({ (Bitcrusher.new : Bitcrusher ℚ) with downsampleFactor := 2 }).reset [1, 0, -1]
        = some (outs, s) ∧
      outs.length = 3 ∧ s.holdCounter = (2 : Int) - 1 - (((3 - 1) % 2 : Nat) : Int) := by
  obtain ⟨outs, s, hr, hlen, _, hl, _⟩ := bitcrusher_sample_and_hold
    ({ (Bitcrusher.new : Bitcrusher ℚ) with downsampleFactor := 2 }) 2 (by decide) 8
    (by decide) (by decide) rfl rfl [1, 0, -1]
  exact ⟨outs, s, hr, hlen, (hl (by decide)).2.1⟩

end SampleHold

/-! ## The unprepared Reverb and the PingPongDelay wrap loops -/

section Unprepared
variable [LinearOrderedField α]
open Reverb

theorem Delay.process_empty (d : Delay α) (x : α) (h : d.buf = []) :
    d.process x = some (x, d) := by
  simp [Delay.process, h]

/-- C35. A Reverb with four combs and two allpasses whose six delay lines are all empty (the
constructed Reverb, on which `prepare` was never called) returns exactly `0.25·x` for every
input `x` and keeps its state; so it is not a passthrough: for `x ≠ 0` the result is not `x`. -/
theorem reverb_unprepared_quarter (r : Reverb α) (c0 c1 c2 c3 a0 a1 : Delay α)
    (hc : r.combs = [c0, c1, c2, c3]) (ha : r.allpasses = [a0, a1])
    (he : ∀ d ∈ [c0, c1, c2, c3, a0, a1], d.buf = []) (x : α) :
    r.process x = some ((1 / 4) * x, r) ∧ (x ≠ 0 → (1 / 4) * x ≠ x) ∧
    (Reverb.new : Reverb α).process x = some ((1 / 4) * x, Reverb.new) := by
  have main : ∀ (r : Reverb α) (c0 c1 c2 c3 a0 a1 : Delay α), r.combs = [c0, c1, c2, c3] →
      r.allpasses = [a0, a1] → (∀ d ∈ [c0, c1, c2, c3, a0, a1], d.buf = []) →
      r.process x = some ((1 / 4) * x, r) := by
    intro r c0 c1 c2 c3 a0 a1 hc ha he
    have h := reverb_process_of_delays r c0 c1 c2 c3 a0 a1 hc ha x x x x x
      ((1 / 4) * (x + x + x + x)) ((1 / 4) * (x + x + x + x) - (1 / 2) * ((1 / 4) * (x + x + x + x)))
      c0 c1 c2 c3 a0 a1
      (Delay.process_empty c0 x (he c0 (by simp))) (Delay.process_empty c1 x (he c1 (by simp)))
      (Delay.process_empty c2 x (he c2 (by simp))) (Delay.process_empty c3 x (he c3 (by simp)))
      (Delay.process_empty a0 _ (he a0 (by simp))) (Delay.process_empty a1 _ (he a1 (by simp)))
    rw [h]
    have hv : (1 / 4) * (x + x + x + x) - (1 / 2) * ((1 / 4) * (x + x + x + x))
        - (1 / 2) * ((1 / 4) * (x + x + x + x) - (1 / 2) * ((1 / 4) * (x + x + x + x)))
        = (1 / 4) * x := by ring
    rw [hv, ← hc, ← ha]
  refine ⟨main r c0 c1 c2 c3 a0 a1 hc ha he, ?_, ?_⟩
  · intro hx h
    apply hx
    linarith
  · exact main Reverb.new Delay.new Delay.new Delay.new Delay.new Delay.new Delay.new rfl rfl
      (by
        intro d hd
        simp only [List.mem_cons, List.mem_singleton, List.not_mem_nil, or_false, or_self] at hd
        rw [hd]; rfl)

/-- The constructed Reverb fed the sample 8 returns 2. -/
theorem reverb_unprepared_quarter_witness :
    (Reverb.new : Reverb ℚ).process 8 = some (2, Reverb.new) := by
  have h := (reverb_unprepared_quarter (Reverb.new : Reverb ℚ) Delay.new Delay.new Delay.new
    Delay.new Delay.new Delay.new rfl rfl
    (by
      intro d hd
      simp only [List.mem_cons, List.mem_singleton, List.not_mem_nil, or_false, or_self] at hd
      rw [hd]; rfl) 8).1
  rw [h]
  norm_num

end Unprepared

theorem wrapLoop_nonneg (n : Int) (fuel : Nat) (r : Int) (h : 0 ≤ r) :
    wrapLoop n fuel r = some r := by
  have hn : ¬ r < 0 := by omega
  cases fuel with
  | zero => simp only [wrapLoop, hn, if_false]
  | succ k => simp only [wrapLoop, hn, if_false]

/-- One iteration suffices for a position in `[-n, n)`: the result is the position modulo
`n`. -/
theorem wrapLoop_once (n : Int) (fuel : Nat) (r : Int) (hf : 1 ≤ fuel) (h1 : -n ≤ r)
    (h2 : r < n) : wrapLoop n fuel r = some (r % n) := by
  by_cases h : r < 0
  · cases fuel with
    | zero => omega
    | succ k =>
      simp only [wrapLoop, h, if_true]
      rw [wrapLoop_nonneg n k (r + n) (by omega), ← Int.add_emod_self,
        Int.emod_eq_of_lt (by omega) (by omega)]
  · rw [wrapLoop_nonneg n fuel r (by omega), Int.emod_eq_of_lt (by omega) h2]

theorem wrapLoop_stuck (fuel : Nat) (r : Int) (h : r < 0) : wrapLoop 0 fuel r = none := by
  induction fuel with
  | zero => simp only [wrapLoop, h, if_true]
  | succ k ih => simp only [wrapLoop, h, if_true, Int.add_zero, ih]

section WrapLoops
variable [LinearOrderedField α] [FloorRing α]

/-- C36. For every PingPongDelay state with buffers of `N ≥ 1` cells, `writePos < N` and
delays in `[0, N)`: each wrap loop ends after at most one iteration (fuel 1 suffices and gives
the result of the loop of `process`), both read positions are `(writePos - D) mod N` in
`[0, N)`, and `process` returns. `prepare(sr)` establishes these conditions for every
`sr ≥ 1`. On the constructed unit (`N = 0`, delays 1) the loop starts at `-1` and never ends,
whatever the number of iterations, and `process` does not return. -/
theorem pingpong_wrap_loops_terminate (expf : α → α) (M_PI : α) (d : PingPongDelay α) (x : α)
    (hN : 1 ≤ d.bufL.length) (hR : d.bufR.length = d.bufL.length)
    (hw : d.writePos < d.bufL.length)
    (hL0 : 0 ≤ d.delaySamplesL) (hL1 : d.delaySamplesL < (d.bufL.length : Int))
    (hR0 : 0 ≤ d.delaySamplesR) (hR1 : d.delaySamplesR < (d.bufL.length : Int)) :
    (wrapLoop (d.bufL.length : Int) 1 ((d.writePos : Int) - d.delaySamplesL)
        = some (((d.writePos : Int) - d.delaySamplesL) % (d.bufL.length : Int)) ∧
      wrapLoop (d.bufL.length : Int) (-((d.writePos : Int) - d.delaySamplesL)).toNat
          ((d.writePos : Int) - d.delaySamplesL)
        = some (((d.writePos : Int) - d.delaySamplesL) % (d.bufL.length : Int)) ∧
      wrapLoop (d.bufL.length : Int) 1 ((d.writePos : Int) - d.delaySamplesR)
        = some (((d.writePos : Int) - d.delaySamplesR) % (d.bufL.length : Int)) ∧
      wrapLoop (d.bufL.length : Int) (-((d.writePos : Int) - d.delaySamplesR)).toNat
          ((d.writePos : Int) - d.delaySamplesR)
        = some (((d.writePos : Int) - d.delaySamplesR) % (d.bufL.length : Int)) ∧
      0 ≤ ((d.writePos : Int) - d.delaySamplesL) % (d.bufL.length : Int) ∧
      ((d.writePos : Int) - d.delaySamplesL) % (d.bufL.length : Int) < (d.bufL.length : Int) ∧
      0 ≤ ((d.writePos : Int) - d.delaySamplesR) % (d.bufL.length : Int) ∧
      ((d.writePos : Int) - d.delaySamplesR) % (d.bufL.length : Int) < (d.bufL.length : Int) ∧
      ∃ out d1, d.process x = some (out, d1)) ∧
    (∀ (sr : Int) (d0 : PingPongDelay α), 1 ≤ sr →
      ∃ p, PingPongDelay.prepare expf M_PI d0 sr = some p ∧
        1 ≤ p.bufL.length ∧ p.bufR.length = p.bufL.length ∧ p.writePos < p.bufL.length ∧
        0 ≤ p.delaySamplesL ∧ p.delaySamplesL < (p.bufL.length : Int) ∧
        0 ≤ p.delaySamplesR ∧ p.delaySamplesR < (p.bufL.length : Int)) ∧
    ((PingPongDelay.new : PingPongDelay α).bufL.length = 0 ∧
      ((PingPongDelay.new : PingPongDelay α).writePos : Int)
        - (PingPongDelay.new : PingPongDelay α).delaySamplesL = -1 ∧
      (∀ fuel : Nat, wrapLoop (0 : Int) fuel (-1) = none) ∧
      (PingPongDelay.new : PingPongDelay α).process x = none) := by
  refine ⟨?_, ?_, ?_⟩
  · have hNi : (0 : Int) < (d.bufL.length : Int) := by omega
    obtain ⟨a1, a2, a3, a4, a5, a6, _, _, _, _, hp⟩ := pingpong_process_valid d x hR hw hL0 hR0
    refine ⟨wrapLoop_once _ 1 _ (le_refl _) (by omega) (by omega), a1,
      wrapLoop_once _ 1 _ (le_refl _) (by omega) (by omega), a2, a3, a4, a5, by omega, _, _, hp⟩
  · intro sr d0 hsr
    have hk : PingPongDelay.Ready sr
        { sampleRate := sr
          bufL := List.replicate ((sr * 2).toNat + 10) 0
          bufR := List.replicate ((sr * 2).toNat + 10) 0
          writePos := 0
          delaySamplesL := roundToInt ((350 : α) * (1 / 1000) * (sr : α))
          delaySamplesR := roundToInt ((550 : α) * (1 / 1000) * (sr : α))
          fbLowpass_z := d0.fbLowpass_z
          fbLowpass_a0 := 1 - expf (-2 * M_PI * 6000 / (sr : α))
          fbLowpass_b1 := expf (-2 * M_PI * 6000 / (sr : α)) } := by
      have ht : truncToInt ((sr : α) * 2) = sr * 2 := by
        have : (sr : α) * 2 = ((sr * 2 : Int) : α) := by push_cast; ring
        rw [this, truncToInt_intCast]
      refine ⟨rfl, rfl, ?_, ?_, ?_⟩
      · simp only [List.length_replicate, ht]
      · simp only [List.length_replicate]
      · simp only [List.length_replicate]; omega
    obtain ⟨hlen, b0, b1, b2, b3⟩ := pingpong_ready_bounds sr (by omega) _ hk
    refine ⟨_, pingpong_prepare_some expf M_PI d0 sr (by omega), ?_, hk.2.2.2.1, hk.2.2.2.2,
      b0, b1, b2, b3⟩
    simp only [List.length_replicate]; omega
  · refine ⟨rfl, rfl, fun fuel => wrapLoop_stuck fuel (-1) (by decide), ?_⟩
    rfl

/-- A unit with three cells per buffer, write position 0 and delays 1 and 2. -/
theorem pingpong_wrap_loops_terminate_witness :
    wrapLoop 3 1 (0 - 1) = some 2 ∧ wrapLoop 3 1 (0 - 2) = some 1 ∧
    ∃ out d1, PingPongDelay.process
      ({ (PingPongDelay.new : PingPongDelay ℚ) with
          bufL := [1, 2, 3], bufR := [4, 5, 6], delaySamplesL := 1, delaySamplesR := 2 }) 7
      = some (out, d1) := by
  obtain ⟨⟨h1, _, h3, _, _, _, _, _, hp⟩, _⟩ := pingpong_wrap_loops_terminate
    (fun _ => (1 / 2 : ℚ)) 3
    ({ (PingPongDelay.new : PingPongDelay ℚ) with
        bufL := [1, 2, 3], bufR := [4, 5, 6], delaySamplesL := 1, delaySamplesR := 2 }) 7
    (by decide) rfl (by decide) (by decide) (by decide) (by decide) (by decide)
  exact ⟨h1, h3, hp⟩

end WrapLoops

/-! ## Fuzz: the output bound -/

theorem mem_of_getElem_all {β : Type} (l : List β) (P : β → Prop)
    (h : ∀ i, i < l.length → ∃ y, l[i]? = some y ∧ P y) : ∀ y ∈ l, P y := by
  intro y hy
  obtain ⟨i, hi, rfl⟩ := List.mem_iff_getElem.mp hy
  obtain ⟨z, hz, hP⟩ := h i hi
  rw [List.getElem?_eq_getElem hi] at hz
  rw [Option.some.inj hz]
  exact hP

/-- One `Fuzz::process` call with a non-negative clip level `c`, post-filter coefficients
`lpf_a = 1 - b`, `lpf_b = b` with `0 ≤ b ≤ 1` and post-filter state within `c`: the returned
value, which is the new post-filter state, is within `c`. -/
theorem fuzz_process_bounded [LinearOrderedField α] (f : Fuzz α) (x : α)
    (hc : 0 ≤ f.clipLevel) (ha : f.lpf_a = 1 - f.lpf_b) (hb0 : 0 ≤ f.lpf_b)
    (hb1 : f.lpf_b ≤ 1) (hz : |f.lpf_z| ≤ f.clipLevel) :
    |(Fuzz.process f x).1| ≤ f.clipLevel ∧
    (Fuzz.process f x).2.lpf_z = (Fuzz.process f x).1 ∧
    (Fuzz.process f x).2.clipLevel = f.clipLevel ∧
    (Fuzz.process f x).2.lpf_a = f.lpf_a ∧ (Fuzz.process f x).2.lpf_b = f.lpf_b := by
  refine ⟨?_, rfl, rfl, rfl, rfl⟩
  simp only [Fuzz.process, Fuzz.lpf_process, Fuzz.hpf_process]
  generalize (f.hpf_a * (x - f.hpf_z) + f.hpf_z * f.hpf_b) * f.inputGain = v
  obtain ⟨hz0, hz1⟩ := abs_le.mp hz
  have hclip : -f.clipLevel ≤
      (if (if v > f.clipLevel then f.clipLevel else v) < -f.clipLevel then -f.clipLevel
        else (if v > f.clipLevel then f.clipLevel else v)) ∧
      (if (if v > f.clipLevel then f.clipLevel else v) < -f.clipLevel then -f.clipLevel
        else (if v > f.clipLevel then f.clipLevel else v)) ≤ f.clipLevel := by
    by_cases h1 : v > f.clipLevel
    · simp only [h1, if_true]
      by_cases h2 : f.clipLevel < -f.clipLevel
      · simp only [h2, if_true]; constructor <;> linarith
      · simp only [h2, if_false]; constructor <;> linarith
    · simp only [h1, if_false]
      by_cases h2 : v < -f.clipLevel
      · simp only [h2, if_true]; constructor <;> linarith
      · simp only [h2, if_false]; constructor <;> linarith
  generalize (if (if v > f.clipLevel then f.clipLevel else v) < -f.clipLevel then -f.clipLevel
        else (if v > f.clipLevel then f.clipLevel else v)) = w at hclip
  obtain ⟨hw0, hw1⟩ := hclip
  rw [ha, abs_le]
  have ha0 : 0 ≤ 1 - f.lpf_b := by linarith
  constructor <;> nlinarith

/-- C33. Over the reals, for every sample rate `sr > 0`: `prepare(sr)` on a Fuzz with the
constructor's `clipLevel = 0.08` gives post-filter coefficients `lpf_a = 1 - x`, `lpf_b = x`
with `x = exp(-2π·800/sr)` in `(0, 1)`, so both lie in `(0, 1)` and sum to 1; from the reset
state, for every input sequence, the run succeeds and the post-filter state and every
returned sample have magnitude at most `0.08`. -/
theorem fuzz_output_bounded (f : Fuzz ℝ) (hcl : f.clipLevel = 8 / 100) (sr : Int)
    (hsr : 0 < sr) (ins : List ℝ) :
    ∃ f1 outs s, Fuzz.prepare Real.exp Real.pi f sr = some f1 ∧
      f1.lpf_a + f1.lpf_b = 1 ∧ 0 < f1.lpf_a ∧ f1.lpf_a < 1 ∧ 0 < f1.lpf_b ∧ f1.lpf_b < 1 ∧
      runOpt (fun u x => some (Fuzz.process u x)) f1.reset ins = some (outs, s) ∧
      outs.length = ins.length ∧ |s.lpf_z| ≤ 8 / 100 ∧ ∀ y ∈ outs, |y| ≤ 8 / 100 := by
  obtain ⟨f1, hp, _, _, ha, hb, _, _, _, _, hc⟩ :=
    fuzz_prepare_some Real.exp Real.pi f sr (by omega)
  obtain ⟨hx0, hx1⟩ := exp_coeff_bounds sr 800 hsr (by norm_num)
  rw [← hb] at hx0 hx1
  have ha' : f1.lpf_a = 1 - f1.lpf_b := by rw [ha, hb]
  obtain ⟨outs, s, hrun, hlen, hJ, hall⟩ := runOpt_timed
    (fun u x => some (Fuzz.process u x)) ins
    (fun _ u => u.clipLevel = 8 / 100 ∧ u.lpf_a = 1 - u.lpf_b ∧ 0 ≤ u.lpf_b ∧ u.lpf_b ≤ 1 ∧
      |u.lpf_z| ≤ u.clipLevel)
    (fun _ y => |y| ≤ 8 / 100)
    (by
      intro t u x _ ⟨j1, j2, j3, j4, j5⟩
      obtain ⟨b1, b2, b3, b4, b5⟩ :=
        fuzz_process_bounded u x (by rw [j1]; norm_num) j2 j3 j4 j5
      have e1 : (Fuzz.process u x).2.clipLevel = 8 / 100 := b3.trans j1
      have e2 : (Fuzz.process u x).2.lpf_a = 1 - (Fuzz.process u x).2.lpf_b := by
        rw [b4, b5]; exact j2
      have e3 : 0 ≤ (Fuzz.process u x).2.lpf_b := by rw [b5]; exact j3
      have e4 : (Fuzz.process u x).2.lpf_b ≤ 1 := by rw [b5]; exact j4
      have e5 : |(Fuzz.process u x).2.lpf_z| ≤ (Fuzz.process u x).2.clipLevel := by
        rw [b2, b3]; exact b1
      have e6 : |(Fuzz.process u x).1| ≤ 8 / 100 := by rw [← j1]; exact b1
      exact ⟨(Fuzz.process u x).1, (Fuzz.process u x).2, rfl, ⟨e1, e2, e3, e4, e5⟩, e6⟩)
    ins.length 0 f1.reset (by omega)
    ⟨by show f1.clipLevel = 8 / 100; rw [hc, hcl], ha', le_of_lt hx0, le_of_lt hx1, by
      show |(0 : ℝ)| ≤ f1.clipLevel
      rw [hc, hcl]; norm_num⟩
  rw [List.drop_zero] at hrun
  refine ⟨f1, outs, s, hp, by rw [ha']; ring, by rw [ha']; linarith, by rw [ha']; linarith,
    hx0, hx1, hrun, hlen, by rw [← hJ.1]; exact hJ.2.2.2.2, ?_⟩
  apply mem_of_getElem_all outs (fun y => |y| ≤ 8 / 100)
  intro i hi
  obtain ⟨y, hy, hQ⟩ := hall i (by omega)
  exact ⟨y, hy, hQ⟩

/-- The constructed Fuzz prepared at 48 kHz, fed two samples of very different size. -/
theorem fuzz_output_bounded_witness :
    ∃ f1 outs s, Fuzz.prepare Real.exp Real.pi (Fuzz.new : Fuzz ℝ) 48000 = some f1 ∧
      runOpt (fun u x => some (Fuzz.process u x)) f1.reset [1000, -3] = some (outs, s) ∧
      ∀ y ∈ outs, |y| ≤ 8 / 100 := by
  obtain ⟨f1, outs, s, hp, _, _, _, _, _, hr, _, _, hall⟩ :=
    fuzz_output_bounded (Fuzz.new : Fuzz ℝ) rfl 48000 (by decide) [1000, -3]
  exact ⟨f1, outs, s, hp, hr, hall⟩

/-! ## Bitcrusher: the quantizer -/

section Quantizer
variable [LinearOrderedField α] [FloorRing α]

/-- The closed form of `quantizeSample` for a bit depth in `[1, 24]`: with `L = 2^b - 1` and
`c` the sample clamped to `[-1, 1]`, the result is `2k/L - 1` for `k = ⌊(c+1)/2·L + 1/2⌋`. -/
theorem quantize_closed (x : α) (b : Int) (h1 : 1 ≤ b) (h2 : b ≤ 24) :
    (1 : Int) ≤ 2 ^ b.toNat - 1 ∧ -1 ≤ max (-1) (min x 1) ∧ max (-1) (min x 1) ≤ 1 ∧
    Bitcrusher.quantizeSample x b
      = some (((⌊(max (-1) (min x 1) + 1) * (1 / 2) * ((2 ^ b.toNat - 1 : Int) : α) + 1 / 2⌋ : Int) : α)
          / ((2 ^ b.toNat - 1 : Int) : α) * 2 - 1) := by
  have hr : ¬ (b < 0 ∨ 31 ≤ b) := by omega
  have hpow : (1 : Int) ≤ 2 ^ b.toNat - 1 := by
    have h : 1 ≤ b.toNat := by omega
    have : (2 : Int) ^ 1 ≤ 2 ^ b.toNat := pow_le_pow_right₀ (by norm_num) h
    omega
  have hne : (2 : Int) ^ b.toNat - 1 ≠ 0 := by omega
  have hclamp : (if (if x > 1 then 1 else x) < -1 then (-1 : α) else (if x > 1 then 1 else x))
      = max (-1) (min x 1) := by
    by_cases hx1 : x > 1
    · have : ¬ (1 : α) < -1 := by norm_num
      simp only [hx1, if_true, this, if_false]
      rw [min_eq_right (le_of_lt hx1), max_eq_right (by norm_num)]
    · simp only [hx1, if_false]
      rw [min_eq_left (not_lt.mp hx1)]
      by_cases hx2 : x < -1
      · simp only [hx2, if_true]
        rw [max_eq_left (le_of_lt hx2)]
      · simp only [hx2, if_false]
        rw [max_eq_right (not_lt.mp hx2)]
  refine ⟨hpow, le_max_left _ _, max_le (by norm_num) (min_le_right _ _), ?_⟩
  simp only [Bitcrusher.quantizeSample, hr, hne, if_false, hclamp]

/-- The facts about the rounded level index `k = ⌊(c+1)/2·L + 1/2⌋` for `-1 ≤ c ≤ 1` and
`L ≥ 1`. -/
theorem quantize_index (c : α) (L : Int) (hL : 1 ≤ L) (hc0 : -1 ≤ c) (hc1 : c ≤ 1) :
    0 ≤ ⌊(c + 1) * (1 / 2) * (L : α) + 1 / 2⌋ ∧ ⌊(c + 1) * (1 / 2) * (L : α) + 1 / 2⌋ ≤ L ∧
    |((⌊(c + 1) * (1 / 2) * (L : α) + 1 / 2⌋ : Int) : α) / (L : α) * 2 - 1 - c|
      ≤ 1 / (L : α) := by
  have hLc : (1 : α) ≤ (L : α) := by exact_mod_cast hL
  have hLp : (0 : α) < (L : α) := by linarith
  have hu0 : 0 ≤ (c + 1) * (1 / 2) * (L : α) := by
    apply mul_nonneg
    · linarith
    · linarith
  have hu1 : (c + 1) * (1 / 2) * (L : α) ≤ (L : α) := by
    have : (c + 1) * (1 / 2) ≤ 1 := by linarith
    calc (c + 1) * (1 / 2) * (L : α) ≤ 1 * (L : α) :=
          mul_le_mul_of_nonneg_right this (le_of_lt hLp)
      _ = (L : α) := one_mul _
  have hfl := Int.floor_le ((c + 1) * (1 / 2) * (L : α) + 1 / 2)
  have hfu := Int.lt_floor_add_one ((c + 1) * (1 / 2) * (L : α) + 1 / 2)
  refine ⟨Int.floor_nonneg.mpr (by linarith), ?_, ?_⟩
  · have : ⌊(c + 1) * (1 / 2) * (L : α) + 1 / 2⌋ < L + 1 := by
      rw [Int.floor_lt]; push_cast; linarith
    omega
  · generalize ((⌊(c + 1) * (1 / 2) * (L : α) + 1 / 2⌋ : Int) : α) = k at hfl hfu
    have e : k / (L : α) * 2 - 1 - c = (2 * k - (c + 1) * (L : α)) / (L : α) := by
      field_simp
      ring
    rw [e, abs_div, abs_of_pos hLp]
    apply div_le_div_of_nonneg_right _ (le_of_lt hLp)
    rw [abs_le]
    constructor <;> linarith

/-- C32. In exact arithmetic, for every bit depth `b` in `[1, 24]` and every `x`:
`quantizeSample(x, b)` is returned and equals `-1 + 2k/(2^b - 1)` for an integer
`0 ≤ k ≤ 2^b - 1`, lies in `[-1, 1]`, differs from `x` clamped to `[-1, 1]` by at most
`1/(2^b - 1)`, and is at most `quantizeSample(y, b)` for every `y ≥ x`. -/
theorem quantize_accuracy (b : Int) (h1 : 1 ≤ b) (h2 : b ≤ 24) (x : α) :
    ∃ (k : Int) (q : α), Bitcrusher.quantizeSample x b = some q ∧
      0 ≤ k ∧ k ≤ 2 ^ b.toNat - 1 ∧
      q = -1 + 2 * (k : α) / ((2 ^ b.toNat - 1 : Int) : α) ∧ -1 ≤ q ∧ q ≤ 1 ∧
      |q - max (-1) (min x 1)| ≤ 1 / ((2 ^ b.toNat - 1 : Int) : α) ∧
      ∀ y, x ≤ y → ∃ q2, Bitcrusher.quantizeSample y b = some q2 ∧ q ≤ q2 := by
  obtain ⟨hL, hc0, hc1, hq⟩ := quantize_closed x b h1 h2
  obtain ⟨hk0, hk1, hacc⟩ := quantize_index (max (-1) (min x 1)) (2 ^ b.toNat - 1) hL hc0 hc1
  have hLc : (1 : α) ≤ ((2 ^ b.toNat - 1 : Int) : α) := by exact_mod_cast hL
  have hLp : (0 : α) < ((2 ^ b.toNat - 1 : Int) : α) := by linarith
  have hkc0 : (0 : α)
      ≤ ((⌊(max (-1) (min x 1) + 1) * (1 / 2) * ((2 ^ b.toNat - 1 : Int) : α) + 1 / 2⌋ : Int) : α) := by
    exact_mod_cast hk0
  have hkc1 : ((⌊(max (-1) (min x 1) + 1) * (1 / 2) * ((2 ^ b.toNat - 1 : Int) : α) + 1 / 2⌋ : Int) : α)
      ≤ ((2 ^ b.toNat - 1 : Int) : α) := by
    exact_mod_cast hk1
  refine ⟨_, _, hq, hk0, hk1, by ring, ?_, ?_, hacc, ?_⟩
  · have := div_nonneg hkc0 (le_of_lt hLp)
    linarith
  · have := (div_le_one hLp).mpr hkc1
    linarith
  · intro y hxy
    obtain ⟨_, _, _, hqy⟩ := quantize_closed y b h1 h2
    refine ⟨_, hqy, ?_⟩
    have hcm : max (-1) (min x 1) ≤ max (-1) (min y 1) :=
      max_le_max (le_refl _) (min_le_min hxy (le_refl _))
    have hfm : ⌊(max (-1) (min x 1) + 1) * (1 / 2) * ((2 ^ b.toNat - 1 : Int) : α) + 1 / 2⌋
        ≤ ⌊(max (-1) (min y 1) + 1) * (1 / 2) * ((2 ^ b.toNat - 1 : Int) : α) + 1 / 2⌋ := by
      apply Int.floor_le_floor
      have : (max (-1) (min x 1) + 1) * (1 / 2) ≤ (max (-1) (min y 1) + 1) * (1 / 2) := by
        linarith
      have := mul_le_mul_of_nonneg_right this (le_of_lt hLp)
      linarith
    have hfc : ((⌊(max (-1) (min x 1) + 1) * (1 / 2) * ((2 ^ b.toNat - 1 : Int) : α) + 1 / 2⌋ : Int) : α)
        ≤ ((⌊(max (-1) (min y 1) + 1) * (1 / 2) * ((2 ^ b.toNat - 1 : Int) : α) + 1 / 2⌋ : Int) : α) := by
      exact_mod_cast hfm
    have := div_le_div_of_nonneg_right hfc (le_of_lt hLp)
    linarith

/-- Depth 2 (levels -1, -1/3, 1/3, 1) at the sample 0.2. -/
theorem quantize_accuracy_witness :
    ∃ (k : Int) (q : ℚ), Bitcrusher.quantizeSample (1 / 5 : ℚ) 2 = some q ∧
      0 ≤ k ∧ k ≤ 2 ^ (2 : Int).toNat - 1 ∧ -1 ≤ q ∧ q ≤ 1 := by
  obtain ⟨k, q, hq, hk0, hk1, _, a, b, _⟩ :=
    quantize_accuracy (α := ℚ) 2 (by decide) (by decide) (1 / 5)
  exact ⟨k, q, hq, hk0, hk1, a, b⟩

/-- C34. In exact arithmetic, for every bit depth `b` in `[1, 24]` and every `x`:
`quantizeSample(x, b)` is returned, and quantizing that value again returns it unchanged. -/
theorem quantize_idempotent (b : Int) (h1 : 1 ≤ b) (h2 : b ≤ 24) (x : α) :
    ∃ q, Bitcrusher.quantizeSample x b = some q ∧ Bitcrusher.quantizeSample q b = some q ∧
      (Bitcrusher.quantizeSample x b).bind (fun y => Bitcrusher.quantizeSample y b)
        = Bitcrusher.quantizeSample x b := by
  obtain ⟨hL, hc0, hc1, hq⟩ := quantize_closed x b h1 h2
  obtain ⟨hk0, hk1, _⟩ := quantize_index (max (-1) (min x 1)) (2 ^ b.toNat - 1) hL hc0 hc1
  have hLc : (1 : α) ≤ ((2 ^ b.toNat - 1 : Int) : α) := by exact_mod_cast hL
  have hLp : (0 : α) < ((2 ^ b.toNat - 1 : Int) : α) := by linarith
  generalize hk : ⌊(max (-1) (min x 1) + 1) * (1 / 2) * ((2 ^ b.toNat - 1 : Int) : α) + 1 / 2⌋
    = k at hq hk0 hk1
  have hkc0 : (0 : α) ≤ (k : α) := by exact_mod_cast hk0
  have hkc1 : (k : α) ≤ ((2 ^ b.toNat - 1 : Int) : α) := by exact_mod_cast hk1
  have hq0 : -1 ≤ (k : α) / ((2 ^ b.toNat - 1 : Int) : α) * 2 - 1 := by
    have := div_nonneg hkc0 (le_of_lt hLp)
    linarith
  have hq1 : (k : α) / ((2 ^ b.toNat - 1 : Int) : α) * 2 - 1 ≤ 1 := by
    have := (div_le_one hLp).mpr hkc1
    linarith
  have hsec : Bitcrusher.quantizeSample ((k : α) / ((2 ^ b.toNat - 1 : Int) : α) * 2 - 1) b
      = some ((k : α) / ((2 ^ b.toNat - 1 : Int) : α) * 2 - 1) := by
    obtain ⟨_, _, _, hq2⟩ :=
      quantize_closed ((k : α) / ((2 ^ b.toNat - 1 : Int) : α) * 2 - 1) b h1 h2
    rw [hq2, min_eq_left hq1, max_eq_right hq0]
    have hgen : ∀ L : α, 0 < L → ((k : α) / L * 2 - 1 + 1) * (1 / 2) * L + 1 / 2
        = (k : α) + 1 / 2 := by
      intro L hL
      have hne : L ≠ 0 := ne_of_gt hL
      field_simp
      ring
    have harg := hgen _ hLp
    have hfl : ⌊(k : α) + 1 / 2⌋ = k := by
      rw [Int.floor_eq_iff]
      constructor <;> linarith
    rw [harg, hfl]
  refine ⟨_, hq, hsec, ?_⟩
  rw [hq, Option.some_bind, hsec]

/-- Depth 8 at the sample 1/3. -/
theorem quantize_idempotent_witness :
    ∃ q : ℚ, Bitcrusher.quantizeSample (1 / 3 : ℚ) 8 = some q ∧
      Bitcrusher.quantizeSample q 8 = some q := by
  obtain ⟨q, h1, h2, _⟩ := quantize_idempotent (α := ℚ) 8 (by decide) (by decide) (1 / 3)
  exact ⟨q, h1, h2⟩

end Quantizer

/-! ## The frame callback: block-size independence -/

section Blocks
variable [LinearOrderedField α] [FloorRing α]

/-- The chain over a concatenated frame is the chain over the first part followed by the
chain over the second part from the engine state the first part leaves. -/
theorem chainRun_append (sinf tanhf : α → α) (M_PI : α) (a b : List α) :
    ∀ e : Engine α, chainRun sinf tanhf M_PI e (a ++ b)
      = (chainRun sinf tanhf M_PI e a).bind fun r1 =>
          (chainRun sinf tanhf M_PI r1.2 b).bind fun r2 => some (r1.1 ++ r2.1, r2.2) := by
  induction a with
  | nil =>
    intro e
    simp only [List.nil_append, chainRun, Option.some_bind]
    cases chainRun sinf tanhf M_PI e b with
    | none => rfl
    | some r => rfl
  | cons x xs ih =>
    intro e
    have h1 : chainRun sinf tanhf M_PI e (x :: (xs ++ b))
        = (chainSample sinf tanhf M_PI e x).bind fun r =>
            (chainRun sinf tanhf M_PI r.2 (xs ++ b)).bind fun rs => some (r.1 :: rs.1, rs.2) :=
      rfl
    have h2 : chainRun sinf tanhf M_PI e (x :: xs)
        = (chainSample sinf tanhf M_PI e x).bind fun r =>
            (chainRun sinf tanhf M_PI r.2 xs).bind fun rs => some (r.1 :: rs.1, rs.2) := rfl
    rw [List.cons_append, h1, h2]
    cases chainSample sinf tanhf M_PI e x with
    | none => rfl
    | some r =>
      rw [Option.some_bind, Option.some_bind, ih r.2]
      cases chainRun sinf tanhf M_PI r.2 xs with
      | none => rfl
      | some r1 =>
        rw [Option.some_bind, Option.some_bind, Option.some_bind]
        cases chainRun sinf tanhf M_PI r1.2 b with
        | none => rfl
        | some r2 => rfl

/-- The callback on a frame of `n` samples returns exactly when the chain does, with the
chain's engine state and the chain's values in both channels. -/
theorem audioCallback_iff_chain (sinf tanhf : α → α) (M_PI : α) (e : Engine α)
    (xs out : List α) (ho : 2 * xs.length ≤ out.length) (o : List α) (e1 : Engine α)
    (rc : Int) :
    audioCallback sinf tanhf M_PI (some xs) out xs.length e = some (o, e1, rc) →
      rc = paContinue ∧ ∃ ys, chainRun sinf tanhf M_PI e xs = some (ys, e1) ∧
        ys.length = xs.length ∧
        ∀ i, i < xs.length → o[2 * i]? = ys[i]? ∧ o[2 * i + 1]? = ys[i]? := by
  intro h
  have hxs : (xs.drop 0).take xs.length = xs := by
    rw [List.drop_zero, List.take_length]
  obtain ⟨hnone, hsome⟩ := audioLoop_spec sinf tanhf M_PI xs xs.length 0 e out (by omega)
    (by omega)
  rw [hxs] at hnone hsome
  cases hc : chainRun sinf tanhf M_PI e xs with
  | none =>
    simp only [audioCallback, hnone hc] at h
    exact absurd h (by simp)
  | some r =>
    obtain ⟨ys, e2⟩ := r
    obtain ⟨o1, hl, _, hlen, hin, _⟩ := hsome ys e2 hc
    simp only [audioCallback, hl, Option.some.injEq, Prod.mk.injEq] at h
    obtain ⟨rfl, rfl, rfl⟩ := h
    refine ⟨rfl, ys, rfl, hlen, ?_⟩
    intro i hi
    have := hin i hi
    simpa using this

/-- The callback returns whenever the chain does. -/
theorem audioCallback_of_chain (sinf tanhf : α → α) (M_PI : α) (e : Engine α)
    (xs out : List α) (ho : 2 * xs.length ≤ out.length) (ys : List α) (e1 : Engine α)
    (hc : chainRun sinf tanhf M_PI e xs = some (ys, e1)) :
    ∃ o, audioCallback sinf tanhf M_PI (some xs) out xs.length e = some (o, e1, paContinue) ∧
      ys.length = xs.length ∧
      ∀ i, i < xs.length → o[2 * i]? = ys[i]? ∧ o[2 * i + 1]? = ys[i]? := by
  have hxs : (xs.drop 0).take xs.length = xs := by
    rw [List.drop_zero, List.take_length]
  obtain ⟨_, hsome⟩ := audioLoop_spec sinf tanhf M_PI xs xs.length 0 e out (by omega)
    (by omega)
  rw [hxs] at hsome
  obtain ⟨o1, hl, _, hlen, hin, _⟩ := hsome ys e1 hc
  refine ⟨o1, by simp only [audioCallback, hl], hlen, ?_⟩
  intro i hi
  have := hin i hi
  simpa using this

/-- C37. For every engine state (units and flags), every two non-null frames `a` and `b` and
output memories large enough: the callback on `a ++ b` returns exactly when the callback on
`a` returns and the callback on `b`, started from the engine state the first leaves, returns;
the final engine states are equal, and the samples written for `a ++ b` are those written for
`a` followed by those written for `b`, in both channels. -/
theorem callback_block_size_independent (sinf tanhf : α → α) (M_PI : α) (e : Engine α)
    (a b out outA outB : List α) (ho : 2 * (a ++ b).length ≤ out.length)
    (hoA : 2 * a.length ≤ outA.length) (hoB : 2 * b.length ≤ outB.length) :
    (∀ o e2 rc,
      audioCallback sinf tanhf M_PI (some (a ++ b)) out (a ++ b).length e = some (o, e2, rc) →
      ∃ oA e1 oB,
        audioCallback sinf tanhf M_PI (some a) outA a.length e = some (oA, e1, paContinue) ∧
        audioCallback sinf tanhf M_PI (some b) outB b.length e1 = some (oB, e2, paContinue) ∧
        (∀ i, i < a.length → o[2 * i]? = oA[2 * i]? ∧ o[2 * i + 1]? = oA[2 * i + 1]?) ∧
        (∀ j, j < b.length → o[2 * (a.length + j)]? = oB[2 * j]? ∧
          o[2 * (a.length + j) + 1]? = oB[2 * j + 1]?)) ∧
    (∀ oA e1 rcA oB e2 rcB,
      audioCallback sinf tanhf M_PI (some a) outA a.length e = some (oA, e1, rcA) →
      audioCallback sinf tanhf M_PI (some b) outB b.length e1 = some (oB, e2, rcB) →
      ∃ o,
        audioCallback sinf tanhf M_PI (some (a ++ b)) out (a ++ b).length e
          = some (o, e2, paContinue) ∧
        (∀ i, i < a.length → o[2 * i]? = oA[2 * i]? ∧ o[2 * i + 1]? = oA[2 * i + 1]?) ∧
        (∀ j, j < b.length → o[2 * (a.length + j)]? = oB[2 * j]? ∧
          o[2 * (a.length + j) + 1]? = oB[2 * j + 1]?)) := by
  have hlen : (a ++ b).length = a.length + b.length := List.length_append a b
  have glue : ∀ (o oA oB ys1 ys2 : List α), ys1.length = a.length →
      (∀ i, i < (a ++ b).length → o[2 * i]? = (ys1 ++ ys2)[i]? ∧
        o[2 * i + 1]? = (ys1 ++ ys2)[i]?) →
      (∀ i, i < a.length → oA[2 * i]? = ys1[i]? ∧ oA[2 * i + 1]? = ys1[i]?) →
      (∀ i, i < b.length → oB[2 * i]? = ys2[i]? ∧ oB[2 * i + 1]? = ys2[i]?) →
      (∀ i, i < a.length → o[2 * i]? = oA[2 * i]? ∧ o[2 * i + 1]? = oA[2 * i + 1]?) ∧
      (∀ j, j < b.length → o[2 * (a.length + j)]? = oB[2 * j]? ∧
        o[2 * (a.length + j) + 1]? = oB[2 * j + 1]?) := by
    intro o oA oB ys1 ys2 hl1 ho hA hB
    constructor
    · intro i hi
      obtain ⟨p1, p2⟩ := ho i (by omega)
      obtain ⟨q1, q2⟩ := hA i hi
      rw [List.getElem?_append_left (by omega)] at p1 p2
      exact ⟨p1.trans q1.symm, p2.trans q2.symm⟩
    · intro j hj
      obtain ⟨p1, p2⟩ := ho (a.length + j) (by omega)
      obtain ⟨q1, q2⟩ := hB j hj
      rw [List.getElem?_append_right (by omega)] at p1 p2
      have e : a.length + j - ys1.length = j := by omega
      rw [e] at p1 p2
      exact ⟨p1.trans q1.symm, p2.trans q2.symm⟩
  refine ⟨?_, ?_⟩
  · intro o e2 rc h
    obtain ⟨_, ys, hc, _, hout⟩ := audioCallback_iff_chain sinf tanhf M_PI e (a ++ b) out ho
      o e2 rc h
    rw [chainRun_append] at hc
    cases hca : chainRun sinf tanhf M_PI e a with
    | none => simp [hca] at hc
    | some r1 =>
      obtain ⟨ys1, e1⟩ := r1
      simp only [hca, Option.some_bind] at hc
      cases hcb : chainRun sinf tanhf M_PI e1 b with
      | none => simp [hcb] at hc
      | some r2 =>
        obtain ⟨ys2, e2'⟩ := r2
        simp only [hcb, Option.some_bind, Option.some.injEq, Prod.mk.injEq] at hc
        obtain ⟨rfl, rfl⟩ := hc
        obtain ⟨oA, hA, hl1, hAo⟩ := audioCallback_of_chain sinf tanhf M_PI e a outA hoA _ _ hca
        obtain ⟨oB, hB, _, hBo⟩ := audioCallback_of_chain sinf tanhf M_PI e1 b outB hoB _ _ hcb
        exact ⟨oA, e1, oB, hA, hB, glue o oA oB ys1 ys2 hl1 hout hAo hBo⟩
  · intro oA e1 rcA oB e2 rcB hA hB
    obtain ⟨_, ys1, hca, hl1, hAo⟩ := audioCallback_iff_chain sinf tanhf M_PI e a outA hoA
      oA e1 rcA hA
    obtain ⟨_, ys2, hcb, _, hBo⟩ := audioCallback_iff_chain sinf tanhf M_PI e1 b outB hoB
      oB e2 rcB hB
    have hc : chainRun sinf tanhf M_PI e (a ++ b) = some (ys1 ++ ys2, e2) := by
      rw [chainRun_append, hca, Option.some_bind, hcb, Option.some_bind]
    obtain ⟨o, hO, _, hout⟩ := audioCallback_of_chain sinf tanhf M_PI e (a ++ b) out ho _ _ hc
    exact ⟨o, hO, glue o oA oB ys1 ys2 hl1 hout hAo hBo⟩

/-- The constructed engine with only the Exciter enabled: `[1] ++ [2]` in one callback and in
two. -/
theorem callback_block_size_independent_witness :
    ∃ o e2, audioCallback (fun _ => (0 : ℚ)) (fun x => x) 3 (some ([1] ++ [2])) [9, 8, 7, 6, 5]
        ([1] ++ [2] : List ℚ).length { (Engine.new : Engine ℚ) with useExciter := true }
        = some (o, e2, paContinue) ∧
      ∃ oA e1 oB,
        audioCallback (fun _ => (0 : ℚ)) (fun x => x) 3 (some [1]) [0, 0] ([1] : List ℚ).length
          { (Engine.new : Engine ℚ) with useExciter := true } = some (oA, e1, paContinue) ∧
        audioCallback (fun _ => (0 : ℚ)) (fun x => x) 3 (some [2]) [0, 0] ([2] : List ℚ).length
          e1 = some (oB, e2, paContinue) := by
  have hc : chainRun (fun _ => (0 : ℚ)) (fun x => x) 3
      { (Engine.new : Engine ℚ) with useExciter := true } ([1] ++ [2])
      = some ([11 / 5, 14 / 5], { (Engine.new : Engine ℚ) with
          useExciter := true, gExciter := { hpState := 2, hpCoeff := 0, mix := 4 / 10 } }) := by
    simp only [List.singleton_append, chainRun, chainSample, chainStage, Engine.new,
      Exciter.new, Exciter.process]
    norm_num
  obtain ⟨o, hO, _⟩ := audioCallback_of_chain (fun _ => (0 : ℚ)) (fun x => x) 3
    { (Engine.new : Engine ℚ) with useExciter := true } ([1] ++ [2]) [9, 8, 7, 6, 5]
    (by decide) _ _ hc
  obtain ⟨oA, e1, oB, hA, hB, _⟩ := (callback_block_size_independent (fun _ => (0 : ℚ))
    (fun x => x) 3 { (Engine.new : Engine ℚ) with useExciter := true } [1] [2]
    [9, 8, 7, 6, 5] [0, 0] [0, 0] (by decide) (by decide) (by decide)).1 _ _ _ hO
  exact ⟨o, _, hO, oA, e1, oB, hA, hB⟩

end Blocks

/-! ## Bounded input, bounded output -/


section Bibo
variable [LinearOrderedField α]
open Reverb

theorem Delay.run_eq_runOpt (ins : List α) :
    ∀ d : Delay α, d.run ins = runOpt Delay.process d ins := by
  induction ins with
  | nil => intro d; rfl
  | cons x xs ih =>
    intro d
    simp only [Delay.run, runOpt, ih]
    cases d.process x with
    | none => rfl
    | some r =>
      obtain ⟨o, d1⟩ := r
      simp only []
      cases runOpt Delay.process d1 xs with
      | none => rfl
      | some r2 => rfl

/-- One call of a bounded delay line on an input of magnitude at most `M`: with
`B = M/(1 - γ)`, the returned value and the cells after the call are within `B`. -/
theorem Delay.process_bounded (d : Delay α) (x γ M : α) (hγ0 : 0 ≤ γ) (hγ1 : γ < 1)
    (hM : 0 ≤ M) (hx : |x| ≤ M) (hd : Delay.BoundedBy γ (M / (1 - γ)) d) :
    ∃ out d1, d.process x = some (out, d1) ∧ |out| ≤ M / (1 - γ) ∧
      Delay.BoundedBy γ (M / (1 - γ)) d1 := by
  obtain ⟨hok, hg, hcells⟩ := hd
  have h1g : 0 < 1 - γ := by linarith
  have hB : M ≤ M / (1 - γ) := by
    rw [le_div_iff₀ h1g]
    nlinarith
  have hB0 : 0 ≤ M / (1 - γ) := le_trans hM hB
  have hBeq : M + M / (1 - γ) * γ = M / (1 - γ) := by
    field_simp
    ring
  rcases hok with he | hv
  · exact ⟨x, d, Delay.process_empty d x he, le_trans hx hB, Or.inl he, hg, hcells⟩
  · obtain ⟨out, hb, hp⟩ := Delay.process_valid d x hv
    have hout : |out| ≤ M / (1 - γ) := hcells out (List.getElem?_mem hb)
    obtain ⟨h0, h1⟩ := hv
    refine ⟨out, _, hp, hout, Or.inr ⟨Int.emod_nonneg _ (by omega), ?_⟩, hg, ?_⟩
    · simp only [List.length_set]
      exact Int.emod_lt_of_pos _ (by omega)
    · intro c hc
      rcases List.mem_or_eq_of_mem_set hc with h | h
      · exact hcells c h
      · rw [h]
        calc |x + out * d.feedback| ≤ |x| + |out * d.feedback| := abs_add _ _
          _ = |x| + |out| * |d.feedback| := by rw [abs_mul]
          _ ≤ M + M / (1 - γ) * γ := by
              have := mul_le_mul hout hg (abs_nonneg _) hB0
              linarith
          _ = M / (1 - γ) := hBeq

/-- The state `Reverb::prepare(sr)` returns for `sr > 0`. -/
theorem reverb_prepare_explicit [FloorRing α] (sr : Int) (hsr : 0 < sr) :
    Reverb.prepare (Reverb.new : Reverb α) sr
      = some { combs := [⟨List.replicate (truncToInt ((297 / 10000 : α) * (sr : α))).toNat 0, 0,
                            78 / 100⟩,
                         ⟨List.replicate (truncToInt ((371 / 10000 : α) * (sr : α))).toNat 0, 0,
                            80 / 100⟩,
                         ⟨List.replicate (truncToInt ((411 / 10000 : α) * (sr : α))).toNat 0, 0,
                            82 / 100⟩,
                         ⟨List.replicate (truncToInt ((437 / 10000 : α) * (sr : α))).toNat 0, 0,
                            76 / 100⟩],
               allpasses := [⟨List.replicate (truncToInt ((50 / 10000 : α) * (sr : α))).toNat 0,
                                0, 70 / 100⟩,
                             ⟨List.replicate (truncToInt ((17 / 10000 : α) * (sr : α))).toNat 0,
                                0, 70 / 100⟩],
               sr := sr } := by
  have hs : (0 : α) < (sr : α) := by exact_mod_cast hsr
  have i0 := Delay.init_some (truncToInt ((297 / 10000 : α) * (sr : α)))
    (truncToInt_nonneg _ (by positivity)) (78 / 100 : α)
  have i1 := Delay.init_some (truncToInt ((371 / 10000 : α) * (sr : α)))
    (truncToInt_nonneg _ (by positivity)) (80 / 100 : α)
  have i2 := Delay.init_some (truncToInt ((411 / 10000 : α) * (sr : α)))
    (truncToInt_nonneg _ (by positivity)) (82 / 100 : α)
  have i3 := Delay.init_some (truncToInt ((437 / 10000 : α) * (sr : α)))
    (truncToInt_nonneg _ (by positivity)) (76 / 100 : α)
  have i4 := Delay.init_some (truncToInt ((50 / 10000 : α) * (sr : α)))
    (truncToInt_nonneg _ (by positivity)) (70 / 100 : α)
  have i5 := Delay.init_some (truncToInt ((17 / 10000 : α) * (sr : α)))
    (truncToInt_nonneg _ (by positivity)) (70 / 100 : α)
  simp only [Reverb.prepare, i0, i1, i2, i3, i4, i5]

/-- A zero-filled delay line with feedback `g`, `|g| ≤ γ`, is bounded by every `B ≥ 0`. -/
theorem Delay.zeros_bounded (n : Nat) (g γ B : α) (hg : |g| ≤ γ) (hB : 0 ≤ B) :
    Delay.BoundedBy γ B (⟨List.replicate n 0, 0, g⟩ : Delay α) := by
  refine ⟨Delay.ok_zeros n g, hg, ?_⟩
  intro c hc
  rw [(List.mem_replicate.mp hc).2, abs_zero]
  exact hB

/-- One `Reverb::process` call on a bounded Reverb with an input of magnitude at most `M`:
the returned value is within `(3200/81)·M` and the Reverb stays bounded. -/
theorem reverb_process_bounded (r : Reverb α) (x M : α) (hM : 0 ≤ M) (hx : |x| ≤ M)
    (hr : Reverb.BoundedBy M r) :
    ∃ y r1, r.process x = some (y, r1) ∧ |y| ≤ (3200 / 81) * M ∧ Reverb.BoundedBy M r1 := by
  obtain ⟨c0, c1, c2, c3, a0, a1, hc, ha, hcs, ha0, ha1⟩ := hr
  have hB1 : (0 : α) ≤ M / (1 - 82 / 100) := div_nonneg hM (by norm_num)
  have hB2 : (0 : α) ≤ M / (1 - 82 / 100) + (1 / 2) * (M / (1 - 82 / 100) / (1 - 7 / 10)) := by
    have : (0 : α) ≤ M / (1 - 82 / 100) / (1 - 7 / 10) := div_nonneg hB1 (by norm_num)
    linarith
  obtain ⟨o0, c0n, p0, b0, k0⟩ := Delay.process_bounded c0 x (82 / 100) M (by norm_num)
    (by norm_num) hM hx (hcs c0 (by simp))
  obtain ⟨o1, c1n, p1, b1, k1⟩ := Delay.process_bounded c1 x (82 / 100) M (by norm_num)
    (by norm_num) hM hx (hcs c1 (by simp))
  obtain ⟨o2, c2n, p2, b2, k2⟩ := Delay.process_bounded c2 x (82 / 100) M (by norm_num)
    (by norm_num) hM hx (hcs c2 (by simp))
  obtain ⟨o3, c3n, p3, b3, k3⟩ := Delay.process_bounded c3 x (82 / 100) M (by norm_num)
    (by norm_num) hM hx (hcs c3 (by simp))
  obtain ⟨l0, u0⟩ := abs_le.mp b0
  obtain ⟨l1, u1⟩ := abs_le.mp b1
  obtain ⟨l2, u2⟩ := abs_le.mp b2
  obtain ⟨l3, u3⟩ := abs_le.mp b3
  have hx0 : |(1 / 4) * (o0 + o1 + o2 + o3)| ≤ M / (1 - 82 / 100) := by
    rw [abs_le]; constructor <;> linarith
  obtain ⟨d0, a0n, p4, b4, k4⟩ := Delay.process_bounded a0 ((1 / 4) * (o0 + o1 + o2 + o3))
    (7 / 10) (M / (1 - 82 / 100)) (by norm_num) (by norm_num) hB1 hx0 ha0
  obtain ⟨l4, u4⟩ := abs_le.mp b4
  obtain ⟨lx, ux⟩ := abs_le.mp hx0
  have hx1 : |(1 / 4) * (o0 + o1 + o2 + o3) - (1 / 2) * d0|
      ≤ M / (1 - 82 / 100) + (1 / 2) * (M / (1 - 82 / 100) / (1 - 7 / 10)) := by
    rw [abs_le]; constructor <;> linarith
  obtain ⟨d1, a1n, p5, b5, k5⟩ := Delay.process_bounded a1
    ((1 / 4) * (o0 + o1 + o2 + o3) - (1 / 2) * d0) (7 / 10)
    (M / (1 - 82 / 100) + (1 / 2) * (M / (1 - 82 / 100) / (1 - 7 / 10))) (by norm_num)
    (by norm_num) hB2 hx1 ha1
  obtain ⟨l5, u5⟩ := abs_le.mp b5
  obtain ⟨ly, uy⟩ := abs_le.mp hx1
  have hK : (M / (1 - 82 / 100) + (1 / 2) * (M / (1 - 82 / 100) / (1 - 7 / 10)))
      + (1 / 2) * ((M / (1 - 82 / 100) + (1 / 2) * (M / (1 - 82 / 100) / (1 - 7 / 10)))
        / (1 - 7 / 10)) = (3200 / 81) * M := by
    field_simp
    ring
  refine ⟨_, _, reverb_process_of_delays r c0 c1 c2 c3 a0 a1 hc ha x o0 o1 o2 o3 d0 d1
    c0n c1n c2n c3n a0n a1n p0 p1 p2 p3 p4 p5, ?_,
    ⟨c0n, c1n, c2n, c3n, a0n, a1n, rfl, rfl, ?_, k4, k5⟩⟩
  · rw [← hK, abs_le]
    constructor <;> linarith
  · intro c hcm
    simp only [List.mem_cons, List.mem_singleton, List.not_mem_nil, or_false] at hcm
    rcases hcm with h | h | h | h <;> rw [h] <;> assumption

/-- C38. A `Reverb::Delay` initialised with capacity `N ≥ 1` and feedback `g`, `|g| < 1`, and
fed inputs of magnitude at most `M`: the run succeeds, and every returned sample and every
buffer cell after it has magnitude at most `M/(1 - |g|)`. A Reverb constructed and prepared
at `sr > 0` and fed inputs of magnitude at most `M`: the run succeeds and every returned
sample has magnitude at most `(3200/81)·M`. -/
theorem comb_bounded_output [FloorRing α] (M : α) (hM : 0 ≤ M) (ins : List α)
    (hin : ∀ x ∈ ins, |x| ≤ M) :
    (∀ (N : Nat) (g : α), 1 ≤ N → |g| < 1 →
      ∃ d0 outs d, Delay.init (N : Int) g = some d0 ∧ d0.run ins = some (outs, d) ∧
        outs.length = ins.length ∧ (∀ c ∈ d.buf, |c| ≤ M / (1 - |g|)) ∧
        ∀ y ∈ outs, |y| ≤ M / (1 - |g|)) ∧
    (∀ sr : Int, 0 < sr →
      ∃ r0 outs r, Reverb.prepare (Reverb.new : Reverb α) sr = some r0 ∧
        runOpt Reverb.process r0 ins = some (outs, r) ∧ outs.length = ins.length ∧
        ∀ y ∈ outs, |y| ≤ (3200 / 81) * M) := by
  have hmem : ∀ t x, ins[t]? = some x → |x| ≤ M := fun t x h => hin x (List.getElem?_mem h)
  refine ⟨?_, ?_⟩
  · intro N g _ hg
    have h1g : 0 < 1 - |g| := by linarith
    have hB0 : 0 ≤ M / (1 - |g|) := div_nonneg hM (le_of_lt h1g)
    obtain ⟨outs, d, hrun, hlen, hJ, hall⟩ := runOpt_timed Delay.process ins
      (fun _ d => Delay.BoundedBy |g| (M / (1 - |g|)) d)
      (fun _ y => |y| ≤ M / (1 - |g|))
      (by
        intro t d x hx hd
        obtain ⟨out, d1, hp, hb, hk⟩ := Delay.process_bounded d x |g| M (abs_nonneg g) hg hM
          (hmem t x hx) hd
        exact ⟨out, d1, hp, hk, hb⟩)
      ins.length 0 ⟨List.replicate N 0, 0, g⟩ (by omega)
      (Delay.zeros_bounded N g |g| _ (le_refl _) hB0)
    rw [List.drop_zero] at hrun
    refine ⟨_, outs, d, Delay.init_some (N : Int) (by omega) g, ?_, hlen, hJ.2.2, ?_⟩
    · rw [Delay.run_eq_runOpt]
      simp only [Int.toNat_ofNat]
      exact hrun
    · apply mem_of_getElem_all outs (fun y => |y| ≤ M / (1 - |g|))
      intro i hi
      obtain ⟨y, hy, hQ⟩ := hall i (by omega)
      exact ⟨y, hy, hQ⟩
  · intro sr hsr
    have hB1 : (0 : α) ≤ M / (1 - 82 / 100) := div_nonneg hM (by norm_num)
    have hB1' : (0 : α) ≤ M / (1 - 82 / 100) / (1 - 7 / 10) := div_nonneg hB1 (by norm_num)
    have hB2 : (0 : α) ≤ (M / (1 - 82 / 100) + (1 / 2) * (M / (1 - 82 / 100) / (1 - 7 / 10)))
        / (1 - 7 / 10) := div_nonneg (by linarith) (by norm_num)
    have hinit : Reverb.BoundedBy M
        ({ combs := [⟨List.replicate (truncToInt ((297 / 10000 : α) * (sr : α))).toNat 0, 0,
                        78 / 100⟩,
                     ⟨List.replicate (truncToInt ((371 / 10000 : α) * (sr : α))).toNat 0, 0,
                        80 / 100⟩,
                     ⟨List.replicate (truncToInt ((411 / 10000 : α) * (sr : α))).toNat 0, 0,
                        82 / 100⟩,
                     ⟨List.replicate (truncToInt ((437 / 10000 : α) * (sr : α))).toNat 0, 0,
                        76 / 100⟩],
           allpasses := [⟨List.replicate (truncToInt ((50 / 10000 : α) * (sr : α))).toNat 0,
                            0, 70 / 100⟩,
                         ⟨List.replicate (truncToInt ((17 / 10000 : α) * (sr : α))).toNat 0,
                            0, 70 / 100⟩],
           sr := sr } : Reverb α) := by
      refine ⟨_, _, _, _, _, _, rfl, rfl, ?_, ?_, ?_⟩
      · intro c hc
        simp only [List.mem_cons, List.mem_singleton, List.not_mem_nil, or_false] at hc
        rcases hc with h | h | h | h <;> rw [h]
        · exact Delay.zeros_bounded _ _ _ _ (by rw [abs_of_pos (by norm_num)]; norm_num) hB1
        · exact Delay.zeros_bounded _ _ _ _ (by rw [abs_of_pos (by norm_num)]; norm_num) hB1
        · exact Delay.zeros_bounded _ _ _ _ (by rw [abs_of_pos (by norm_num)]) hB1
        · exact Delay.zeros_bounded _ _ _ _ (by rw [abs_of_pos (by norm_num)]; norm_num) hB1
      · exact Delay.zeros_bounded _ _ _ _ (by rw [abs_of_pos (by norm_num)]; norm_num) hB1'
      · exact Delay.zeros_bounded _ _ _ _ (by rw [abs_of_pos (by norm_num)]; norm_num) hB2
    obtain ⟨outs, r, hrun, hlen, _, hall⟩ := runOpt_timed Reverb.process ins
      (fun _ r => Reverb.BoundedBy M r) (fun _ y => |y| ≤ (3200 / 81) * M)
      (by
        intro t r x hx hr
        obtain ⟨y, r1, hp, hb, hk⟩ := reverb_process_bounded r x M hM (hmem t x hx) hr
        exact ⟨y, r1, hp, hk, hb⟩)
      ins.length 0 _ (by omega) hinit
    rw [List.drop_zero] at hrun
    refine ⟨_, outs, r, reverb_prepare_explicit sr hsr, hrun, hlen, ?_⟩
    apply mem_of_getElem_all outs (fun y => |y| ≤ (3200 / 81) * M)
    intro i hi
    obtain ⟨y, hy, hQ⟩ := hall i (by omega)
    exact ⟨y, hy, hQ⟩

/-- A comb of 2 cells with feedback 1/2 and inputs within 1: everything stays within 2. -/
theorem comb_bounded_output_witness :
    ∃ d0 outs d, Delay.init (2 : Nat) (1 / 2 : ℚ) = some d0 ∧
      d0.run [1, -1, 1, 1, 1] = some (outs, d) ∧
      (∀ c ∈ d.buf, |c| ≤ 1 / (1 - |(1 / 2 : ℚ)|)) ∧
      ∀ y ∈ outs, |y| ≤ 1 / (1 - |(1 / 2 : ℚ)|) := by
  obtain ⟨d0, outs, d, h0, hr, _, hc, ho⟩ :=
    (comb_bounded_output (1 : ℚ) (by norm_num) [1, -1, 1, 1, 1]
      (by
        intro x hx
        simp only [List.mem_cons, List.mem_singleton, List.not_mem_nil, or_false] at hx
        rcases hx with h | h | h | h | h <;> rw [h] <;> norm_num [abs_of_pos])).1 2 (1 / 2)
      (by decide) (by rw [abs_of_pos (by norm_num)]; norm_num)
  exact ⟨d0, outs, d, h0, hr, hc, ho⟩

end Bibo

/-! ## The standalone programs against the consolidated units -/

/-- The loop of a standalone callback whose body is matched, step for step, by the `step` of a
unit: the loop returns, writes the values of the unit's run to both channels and keeps the
states matched. -/
theorem demoLoop_refines {σ τ : Type} (body : σ → α → Option (α × σ))
    (step : τ → α → Option (α × τ)) (R : σ → τ → Prop)
    (hstep : ∀ s u x, R s u →
      ∃ y s1 u1, body s x = some (y, s1) ∧ step u x = some (y, u1) ∧ R s1 u1)
    (inp : List α) :
    ∀ (k i : Nat) (s : σ) (u : τ) (out : List α), i + k ≤ inp.length →
      2 * (i + k) ≤ out.length → R s u →
      ∃ ys s1 u1 out1, runOpt step u ((inp.drop i).take k) = some (ys, u1) ∧
        demoLoop body inp k i s out = some (out1, s1) ∧ R s1 u1 ∧ ys.length = k ∧
        out1.length = out.length ∧
        (∀ t, t < k → out1[2 * (i + t)]? = ys[t]? ∧ out1[2 * (i + t) + 1]? = ys[t]?) ∧
        (∀ j, j < 2 * i ∨ 2 * (i + k) ≤ j → out1[j]? = out[j]?) := by
  intro k
  induction k with
  | zero =>
    intro i s u out _ _ hR
    exact ⟨[], s, u, out, by simp [runOpt], rfl, hR, rfl, rfl,
      fun t ht => absurd ht (by omega), fun _ _ => rfl⟩
  | succ k ih =>
    intro i s u out hi ho hR
    have hlt : i < inp.length := by omega
    have hget : inp[i]? = some inp[i] := List.getElem?_eq_getElem hlt
    have htake : (inp.drop i).take (k + 1) = inp[i] :: (inp.drop (i + 1)).take k := by
      rw [List.drop_eq_getElem_cons hlt, List.take_succ_cons]
    obtain ⟨y, s1, u1, hb, hs, hR1⟩ := hstep s u inp[i] hR
    have hw1 : writeAt out (2 * (i : Int) + 0) y = some (out.set (2 * i) y) := by
      have := writeAt_some out (2 * i) y (by omega)
      simpa using this
    have hw2 : writeAt (out.set (2 * i) y) (2 * (i : Int) + 1) y
        = some ((out.set (2 * i) y).set (2 * i + 1) y) := by
      have := writeAt_some (out.set (2 * i) y) (2 * i + 1) y (by simp; omega)
      simpa using this
    obtain ⟨ys, s2, u2, out1, hrun, hloop, hR2, hys, hlen, hin, hout⟩ :=
      ih (i + 1) s1 u1 ((out.set (2 * i) y).set (2 * i + 1) y) (by omega) (by simp; omega) hR1
    refine ⟨y :: ys, s2, u2, out1, ?_, ?_, hR2, by simp [hys], by simpa using hlen, ?_, ?_⟩
    · rw [htake]
      simp only [runOpt, hs, hrun]
    · simp only [demoLoop, hget, hb, hw1, hw2, hloop]
    · intro t ht
      cases t with
      | zero =>
        have a1 := hout (2 * i) (Or.inl (by omega))
        have a2 := hout (2 * i + 1) (Or.inl (by omega))
        have hne : 2 * i ≠ 2 * i + 1 := by omega
        have hl0 : 2 * i < out.length := by omega
        have hl1 : 2 * i + 1 < (out.set (2 * i) y).length := by simp; omega
        simp only [Nat.add_zero, List.getElem?_cons_zero]
        constructor
        · rw [a1, List.getElem?_set_ne (Ne.symm hne), List.getElem?_set_eq_of_lt _ hl0]
        · rw [a2, List.getElem?_set_eq_of_lt _ hl1]
      | succ t =>
        have := hin t (by omega)
        have e1 : 2 * (i + (t + 1)) = 2 * (i + 1 + t) := by omega
        rw [e1, List.getElem?_cons_succ]
        exact this
    · intro j hj
      have a := hout j (by omega)
      have hne1 : 2 * i + 1 ≠ j := by omega
      have hne0 : 2 * i ≠ j := by omega
      rw [a, List.getElem?_set_ne hne1, List.getElem?_set_ne hne0]

/-- The callback of a standalone program on a non-null frame, for a body that the unit's
`step` matches and a prologue that keeps the match. -/
theorem demoCallback_refines [LinearOrderedField α] {σ τ : Type} (prologue : σ → σ)
    (body : σ → α → Option (α × σ)) (step : τ → α → Option (α × τ)) (R : σ → τ → Prop)
    (hpro : ∀ s u, R s u → R (prologue s) u)
    (hstep : ∀ s u x, R s u →
      ∃ y s1 u1, body s x = some (y, s1) ∧ step u x = some (y, u1) ∧ R s1 u1)
    (s : σ) (u : τ) (hR : R s u) (ins out : List α) (ho : 2 * ins.length ≤ out.length) :
    ∃ ys s1 u1 out1, runOpt step u ins = some (ys, u1) ∧
      demoCallback prologue body (some ins) out ins.length s = some (out1, s1, paContinue) ∧
      R s1 u1 ∧ ys.length = ins.length ∧
      ∀ i, i < ins.length → out1[2 * i]? = ys[i]? ∧ out1[2 * i + 1]? = ys[i]? := by
  obtain ⟨ys, s1, u1, out1, hrun, hloop, hR1, hys, _, hin, _⟩ :=
    demoLoop_refines body step R hstep ins ins.length 0 (prologue s) u out (by omega)
      (by omega) (hpro s u hR)
  rw [List.drop_zero, List.take_length] at hrun
  refine ⟨ys, s1, u1, out1, hrun, by simp only [demoCallback, hloop], hR1, hys, ?_⟩
  intro i hi
  have := hin i hi
  simpa using this

section Standalone
variable [LinearOrderedField α]

omit [LinearOrderedField α] in
theorem demo_id_keeps {σ τ : Type} (R : σ → τ → Prop) : ∀ s u, R s u → R (id s) u :=
  fun _ _ h => h

/-- The loop body of the standalone AutoSwell and `AutoSwell::process` compute the same
value and keep the states matched. -/
theorem autoswell_demo_step (s : AutoSwellDemo α) (u : AutoSwell α) (x : α)
    (h : AutoSwellDemo.Matches s u) :
    ∃ y s1 u1, (fun s x => some (AutoSwellDemo.body s x)) s x = some (y, s1) ∧
      (fun a x => some (AutoSwell.process a x)) u x = some (y, u1) ∧
      AutoSwellDemo.Matches s1 u1 := by
  obtain ⟨h1, h2, h3, h4, h5⟩ := h
  refine ⟨(AutoSwell.process u x).1, (AutoSwellDemo.body s x).2, (AutoSwell.process u x).2,
    ?_, rfl, ?_⟩
  · simp only [AutoSwellDemo.body, AutoSwell.process, h1, h2, h3, h4, h5]
  · refine ⟨h1, ?_, rfl, h4, h5⟩
    simp only [AutoSwellDemo.body, AutoSwell.process, h1, h2, h3, h4, h5]

/-- The standalone AutoSwell after `main` and the unit after `prepare(48000)`. -/
theorem autoswell_demo_init (ac rc : α) :
    ∃ s0 u0, AutoSwellDemo.main (AutoSwellDemo.init : AutoSwellDemo α) = some s0 ∧
      AutoSwell.prepare (AutoSwell.new ac rc) 48000 = some u0 ∧ u0.env = 0 ∧ u0.prevAbs = 0 ∧
      AutoSwellDemo.Matches s0 u0 := by
  have hd : ¬ ((15 / 100 : α) * ((48000 : Int) : α) = 0 ∨ (2 / 10 : α) * ((48000 : Int) : α) = 0) := by
    push_cast
    norm_num
  refine ⟨{ (AutoSwellDemo.init : AutoSwellDemo α) with
              attackCoeff := 1 / ((15 / 100) * ((48000 : Int) : α))
              releaseCoeff := 1 / ((2 / 10) * ((48000 : Int) : α)) },
    { AutoSwell.new ac rc with
        sampleRate := 48000
        attackCoeff := 1 / ((15 / 100) * ((48000 : Int) : α))
        releaseCoeff := 1 / ((2 / 10) * ((48000 : Int) : α)) }, ?_, ?_, rfl, rfl,
    rfl, rfl, rfl, rfl, rfl⟩
  · simp only [AutoSwellDemo.main, AutoSwellDemo.init, AutoSwellDemo.SAMPLE_RATE, hd, if_false]
  · simp only [AutoSwell.prepare, AutoSwell.new, hd, if_false]

/-- The loop body of the standalone Bitcrusher and `Bitcrusher::process` compute the same
value and keep the states matched. -/
theorem bitcrusher_demo_step [FloorRing α] (s : BitcrusherDemo α) (u : Bitcrusher α) (x : α)
    (h : BitcrusherDemo.Matches s u) :
    ∃ y s1 u1, BitcrusherDemo.body s x = some (y, s1) ∧ Bitcrusher.process u x = some (y, u1) ∧
      BitcrusherDemo.Matches s1 u1 := by
  obtain ⟨h1, h2, h3, h4, h5, h6, h7, h8, h9⟩ := h
  obtain ⟨q, hq⟩ := Bitcrusher.quantizeSample_some x u.bitDepth h4 h5
  have hq' : BitcrusherDemo.quantizeSample x u.bitDepth = some q := hq
  have hsl : ∀ v : α, BitcrusherDemo.softLimit v = Bitcrusher.softLimit v := fun _ => rfl
  unfold Bitcrusher.process
  rw [Bitcrusher.clampParams_id u h4 h5 h3]
  by_cases hc : u.holdCounter ≤ 0
  · have hc' : s.holdCounter ≤ 0 := by rw [h8]; exact hc
    simp only [BitcrusherDemo.body, hc', hc, if_true, h2, hq, hq', h6, h7,
      BitcrusherDemo.OUTPUT_TRIM, hsl]
    refine ⟨_, _, _, rfl, rfl, h1, rfl, h3, h4, h5, rfl, rfl, ?_, rfl⟩
    show s.downsampleFactor - 1 = u.downsampleFactor - 1
    rw [h1]
  · have hc' : ¬ s.holdCounter ≤ 0 := by rw [h8]; exact hc
    simp only [BitcrusherDemo.body, hc', hc, if_false, h6, h7, h9,
      BitcrusherDemo.OUTPUT_TRIM, hsl]
    refine ⟨_, _, _, rfl, rfl, h1, h2, h3, h4, h5, rfl, rfl, ?_, rfl⟩
    show s.holdCounter - 1 = u.holdCounter - 1
    rw [h8]

/-- The clamps before the loop change nothing when the parameters are in range. -/
theorem bitcrusher_demo_prologue (s : BitcrusherDemo α)
    (u : Bitcrusher α) (h : BitcrusherDemo.Matches s u) :
    BitcrusherDemo.Matches (BitcrusherDemo.prologue s) u := by
  have ⟨h1, h2, h3, h4, h5, _⟩ := h
  have c1 : ¬ s.downsampleFactor < 1 := by omega
  have c2 : ¬ s.bitDepth < 1 := by omega
  have c3 : ¬ s.bitDepth > 24 := by omega
  have : BitcrusherDemo.prologue s = s := by
    simp [BitcrusherDemo.prologue, c1, c2, c3]
  rw [this]
  exact h

/-- The standalone Bitcrusher after `main` and the unit after `prepare(48000)`. -/
theorem bitcrusher_demo_init :
    ∃ s0, BitcrusherDemo.main (BitcrusherDemo.init : BitcrusherDemo α) = some s0 ∧
      BitcrusherDemo.Matches s0 (Bitcrusher.prepare (Bitcrusher.new : Bitcrusher α) 48000) := by
  refine ⟨{ (BitcrusherDemo.init : BitcrusherDemo α) with
      holdCounter := 0, heldSample := 0, steps := 2 ^ (8 : Int).toNat,
      invSteps := 1 / (((2 : Int) ^ (8 : Int).toNat : Int) : α) }, ?_,
    rfl, rfl, by show (1 : Int) ≤ 1; decide, by show (1 : Int) ≤ 8; decide,
    by show (8 : Int) ≤ 24; decide, rfl, rfl, rfl, rfl⟩
  have hc : ¬ ((8 : Int) < 0 ∨ (31 : Int) ≤ 8) := by decide
  simp only [BitcrusherDemo.main, BitcrusherDemo.init, hc, if_false]

/-- The loop body of the standalone SpectralMirror and `SpectralMirror::process` compute the
same value and keep the states matched. -/
theorem mirror_demo_step (s : SpectralMirrorDemo α) (u : SpectralMirror α) (x : α)
    (h : SpectralMirrorDemo.Matches s u) :
    ∃ y s1 u1, SpectralMirrorDemo.body s x = some (y, s1) ∧ u.process x = some (y, u1) ∧
      SpectralMirrorDemo.Matches s1 u1 := by
  obtain ⟨h1, h2, h3, hw0, hw, hD0, hD⟩ := h
  obtain ⟨hidx, _, _, d, hrd, hproc⟩ := mirror_process_valid u x hw0 hw hD0 hD
  have hwr := writeAt_int_some u.delayBuffer u.writeIndex x hw0 hw
  have hwi : (if u.writeIndex + 1 ≥ ((u.delayBuffer.set u.writeIndex.toNat x).length : Int)
      then (0 : Int) else u.writeIndex + 1)
      = (u.writeIndex + 1) % (u.delayBuffer.length : Int) := by
    simp only [List.length_set]
    by_cases hc : u.writeIndex + 1 ≥ (u.delayBuffer.length : Int)
    · rw [if_pos hc]
      have : u.writeIndex + 1 = (u.delayBuffer.length : Int) := by omega
      rw [this, Int.emod_self]
    · rw [if_neg hc, Int.emod_eq_of_lt (by omega) (by omega)]
  refine ⟨d - x,
    { s with delayBuffer := u.delayBuffer.set u.writeIndex.toNat x
             writeIndex := (u.writeIndex + 1) % (u.delayBuffer.length : Int) }, _, ?_, hproc,
    rfl, rfl, h3, ?_, ?_, hD0, ?_⟩
  · simp only [SpectralMirrorDemo.body, h1, h2, h3, hidx, hrd, hwr, hwi]
  · exact Int.emod_nonneg _ (by omega)
  · simp only [List.length_set]
    exact Int.emod_lt_of_pos _ (by omega)
  · simp only [List.length_set]
    exact hD

/-- The standalone SpectralMirror after `main` and the unit after `prepare(48000)`: 480 zero
cells, delay 96. -/
theorem mirror_demo_init [FloorRing α] :
    ∃ s0 u0, SpectralMirrorDemo.main (SpectralMirrorDemo.init : SpectralMirrorDemo α) = some s0 ∧
      SpectralMirror.prepare (SpectralMirror.new : SpectralMirror α) 48000 = some u0 ∧
      u0.delayBuffer = List.replicate 480 0 ∧ u0.delaySamples = 96 ∧ u0.writeIndex = 0 ∧
      SpectralMirrorDemo.Matches s0 u0 := by
  have e1 : ((2 : α) / 1000) * ((48000 : Int) : α) = ((96 : Int) : α) := by
    push_cast; norm_num
  have e2 : ((48000 : Int) : α) * (1 / 100) = ((480 : Int) : α) := by
    push_cast; norm_num
  have hfl : ⌊((2 : α) / 1000) * ((48000 : Int) : α)⌋ = 96 := by
    rw [e1, Int.floor_intCast]
  have hu := SpectralMirror.prepare_new (α := α) 48000 (by decide)
  rw [hfl] at hu
  have hmain : SpectralMirrorDemo.main (SpectralMirrorDemo.init : SpectralMirrorDemo α)
      = some { delayMs := 2, delaySamples := 96, delayBuffer := List.replicate 480 0,
               writeIndex := 0 } := by
    have c : ¬ ((480 : Int) < 0) := by decide
    simp only [SpectralMirrorDemo.main, SpectralMirrorDemo.init, SpectralMirrorDemo.SAMPLE_RATE,
      e1, e2, truncToInt_intCast, c, if_false]
    rfl
  refine ⟨_, _, hmain, hu, rfl, rfl, rfl, rfl, rfl, rfl, le_refl _, ?_, ?_, ?_⟩
  · show (0 : Int) < ((List.replicate ((48000 : Int) / 100).toNat (0 : α)).length : Int)
    rw [List.length_replicate]; decide
  · show (0 : Int) ≤ max 1 96
    decide
  · show max (1 : Int) 96 ≤ ((List.replicate ((48000 : Int) / 100).toNat (0 : α)).length : Int)
    rw [List.length_replicate]; decide

/-- C31. For AutoSwell, Bitcrusher and SpectralMirror: the standalone program after the
initialisation in its `main` (48 kHz, default parameters) matches the consolidated unit after
construction and `prepare(48000)`; and from every pair of matched states, for every non-null
frame and output memory of at least two floats per sample, the unit's run over the frame and
the program's callback both succeed, the callback writes the value `process` returns for
sample `i` to `out[2i]` and `out[2i+1]`, returns `paContinue`, and leaves the states matched,
so the agreement continues over every later frame. -/
theorem standalone_programs_agree [FloorRing α] (ac rc : α) :
    ((∃ s0 u0, AutoSwellDemo.main (AutoSwellDemo.init : AutoSwellDemo α) = some s0 ∧
        AutoSwell.prepare (AutoSwell.new ac rc) 48000 = some u0 ∧
        AutoSwellDemo.Matches s0 u0) ∧
      ∀ (s : AutoSwellDemo α) (u : AutoSwell α), AutoSwellDemo.Matches s u →
        ∀ ins out : List α, 2 * ins.length ≤ out.length →
        ∃ ys s1 u1 out1,
          runOpt (fun a x => some (AutoSwell.process a x)) u ins = some (ys, u1) ∧
          AutoSwellDemo.audioCallback (some ins) out ins.length s
            = some (out1, s1, paContinue) ∧
          AutoSwellDemo.Matches s1 u1 ∧ ys.length = ins.length ∧
          ∀ i, i < ins.length → out1[2 * i]? = ys[i]? ∧ out1[2 * i + 1]? = ys[i]?) ∧
    ((∃ s0, BitcrusherDemo.main (BitcrusherDemo.init : BitcrusherDemo α) = some s0 ∧
        BitcrusherDemo.Matches s0
          (Bitcrusher.prepare (Bitcrusher.new : Bitcrusher α) 48000)) ∧
      ∀ (s : BitcrusherDemo α) (u : Bitcrusher α), BitcrusherDemo.Matches s u →
        ∀ ins out : List α, 2 * ins.length ≤ out.length →
        ∃ ys s1 u1 out1, runOpt Bitcrusher.process u ins = some (ys, u1) ∧
          BitcrusherDemo.audioCallback (some ins) out ins.length s
            = some (out1, s1, paContinue) ∧
          BitcrusherDemo.Matches s1 u1 ∧ ys.length = ins.length ∧
          ∀ i, i < ins.length → out1[2 * i]? = ys[i]? ∧ out1[2 * i + 1]? = ys[i]?) ∧
    ((∃ s0 u0,
        SpectralMirrorDemo.main (SpectralMirrorDemo.init : SpectralMirrorDemo α) = some s0 ∧
        SpectralMirror.prepare (SpectralMirror.new : SpectralMirror α) 48000 = some u0 ∧
        SpectralMirrorDemo.Matches s0 u0) ∧
      ∀ (s : SpectralMirrorDemo α) (u : SpectralMirror α), SpectralMirrorDemo.Matches s u →
        ∀ ins out : List α, 2 * ins.length ≤ out.length →
        ∃ ys s1 u1 out1, runOpt SpectralMirror.process u ins = some (ys, u1) ∧
          SpectralMirrorDemo.audioCallback (some ins) out ins.length s
            = some (out1, s1, paContinue) ∧
          SpectralMirrorDemo.Matches s1 u1 ∧ ys.length = ins.length ∧
          ∀ i, i < ins.length → out1[2 * i]? = ys[i]? ∧ out1[2 * i + 1]? = ys[i]?) := by
  refine ⟨⟨?_, ?_⟩, ⟨bitcrusher_demo_init, ?_⟩, ⟨?_, ?_⟩⟩
  · obtain ⟨s0, u0, h1, h2, _, _, h3⟩ := autoswell_demo_init ac rc
    exact ⟨s0, u0, h1, h2, h3⟩
  · intro s u hR ins out ho
    exact demoCallback_refines id (fun s x => some (AutoSwellDemo.body s x))
      (fun a x => some (AutoSwell.process a x)) AutoSwellDemo.Matches
      (demo_id_keeps _) autoswell_demo_step s u hR ins out ho
  · intro s u hR ins out ho
    exact demoCallback_refines BitcrusherDemo.prologue BitcrusherDemo.body Bitcrusher.process
      BitcrusherDemo.Matches bitcrusher_demo_prologue bitcrusher_demo_step s u hR ins out ho
  · obtain ⟨s0, u0, h1, h2, _, _, _, h3⟩ := mirror_demo_init (α := α)
    exact ⟨s0, u0, h1, h2, h3⟩
  · intro s u hR ins out ho
    exact demoCallback_refines id SpectralMirrorDemo.body SpectralMirror.process
      SpectralMirrorDemo.Matches (demo_id_keeps _) mirror_demo_step s u hR ins out ho

end Standalone

end GuitarFx
